import Mathlib

/-!
# multiqueue: the buffered, NUMA-aware multiqueue (numa_aware_merge_mq.hpp)

A shallow embedding of `numa_aware_merge_mq` and of its `guarded_heap`
(deletion buffer, insertion buffer, node heap, lock word).

* Bounded buffers are lists; a guarded-queue operation that would overflow a buffer,
  read past the end of a range, or fail its `assert` yields `none`.
* The sequential node heap (`sequential::merge_heap`) is a parameter: a record of
  its operations, together with a contract record stating the between-node
  order of the specification.
* Random draws of the thread-local generator are an explicit list of numbers
  consumed from the front; a probing loop that runs out of draws yields `none`.
-/

namespace multiqueue

/-! ## Configuration -/

/-- The compile-time configuration (`Configuration::C`, `Configuration::NodeSize`);
`default_configuration.hpp` is not among the sources, so both constants are fields.  `C`
is read into a `static constexpr unsigned int`, so it is below `2 ^ 32`. -/
structure Configuration where
  C : Nat
  NodeSize : Nat
  C_lt : C < 2 ^ 32 := by decide

/-- `InsertionBufferSize = NodeSize`. -/
def InsertionBufferSize (cfg : Configuration) : Nat := cfg.NodeSize

/-- `DeletionBufferSize = 2 * NodeSize`. -/
def DeletionBufferSize (cfg : Configuration) : Nat := 2 * cfg.NodeSize

/-- `value_comparator::operator()`: values are compared by their keys (first components). -/
def value_comparator {Key T : Type} (comp : Key → Key → Bool) (lhs rhs : Key × T) : Bool :=
  comp lhs.1 rhs.1

/-! ## Library algorithms -/

/-- `std::sort(first, last, comp)`: an ascending arrangement under `comp`
(insertion sort; the order of equivalent values is fixed to the stable one). -/
def std_sort {α : Type} (comp : α → α → Bool) (l : List α) : List α :=
  l.insertionSort (fun a b => comp b a = false)

/-- Scan of `std::min_element`: `si` is the index of the smallest value `s` seen so far,
`i` the index of the head of the remaining range. -/
def min_element_scan {α : Type} (comp : α → α → Bool) : List α → Nat → α → Nat → Nat
  | [], _, _, si => si
  | x :: xs, i, s, si =>
    if comp x s then min_element_scan comp xs (i + 1) x i
    else min_element_scan comp xs (i + 1) s si

/-- `std::min_element(first, last, comp)` as an index into the range: the first
smallest element (for an empty range the result is `last`, index 0). -/
def min_element {α : Type} (comp : α → α → Bool) : List α → Nat
  | [] => 0
  | x :: xs => min_element_scan comp xs 1 x 0

/-! ## Bounded buffers -/

/-- Modelled from the spec: `push_back` of `util::buffer` / `util::ring_buffer`
(`buffer.hpp`, `ring_buffer.hpp` are not among the sources): appends a value to a
bounded array of capacity `cap`; on a buffer at capacity there is no result. -/
def push_back {α : Type} (cap : Nat) (buf : List α) (v : α) : Option (List α) :=
  if buf.length < cap then some (buf ++ [v]) else none

/-- `std::copy(first, last, std::back_inserter(buf))`: one `push_back` per value. -/
def copy_back {α : Type} (cap : Nat) : List α → List α → Option (List α)
  | buf, [] => some buf
  | buf, x :: xs => (push_back cap buf x).bind (fun b => copy_back cap b xs)

/-- Modelled from the spec: `ring_buffer::insert_at(pos, value)` (`ring_buffer.hpp` is not
among the sources): puts `value` at index `pos`, moving the later values one place back;
no result on a buffer at capacity or for a position past the end. -/
def insert_at {α : Type} (cap : Nat) (buf : List α) (pos : Nat) (v : α) : Option (List α) :=
  if buf.length < cap ∧ pos ≤ buf.length then some (buf.take pos ++ v :: buf.drop pos) else none

/-! ## The node heap interface -/

/-- Modelled from the spec: the operations of `sequential::merge_heap` that the guarded
queue uses (`merge_heap.hpp` is not among the sources): the default-constructed heap,
`empty()`, `top_node()` as the list of the root node's values, `pop_node()` and
`insert(first, last)` of one block. -/
structure merge_heap (α H : Type) where
  init : H
  empty : H → Bool
  top_node : H → List α
  pop_node : H → H
  insert : H → List α → H

/-- Ascending under `comp`: no later element is strictly smaller than an earlier one. -/
def ascending {α : Type} (comp : α → α → Bool) (l : List α) : Prop :=
  l.Pairwise (fun a b => comp b a = false)

/-- Modelled from the spec: the contract of the sequential node heap (section 3 and 4.1 of the
specification, invariant I3): `Inv` is the between-node order together with the node
shape, `vals` the multiset of resident values.  A node is a sorted block of exactly
`NodeSize` values; inserting one such block adds its values; the top node is sorted and
no value left after `pop_node` is strictly smaller than a value of the top node. -/
structure heap_contract {α H : Type} (comp : α → α → Bool) (NodeSize : Nat)
    (hp : merge_heap α H) where
  Inv : H → Prop
  vals : H → Multiset α
  inv_init : Inv hp.init
  vals_init : vals hp.init = 0
  empty_iff : ∀ h, Inv h → (hp.empty h = true ↔ vals h = 0)
  insert_inv : ∀ h blk, Inv h → blk.length = NodeSize → ascending comp blk →
    Inv (hp.insert h blk)
  insert_vals : ∀ h blk, Inv h → blk.length = NodeSize → ascending comp blk →
    vals (hp.insert h blk) = vals h + (blk : Multiset α)
  top_length : ∀ h, Inv h → hp.empty h = false → (hp.top_node h).length = NodeSize
  top_sorted : ∀ h, Inv h → hp.empty h = false → ascending comp (hp.top_node h)
  pop_inv : ∀ h, Inv h → hp.empty h = false → Inv (hp.pop_node h)
  pop_vals : ∀ h, Inv h → hp.empty h = false →
    vals h = (hp.top_node h : Multiset α) + vals (hp.pop_node h)
  top_le : ∀ h, Inv h → hp.empty h = false →
    ∀ x ∈ hp.top_node h, ∀ y ∈ vals (hp.pop_node h), comp y x = false

/-- Modelled from the spec: a reference node heap meeting the contract (`merge_heap.hpp` is
not among the sources; the specification fixes only the resulting invariant): all
values are kept in one ascending list whose consecutive blocks of `NodeSize` values are
the nodes in pop order. -/
def sorted_block_heap {α : Type} (comp : α → α → Bool) (NodeSize : Nat) :
    merge_heap α (List α) where
  init := []
  empty := fun h => h.isEmpty
  top_node := fun h => h.take NodeSize
  pop_node := fun h => h.drop NodeSize
  insert := fun h blk => std_sort comp (h ++ blk)

/-! ## The guarded queue -/

/-- `struct guarded_heap`: the lock word, the two buffers and the heap. -/
structure guarded_heap (α H : Type) where
  in_use : Bool
  insertion_buffer : List α
  deletion_buffer : List α
  heap : H

section guarded

variable {α H : Type} (hp : merge_heap α H) (cfg : Configuration) (comp : α → α → Bool)

/-- The default-constructed guarded queue. -/
def guarded_heap.init : guarded_heap α H :=
  { in_use := false, insertion_buffer := [], deletion_buffer := [], heap := hp.init }

/-- The `for` loop of `flush_insertion_buffer` over the sorted buffer `buf`:
`for (i = 0; i < buf.size(); i += NodeSize)
   heap.insert(buf.begin() + i * NodeSize, buf.begin() + (i + 1) * NodeSize)`.
A slice reaching outside the buffer has no result. -/
def flush_loop (buf : List α) : Nat → Nat → H → Option H
  | 0, i, h => if i < buf.length then none else some h
  | fuel + 1, i, h =>
    if i < buf.length then
      if (i + 1) * cfg.NodeSize ≤ buf.length then
        flush_loop buf fuel (i + cfg.NodeSize)
          (hp.insert h ((buf.drop (i * cfg.NodeSize)).take cfg.NodeSize))
      else none
    else some h

/-- `guarded_heap::flush_insertion_buffer`. -/
def flush_insertion_buffer (g : guarded_heap α H) : Option (guarded_heap α H) :=
  if g.insertion_buffer.length = InsertionBufferSize cfg then
    let sorted := std_sort comp g.insertion_buffer
    (flush_loop hp cfg sorted sorted.length 0 g.heap).map
      (fun h => { g with insertion_buffer := [], heap := h })
  else none

/-- Refill, first branch: `while (deletion_buffer.size() != DeletionBufferSize && !heap.empty())`
copy the top node to the back of the deletion buffer and pop it. -/
def refill_pop_loop : Nat → guarded_heap α H → Option (guarded_heap α H)
  | 0, g =>
    if g.deletion_buffer.length ≠ DeletionBufferSize cfg ∧ hp.empty g.heap = false then none
    else some g
  | fuel + 1, g =>
    if g.deletion_buffer.length ≠ DeletionBufferSize cfg ∧ hp.empty g.heap = false then
      (copy_back (DeletionBufferSize cfg) g.deletion_buffer (hp.top_node g.heap)).bind
        (fun d => refill_pop_loop fuel { g with deletion_buffer := d, heap := hp.pop_node g.heap })
    else some g

/-- Refill, third branch, inner loop `while (comp(*heap_it, *min_it)) push_back(*heap_it++)`:
`node` is the range from `heap_it` to the end of the top node; the result is the new
range and the new deletion buffer.  Reading `*heap_it` at the end has no result. -/
def merge_scan (cap : Nat) (m : α) : List α → List α → Option (List α × List α)
  | [], _ => none
  | x :: rest, d =>
    if comp x m then (push_back cap d x).bind (fun d1 => merge_scan cap m rest d1)
    else some (x :: rest, d)

/-- Refill, third branch: `if (min_it + 1 != end) *min_it = back(); pop_back();` on the
range `[it, end)` of the insertion buffer. -/
def swap_remove (small : List α) (i : Nat) : List α :=
  match small.getLast? with
  | none => small
  | some b => if i + 1 ≠ small.length then (small.set i b).dropLast else small.dropLast

/-- Refill, third branch, outer loop `while (it != insertion_buffer.end())`: `small` is
the range `[it, end)` of the insertion buffer, `node` the rest of the top node. -/
def merge_loop (cap : Nat) : Nat → List α → List α → List α → Option (List α × List α)
  | 0, small, node, d => if small.isEmpty then some (node, d) else none
  | fuel + 1, small, node, d =>
    if small.isEmpty then some (node, d)
    else
      match small[min_element comp small]? with
      | none => none
      | some m =>
        (merge_scan comp cap m node d).bind (fun nd =>
          (push_back cap nd.2 m).bind (fun d2 =>
            merge_loop cap fuel (swap_remove small (min_element comp small)) nd.1 d2))

/-- `guarded_heap::refill_deletion_buffer`.  `std::partition` is taken to keep the order
inside both parts; the values for which the predicate holds stay in the buffer. -/
def refill_deletion_buffer (g : guarded_heap α H) : Option (guarded_heap α H) :=
  if !g.deletion_buffer.isEmpty then none
  else if g.insertion_buffer.length = InsertionBufferSize cfg then
    (flush_insertion_buffer hp cfg comp g).bind
      (fun g1 => refill_pop_loop hp cfg (DeletionBufferSize cfg) g1)
  else if hp.empty g.heap then
    (copy_back (DeletionBufferSize cfg) g.deletion_buffer (std_sort comp g.insertion_buffer)).map
      (fun d => { g with insertion_buffer := [], deletion_buffer := d })
  else
    let top := hp.top_node g.heap
    let parts : Option (List α × List α) :=
      if g.insertion_buffer.isEmpty then some ([], [])
      else top.getLast?.map (fun M =>
        (g.insertion_buffer.filter (fun v => comp M v),
         g.insertion_buffer.filter (fun v => !comp M v)))
    parts.bind (fun p =>
      (merge_loop comp (DeletionBufferSize cfg) p.2.length p.2 top g.deletion_buffer).bind
        (fun nd =>
          (copy_back (DeletionBufferSize cfg) nd.2 nd.1).map (fun d =>
            { g with insertion_buffer := p.1, deletion_buffer := d,
                     heap := hp.pop_node g.heap })))

/-- The scan of `push`: `while (pos > 0 && comp(value, deletion_buffer[pos - 1])) --pos;`. -/
def push_scan (value : α) (d : List α) : Nat → Nat
  | 0 => 0
  | pos + 1 =>
    match d[pos]? with
    | some x => if comp value x then push_scan value d pos else pos + 1
    | none => pos + 1

/-- The insertion buffer after `if (size() == InsertionBufferSize) flush_insertion_buffer(comp)`. -/
def flush_if_full (g : guarded_heap α H) : Option (guarded_heap α H) :=
  if g.insertion_buffer.length = InsertionBufferSize cfg then flush_insertion_buffer hp cfg comp g
  else some g

/-- `guarded_heap::push`. -/
def guarded_heap.push (g : guarded_heap α H) (value : α) : Option (guarded_heap α H) :=
  let pos := push_scan comp value g.deletion_buffer g.deletion_buffer.length
  if !g.deletion_buffer.isEmpty ∧ pos < g.deletion_buffer.length then
    if g.deletion_buffer.length = DeletionBufferSize cfg then
      (flush_if_full hp cfg comp g).bind (fun g1 =>
        match g1.deletion_buffer.getLast? with
        | none => none
        | some b =>
          (push_back (InsertionBufferSize cfg) g1.insertion_buffer b).bind (fun i1 =>
            (insert_at (DeletionBufferSize cfg) g1.deletion_buffer.dropLast pos value).map
              (fun d1 => { g1 with insertion_buffer := i1, deletion_buffer := d1 })))
    else
      (insert_at (DeletionBufferSize cfg) g.deletion_buffer pos value).map
        (fun d1 => { g with deletion_buffer := d1 })
  else
    (flush_if_full hp cfg comp g).bind (fun g1 =>
      (push_back (InsertionBufferSize cfg) g1.insertion_buffer value).map
        (fun i1 => { g1 with insertion_buffer := i1 }))

/-- Taking the front of the deletion buffer: `retval = deletion_buffer.front();
deletion_buffer.pop_front();` (no result on an empty buffer). -/
def guarded_heap.pop_front (g : guarded_heap α H) : Option (α × guarded_heap α H) :=
  match g.deletion_buffer with
  | [] => none
  | v :: rest => some (v, { g with deletion_buffer := rest })

/-- The step both sampled queues go through in `extract_top`:
`if (deletion_buffer.empty()) refill_deletion_buffer(comp);`. -/
def refill_if_empty (g : guarded_heap α H) : Option (guarded_heap α H) :=
  if g.deletion_buffer.isEmpty then refill_deletion_buffer hp cfg comp g else some g

end guarded

/-! ## The multiqueue -/

/-- What one operation does to the lock words and containers, in program order:
a successful `try_lock`, a failed `try_lock`, an `unlock`, and a read or write of the
buffers or the heap of a queue. -/
inductive Event where
  | acquire (i : Nat)
  | fail (i : Nat)
  | release (i : Nat)
  | access (i : Nat)
deriving DecidableEq, Repr

/-- `class numa_aware_merge_mq`: the queue array `heap_list_` and `num_queues_`
(the comparator `comp_` is a parameter of the operations). -/
structure numa_aware_merge_mq (α H : Type) where
  heap_list_ : List (guarded_heap α H)
  num_queues_ : Nat

/-- The state of one running operation: the multiqueue, the draws the thread-local
generator will still deliver, and the events so far. -/
structure exec (α H : Type) where
  mq : numa_aware_merge_mq α H
  rng : List Nat
  trace : List Event

/-- The outcome of `extract_top`: the returned flag, the value written to `retval`
(if any), and the state left behind. -/
structure extract_result (α H : Type) where
  ret : Bool
  retval : Option α
  mq : numa_aware_merge_mq α H
  rng : List Nat
  trace : List Event

section mq

variable {Key T H : Type} (hp : merge_heap (Key × T) H) (cfg : Configuration)
  (comp : Key → Key → Bool)

/-- The constructor `numa_aware_merge_mq(num_threads)`: `heap_list_(num_threads * C)`
builds `num_threads * C` default guarded queues, where the product of the two
`unsigned int` values is taken modulo `2 ^ 32` (`unsigned int` has 32 bits), and
`num_queues_` is the size of the vector.  Its `assert(num_threads >= 1)` is a
precondition on the caller; the statements about a new multiqueue carry it where they
need it. -/
def numa_aware_merge_mq.new (num_threads : Nat) : numa_aware_merge_mq (Key × T) H :=
  { heap_list_ := List.replicate ((num_threads * cfg.C) % 2 ^ 32) (guarded_heap.init hp),
    num_queues_ :=
      (List.replicate ((num_threads * cfg.C) % 2 ^ 32) (guarded_heap.init hp)).length }

/-- Replaces the guarded queue at `index`. -/
def numa_aware_merge_mq.store {α : Type} (mq : numa_aware_merge_mq α H) (index : Nat)
    (g : guarded_heap α H) : numa_aware_merge_mq α H :=
  { mq with heap_list_ := mq.heap_list_.set index g }

/-- `heap_list_[index].try_lock()`: compare-and-set of `in_use` from false to true. -/
def try_lock {α : Type} (index : Nat) (e : exec α H) : Option (Bool × exec α H) :=
  match e.mq.heap_list_[index]? with
  | none => none
  | some g =>
    if g.in_use then some (false, { e with trace := e.trace ++ [Event.fail index] })
    else some (true, { e with mq := e.mq.store index { g with in_use := true },
                              trace := e.trace ++ [Event.acquire index] })

/-- `heap_list_[index].unlock()`: stores false to `in_use`. -/
def unlock {α : Type} (index : Nat) (e : exec α H) : Option (exec α H) :=
  match e.mq.heap_list_[index]? with
  | none => none
  | some g => some { e with mq := e.mq.store index { g with in_use := false },
                            trace := e.trace ++ [Event.release index] }

/-- `random_queue_index()`: `std::uniform_int_distribution` on `[0, num_queues_ - 1]`
applied to the thread-local generator; `r` is the next draw, reduced modulo
`num_queues_`. -/
abbrev random_queue_index {α : Type} (mq : numa_aware_merge_mq α H) (r : Nat) : Nat :=
  r % mq.num_queues_

/-- `random_local_queue_index()`: `std::uniform_int_distribution` on `[0, C - 1]`; `r` is
the next draw, reduced modulo `C`. -/
abbrev random_local_queue_index (r : Nat) : Nat :=
  r % cfg.C

/-- `do { index = random_queue_index(); } while (!heap_list_[index].try_lock());`. -/
def lock_loop {α : Type} (mq : numa_aware_merge_mq α H) :
    List Nat → List Event → Option (Nat × exec α H)
  | [], _ => none
  | r :: rs, tr =>
    match try_lock (random_queue_index mq r) { mq := mq, rng := rs, trace := tr } with
    | none => none
    | some (true, e1) => some (random_queue_index mq r, e1)
    | some (false, e1) => lock_loop mq rs e1.trace

/-- The local probing loop of `extract_top`, with `n` rounds left:
`for (i = 0; i < C; ++i) { first_index = C * id + ((start_index + i) % C);
  if (try_lock) break; if (i == 3) { global probing } }`.
`C * handle.id_` is a product of two `unsigned int` values, taken modulo `2 ^ 32`; the
sum is formed in `size_t`.  The result is the value of `first_index` when the loop is
left. -/
def probe_first {α : Type} (id start : Nat) :
    Nat → Nat → Option Nat → exec α H → Option (Option Nat × exec α H)
  | 0, _, fi, e => some (fi, e)
  | n + 1, i, _, e =>
    match try_lock (cfg.C * id % 2 ^ 32 + (start + i) % cfg.C) e with
    | none => none
    | some (true, e1) => some (some (cfg.C * id % 2 ^ 32 + (start + i) % cfg.C), e1)
    | some (false, e1) =>
      if i = 3 then
        match lock_loop e1.mq e1.rng e1.trace with
        | none => none
        | some (gi, e2) => probe_first id start n (i + 1) (some gi) e2
      else
        probe_first id start n (i + 1) (some (cfg.C * id % 2 ^ 32 + (start + i) % cfg.C)) e1

/-- Runs a guarded-queue operation on `heap_list_[index]` and records the access. -/
def on_queue {α : Type} (index : Nat) (f : guarded_heap α H → Option (guarded_heap α H))
    (e : exec α H) : Option (exec α H) :=
  match e.mq.heap_list_[index]? with
  | none => none
  | some g => (f g).map (fun g1 =>
      { e with mq := e.mq.store index g1, trace := e.trace ++ [Event.access index] })

/-- Reads `heap_list_[index].deletion_buffer` and records the access. -/
def read_deletion_buffer {α : Type} (index : Nat) (e : exec α H) : Option (List α × exec α H) :=
  match e.mq.heap_list_[index]? with
  | none => none
  | some g => some (g.deletion_buffer, { e with trace := e.trace ++ [Event.access index] })

/-- `retval = std::move(heap_list_[index].deletion_buffer.front());
heap_list_[index].deletion_buffer.pop_front(); heap_list_[index].unlock(); return true;` -/
def take_front {α : Type} (index : Nat) (e : exec α H) : Option (extract_result α H) :=
  match e.mq.heap_list_[index]? with
  | none => none
  | some g =>
    match g.pop_front with
    | none => none
    | some (v, g1) =>
      (unlock index { e with mq := e.mq.store index g1,
                             trace := e.trace ++ [Event.access index] }).map
        (fun e1 => { ret := true, retval := some v, mq := e1.mq, rng := e1.rng,
                     trace := e1.trace })

/-- `numa_aware_merge_mq::push`. -/
def numa_aware_merge_mq.push (mq : numa_aware_merge_mq (Key × T) H) (value : Key × T)
    (rng : List Nat) : Option (exec (Key × T) H) :=
  match lock_loop mq rng [] with
  | none => none
  | some (index, e1) =>
    (on_queue index (fun g => g.push hp cfg (value_comparator comp) value) e1).bind
      (fun e2 => unlock index e2)

/-- The second half of `extract_top` (from `size_t second_index;` to the end): `d1` is the
deletion buffer of the first queue after its refill-if-empty step, so `first_empty` is
`d1.isEmpty`; samples and locks the second queue, refills it if empty, compares the two
fronts, takes the smaller and releases both locks. -/
def extract_top_second (first_index : Nat) (d1 : List (Key × T)) (e4 : exec (Key × T) H) :
    Option (extract_result (Key × T) H) :=
  (lock_loop e4.mq e4.rng e4.trace).bind (fun (second_index, e5) =>
  (on_queue second_index (refill_if_empty hp cfg (value_comparator comp)) e5).bind (fun e6 =>
  (read_deletion_buffer second_index e6).bind (fun (d2, e7) =>
    if d2.isEmpty then
      (unlock second_index e7).bind (fun e8 =>
        if d1.isEmpty then
          some { ret := false, retval := none, mq := e8.mq, rng := e8.rng,
                 trace := e8.trace }
        else take_front first_index e8)
    else
      match (if d1.isEmpty then some (true, e7)
             else
               match d2.head?, d1.head? with
               | some f2, some f1 =>
                 some (comp f2.1 f1.1,
                   { e7 with trace := e7.trace ++
                       [Event.access second_index, Event.access first_index] })
               | _, _ => none) with
      | none => none
      | some (true, e8) =>
        (if !d1.isEmpty then unlock first_index e8 else some e8).bind (fun e9 =>
          take_front second_index e9)
      | some (false, e8) =>
        (unlock second_index e8).bind (fun e9 => take_front first_index e9))))

/-- `numa_aware_merge_mq::extract_top` for the handle with id `id`.  The first half: local
probing from `start_index = random_local_queue_index()`, the refill-if-empty step on the
first queue, and its release if it stays empty. -/
def numa_aware_merge_mq.extract_top (mq : numa_aware_merge_mq (Key × T) H) (id : Nat)
    (rng : List Nat) : Option (extract_result (Key × T) H) :=
  match rng with
  | [] => none
  | r0 :: rs =>
    match probe_first cfg id (random_local_queue_index cfg r0) cfg.C 0 none
        { mq := mq, rng := rs, trace := [] } with
    | none => none
    | some (none, _) => none
    | some (some first_index, e1) =>
      (on_queue first_index (refill_if_empty hp cfg (value_comparator comp)) e1).bind (fun e2 =>
      (read_deletion_buffer first_index e2).bind (fun (d1, e3) =>
      (if d1.isEmpty then unlock first_index e3 else some e3).bind (fun e4 =>
        extract_top_second hp cfg comp first_index d1 e4)))

/-- One call of the single-threaded interface, with the draws its thread-local generator
delivers during the call. -/
inductive Op (α : Type) where
  | push (value : α) (rng : List Nat)
  | extract_top (id : Nat) (rng : List Nat)

/-- Runs a sequence of calls one after the other; the result is the final multiqueue and
the values of the successful extractions, in order. -/
def run (mq : numa_aware_merge_mq (Key × T) H) :
    List (Op (Key × T)) → Option (numa_aware_merge_mq (Key × T) H × List (Key × T))
  | [] => some (mq, [])
  | Op.push v rng :: ops =>
    (mq.push hp cfg comp v rng).bind (fun e =>
      run e.mq ops)
  | Op.extract_top id rng :: ops =>
    (mq.extract_top hp cfg comp id rng).bind (fun r =>
      (run r.mq ops).map (fun p => (p.1, r.retval.toList ++ p.2)))

/-- The values a sequence of calls pushes, in order. -/
def pushed {α : Type} : List (Op α) → List α
  | [] => []
  | Op.push v _ :: ops => v :: pushed ops
  | Op.extract_top _ _ :: ops => pushed ops

end mq

section touch

variable {α H : Type} (cfg : Configuration)

/-- The loop of `numa_aware_merge_mq::init_touch`, with `n` rounds left:
`for (i = 0; i < C; ++i) heap_list_[C * handle.id_ + i].heap.init_touch(size);`.
The index is computed in `unsigned int`: the product and the sum are taken modulo
`2 ^ 32`.  `merge_heap::init_touch` is not among the sources and is the parameter
`touch`; an index outside the queue array has no result. -/
def init_touch_loop (touch : H → Nat → H) (id size : Nat) :
    Nat → Nat → numa_aware_merge_mq α H → Option (numa_aware_merge_mq α H)
  | 0, _, mq => some mq
  | n + 1, i, mq =>
    match mq.heap_list_[(cfg.C * id % 2 ^ 32 + i) % 2 ^ 32]? with
    | none => none
    | some g =>
      init_touch_loop touch id size n (i + 1)
        (mq.store ((cfg.C * id % 2 ^ 32 + i) % 2 ^ 32) { g with heap := touch g.heap size })

/-- `numa_aware_merge_mq::init_touch(handle, size)` for the handle with id `id`. -/
def numa_aware_merge_mq.init_touch (touch : H → Nat → H) (mq : numa_aware_merge_mq α H)
    (id size : Nat) : Option (numa_aware_merge_mq α H) :=
  init_touch_loop cfg touch id size cfg.C 0 mq

end touch

/-! ## The lock word as an atomic -/

/-- `std::memory_order`. -/
inductive memory_order where
  | relaxed
  | consume
  | acquire
  | release
  | acq_rel
  | seq_cst
deriving DecidableEq, Repr

/-- What one atomic operation does to a lock word: the value the call returns (for a
store, the value stored), the word afterwards, and the memory order that applies to the
operation. -/
structure atomic_outcome where
  result : Bool
  word : Bool
  order : memory_order
deriving DecidableEq, Repr

/-- `std::atomic_bool::compare_exchange_strong(expected, desired, success, failure)` on a
word holding `word`: if the word equals `expected` it becomes `desired`, the call returns
true and the order `success` applies; otherwise the word is only read, the call returns
false and the order `failure` applies. -/
def compare_exchange_strong (word expected desired : Bool) (success failure : memory_order) :
    atomic_outcome :=
  if word = expected then { result := true, word := desired, order := success }
  else { result := false, word := word, order := failure }

/-- `std::atomic_bool::store(desired, order)`. -/
def atomic_store (desired : Bool) (order : memory_order) : atomic_outcome :=
  { result := desired, word := desired, order := order }

/-- `guarded_heap::try_lock` of `numa_aware_merge_mq.hpp`:
`bool expect_in_use = false;
 return in_use.compare_exchange_strong(expect_in_use, true, std::memory_order_acquire,
                                       std::memory_order_relaxed);`. -/
def guarded_heap.try_lock {α H : Type} (g : guarded_heap α H) : atomic_outcome :=
  compare_exchange_strong g.in_use false true memory_order.acquire memory_order.relaxed

/-- `guarded_heap::unlock` of `numa_aware_merge_mq.hpp`:
`in_use.store(false, std::memory_order_release);`. -/
def guarded_heap.unlock {α H : Type} (_g : guarded_heap α H) : atomic_outcome :=
  atomic_store false memory_order.release

/-- `deletion_buffer_mq::try_lock(index)` of `deletion_buffer_mq.hpp`, on the lock word
`in_use` of `heap_list_[index]`:
`bool expect_in_use = false;
 return heap_list_[index].in_use.compare_exchange_strong(expect_in_use, true,
     std::memory_order_relaxed, std::memory_order_acquire);`. -/
def deletion_buffer_mq.try_lock (in_use : Bool) : atomic_outcome :=
  compare_exchange_strong in_use false true memory_order.relaxed memory_order.acquire

/-- `deletion_buffer_mq::unlock(index)` of `deletion_buffer_mq.hpp`:
`heap_list_[index].in_use.store(false, std::memory_order_release);`. -/
def deletion_buffer_mq.unlock (_in_use : Bool) : atomic_outcome :=
  atomic_store false memory_order.release

/-! ## The replay analyzer (utils/evaluate_quality.cpp) -/

/-- `std::isspace` in the classic locale: space, `\t`, `\n`, `\v`, `\f`, `\r`. -/
def isspace (c : Char) : Bool :=
  decide (c.toNat = 32 ∨ (9 ≤ c.toNat ∧ c.toNat ≤ 13))

/-- `std::isdigit`. -/
def isdigit (c : Char) : Bool :=
  decide (48 ≤ c.toNat ∧ c.toNat ≤ 57)

/-- Standard input from the first character not yet consumed on, after the leading
whitespace is skipped (every formatted extraction does this first). -/
def skip_ws : List Char → List Char
  | [] => []
  | c :: cs => if isspace c then skip_ws cs else c :: cs

/-- `std::cin >> op` for `char op` on a stream that is good: skips whitespace and extracts
one character; at the end of the input the extraction fails (no result) and `op` is left
as it was. -/
def read_char (input : List Char) : Option (Char × List Char) :=
  match skip_ws input with
  | [] => none
  | c :: cs => some (c, cs)

/-- The decimal digits at the front of the input, accumulated on `acc`, and the input
left. -/
def read_digits : List Char → Nat → Nat × List Char
  | [], acc => (acc, [])
  | c :: cs, acc =>
    if isdigit c then read_digits cs (10 * acc + (c.toNat - 48)) else (acc, c :: cs)

/-- The input after an optional sign: `std::num_get` accepts one `+` or `-` before the
digits, also for an unsigned type. -/
def skip_sign : List Char → List Char
  | [] => []
  | c :: cs => if c = '+' ∨ c = '-' then cs else c :: cs

/-- `in >> x` for an unsigned integer `x` of `bits` bits (`std::num_get` in the classic
locale, base 10).  The stream is the list of characters not yet consumed, or `none` once
failbit is set.  The result is the value written to `x` (`none`: `x` is left as it was)
and the stream afterwards.
* On a stream that has failed nothing is extracted and `x` is left as it was.
* Whitespace is skipped; at the end of the input the extraction fails and `x` is left as
  it was.
* Then an optional sign and the longest run of decimal digits are consumed.  With no
  digit the extraction fails and `x` is set to 0.
* If the number does not fit the type the extraction fails and `x` is set to the largest
  value of the type.
* Otherwise `x` is the number, negated within the type (modulo `2 ^ bits`) after a `-`,
  and the stream stays good. -/
def read_unsigned (bits : Nat) : Option (List Char) → Option Nat × Option (List Char)
  | none => (none, none)
  | some input =>
    match skip_ws input with
    | [] => (none, none)
    | c :: cs =>
      match skip_sign (c :: cs) with
      | [] => (some 0, none)
      | d :: ds =>
        if isdigit d then
          if (read_digits (d :: ds) 0).1 < 2 ^ bits then
            (some (if c = '-' then (2 ^ bits - (read_digits (d :: ds) 0).1) % 2 ^ bits
              else (read_digits (d :: ds) 0).1),
             some (read_digits (d :: ds) 0).2)
          else (some (2 ^ bits - 1), none)
        else (some 0, none)

/-- `struct log_entry` (`unsigned int` is taken to have 32 bits), for an entry whose
numeric fields have been written. -/
structure log_entry where
  thread_id : Nat
  tick : Nat
  failed : Bool
  key : Nat
  insert_thread_id : Nat
  value : Nat
  deleted : Bool
deriving DecidableEq, Repr

/-- The numeric fields of the local variable `log_entry entry;` of the reading loop, which
is declared without an initialiser: a field is `none` until an extraction writes it.
Reading a field that is `none` has no result. -/
structure entry_var where
  thread_id : Option Nat
  tick : Option Nat
  key : Option Nat
  insert_thread_id : Option Nat
  value : Option Nat
deriving DecidableEq, Repr

/-- `operator>>(std::istream&, log_entry&)`:
`in >> entry.thread_id >> entry.tick >> entry.key >> entry.insert_thread_id >> entry.value;
 entry.failed = false; entry.deleted = false;`.
The stream is not tested between the extractions: after the first one that fails the
later ones write nothing.  (The two flags are put in when the entry is stored.) -/
def read_log_entry (input : Option (List Char)) : entry_var × Option (List Char) :=
  ({ thread_id := (read_unsigned 32 input).1,
     tick := (read_unsigned 64 (read_unsigned 32 input).2).1,
     key := (read_unsigned 32 (read_unsigned 64 (read_unsigned 32 input).2).2).1,
     insert_thread_id :=
       (read_unsigned 32
         (read_unsigned 32 (read_unsigned 64 (read_unsigned 32 input).2).2).2).1,
     value :=
       (read_unsigned 32 (read_unsigned 32
         (read_unsigned 32 (read_unsigned 64 (read_unsigned 32 input).2).2).2).2).1 },
   (read_unsigned 32 (read_unsigned 32
     (read_unsigned 32 (read_unsigned 64 (read_unsigned 32 input).2).2).2).2).2)

/-- The reasons for which `main` returns 1. -/
inductive log_error where
  | invalid_number_of_threads
  | insertion_following_a_deletion
  | thread_id_too_high
  | insert_thread_id_too_high
  | insertion_before_previous_insertion
  | inconsistent_insertion
  | no_insertion_corresponding_to_deletion
  | deletion_inconsistent_to_insertion
  | deletion_before_its_insertion
  | extracted_twice
  | invalid_operation
  | not_in_the_heap_at_deletion_time
deriving DecidableEq, Repr

/-- The variables of the reading loop of `main`.  `tick_unset` is not a variable of the
source: it records that `deletions` holds a failed-deletion entry whose `tick` was never
written (the model holds 0 in its place). -/
structure reader_state where
  insertions : List (List log_entry)
  deletions : List log_entry
  deleting : Bool
  line : Nat
  tick_unset : Bool := false
deriving DecidableEq, Repr

/-- `!l.empty() && tick < l.back().tick` for the tick of `entry`: the tick is read only if
`l` is not empty. -/
def before_back (l : List log_entry) (tick : Option Nat) : Option Bool :=
  match l.getLast? with
  | none => some false
  | some b => tick.map (fun t => decide (t < b.tick))

/-- The branch `if (op == 'i')` of the reading loop, up to `++line`.  The checks read the
fields of `entry` in the order of the source; the text of the messages is not
modelled. -/
def read_insertion (num_threads : Nat) (st : reader_state) (input : List Char) :
    Option (Except log_error (reader_state × Option (List Char))) :=
  if st.deleting then some (Except.error log_error.insertion_following_a_deletion)
  else
    (read_log_entry (some input)).1.thread_id.bind (fun thread_id =>
    if thread_id ≥ num_threads then some (Except.error log_error.thread_id_too_high)
    else
      (read_log_entry (some input)).1.insert_thread_id.bind (fun insert_thread_id =>
      if insert_thread_id ≥ num_threads then
        some (Except.error log_error.insert_thread_id_too_high)
      else
        (before_back (st.insertions.getD thread_id [])
          (read_log_entry (some input)).1.tick).bind (fun before =>
        if before then some (Except.error log_error.insertion_before_previous_insertion)
        else
          (read_log_entry (some input)).1.value.bind (fun value =>
          if value ≠ (st.insertions.getD thread_id []).length ∨
              thread_id ≠ insert_thread_id then
            some (Except.error log_error.inconsistent_insertion)
          else
            (read_log_entry (some input)).1.tick.bind (fun tick =>
            (read_log_entry (some input)).1.key.bind (fun key =>
              some (Except.ok ({ st with
                insertions := st.insertions.set thread_id
                  (st.insertions.getD thread_id [] ++
                    [{ thread_id := thread_id, tick := tick, failed := false, key := key,
                       insert_thread_id := insert_thread_id, value := value,
                       deleted := false }]),
                line := st.line + 1 }, (read_log_entry (some input)).2))))))))

/-- The branch `else if (op == 'd')` of the reading loop, up to `++line`. -/
def read_deletion (num_threads : Nat) (st : reader_state) (input : List Char) :
    Option (Except log_error (reader_state × Option (List Char))) :=
  (read_log_entry (some input)).1.thread_id.bind (fun thread_id =>
  if thread_id ≥ num_threads then some (Except.error log_error.thread_id_too_high)
  else
    (read_log_entry (some input)).1.insert_thread_id.bind (fun insert_thread_id =>
    if insert_thread_id ≥ num_threads then
      some (Except.error log_error.insert_thread_id_too_high)
    else
      (read_log_entry (some input)).1.value.bind (fun value =>
      match (st.insertions.getD insert_thread_id [])[value]? with
      | none => some (Except.error log_error.no_insertion_corresponding_to_deletion)
      | some ins =>
        (read_log_entry (some input)).1.key.bind (fun key =>
        if key ≠ ins.key then
          some (Except.error log_error.deletion_inconsistent_to_insertion)
        else
          (read_log_entry (some input)).1.tick.bind (fun tick =>
          if tick < ins.tick then some (Except.error log_error.deletion_before_its_insertion)
          else if ins.deleted then some (Except.error log_error.extracted_twice)
          else
            some (Except.ok
              ({ insertions := st.insertions.set insert_thread_id
                   ((st.insertions.getD insert_thread_id []).set value
                     { ins with deleted := true }),
                 deletions := st.deletions ++
                   [{ thread_id := thread_id, tick := tick, failed := false, key := key,
                      insert_thread_id := insert_thread_id, value := value,
                      deleted := false }],
                 deleting := true,
                 line := st.line + 1,
                 tick_unset := st.tick_unset }, (read_log_entry (some input)).2)))))))

/-- The branch `else if (op == 'f')` of the reading loop, up to `++line`:
`std::cin >> entry.thread_id >> entry.tick;`, then the check of `entry.thread_id`, then
`deletions.push_back(entry)`; the stream is not tested.  The fields `key`,
`insert_thread_id`, `value` and `deleted` of `entry` stay uninitialised in the source and
are not read later; the model sets them to zero.  If the extraction of the tick writes
nothing the entry is stored all the same and `tick_unset` is set. -/
def read_failed (num_threads : Nat) (st : reader_state) (input : List Char) :
    Option (Except log_error (reader_state × Option (List Char))) :=
  (read_unsigned 32 (some input)).1.bind (fun thread_id =>
  if thread_id ≥ num_threads then some (Except.error log_error.thread_id_too_high)
  else
    some (Except.ok ({ st with
      deletions := st.deletions ++
        [{ thread_id := thread_id,
           tick := (read_unsigned 64 (read_unsigned 32 (some input)).2).1.getD 0,
           failed := true, key := 0, insert_thread_id := 0, value := 0, deleted := false }],
      deleting := true,
      line := st.line + 1,
      tick_unset :=
        st.tick_unset || (read_unsigned 64 (read_unsigned 32 (some input)).2).1.isNone },
      (read_unsigned 64 (read_unsigned 32 (some input)).2).2)))

/-- The body of the reading loop for the tag `op` just extracted; the result is the new
state and the stream after the record, which has failed if an extraction has. -/
def read_record (num_threads : Nat) (st : reader_state) (op : Char) (input : List Char) :
    Option (Except log_error (reader_state × Option (List Char))) :=
  if op = 'i' then read_insertion num_threads st input
  else if op = 'd' then read_deletion num_threads st input
  else if op = 'f' then read_failed num_threads st input
  else some (Except.error log_error.invalid_operation)

/-- The reading loop `while (std::cin >> op) { ... ++line; }`, with `fuel` rounds left.
The loop ends when the extraction of the tag fails: at the end of the input, or because
an extraction inside the last record has failed.  The result is the state at that point,
or the line and reason of the error. -/
def read_loop (num_threads : Nat) :
    Nat → reader_state → Option (List Char) → Option (Except (Nat × log_error) reader_state)
  | 0, _, _ => none
  | _ + 1, st, none => some (Except.ok st)
  | fuel + 1, st, some input =>
    match read_char input with
    | none => some (Except.ok st)
    | some (op, rest) =>
      match read_record num_threads st op rest with
      | none => none
      | some (Except.error err) => some (Except.error (st.line, err))
      | some (Except.ok (st1, rest1)) => read_loop num_threads fuel st1 rest1

/-- The reading part of `main`: `std::cin >> num_threads;
if (!std::cin || num_threads == 0) return 1;`, then the records. -/
def read_log (input : List Char) : Option (Except (Nat × log_error) reader_state) :=
  match read_unsigned 32 (some input) with
  | (some num_threads, some rest) =>
    if num_threads = 0 then some (Except.error (1, log_error.invalid_number_of_threads))
    else
      read_loop num_threads (rest.length + 1)
        { insertions := List.replicate num_threads [], deletions := [], deleting := false,
          line := 2, tick_unset := false } (some rest)
  | _ => some (Except.error (1, log_error.invalid_number_of_threads))

/-- `struct heap_entry`. -/
structure heap_entry where
  key : Nat
  ins_thread_id : Nat
  elem_id : Nat
deriving DecidableEq, Repr

/-- `operator<(heap_entry const&, heap_entry const&)`. -/
def heap_entry.lt (lhs rhs : heap_entry) : Bool :=
  if lhs.key < rhs.key then true
  else if lhs.key = rhs.key then
    if lhs.ins_thread_id < rhs.ins_thread_id then true
    else if lhs.ins_thread_id = rhs.ins_thread_id then
      if lhs.elem_id < rhs.elem_id then true else false
    else false
  else false

/-- `tlx::btree_map<heap_entry, std::pair<size_t, size_t>>` (the tlx library is not among
the sources): the entries in iteration order, which is ascending in `operator<`, the keys
pairwise inequivalent. -/
abbrev replay_map : Type := List (heap_entry × (Nat × Nat))

/-- `replay_heap.insert({k, v})`: the entry goes to its place in the order; if an
equivalent key is present the map stays as it is. -/
def btree_insert (k : heap_entry) (v : Nat × Nat) : replay_map → replay_map
  | [] => [(k, v)]
  | e :: rest =>
    if k.lt e.1 then (k, v) :: e :: rest
    else if e.1.lt k then e :: btree_insert k v rest
    else e :: rest

/-- `replay_heap.find(k)`: the position and the mapped value of the entry whose key is
equivalent to `k` (neither is smaller than the other); no result stands for `end()`. -/
def btree_find (k : heap_entry) : replay_map → Option (Nat × (Nat × Nat))
  | [] => none
  | e :: rest =>
    if !e.1.lt k && !k.lt e.1 then some (0, e.2)
    else (btree_find k rest).map (fun r => (r.1 + 1, r.2))

/-- `if (hist.size() <= i) hist.resize(i + 1, 0); ++hist[i];`. -/
def bump (hist : List Nat) (i : Nat) : List Nat :=
  (if hist.length ≤ i then hist ++ List.replicate (i + 1 - hist.length) 0 else hist).set i
    ((if hist.length ≤ i then hist ++ List.replicate (i + 1 - hist.length) 0
      else hist).getD i 0 + 1)

/-- The variables of the replay loop of `main`. -/
structure replay_state where
  replay_heap : replay_map
  insert_index : List Nat
  failed_deletions : Nat
  rank_histogram : List Nat
  delay_histogram : List Nat
  top_delay_histogram : List Nat
deriving DecidableEq, Repr

/-- The loop `while (insert_index[t] < insertions[t].size() &&
insertions[t][insert_index[t]].tick < deletions[i].tick) { replay_heap.insert(...);
++insert_index[t]; }` for thread `t`: the first argument is the part of `insertions[t]`
from `insert_index[t]` on, `idx` is `insert_index[t]`. -/
def insert_before (tick t : Nat) : List log_entry → Nat → replay_map → Nat × replay_map
  | [], idx, m => (idx, m)
  | e :: rest, idx, m =>
    if e.tick < tick then
      insert_before tick t rest (idx + 1)
        (btree_insert { key := e.key, ins_thread_id := t, elem_id := idx % 2 ^ 32 } (0, 0) m)
    else (idx, m)

/-- The loop `for (t = 0; t < insertions.size(); ++t)` around it, from thread `t` on: the
result is the new `insert_index` (from `t` on) and the new replay heap. -/
def insert_phase (tick : Nat) :
    Nat → List (List log_entry) → List Nat → replay_map → List Nat × replay_map
  | _, [], idxs, m => (idxs, m)
  | _, _ :: _, [], m => ([], m)
  | t, ins :: rest, idx :: idxs, m =>
    ((insert_before tick t (ins.drop idx) idx m).1 ::
        (insert_phase tick (t + 1) rest idxs (insert_before tick t (ins.drop idx) idx m).2).1,
      (insert_phase tick (t + 1) rest idxs (insert_before tick t (ins.drop idx) idx m).2).2)

/-- The loop `for (; smaller != it && smaller->first.key < key; ++smaller) {
if (smaller->first.key == replay_heap.begin()->first.key) ++smaller->second.first;
++smaller->second.second; }`: the list is the map from `smaller` on, `pos` the position
of `smaller`, `top_key` the key of the first entry of the map; the result is the map from
the old `smaller` on and the position of the new `smaller`. -/
def rank_scan (top_key key it : Nat) : replay_map → Nat → replay_map × Nat
  | [], pos => ([], pos)
  | e :: rest, pos =>
    if pos ≠ it ∧ e.1.key < key then
      ((e.1, (if e.1.key = top_key then e.2.1 + 1 else e.2.1, e.2.2 + 1)) ::
          (rank_scan top_key key it rest (pos + 1)).1,
        (rank_scan top_key key it rest (pos + 1)).2)
    else (e :: rest, pos)

/-- The part of the replay loop's body for a failed deletion with a non-empty replay heap:
`for (auto& [entry, delays] : replay_heap) { if (entry.key == top_key) ++delays.first;
++delays.second; }`. -/
def delay_all (top_key : Nat) (m : replay_map) : replay_map :=
  m.map (fun e => (e.1, (if e.1.key = top_key then e.2.1 + 1 else e.2.1, e.2.2 + 1)))

/-- One round of the replay loop, for the deletion `d`. -/
def replay_step (insertions : List (List log_entry)) (st : replay_state) (d : log_entry) :
    Except log_error replay_state :=
  match insert_phase d.tick 0 insertions st.insert_index st.replay_heap with
  | (idxs, m) =>
    if d.failed then
      match m with
      | [] => Except.ok { st with replay_heap := m, insert_index := idxs }
      | top :: _ =>
        Except.ok { st with
          replay_heap := delay_all top.1.key m,
          insert_index := idxs,
          failed_deletions := st.failed_deletions + 1,
          rank_histogram := bump st.rank_histogram m.length }
    else
      match btree_find { key := d.key, ins_thread_id := d.insert_thread_id,
                         elem_id := d.value } m, m with
      | some (it, delays), top :: _ =>
        Except.ok
          { replay_heap := (rank_scan top.1.key d.key it m 0).1.eraseIdx it,
            insert_index := idxs,
            failed_deletions := st.failed_deletions,
            rank_histogram := bump st.rank_histogram (rank_scan top.1.key d.key it m 0).2,
            delay_histogram := bump st.delay_histogram delays.2,
            top_delay_histogram := bump st.top_delay_histogram delays.1 }
      | _, _ => Except.error log_error.not_in_the_heap_at_deletion_time

/-- The replay loop over the deletions in order. -/
def replay_loop (insertions : List (List log_entry)) :
    replay_state → List log_entry → Except log_error replay_state
  | st, [] => Except.ok st
  | st, d :: ds =>
    match replay_step insertions st d with
    | Except.error err => Except.error err
    | Except.ok st1 => replay_loop insertions st1 ds

/-- The constant `num_deletions` (ten million). -/
def num_deletions : Nat := 10000000

/-- The variables of the replay loop before its first round, for `n` threads: an empty
replay heap, `insert_index(n, 0)`, empty histograms. -/
def replay_state.init (n : Nat) : replay_state :=
  { replay_heap := [], insert_index := List.replicate n 0, failed_deletions := 0,
    rank_histogram := [], delay_histogram := [], top_delay_histogram := [] }

/-- The replay part of `main`: the deletions are sorted by tick (the order of deletions
with equal ticks is fixed to the stable one) and the first `num_deletions` of them are
replayed. -/
def replay (insertions : List (List log_entry)) (deletions : List log_entry) :
    Except log_error replay_state :=
  replay_loop insertions (replay_state.init insertions.length)
    ((std_sort (fun a b : log_entry => decide (a.tick < b.tick)) deletions).take num_deletions)

/-- Whether the replay part of `main` reads a tick that was never written: `std::sort`
compares every deletion when there are two or more, and the replay loop reads the tick of
its deletion as soon as a thread has an insertion (`insert_index[t] < insertions[t].size()
&& insertions[t][insert_index[t]].tick < deletions[i].tick`). -/
def reads_unset_tick (st : reader_state) : Bool :=
  st.tick_unset &&
    (decide (2 ≤ st.deletions.length) || st.insertions.any (fun l => !l.isEmpty))

/-- `main` on the standard input `input`: with `--verify` the result of reading the log,
else that of the replay; an error stands for the exit code 1.  An error of the reading
loop carries the line the source prints; the error of the replay is printed without a
line and carries the value of `line` after the last record.  The replay has no result if
it reads a tick that was never written. -/
def main (verify_only : Bool) (input : List Char) :
    Option (Except (Nat × log_error) (reader_state × Option replay_state)) :=
  match read_log input with
  | none => none
  | some (Except.error err) => some (Except.error err)
  | some (Except.ok st) =>
    if verify_only then some (Except.ok (st, none))
    else if reads_unset_tick st then none
    else
      match replay st.insertions st.deletions with
      | Except.error err => some (Except.error (st.line, err))
      | Except.ok rs => some (Except.ok (st, some rs))

/-! ## The deletion-buffer multiqueue (deletion_buffer_mq.hpp) -/

namespace rsm

/-- `buffer_size`. -/
def buffer_size : Nat := 16

/-- `DeletionBufferConfiguration::C`: with `p` threads the multiqueue has `C * p`
queues. -/
def C : Nat := 4

/-- Modelled from the spec: the operations of `local_nonaddressable::heap` that the
multiqueue uses (`sequential/heap/heap.hpp` is not among the sources): the
default-constructed heap, `empty()`, `insert(value)` and `extract_top(retval)`, which
gives the top and the heap without it and has no result on an empty heap. -/
structure seq_heap (α H : Type) where
  init : H
  empty : H → Bool
  insert : H → α → H
  extract_top : H → Option (α × H)

/-- `struct guarded_heap` of `deletion_buffer_mq`: the lock word, the heap, the array
`buffer` of `buffer_size` values and the bit-fields `buffer_pos` and `buffer_end` (16 bits
each). -/
structure guarded_heap (α H : Type) where
  in_use : Bool
  heap : H
  buffer : List α
  buffer_pos : Nat
  buffer_end : Nat
deriving DecidableEq, Repr

/-- `guarded_heap::buffer_empty`. -/
def guarded_heap.buffer_empty {α H : Type} (g : guarded_heap α H) : Bool :=
  decide (g.buffer_pos = g.buffer_end)

/-- The loop of `refill_buffer`, `while (count < buffer_size && !heap.empty())
{ heap.extract_top(buffer[count]); ++count; }`, with `n = buffer_size - count` rounds
left; the result is `count`, the heap and the buffer at the end.  A write past the end of
the array has no result. -/
def refill_loop {α H : Type} (hp : seq_heap α H) :
    Nat → Nat → H → List α → Option (Nat × H × List α)
  | 0, count, h, buf => some (count, h, buf)
  | n + 1, count, h, buf =>
    if hp.empty h then some (count, h, buf)
    else
      match hp.extract_top h with
      | none => none
      | some (v, h1) =>
        if count < buf.length then refill_loop hp n (count + 1) h1 (buf.set count v)
        else none

/-- `guarded_heap::refill_buffer`. -/
def guarded_heap.refill_buffer {α H : Type} (hp : seq_heap α H) (g : guarded_heap α H) :
    Option (guarded_heap α H) :=
  (refill_loop hp buffer_size 0 g.heap g.buffer).map (fun r =>
    { g with heap := r.2.1, buffer := r.2.2, buffer_pos := 0, buffer_end := r.1 % 2 ^ 16 })

/-- The default-constructed guarded heap as the constructor of the multiqueue makes it:
the vector value-initialises its elements, so the lock word is free, the array holds
value-initialised values `dflt` and both bit-fields are zero. -/
def guarded_heap.init {α H : Type} (hp : seq_heap α H) (dflt : α) : guarded_heap α H :=
  { in_use := false, heap := hp.init, buffer := List.replicate buffer_size dflt,
    buffer_pos := 0, buffer_end := 0 }

/-- What one operation does, in order: a `try_lock` that succeeds or fails, an `unlock`,
a `heap.insert`, a call of `refill_buffer` and a read of `buffer[buffer_pos]`, the last two
with the values of `buffer_pos` and `buffer_end` at that moment. -/
inductive Event where
  | acquire (i : Nat)
  | fail (i : Nat)
  | release (i : Nat)
  | insert (i : Nat)
  | refill (i pos last : Nat)
  | read (i pos last : Nat)
deriving DecidableEq, Repr

/-- `class deletion_buffer_mq`: the queue array `heap_list_` and `num_queues_` (the
comparator `comp_` is a parameter of the operations). -/
structure deletion_buffer_mq (α H : Type) where
  heap_list_ : List (guarded_heap α H)
  num_queues_ : Nat
deriving DecidableEq, Repr

/-- The state of one running operation: the multiqueue, the draws the thread-local
generator will still deliver, and the events so far. -/
structure exec (α H : Type) where
  mq : deletion_buffer_mq α H
  rng : List Nat
  trace : List Event
deriving DecidableEq, Repr

/-- The outcome of `extract_top`: the returned flag, the value written to `retval`
(if any), and the state left behind. -/
structure extract_result (α H : Type) where
  ret : Bool
  retval : Option α
  mq : deletion_buffer_mq α H
  rng : List Nat
  trace : List Event
deriving DecidableEq, Repr

/-- The constructor `deletion_buffer_mq(num_threads)`: `heap_list_(num_threads * C)` builds
`num_threads * C` default guarded heaps, where the product of the two `unsigned int`
values is taken modulo `2 ^ 32`, and `num_queues_` is the size of the vector.  Its
`assert(num_threads >= 1)` is a precondition on the caller. -/
def deletion_buffer_mq.new {α H : Type} (hp : seq_heap α H) (dflt : α) (num_threads : Nat) :
    deletion_buffer_mq α H :=
  { heap_list_ := List.replicate ((num_threads * C) % 2 ^ 32) (guarded_heap.init hp dflt),
    num_queues_ :=
      (List.replicate ((num_threads * C) % 2 ^ 32) (guarded_heap.init hp dflt)).length }

/-- Replaces the guarded heap at `index`. -/
def deletion_buffer_mq.store {α H : Type} (mq : deletion_buffer_mq α H) (index : Nat)
    (g : guarded_heap α H) : deletion_buffer_mq α H :=
  { mq with heap_list_ := mq.heap_list_.set index g }

/-- `random_queue_index()`: `std::uniform_int_distribution` on `[0, num_queues_ - 1]`
applied to the thread-local generator; `r` is the next draw, reduced modulo
`num_queues_`. -/
abbrev random_queue_index {α H : Type} (mq : deletion_buffer_mq α H) (r : Nat) : Nat :=
  r % mq.num_queues_

/-- `try_lock(index)`: compare-and-set of `heap_list_[index].in_use` from false to
true. -/
def try_lock {α H : Type} (index : Nat) (e : exec α H) : Option (Bool × exec α H) :=
  match e.mq.heap_list_[index]? with
  | none => none
  | some g =>
    if g.in_use then some (false, { e with trace := e.trace ++ [Event.fail index] })
    else some (true, { e with mq := e.mq.store index { g with in_use := true },
                              trace := e.trace ++ [Event.acquire index] })

/-- `unlock(index)`: stores false to `heap_list_[index].in_use`. -/
def unlock {α H : Type} (index : Nat) (e : exec α H) : Option (exec α H) :=
  match e.mq.heap_list_[index]? with
  | none => none
  | some g => some { e with mq := e.mq.store index { g with in_use := false },
                            trace := e.trace ++ [Event.release index] }

/-- `do { index = random_queue_index(); } while (!try_lock(index));`. -/
def lock_loop {α H : Type} (mq : deletion_buffer_mq α H) :
    List Nat → List Event → Option (Nat × exec α H)
  | [], _ => none
  | r :: rs, tr =>
    match try_lock (random_queue_index mq r) { mq := mq, rng := rs, trace := tr } with
    | none => none
    | some (true, e1) => some (random_queue_index mq r, e1)
    | some (false, e1) => lock_loop mq rs e1.trace

section mq

variable {Key T H : Type} (hp : seq_heap (Key × T) H) (comp : Key → Key → Bool)

/-- `deletion_buffer_mq::push`. -/
def deletion_buffer_mq.push (mq : deletion_buffer_mq (Key × T) H) (value : Key × T)
    (rng : List Nat) : Option (exec (Key × T) H) :=
  match lock_loop mq rng [] with
  | none => none
  | some (index, e1) =>
    match e1.mq.heap_list_[index]? with
    | none => none
    | some g =>
      unlock index
        { e1 with mq := e1.mq.store index { g with heap := hp.insert g.heap value },
                  trace := e1.trace ++ [Event.insert index] }

/-- `if (heap_list_[index].buffer_empty()) { heap_list_[index].refill_buffer(); }`. -/
def refill_if_empty (index : Nat) (e : exec (Key × T) H) : Option (exec (Key × T) H) :=
  match e.mq.heap_list_[index]? with
  | none => none
  | some g =>
    if g.buffer_empty then
      (g.refill_buffer hp).map (fun g1 =>
        { e with mq := e.mq.store index g1,
                 trace := e.trace ++ [Event.refill index g.buffer_pos g.buffer_end] })
    else some e

/-- `retval = std::move(heap_list_[index].buffer[heap_list_[index].buffer_pos++]);
if (heap_list_[index].buffer_pos == buffer_size || heap_list_[index].buffer_empty())
{ heap_list_[index].refill_buffer(); }`: the result is the value read and the state.  A
read past the end of the array has no result. -/
def take (index : Nat) (e : exec (Key × T) H) : Option ((Key × T) × exec (Key × T) H) :=
  match e.mq.heap_list_[index]? with
  | none => none
  | some g =>
    match g.buffer[g.buffer_pos]? with
    | none => none
    | some v =>
      if (g.buffer_pos + 1) % 2 ^ 16 = buffer_size ∨
          (g.buffer_pos + 1) % 2 ^ 16 = g.buffer_end then
        (guarded_heap.refill_buffer hp { g with buffer_pos := (g.buffer_pos + 1) % 2 ^ 16 }).map
          (fun g1 =>
            (v, { e with mq := e.mq.store index g1,
                         trace := e.trace ++ [Event.read index g.buffer_pos g.buffer_end,
                           Event.refill index ((g.buffer_pos + 1) % 2 ^ 16) g.buffer_end] }))
      else
        some (v, { e with
          mq := e.mq.store index { g with buffer_pos := (g.buffer_pos + 1) % 2 ^ 16 },
          trace := e.trace ++ [Event.read index g.buffer_pos g.buffer_end] })

/-- What one round of the loop `for (count = 0; count < 2; ++count)` of `extract_top`
ends in: a `return`, the `break` (with the lock of the first queue held), or the next
round. -/
inductive round_exit (α H : Type) where
  | returned (r : extract_result α H)
  | broke (first_index : Nat) (e : exec α H)
  | next (first_index : Nat) (e : exec α H)

/-- One round of the loop `for (count = 0; count < 2; ++count)` of `extract_top`. -/
def extract_top_round (count : Nat) (e : exec (Key × T) H) :
    Option (round_exit (Key × T) H) :=
  (lock_loop e.mq e.rng e.trace).bind (fun (first_index, e1) =>
  (refill_if_empty hp first_index e1).bind (fun e2 =>
    match e2.mq.heap_list_[first_index]? with
    | none => none
    | some g =>
      if !g.buffer_empty then
        if count = 1 then
          (take hp first_index e2).bind (fun (v, e3) =>
            (unlock first_index e3).map (fun e4 =>
              round_exit.returned { ret := true, retval := some v, mq := e4.mq,
                                    rng := e4.rng, trace := e4.trace }))
        else some (round_exit.broke first_index e2)
      else
        (unlock first_index e2).map (fun e3 =>
          if count = 1 then
            round_exit.returned { ret := false, retval := none, mq := e3.mq, rng := e3.rng,
                                  trace := e3.trace }
          else round_exit.next first_index e3)))

/-- The loop `for (unsigned int count = 0; count < 2; ++count)` of `extract_top`, with
`n = 2 - count` rounds left: the result is what `extract_top` returns from inside the
loop, or `first_index` and the state with which control reaches the sampling of the
second queue. -/
def extract_top_loop :
    Nat → Nat → Nat → exec (Key × T) H →
      Option (extract_result (Key × T) H ⊕ (Nat × exec (Key × T) H))
  | 0, _, first_index, e => some (Sum.inr (first_index, e))
  | n + 1, count, _, e =>
    match extract_top_round hp count e with
    | none => none
    | some (round_exit.returned r) => some (Sum.inl r)
    | some (round_exit.broke first_index e1) => some (Sum.inr (first_index, e1))
    | some (round_exit.next first_index e1) => extract_top_loop n (count + 1) first_index e1

/-- The key `heap_list_[index].buffer[heap_list_[index].buffer_pos].first`. -/
def front_key (index : Nat) (e : exec (Key × T) H) : Option (Key × exec (Key × T) H) :=
  match e.mq.heap_list_[index]? with
  | none => none
  | some g =>
    (g.buffer[g.buffer_pos]?).map (fun v =>
      (v.1, { e with trace := e.trace ++ [Event.read index g.buffer_pos g.buffer_end] }))

/-- The part of `extract_top` after the loop, from `size_t second_index;` on. -/
def extract_top_second (first_index : Nat) (e : exec (Key × T) H) :
    Option (extract_result (Key × T) H) :=
  (lock_loop e.mq e.rng e.trace).bind (fun (second_index, e1) =>
  (refill_if_empty hp second_index e1).bind (fun e2 =>
    match e2.mq.heap_list_[second_index]? with
    | none => none
    | some g2 =>
      (if !g2.buffer_empty then
        (front_key second_index e2).bind (fun (k2, e3) =>
          (front_key first_index e3).map (fun (k1, e4) => (comp k2 k1, e4)))
       else some (false, e2)).bind (fun (smaller, e4) =>
        if smaller then
          (unlock first_index e4).bind (fun e5 =>
          (take hp second_index e5).bind (fun (v, e6) =>
          (unlock second_index e6).map (fun e7 =>
            { ret := true, retval := some v, mq := e7.mq, rng := e7.rng,
              trace := e7.trace })))
        else
          (unlock second_index e4).bind (fun e5 =>
          (take hp first_index e5).bind (fun (v, e6) =>
          (unlock first_index e6).map (fun e7 =>
            { ret := true, retval := some v, mq := e7.mq, rng := e7.rng,
              trace := e7.trace }))))))

/-- `deletion_buffer_mq::extract_top`; `first_index` is not initialised before the
loop. -/
def deletion_buffer_mq.extract_top (mq : deletion_buffer_mq (Key × T) H) (rng : List Nat) :
    Option (extract_result (Key × T) H) :=
  match extract_top_loop hp 2 0 0 { mq := mq, rng := rng, trace := [] } with
  | none => none
  | some (Sum.inl r) => some r
  | some (Sum.inr (first_index, e)) => extract_top_second hp comp first_index e

/-- One call of the single-threaded interface, with the draws its thread-local generator
delivers during the call. -/
inductive Op (α : Type) where
  | push (value : α) (rng : List Nat)
  | extract_top (rng : List Nat)

/-- Runs a sequence of calls one after the other; the result is the final multiqueue and
the values of the successful extractions, in order. -/
def run (mq : deletion_buffer_mq (Key × T) H) :
    List (Op (Key × T)) → Option (deletion_buffer_mq (Key × T) H × List (Key × T))
  | [] => some (mq, [])
  | Op.push v rng :: ops =>
    (mq.push hp v rng).bind (fun e => run e.mq ops)
  | Op.extract_top rng :: ops =>
    (mq.extract_top hp comp rng).bind (fun r =>
      (run r.mq ops).map (fun p => (p.1, r.retval.toList ++ p.2)))

end mq

end rsm

/-! ## Specification vocabulary -/

/-- A strict weak ordering (the requirement of the standard library on comparators), for a
Boolean comparator: irreflexive, transitive, and negatively transitive. -/
structure strict_weak_order {α : Type} (comp : α → α → Bool) : Prop where
  irrefl : ∀ a, comp a a = false
  trans : ∀ a b c, comp a b = true → comp b c = true → comp a c = true
  neg_trans : ∀ a b c, comp a b = false → comp b c = false → comp a c = false

/-- The multiset of values resident in a guarded queue: deletion buffer, insertion buffer
and heap. -/
def guarded_heap.content {α H : Type} {hp : merge_heap α H} {comp : α → α → Bool} {n : Nat}
    (law : heap_contract comp n hp) (g : guarded_heap α H) : Multiset α :=
  (g.deletion_buffer : Multiset α) + (g.insertion_buffer : Multiset α) + law.vals g.heap

/-- The invariant of a guarded queue: both buffers within capacity, the heap in
between-node order, and the deletion buffer a sorted prefix of the whole content. -/
structure guarded_heap.inv {α H : Type} {hp : merge_heap α H} {comp : α → α → Bool}
    (cfg : Configuration) (law : heap_contract comp cfg.NodeSize hp)
    (g : guarded_heap α H) : Prop where
  ins_le : g.insertion_buffer.length ≤ InsertionBufferSize cfg
  del_le : g.deletion_buffer.length ≤ DeletionBufferSize cfg
  heap_inv : law.Inv g.heap
  del_sorted : ascending comp g.deletion_buffer
  del_lower : ∀ d ∈ g.deletion_buffer, ∀ x,
    (x ∈ g.insertion_buffer ∨ x ∈ law.vals g.heap) → comp x d = false

/-- Guarded-queue states reachable from the default-constructed queue by `push`,
`refill_deletion_buffer` (called with an empty deletion buffer) and taking the front. -/
inductive guarded_heap.reachable {α H : Type} (hp : merge_heap α H) (cfg : Configuration)
    (comp : α → α → Bool) : guarded_heap α H → Prop where
  | init : guarded_heap.reachable hp cfg comp (guarded_heap.init hp)
  | push {g g1 : guarded_heap α H} (v : α) : guarded_heap.reachable hp cfg comp g →
      g.push hp cfg comp v = some g1 → guarded_heap.reachable hp cfg comp g1
  | refill {g g1 : guarded_heap α H} : guarded_heap.reachable hp cfg comp g →
      g.deletion_buffer = [] → refill_deletion_buffer hp cfg comp g = some g1 →
      guarded_heap.reachable hp cfg comp g1
  | pop_front {g g1 : guarded_heap α H} {v : α} : guarded_heap.reachable hp cfg comp g →
      g.pop_front = some (v, g1) → guarded_heap.reachable hp cfg comp g1

/-- Pushes the values of a list, first to last, into a guarded queue. -/
def push_all {α H : Type} (hp : merge_heap α H) (cfg : Configuration) (comp : α → α → Bool) :
    guarded_heap α H → List α → Option (guarded_heap α H)
  | g, [] => some g
  | g, v :: vs => (g.push hp cfg comp v).bind (fun g1 => push_all hp cfg comp g1 vs)

/-- Extracts from a guarded queue in isolation until it is empty: refill the deletion
buffer when it is empty; stop if it is still empty, else take its front and go on.
The result is the list of extracted values and the queue left. -/
def drain {α H : Type} (hp : merge_heap α H) (cfg : Configuration) (comp : α → α → Bool) :
    Nat → guarded_heap α H → Option (List α × guarded_heap α H)
  | 0, _ => none
  | fuel + 1, g =>
    (refill_if_empty hp cfg comp g).bind (fun g1 =>
      match g1.pop_front with
      | none => some ([], g1)
      | some (v, g2) => (drain hp cfg comp fuel g2).map (fun r => (v :: r.1, r.2)))

/-- The multiset of values resident in the multiqueue: the union over all guarded queues. -/
def numa_aware_merge_mq.content {α H : Type} {hp : merge_heap α H} {comp : α → α → Bool}
    {n : Nat} (law : heap_contract comp n hp) (mq : numa_aware_merge_mq α H) : Multiset α :=
  (mq.heap_list_.map (fun g => g.content law)).sum

/-- The state of the multiqueue between two calls of a single-threaded run: `num_queues_`
is the length of the queue array, every lock word is free, and every guarded queue
satisfies its invariant. -/
structure numa_aware_merge_mq.inv {α H : Type} {hp : merge_heap α H} {comp : α → α → Bool}
    (cfg : Configuration) (law : heap_contract comp cfg.NodeSize hp)
    (mq : numa_aware_merge_mq α H) : Prop where
  size_eq : mq.num_queues_ = mq.heap_list_.length
  free : ∀ g ∈ mq.heap_list_, g.in_use = false
  queues : ∀ g ∈ mq.heap_list_, g.inv cfg law

/-- The queues whose lock an operation acquired, in order. -/
def acquired : List Event → List Nat
  | [] => []
  | Event.acquire i :: es => i :: acquired es
  | _ :: es => acquired es

/-- A call is supplied with enough random draws to return, on a multiqueue for `P` threads:
a push has at least one draw; an extract_top has a valid handle id, one draw for the local
offset and, among the draws for the global probing, two that name different queues (so
one of them is not the first queue). -/
def Op.supplied {α : Type} (cfg : Configuration) (P : Nat) : Op α → Prop
  | Op.push _ rng => rng ≠ []
  | Op.extract_top id rng =>
    id < P ∧ ∃ r0 r1 r2 rs, rng = r0 :: r1 :: r2 :: rs ∧
      r1 % (cfg.C * P) ≠ r2 % (cfg.C * P)

/-- A guarded queue holding nothing: both buffers and the heap are empty. -/
def guarded_heap.is_empty {α H : Type} (hp : merge_heap α H) (g : guarded_heap α H) : Prop :=
  g.deletion_buffer = [] ∧ g.insertion_buffer = [] ∧ hp.empty g.heap = true

/-- The reference node heap meets the heap contract: the invariant is that the list is
ascending and its length a multiple of `NodeSize`; the values are those of the list. -/
def sorted_block_heap_contract {α : Type} {comp : α → α → Bool} {NodeSize : Nat}
    (hswo : strict_weak_order comp) :
    heap_contract comp NodeSize (sorted_block_heap comp NodeSize) where
  Inv := fun h => ascending comp h ∧ NodeSize ∣ h.length
  vals := fun h => (h : Multiset α)
  inv_init := ⟨List.Pairwise.nil, by simp [sorted_block_heap]⟩
  vals_init := rfl
  empty_iff := by
    intro h _
    cases h <;> simp [sorted_block_heap]
  insert_inv := by
    intro h blk hh hb _
    haveI : IsTotal α (fun a b => comp b a = false) :=
      ⟨fun a b => by
        cases hba : comp b a with
        | false => exact Or.inl rfl
        | true =>
          cases hab : comp a b with
          | false => exact Or.inr rfl
          | true =>
            have := hswo.trans a b a hab hba
            rw [hswo.irrefl a] at this
            exact absurd this (by simp)⟩
    haveI : IsTrans α (fun a b => comp b a = false) :=
      ⟨fun a b c hab hbc => hswo.neg_trans c b a hbc hab⟩
    refine ⟨List.sorted_insertionSort (fun a b => comp b a = false) (h ++ blk), ?_⟩
    show NodeSize ∣ (List.insertionSort (fun a b => comp b a = false) (h ++ blk)).length
    rw [List.length_insertionSort, List.length_append, hb]
    exact Dvd.dvd.add hh.2 (dvd_refl _)
  insert_vals := by
    intro h blk _ _ _
    show ((List.insertionSort (fun a b => comp b a = false) (h ++ blk) : List α) : Multiset α) =
      (h : Multiset α) + (blk : Multiset α)
    rw [Multiset.coe_add]
    exact Multiset.coe_eq_coe.mpr (List.perm_insertionSort _ _)
  top_length := by
    intro h hh hne
    show (h.take NodeSize).length = NodeSize
    have hpos : 0 < h.length := by
      cases h with
      | nil => simp [sorted_block_heap] at hne
      | cons a l => simp
    have := Nat.le_of_dvd hpos hh.2
    rw [List.length_take]
    omega
  top_sorted := by
    intro h hh _
    exact List.Pairwise.sublist (List.take_sublist _ _) hh.1
  pop_inv := by
    intro h hh _
    refine ⟨List.Pairwise.sublist (List.drop_sublist _ _) hh.1, ?_⟩
    show NodeSize ∣ (h.drop NodeSize).length
    rw [List.length_drop]
    exact Nat.dvd_sub' hh.2 (dvd_refl _)
  pop_vals := by
    intro h _ _
    show (h : Multiset α) = ((h.take NodeSize : List α) : Multiset α) +
      ((h.drop NodeSize : List α) : Multiset α)
    rw [Multiset.coe_add, List.take_append_drop]
  top_le := by
    intro h hh _ x hx y hy
    have hsplit : ascending comp (h.take NodeSize ++ h.drop NodeSize) := by
      rw [List.take_append_drop]; exact hh.1
    exact (List.pairwise_append.mp hsplit).2.2 x hx y (Multiset.mem_coe.mp hy)

/-- A call is served by queue `q` on a multiqueue for `P` threads whose other queues are
empty: the first draw of a push names `q`; the first queue of an extract_top is `q` and a
later draw names another queue, or the first queue is another one and the next draw
names `q`. -/
def Op.served_by {α : Type} (cfg : Configuration) (P q : Nat) : Op α → Prop
  | Op.push _ rng => ∃ r rs, rng = r :: rs ∧ r % (cfg.C * P) = q
  | Op.extract_top id rng =>
    id < P ∧ ∃ r0 rs, rng = r0 :: rs ∧
      ((cfg.C * id % 2 ^ 32 + r0 % cfg.C = q ∧ ∃ r1 ∈ rs, r1 % (cfg.C * P) ≠ q) ∨
        (cfg.C * id % 2 ^ 32 + r0 % cfg.C ≠ q ∧ ∃ r1 rs1, rs = r1 :: rs1 ∧ r1 % (cfg.C * P) = q))

/-- A multiqueue for `P` threads between two calls of a single-threaded run in which
queue `q` is in state `g` and every other queue is empty. -/
structure numa_aware_merge_mq.only_loaded {α H : Type} {hp : merge_heap α H}
    {comp : α → α → Bool} (cfg : Configuration) (law : heap_contract comp cfg.NodeSize hp)
    (P q : Nat) (g : guarded_heap α H) (mq : numa_aware_merge_mq α H) : Prop where
  inv : mq.inv cfg law
  length_eq : mq.heap_list_.length = cfg.C * P
  at_q : mq.heap_list_[q]? = some g
  others : ∀ k g1, k ≠ q → mq.heap_list_[k]? = some g1 → g1.is_empty hp

/-- The lock word of the queue at index `k`, if there is such a queue. -/
def lock_word {α H : Type} (mq : numa_aware_merge_mq α H) (k : Nat) : Option Bool :=
  (mq.heap_list_[k]?).map (fun g => g.in_use)

/-- The indices the local probing loop of `extract_top` tries, in the order it tries them:
`C * id + ((start_index + i) % C)` for `i = 0, ..., C - 1`, the product modulo
`2 ^ 32`. -/
def home_walk (cfg : Configuration) (id start : Nat) : List Nat :=
  (List.range cfg.C).map (fun i => cfg.C * id % 2 ^ 32 + (start + i) % cfg.C)

/-- The queue an event refers to. -/
def Event.index : Event → Nat
  | Event.acquire i => i
  | Event.fail i => i
  | Event.release i => i
  | Event.access i => i

/-- The lock words of all queues, in the order of the queue array. -/
def lock_words {α H : Type} (mq : numa_aware_merge_mq α H) : List Bool :=
  mq.heap_list_.map (fun g => g.in_use)

/-- The lock words after a sequence of events: a successful `try_lock` sets the word of its
queue, an `unlock` clears it, a failed `try_lock` and an access leave all words alone. -/
def apply_events : List Bool → List Event → List Bool
  | w, [] => w
  | w, Event.acquire i :: es => apply_events (w.set i true) es
  | w, Event.release i :: es => apply_events (w.set i false) es
  | w, Event.fail _ :: es => apply_events w es
  | w, Event.access _ :: es => apply_events w es

/-- The state `e1` is reached from `e` by recorded steps only: the trace grew by events
that name existing queues, the lock words changed as these events say, and the queue
array kept its length. -/
def exec.follows {α H : Type} (e e1 : exec α H) : Prop :=
  ∃ evs, e1.trace = e.trace ++ evs ∧
    lock_words e1.mq = apply_events (lock_words e.mq) evs ∧
    (∀ ev ∈ evs, ev.index < e.mq.heap_list_.length) ∧
    e1.mq.heap_list_.length = e.mq.heap_list_.length

/-- The node heap `hp` together with a log of the blocks handed to `insert`, in the order
of the calls; the other operations pass through to `hp` and leave the log alone. -/
def recording_heap {α H : Type} (hp : merge_heap α H) : merge_heap α (H × List (List α)) where
  init := (hp.init, [])
  empty := fun h => hp.empty h.1
  top_node := fun h => hp.top_node h.1
  pop_node := fun h => (hp.pop_node h.1, h.2)
  insert := fun h blk => (hp.insert h.1 blk, h.2 ++ [blk])

/-- The guarded queue without the log of its recording heap. -/
def guarded_heap.forget {α H : Type} (g : guarded_heap α (H × List (List α))) :
    guarded_heap α H :=
  { in_use := g.in_use, insertion_buffer := g.insertion_buffer,
    deletion_buffer := g.deletion_buffer, heap := g.heap.1 }

/-- The replay map is in the order of `operator<`: every entry is smaller than every later
one. -/
def sorted_map (m : replay_map) : Prop :=
  (m.map Prod.fst).Pairwise (fun a b => a.lt b = true)

/-- The number a run of decimal digits denotes. -/
def decimal (ds : List Char) : Nat :=
  ds.foldl (fun n c => 10 * n + (c.toNat - 48)) 0

/-- One numeric field of a record as it stands in the log: whitespace `ws` (possibly none)
followed by a non-empty run `ds` of decimal digits whose number fits `bits` bits. -/
structure is_field (bits : Nat) (ws ds : List Char) : Prop where
  blank : ∀ c ∈ ws, isspace c = true
  digits : ∀ c ∈ ds, isdigit c = true
  nonempty : ds ≠ []
  fits : decimal ds < 2 ^ bits

/-- The input does not go on with a digit: a number that ends before it is complete. -/
def ends_number (rest : List Char) : Prop :=
  ∀ c, rest.head? = some c → isdigit c = false

/-- The state of the merge loop of the refill between two rounds: the rest of the top node
still ends in the last value `M` of the node, no value left in the range of the
insertion buffer is larger than `M`, the rest of the node is ascending and the
deletion buffer has room for what is left. -/
def merge_state_ok {α : Type} (comp : α → α → Bool) (cap : Nat) (M : α)
    (small node d : List α) : Prop :=
  node.getLast? = some M ∧ (∀ s ∈ small, comp M s = false) ∧ ascending comp node ∧
    d.length + small.length + node.length ≤ cap

/-- The first half of `numa_aware_merge_mq::extract_top`, up to the point where the second
queue is sampled (`size_t second_index; do { ... } while (!try_lock(second_index))`): the
result is `first_index`, the deletion buffer read from the first queue after its
refill-if-empty step (`first_empty` is `d1.isEmpty`) and the running state, in which the
first queue has been released when it was found empty. -/
def extract_top_first {Key T H : Type} (hp : merge_heap (Key × T) H) (cfg : Configuration)
    (comp : Key → Key → Bool) (mq : numa_aware_merge_mq (Key × T) H) (id : Nat)
    (rng : List Nat) : Option (Nat × List (Key × T) × exec (Key × T) H) :=
  match rng with
  | [] => none
  | r0 :: rs =>
    match probe_first cfg id (random_local_queue_index cfg r0) cfg.C 0 none
        { mq := mq, rng := rs, trace := [] } with
    | none => none
    | some (none, _) => none
    | some (some first_index, e1) =>
      (on_queue first_index (refill_if_empty hp cfg (value_comparator comp)) e1).bind (fun e2 =>
      (read_deletion_buffer first_index e2).bind (fun (d1, e3) =>
      (if d1.isEmpty then unlock first_index e3 else some e3).map (fun e4 =>
        (first_index, d1, e4))))

/-- One record of a log: its tag and its fields. -/
abbrev log_record : Type := Char × log_entry

/-- The insertion records of thread `t`, in the order of the log. -/
def insertions_of (recs : List log_record) (t : Nat) : List log_entry :=
  (recs.filter (fun r => decide (r.1 = 'i' ∧ r.2.thread_id = t))).map Prod.snd

/-- The consistency of a log that the specification ascribes to an accepted log: all
insertion records precede all deletion and failed records; the insertions of each thread
carry the values 0, 1, 2, ... in order, with `thread_id = insert_thread_id` and
non-decreasing ticks; every deletion refers to an insertion of the log with the same key
and a tick not larger than its own; no insertion is referred to by two deletions. -/
structure log_consistent (recs : List log_record) : Prop where
  order : recs.Pairwise (fun a b => b.1 = 'i' → a.1 = 'i')
  values : ∀ (t k : Nat) (e : log_entry), (insertions_of recs t)[k]? = some e →
    e.value = k ∧ e.thread_id = t ∧ e.insert_thread_id = t
  ticks : ∀ t, (insertions_of recs t).Pairwise (fun a b => a.tick ≤ b.tick)
  refers : ∀ d ∈ recs, d.1 = 'd' →
    ∃ x, (insertions_of recs d.2.insert_thread_id)[d.2.value]? = some x ∧
      x.key = d.2.key ∧ x.tick ≤ d.2.tick
  once : (recs.filter (fun r => decide (r.1 = 'd'))).Pairwise
    (fun a b => ¬ (a.2.insert_thread_id = b.2.insert_thread_id ∧ a.2.value = b.2.value))

/-- The state of the reading loop after the records `recs`, for `n` threads:
`insertions[t]` holds the insertion records of thread `t` (with the flag `deleted` set on
those a deletion has referred to), `deletions` the deletion and failed records. -/
structure reader_inv (n : Nat) (st : reader_state) (recs : List log_record) : Prop where
  len : st.insertions.length = n
  ins : ∀ t, (st.insertions.getD t []).map (fun e => { e with deleted := false }) =
    insertions_of recs t
  dels : st.deletions = (recs.filter (fun r => decide (r.1 ≠ 'i'))).map Prod.snd
  deleting : st.deleting = false → ∀ r ∈ recs, r.1 = 'i'
  tags : ∀ r ∈ recs, (r.1 = 'i' ∨ r.1 = 'd' ∨ r.1 = 'f') ∧ (r.2.failed = true ↔ r.1 = 'f')
  bound : ∀ r ∈ recs, r.2.thread_id < n ∧ r.2.value < 2 ^ 32 ∧ r.2.deleted = false
  vals : ∀ (t k : Nat) (e : log_entry), (st.insertions.getD t [])[k]? = some e →
    e.value = k ∧ e.thread_id = t ∧ e.insert_thread_id = t
  asc : ∀ t, (st.insertions.getD t []).Pairwise (fun a b => a.tick ≤ b.tick)
  flags : ∀ (t k : Nat) (e : log_entry), (st.insertions.getD t [])[k]? = some e →
    (e.deleted = true ↔ ∃ d ∈ recs, d.1 = 'd' ∧ d.2.insert_thread_id = t ∧ d.2.value = k)
  refs : ∀ d ∈ recs, d.1 = 'd' →
    ∃ x, (st.insertions.getD d.2.insert_thread_id [])[d.2.value]? = some x ∧
      x.key = d.2.key ∧ x.tick ≤ d.2.tick
  order : recs.Pairwise (fun a b => b.1 = 'i' → a.1 = 'i')
  once : (recs.filter (fun r => decide (r.1 = 'd'))).Pairwise
    (fun a b => ¬ (a.2.insert_thread_id = b.2.insert_thread_id ∧ a.2.value = b.2.value))

/-- The keys of the replay heap, in order. -/
def replay_keys (m : replay_map) : List heap_entry :=
  m.map Prod.fst

/-- Two deletions that are not failed do not refer to the same insertion. -/
def distinct_refs (a b : log_entry) : Prop :=
  a.failed = false → b.failed = false →
    ¬ (a.insert_thread_id = b.insert_thread_id ∧ a.value = b.value)

/-- What the replay uses of an accepted log: per thread the insertion at index `k` has a
number below `2 ^ 32` and the ticks do not decrease; every deletion that is not failed
refers to an insertion with its key, and no two of them refer to the same insertion. -/
structure verified_log (ins : List (List log_entry)) (dels : List log_entry) : Prop where
  small : ∀ (t k : Nat) (e : log_entry), (ins.getD t [])[k]? = some e → k < 2 ^ 32
  asc : ∀ t, (ins.getD t []).Pairwise (fun a b => a.tick ≤ b.tick)
  refs : ∀ d ∈ dels, d.failed = false →
    ∃ x, (ins.getD d.insert_thread_id [])[d.value]? = some x ∧ x.key = d.key ∧
      x.tick ≤ d.tick
  once : dels.Pairwise distinct_refs

/-- The state of the replay before the deletions `ds`, for the success of the replay: the
entry of every deletion of `ds` whose insertion has been replayed is in the heap. -/
def replay_ready (ins : List (List log_entry)) (rs : replay_state)
    (ds : List log_entry) : Prop :=
  rs.insert_index.length = ins.length ∧
  ∀ d ∈ ds, d.failed = false → d.value < rs.insert_index.getD d.insert_thread_id 0 →
    (⟨d.key, d.insert_thread_id, d.value⟩ : heap_entry) ∈ replay_keys rs.replay_heap

/-- The state of the replay before the deletions `ds`, for its failure: every entry of the
heap stands for an insertion that has been replayed, no index is past the end of its
thread, and every insertion replayed has a tick smaller than those of `ds`. -/
def replay_bounded (ins : List (List log_entry)) (rs : replay_state)
    (ds : List log_entry) : Prop :=
  rs.insert_index.length = ins.length ∧
  (∀ k ∈ replay_keys rs.replay_heap,
    ∃ j, k.elem_id = j % 2 ^ 32 ∧ j < rs.insert_index.getD k.ins_thread_id 0) ∧
  (∀ i, rs.insert_index.getD i 0 ≤ (ins.getD i []).length) ∧
  (∀ (i j : Nat) (e : log_entry), (ins.getD i [])[j]? = some e →
    j < rs.insert_index.getD i 0 → ∀ d ∈ ds, e.tick < d.tick)

namespace rsm

/-- Modelled from the spec: the contract of the sequential heap, as far as the values it
holds go (`sequential/heap/heap.hpp` is not among the sources): `vals` is the multiset of
resident values; `insert` adds its value; `extract_top` on a heap that is not empty
removes one of them. -/
structure seq_contract {α H : Type} (hp : seq_heap α H) where
  vals : H → Multiset α
  vals_init : vals hp.init = 0
  empty_iff : ∀ h, hp.empty h = true ↔ vals h = 0
  insert_vals : ∀ h v, vals (hp.insert h v) = v ::ₘ vals h
  extract_top_some : ∀ h, hp.empty h = false →
    ∃ v h1, hp.extract_top h = some (v, h1) ∧ vals h = v ::ₘ vals h1

/-- Modelled from the spec: a reference heap meeting the contract: the values in
ascending order of their keys, a new value behind those with the same key. -/
def list_heap {Key T : Type} (comp : Key → Key → Bool) :
    seq_heap (Key × T) (List (Key × T)) where
  init := []
  empty := fun h => h.isEmpty
  insert := fun h v => h.takeWhile (fun x => !comp v.1 x.1) ++ v :: h.dropWhile (fun x => !comp v.1 x.1)
  extract_top := fun h =>
    match h with
    | [] => none
    | v :: rest => some (v, rest)

/-- The bounds of the buffer of a guarded heap: the array has `buffer_size` places and
`buffer_pos ≤ buffer_end ≤ buffer_size`. -/
structure guarded_heap.bounded {α H : Type} (g : guarded_heap α H) : Prop where
  size : g.buffer.length = buffer_size
  pos_le : g.buffer_pos ≤ g.buffer_end
  end_le : g.buffer_end ≤ buffer_size

/-- The values of the buffer not yet returned: the places from `buffer_pos` up to
`buffer_end`. -/
def guarded_heap.resident {α H : Type} (g : guarded_heap α H) : List α :=
  (g.buffer.drop g.buffer_pos).take (g.buffer_end - g.buffer_pos)

/-- The multiset of values resident in a guarded heap: heap and buffer. -/
def guarded_heap.content {α H : Type} {hp : seq_heap α H} (law : seq_contract hp)
    (g : guarded_heap α H) : Multiset α :=
  law.vals g.heap + (g.resident : Multiset α)

/-- The multiset of values resident in the multiqueue. -/
def deletion_buffer_mq.content {α H : Type} {hp : seq_heap α H} (law : seq_contract hp)
    (mq : deletion_buffer_mq α H) : Multiset α :=
  (mq.heap_list_.map (fun g => g.content law)).sum

/-- The invariant of the multiqueue: `num_queues_` is the number of queues and every
buffer is within its bounds. -/
structure deletion_buffer_mq.inv {α H : Type} (mq : deletion_buffer_mq α H) : Prop where
  num : mq.num_queues_ = mq.heap_list_.length
  bounded : ∀ g ∈ mq.heap_list_, g.bounded

/-- The locks an operation holds after the events of a trace, from the locks `held`
before. -/
def locks_held : List Nat → List Event → List Nat
  | held, [] => held
  | held, Event.acquire i :: es => locks_held (i :: held) es
  | held, Event.release i :: es => locks_held (held.erase i) es
  | held, _ :: es => locks_held held es

/-- The values pushed by a sequence of calls. -/
def pushed {α : Type} : List (Op α) → Multiset α
  | [] => 0
  | Op.push v _ :: ops => v ::ₘ pushed ops
  | Op.extract_top _ :: ops => pushed ops

end rsm

namespace rsm

/-- What is claimed of the events of `extract_top`: a read of `buffer[buffer_pos]` has
`buffer_pos < buffer_end ≤ buffer_size`, and `refill_buffer` is called on an empty buffer
(`buffer_pos == buffer_end`). -/
def Event.ok : Event → Prop
  | Event.read _ pos last => pos < last ∧ last ≤ buffer_size
  | Event.refill _ pos last => pos = last
  | _ => True

/-- An event that leaves the set of held locks as it is. -/
def Event.neutral : Event → Prop
  | Event.acquire _ => False
  | Event.release _ => False
  | _ => True

/-- A part of an operation, from the state `e` to the state `e1`, has kept the invariant
of the multiqueue, has added only events that are `ok`, and has kept the values: the
values `inp` together with those resident before are the values `out` together with those
resident after. -/
structure step_ok {Key T H : Type} (hp : seq_heap (Key × T) H)
    (e e1 : exec (Key × T) H) (inp out : Multiset (Key × T)) : Prop where
  inv : e1.mq.inv
  events : ∃ new, e1.trace = e.trace ++ new ∧ ∀ ev ∈ new, ev.ok
  content : ∀ law : seq_contract hp,
    inp + e.mq.content law = out + e1.mq.content law

end rsm

/-! ## Concrete instances -/

/-- `std::less<unsigned>` on natural-number keys. -/
def std_less (a b : Nat) : Bool := decide (a < b)

/-- `std::greater<unsigned>` on natural-number keys. -/
def std_greater (a b : Nat) : Bool := decide (b < a)

/-- A small configuration: `C = 4`, `NodeSize = 2`. -/
def small_cfg : Configuration := { C := 4, NodeSize := 2 }

/-- Whether a list is ascending can be computed. -/
instance ascending.decidable {α : Type} (comp : α → α → Bool) (l : List α) :
    Decidable (ascending comp l) :=
  inferInstanceAs (Decidable (l.Pairwise (fun a b => comp b a = false)))

/-- The reference node heap on natural numbers under `std_less`, with its contract. -/
def std_less_contract :
    heap_contract std_less small_cfg.NodeSize (sorted_block_heap std_less small_cfg.NodeSize) :=
  sorted_block_heap_contract
    { irrefl := by intro a; simp [std_less]
      trans := by intro a b c; simp only [std_less, decide_eq_true_eq]; omega
      neg_trans := by intro a b c; simp only [std_less, decide_eq_false_iff_not]; omega }

/-- The reference node heap on natural numbers under `std_greater`, with its contract. -/
def std_greater_contract :
    heap_contract std_greater small_cfg.NodeSize
      (sorted_block_heap std_greater small_cfg.NodeSize) :=
  sorted_block_heap_contract
    { irrefl := by intro a; simp [std_greater]
      trans := by intro a b c; simp only [std_greater, decide_eq_true_eq]; omega
      neg_trans := by intro a b c; simp only [std_greater, decide_eq_false_iff_not]; omega }

/-- The reference node heap on key-value pairs compared by `std_less` on the key, with its
contract. -/
def pair_less_contract :
    heap_contract (@value_comparator Nat Nat std_less) small_cfg.NodeSize
      (sorted_block_heap (@value_comparator Nat Nat std_less) small_cfg.NodeSize) :=
  sorted_block_heap_contract
    { irrefl := by intro a; simp [std_less, value_comparator]
      trans := by
        intro a b c; simp only [value_comparator, std_less, decide_eq_true_eq]; omega
      neg_trans := by
        intro a b c; simp only [value_comparator, std_less, decide_eq_false_iff_not]; omega }

/-- A configuration with wider nodes: `C = 4`, `NodeSize = 4`. -/
def wide_cfg : Configuration := { C := 4, NodeSize := 4 }

/-- An unlocked guarded queue over the reference heap on natural numbers, given by its
insertion buffer, deletion buffer and heap. -/
def sample_queue (ib db h : List Nat) : guarded_heap Nat (List Nat) :=
  { in_use := false, insertion_buffer := ib, deletion_buffer := db, heap := h }

/-- The reference node heap with nodes of four natural numbers under `std_less`, with its
contract. -/
def wide_less_contract :
    heap_contract std_less wide_cfg.NodeSize (sorted_block_heap std_less wide_cfg.NodeSize) :=
  sorted_block_heap_contract
    { irrefl := by intro a; simp [std_less]
      trans := by intro a b c; simp only [std_less, decide_eq_true_eq]; omega
      neg_trans := by intro a b c; simp only [std_less, decide_eq_false_iff_not]; omega }

/-- The lock discipline, checked along the events of one operation: `held` lists the
queues whose lock the operation holds.  A `try_lock` that succeeds on a queue already
held, an `unlock` of a queue not held and an access to a queue not held break it (no
result); otherwise the result is the list of locks held at the end. -/
def lock_discipline : List Nat → List Event → Option (List Nat)
  | held, [] => some held
  | held, Event.acquire i :: es =>
    if i ∈ held then none else lock_discipline (i :: held) es
  | held, Event.fail _ :: es => lock_discipline held es
  | held, Event.release i :: es =>
    if i ∈ held then lock_discipline (held.erase i) es else none
  | held, Event.access i :: es =>
    if i ∈ held then lock_discipline held es else none

/-- A running operation has kept the lock discipline so far and holds exactly the locks
`held`, each of which is set in the multiqueue. -/
structure lock_ok {α H : Type} (held : List Nat) (e : exec α H) : Prop where
  trace_ok : lock_discipline [] e.trace = some held
  nodup : held.Nodup
  locked : ∀ k ∈ held, ∃ g, e.mq.heap_list_[k]? = some g ∧ g.in_use = true

/-- A multiqueue for one thread (`C = 4`) over the reference heap on key-value pairs:
queue 1 has the value `(3, 30)` in its deletion buffer, queue 2 the value `(1, 10)` in its
insertion buffer, queue 3 is locked by another thread. -/
def sample_mq : numa_aware_merge_mq (Nat × Nat) (List (Nat × Nat)) :=
  { heap_list_ :=
      [{ in_use := false, insertion_buffer := [], deletion_buffer := [], heap := [] },
       { in_use := false, insertion_buffer := [], deletion_buffer := [(3, 30)], heap := [] },
       { in_use := false, insertion_buffer := [(1, 10)], deletion_buffer := [], heap := [] },
       { in_use := true, insertion_buffer := [], deletion_buffer := [], heap := [] }],
    num_queues_ := 4 }

/-- A configuration with only two local queues per thread: `C = 2`, `NodeSize = 2`. -/
def narrow_cfg : Configuration := { C := 2, NodeSize := 2 }

/-- A multiqueue for one thread with `C = 2` whose two queues are both locked by other
threads. -/
def locked_mq : numa_aware_merge_mq (Nat × Nat) (List (Nat × Nat)) :=
  { heap_list_ :=
      [{ in_use := true, insertion_buffer := [], deletion_buffer := [], heap := [] },
       { in_use := true, insertion_buffer := [], deletion_buffer := [], heap := [] }],
    num_queues_ := 2 }

/-- The reference node heap for pairs of numbers compared by key, with `NodeSize = 2`. -/
def pair_heap : merge_heap (Nat × Nat) (List (Nat × Nat)) :=
  sorted_block_heap (@value_comparator Nat Nat std_less) 2

/-- A new multiqueue for one thread: four empty queues, all lock words free. -/
def empty_mq : numa_aware_merge_mq (Nat × Nat) (List (Nat × Nat)) :=
  numa_aware_merge_mq.new pair_heap small_cfg 1

/-- A guarded queue over the recording reference heap with a full insertion buffer
(`NodeSize = 2`), two values in the deletion buffer, and an empty heap and log. -/
def full_queue : guarded_heap Nat (List Nat × List (List Nat)) :=
  { in_use := false, insertion_buffer := [5, 3], deletion_buffer := [1, 2], heap := ([], []) }

/-- A log of two threads: four insertions, then a deletion, a failed deletion and a
deletion. -/
def sample_log : List Char :=
  ("2 i 0 1 7 0 0 i 0 2 7 0 1 i 1 3 3 1 0 i 1 4 9 1 1 " ++
    "d 0 9 7 0 1 f 1 10 d 1 11 9 1 1").toList

/-- The insertions of `sample_log`, per thread. -/
def sample_insertions : List (List log_entry) :=
  [[{ thread_id := 0, tick := 1, failed := false, key := 7, insert_thread_id := 0,
      value := 0, deleted := false },
    { thread_id := 0, tick := 2, failed := false, key := 7, insert_thread_id := 0,
      value := 1, deleted := true }],
   [{ thread_id := 1, tick := 3, failed := false, key := 3, insert_thread_id := 1,
      value := 0, deleted := false },
    { thread_id := 1, tick := 4, failed := false, key := 9, insert_thread_id := 1,
      value := 1, deleted := true }]]

/-- The deletions of `sample_log`, in order. -/
def sample_deletions : List log_entry :=
  [{ thread_id := 0, tick := 9, failed := false, key := 7, insert_thread_id := 0,
     value := 1, deleted := false },
   { thread_id := 1, tick := 10, failed := true, key := 0, insert_thread_id := 0,
     value := 0, deleted := false },
   { thread_id := 1, tick := 11, failed := false, key := 9, insert_thread_id := 1,
     value := 1, deleted := false }]

/-- The variables of the reading loop before its first round, for two threads. -/
def two_threads : reader_state :=
  { insertions := [[], []], deletions := [], deleting := false, line := 2 }

/-- The last deletion of `sample_log`. -/
def sample_last : log_entry :=
  { thread_id := 1, tick := 11, failed := false, key := 9, insert_thread_id := 1,
    value := 1, deleted := false }

/-- The variables of the replay loop after the replay of `sample_log`. -/
def sample_final : replay_state :=
  { replay_heap := [({ key := 3, ins_thread_id := 1, elem_id := 0 }, 3, 3),
                    ({ key := 7, ins_thread_id := 0, elem_id := 0 }, 0, 2)],
    insert_index := [2, 2], failed_deletions := 1, rank_histogram := [0, 1, 1, 1],
    delay_histogram := [1, 1], top_delay_histogram := [2] }

/-- The reference heap of `deletion_buffer_mq` on pairs of natural numbers under
`std::less`. -/
def nat_heap : rsm.seq_heap (Nat × Nat) (List (Nat × Nat)) :=
  rsm.list_heap std_less

/-- A run on a new multiqueue for one thread: two pushes to queue 0, an extraction, a
third push to queue 0 and a second extraction; the second draw of each extraction names
queue 1, which is empty. -/
def stale_buffer_run : List (rsm.Op (Nat × Nat)) :=
  [rsm.Op.push (5, 50) [0], rsm.Op.push (7, 70) [0], rsm.Op.extract_top [0, 1],
   rsm.Op.push (1, 10) [0], rsm.Op.extract_top [0, 1]]

/-- The reference heap of `deletion_buffer_mq` meets the contract on its values. -/
def list_heap_contract {Key T : Type} (comp : Key → Key → Bool) :
    rsm.seq_contract (rsm.list_heap comp : rsm.seq_heap (Key × T) (List (Key × T))) where
  vals := fun h => (h : Multiset (Key × T))
  vals_init := rfl
  empty_iff := by
    intro h
    cases h with
    | nil => simp [rsm.list_heap]
    | cons v rest => simp [rsm.list_heap]
  insert_vals := by
    intro h v
    simp only [rsm.list_heap]
    rw [Multiset.cons_coe, Multiset.coe_eq_coe]
    refine List.perm_middle.trans ?_
    rw [List.takeWhile_append_dropWhile]
  extract_top_some := by
    intro h hne
    cases h with
    | nil => simp [rsm.list_heap] at hne
    | cons v rest => exact ⟨v, rest, rfl, rfl⟩

/-- A multiqueue for one thread after two pushes to queue 0: the values `(5, 50)` and
`(7, 70)` are in the heap of queue 0, every buffer is empty. -/
def two_pushes_mq : rsm.deletion_buffer_mq (Nat × Nat) (List (Nat × Nat)) :=
  (rsm.deletion_buffer_mq.new nat_heap (0, 0) 1).store 0
    { rsm.guarded_heap.init nat_heap (0, 0) with heap := [(5, 50), (7, 70)] }

/-- The state in which `extract_top` on `two_pushes_mq` with the draws 0 and 1 reaches the
sampling of the second queue: queue 0 is locked and its buffer holds the two values. -/
def sampling_state : rsm.exec (Nat × Nat) (List (Nat × Nat)) :=
  { mq := two_pushes_mq.store 0
      { in_use := true, heap := [], buffer := (5, 50) :: (7, 70) :: List.replicate 14 (0, 0),
        buffer_pos := 0, buffer_end := 2 },
    rng := [1],
    trace := [rsm.Event.acquire 0, rsm.Event.refill 0 0 0] }

/-- What `extract_top` on `two_pushes_mq` with the draws 0 and 1 returns. -/
def first_extraction : rsm.extract_result (Nat × Nat) (List (Nat × Nat)) :=
  { ret := true, retval := some (5, 50),
    mq := two_pushes_mq.store 0
      { in_use := false, heap := [], buffer := (5, 50) :: (7, 70) :: List.replicate 14 (0, 0),
        buffer_pos := 1, buffer_end := 2 },
    rng := [],
    trace := [rsm.Event.acquire 0, rsm.Event.refill 0 0 0, rsm.Event.acquire 1,
      rsm.Event.refill 1 0 0, rsm.Event.release 1, rsm.Event.read 0 0 2,
      rsm.Event.release 0] }

/-- The multiqueue after the first four calls of `stale_buffer_run`: the key 1 is in the
heap of queue 0, the key 7 in its buffer. -/
def third_push_mq : rsm.deletion_buffer_mq (Nat × Nat) (List (Nat × Nat)) :=
  two_pushes_mq.store 0
    { in_use := false, heap := [(1, 10)],
      buffer := (5, 50) :: (7, 70) :: List.replicate 14 (0, 0), buffer_pos := 1,
      buffer_end := 2 }

/-- What `extract_top` on `third_push_mq` with the draws 0 and 1 returns. -/
def second_extraction : rsm.extract_result (Nat × Nat) (List (Nat × Nat)) :=
  { ret := true, retval := some (7, 70),
    mq := two_pushes_mq.store 0
      { in_use := false, heap := [], buffer := (1, 10) :: (7, 70) :: List.replicate 14 (0, 0),
        buffer_pos := 0, buffer_end := 1 },
    rng := [],
    trace := [rsm.Event.acquire 0, rsm.Event.acquire 1, rsm.Event.refill 1 0 0,
      rsm.Event.release 1, rsm.Event.read 0 1 2, rsm.Event.refill 0 2 2,
      rsm.Event.release 0] }

/-! ## Order facts -/

section order

variable {α : Type} {comp : α → α → Bool}

theorem strict_weak_order.asymm (h : strict_weak_order comp) {a b : α}
    (hab : comp a b = true) : comp b a = false := by
  cases hba : comp b a with
  | false => rfl
  | true =>
    have := h.trans a b a hab hba
    rw [h.irrefl a] at this
    exact absurd this (by simp)

/-- `a < b` and `b ≤ c` give `a < c`. -/
theorem strict_weak_order.lt_of_lt_of_le (h : strict_weak_order comp) {a b c : α}
    (hab : comp a b = true) (hbc : comp c b = false) : comp a c = true := by
  cases hac : comp a c with
  | true => rfl
  | false =>
    have := h.neg_trans a c b hac hbc
    rw [hab] at this
    exact absurd this (by simp)

/-- `a ≤ b` and `b < c` give `a < c`. -/
theorem strict_weak_order.lt_of_le_of_lt (h : strict_weak_order comp) {a b c : α}
    (hab : comp b a = false) (hbc : comp b c = true) : comp a c = true := by
  cases hac : comp a c with
  | true => rfl
  | false =>
    have := h.neg_trans b a c hab hac
    rw [hbc] at this
    exact absurd this (by simp)

/-- `a ≤ b` and `b ≤ c` give `a ≤ c`. -/
theorem strict_weak_order.le_trans (h : strict_weak_order comp) {a b c : α}
    (hab : comp b a = false) (hbc : comp c b = false) : comp c a = false :=
  h.neg_trans c b a hbc hab

theorem strict_weak_order.value_comparator {Key T : Type} {kc : Key → Key → Bool}
    (h : strict_weak_order kc) : strict_weak_order (@value_comparator Key T kc) where
  irrefl := fun a => h.irrefl a.1
  trans := fun a b c => h.trans a.1 b.1 c.1
  neg_trans := fun a b c => h.neg_trans a.1 b.1 c.1

theorem std_sort_perm (comp : α → α → Bool) (l : List α) : (std_sort comp l).Perm l :=
  List.perm_insertionSort _ l

theorem std_sort_length (comp : α → α → Bool) (l : List α) :
    (std_sort comp l).length = l.length :=
  (std_sort_perm comp l).length_eq

theorem std_sort_coe (comp : α → α → Bool) (l : List α) :
    ((std_sort comp l : List α) : Multiset α) = (l : Multiset α) :=
  Multiset.coe_eq_coe.mpr (std_sort_perm comp l)

theorem std_sort_ascending (h : strict_weak_order comp) (l : List α) :
    ascending comp (std_sort comp l) := by
  haveI : IsTotal α (fun a b => comp b a = false) :=
    ⟨fun a b => by
      cases hba : comp b a with
      | false => exact Or.inl rfl
      | true => exact Or.inr (h.asymm hba)⟩
  haveI : IsTrans α (fun a b => comp b a = false) :=
    ⟨fun a b c hab hbc => h.le_trans hab hbc⟩
  exact List.sorted_insertionSort (fun a b => comp b a = false) l

theorem ascending_append {l₁ l₂ : List α} :
    ascending comp (l₁ ++ l₂) ↔
      ascending comp l₁ ∧ ascending comp l₂ ∧ ∀ a ∈ l₁, ∀ b ∈ l₂, comp b a = false := by
  unfold ascending
  exact List.pairwise_append

theorem ascending_cons {a : α} {l : List α} :
    ascending comp (a :: l) ↔ (∀ b ∈ l, comp b a = false) ∧ ascending comp l := by
  unfold ascending
  exact List.pairwise_cons

theorem ascending_nil : ascending comp ([] : List α) := List.Pairwise.nil

theorem ascending_singleton (a : α) : ascending comp [a] := List.pairwise_singleton _ a

end order

/-! ## Buffer facts -/

section buffers

variable {α : Type}

theorem push_back_eq_some {cap : Nat} {buf : List α} (v : α) (h : buf.length < cap) :
    push_back cap buf v = some (buf ++ [v]) := by
  simp [push_back, h]

theorem copy_back_eq_some {cap : Nat} (xs : List α) :
    ∀ buf : List α, buf.length + xs.length ≤ cap → copy_back cap buf xs = some (buf ++ xs) := by
  induction xs with
  | nil => intro buf _; simp [copy_back]
  | cons x xs ih =>
    intro buf h
    simp only [List.length_cons] at h
    have h1 : buf.length < cap := by omega
    simp only [copy_back, push_back_eq_some x h1, Option.some_bind]
    rw [ih (buf ++ [x]) (by simp; omega)]
    simp

theorem insert_at_eq_some {cap : Nat} {buf : List α} {pos : Nat} (v : α)
    (h : buf.length < cap) (hp : pos ≤ buf.length) :
    insert_at cap buf pos v = some (buf.take pos ++ v :: buf.drop pos) := by
  simp [insert_at, h, hp]

end buffers

/-! ## The guarded queue: push -/

section guarded_facts

variable {α H : Type} {hp : merge_heap α H} {cfg : Configuration} {comp : α → α → Bool}

theorem flush_loop_one (hN : 0 < cfg.NodeSize) (buf : List α) (hb : buf.length = cfg.NodeSize) (h : H) :
    flush_loop hp cfg buf buf.length 0 h = some (hp.insert h buf) := by
  obtain ⟨k, hk⟩ : ∃ k, buf.length = k + 1 := ⟨buf.length - 1, by omega⟩
  rw [hk]
  have h0 : 0 < buf.length := by omega
  have h1 : (0 + 1) * cfg.NodeSize ≤ buf.length := by omega
  simp only [flush_loop, h0, h1, if_true]
  have h3 : (List.drop (0 * cfg.NodeSize) buf).take cfg.NodeSize = buf := by
    simp [← hb]
  rw [h3]
  have h4 : ¬ (cfg.NodeSize < buf.length) := by omega
  cases k with
  | zero => simp [flush_loop, h4]
  | succ k => simp [flush_loop, h4]

theorem flush_insertion_buffer_eq (hN : 0 < cfg.NodeSize) (g : guarded_heap α H)
    (hfull : g.insertion_buffer.length = InsertionBufferSize cfg) :
    flush_insertion_buffer hp cfg comp g =
      some { g with insertion_buffer := [],
                    heap := hp.insert g.heap (std_sort comp g.insertion_buffer) } := by
  unfold flush_insertion_buffer
  have hl : (std_sort comp g.insertion_buffer).length = cfg.NodeSize := by
    rw [std_sort_length]; exact hfull
  simp only [hfull, if_true]
  rw [flush_loop_one hN _ hl]
  rfl

/-- What `flush_if_full` leaves: the buffers' and heap's joint content is kept, the
insertion buffer has room, the deletion buffer and lock word are untouched. -/
theorem flush_if_full_spec (law : heap_contract comp cfg.NodeSize hp)
    (hswo : strict_weak_order comp) (hN : 0 < cfg.NodeSize) (g : guarded_heap α H)
    (hI : g.insertion_buffer.length ≤ InsertionBufferSize cfg) (hH : law.Inv g.heap) :
    ∃ g1, flush_if_full hp cfg comp g = some g1 ∧
      g1.deletion_buffer = g.deletion_buffer ∧ g1.in_use = g.in_use ∧
      g1.insertion_buffer.length < InsertionBufferSize cfg ∧ law.Inv g1.heap ∧
      (g1.insertion_buffer : Multiset α) + law.vals g1.heap =
        (g.insertion_buffer : Multiset α) + law.vals g.heap ∧
      (g.insertion_buffer.length < InsertionBufferSize cfg → g1 = g) ∧
      (g.insertion_buffer.length = InsertionBufferSize cfg → g1.insertion_buffer = []) := by
  unfold flush_if_full
  by_cases hfull : g.insertion_buffer.length = InsertionBufferSize cfg
  · rw [if_pos hfull, flush_insertion_buffer_eq hN g hfull]
    have hl : (std_sort comp g.insertion_buffer).length = cfg.NodeSize := by
      rw [std_sort_length]; exact hfull
    refine ⟨_, rfl, rfl, rfl, ?_, ?_, ?_, ?_, ?_⟩
    · simp [InsertionBufferSize]; exact hN
    · exact law.insert_inv _ _ hH hl (std_sort_ascending hswo _)
    · simp only [law.insert_vals _ _ hH hl (std_sort_ascending hswo _), std_sort_coe]
      simp [add_comm]
    · intro h; omega
    · intro _; rfl
  · rw [if_neg hfull]
    exact ⟨g, rfl, rfl, rfl, by omega, hH, rfl, fun _ => rfl, fun h => absurd h hfull⟩


theorem push_scan_le (comp : α → α → Bool) (v : α) (d : List α) :
    ∀ n, push_scan comp v d n ≤ n := by
  intro n
  induction n with
  | zero => simp [push_scan]
  | succ n ih =>
    unfold push_scan
    split
    · split
      · omega
      · omega
    · omega

theorem push_scan_drop (comp : α → α → Bool) (v : α) (d : List α) :
    ∀ n, n ≤ d.length → ∀ x ∈ (d.take n).drop (push_scan comp v d n), comp v x = true := by
  intro n
  induction n with
  | zero => intro _ x hx; simp at hx
  | succ n ih =>
    intro hn x hx
    have hlt : n < d.length := by omega
    have hget : d[n]? = some d[n] := List.getElem?_eq_getElem hlt
    have htake : d.take (n + 1) = d.take n ++ [d[n]] := by
      rw [List.take_succ, hget]; rfl
    unfold push_scan at hx
    rw [hget] at hx
    simp only at hx
    by_cases hc : comp v d[n] = true
    · rw [if_pos hc, htake] at hx
      rw [List.drop_append_of_le_length
        (by rw [List.length_take]; have := push_scan_le comp v d n; omega)] at hx
      rcases List.mem_append.mp hx with h | h
      · exact ih (by omega) x h
      · simp at h; rw [h]; exact hc
    · rw [if_neg hc] at hx
      rw [List.drop_eq_nil_of_le (by rw [List.length_take]; omega)] at hx
      simp at hx

theorem push_scan_take (hswo : strict_weak_order comp) (v : α) (d : List α)
    (hd : ascending comp d) :
    ∀ n, n ≤ d.length → ∀ x ∈ d.take (push_scan comp v d n), comp v x = false := by
  intro n
  induction n with
  | zero => intro _ x hx; simp [push_scan] at hx
  | succ n ih =>
    intro hn x hx
    have hlt : n < d.length := by omega
    have hget : d[n]? = some d[n] := List.getElem?_eq_getElem hlt
    have htake : d.take (n + 1) = d.take n ++ [d[n]] := by
      rw [List.take_succ, hget]; rfl
    unfold push_scan at hx
    rw [hget] at hx
    simp only at hx
    by_cases hc : comp v d[n] = true
    · rw [if_pos hc] at hx
      exact ih (by omega) x hx
    · rw [if_neg hc, htake] at hx
      have hc' : comp v d[n] = false := by simpa using hc
      have hs : ascending comp (d.take n ++ [d[n]]) := by
        rw [← htake]; exact List.Pairwise.sublist (List.take_sublist _ _) hd
      rcases List.mem_append.mp hx with h | h
      · have := (ascending_append.mp hs).2.2 x h d[n] (by simp)
        exact hswo.neg_trans v d[n] x hc' this
      · simp at h; rw [h]; exact hc'

/-- Inserting at the scanned position keeps an ascending buffer ascending. -/
theorem ascending_insert (hswo : strict_weak_order comp) (v : α) (d : List α) (pos : Nat)
    (hd : ascending comp d)
    (hlo : ∀ x ∈ d.take pos, comp v x = false) (hhi : ∀ x ∈ d.drop pos, comp v x = true) :
    ascending comp (d.take pos ++ v :: d.drop pos) := by
  have hsplit : ascending comp (d.take pos ++ d.drop pos) := by
    rw [List.take_append_drop]; exact hd
  obtain ⟨h1, h2, h3⟩ := ascending_append.mp hsplit
  refine ascending_append.mpr ⟨h1, ascending_cons.mpr ⟨fun b hb => hswo.asymm (hhi b hb), h2⟩, ?_⟩
  intro a ha b hb
  rcases List.mem_cons.mp hb with h | h
  · rw [h]; exact hlo a ha
  · exact h3 a ha b h


theorem coe_insert (v : α) (d : List α) (pos : Nat) :
    ((d.take pos ++ v :: d.drop pos : List α) : Multiset α) = {v} + (d : Multiset α) := by
  have h : (d.take pos ++ v :: d.drop pos).Perm (v :: d) := by
    have := @List.perm_middle _ v (d.take pos) (d.drop pos)
    rwa [List.take_append_drop] at this
  rw [Multiset.coe_eq_coe.mpr h, ← Multiset.cons_coe, Multiset.singleton_add]

/-- `guarded_heap::push` on a queue satisfying the invariant: it returns, keeps the
invariant, adds exactly the pushed value and leaves the lock word alone. -/
theorem push_spec (law : heap_contract comp cfg.NodeSize hp)
    (hswo : strict_weak_order comp) (hN : 0 < cfg.NodeSize) (g : guarded_heap α H)
    (hinv : g.inv cfg law) (v : α) :
    ∃ g1, g.push hp cfg comp v = some g1 ∧ g1.inv cfg law ∧
      g1.content law = v ::ₘ g.content law ∧ g1.in_use = g.in_use := by
  have hle := push_scan_le comp v g.deletion_buffer g.deletion_buffer.length
  have hlo := push_scan_take hswo v g.deletion_buffer hinv.del_sorted
    g.deletion_buffer.length (le_refl _)
  have hhi := push_scan_drop comp v g.deletion_buffer
    g.deletion_buffer.length (le_refl _)
  rw [List.take_length] at hhi
  obtain ⟨g1, hg1, hD1, hU1, hI1, hH1, hC1, -, -⟩ :=
    flush_if_full_spec law hswo hN g hinv.ins_le hinv.heap_inv
  have hmem1 : ∀ x, (x ∈ g1.insertion_buffer ∨ x ∈ law.vals g1.heap) →
      (x ∈ g.insertion_buffer ∨ x ∈ law.vals g.heap) := by
    intro x hx
    have : x ∈ (g1.insertion_buffer : Multiset α) + law.vals g1.heap := by
      rw [Multiset.mem_add]; exact hx
    rw [hC1, Multiset.mem_add] at this
    exact this
  unfold guarded_heap.push
  generalize hpos : push_scan comp v g.deletion_buffer g.deletion_buffer.length = pos at *
  by_cases hb : pos < g.deletion_buffer.length
  · have hne : g.deletion_buffer ≠ [] := by
      intro h; rw [h] at hb; simp at hb
    have hcond : (!g.deletion_buffer.isEmpty) = true ∧ pos < g.deletion_buffer.length := by
      refine ⟨?_, hb⟩
      cases hd : g.deletion_buffer with
      | nil => exact absurd hd hne
      | cons _ _ => rfl
    rw [if_pos hcond]
    obtain ⟨d0, b, hdb⟩ : ∃ d0 b, g.deletion_buffer = d0 ++ [b] := by
      rcases List.eq_nil_or_concat g.deletion_buffer with h | ⟨d0, b, h⟩
      · exact absurd h hne
      · exact ⟨d0, b, by rw [h, List.concat_eq_append]⟩
    have hlen : g.deletion_buffer.length = d0.length + 1 := by rw [hdb]; simp
    have hpos0 : pos ≤ d0.length := by omega
    obtain ⟨hs0, -, hs0b⟩ := ascending_append.mp (hdb ▸ hinv.del_sorted)
    have hvb : comp v b = true := by
      apply hhi
      rw [hdb, List.drop_append_of_le_length hpos0]
      simp
    have hlo0 : ∀ x ∈ d0.take pos, comp v x = false := by
      intro x hx
      apply hlo
      rw [hdb, List.take_append_of_le_length hpos0]
      exact hx
    have hhi0 : ∀ x ∈ d0.drop pos, comp v x = true := by
      intro x hx
      apply hhi
      rw [hdb, List.drop_append_of_le_length hpos0]
      exact List.mem_append_left _ hx
    -- every resident value outside the deletion buffer is not below `v`
    have hvx : ∀ x, (x ∈ g.insertion_buffer ∨ x ∈ law.vals g.heap) → comp x v = false := by
      intro x hx
      have hbx := hinv.del_lower b (by rw [hdb]; simp) x hx
      exact hswo.asymm (hswo.lt_of_lt_of_le hvb hbx)
    by_cases hfull : g.deletion_buffer.length = DeletionBufferSize cfg
    · rw [if_pos hfull, hg1]
      simp only [Option.some_bind, hD1]
      have hlast : g.deletion_buffer.getLast? = some b := by rw [hdb]; simp
      have hdrop : g.deletion_buffer.dropLast = d0 := by rw [hdb]; simp
      rw [hlast]
      simp only [hdrop]
      rw [push_back_eq_some b hI1]
      have hd0 : d0.length < DeletionBufferSize cfg := by omega
      rw [Option.some_bind, insert_at_eq_some v hd0 hpos0]
      refine ⟨_, rfl, ?_, ?_, hU1⟩
      · refine ⟨?_, ?_, hH1, ?_, ?_⟩
        · simp only [List.length_append, List.length_singleton]; omega
        · simp only [List.length_append, List.length_cons, List.length_take, List.length_drop]
          omega
        · exact ascending_insert hswo v d0 pos hs0 hlo0 hhi0
        · intro d hd x hx
          have hd' : d = v ∨ d ∈ d0 := by
            rcases List.mem_append.mp hd with h | h
            · exact Or.inr (List.mem_of_mem_take h)
            · rcases List.mem_cons.mp h with h | h
              · exact Or.inl h
              · exact Or.inr (List.mem_of_mem_drop h)
          simp only [List.mem_append, List.mem_singleton] at hx
          rcases hx with (hx | hx) | hx
          · rcases hd' with h | h
            · rw [h]; exact hvx x (hmem1 x (Or.inl hx))
            · exact hinv.del_lower d (by rw [hdb]; simp [h]) x (hmem1 x (Or.inl hx))
          · rw [hx]
            rcases hd' with h | h
            · rw [h]; exact hswo.asymm hvb
            · exact hs0b d h b (by simp)
          · rcases hd' with h | h
            · rw [h]; exact hvx x (hmem1 x (Or.inr hx))
            · exact hinv.del_lower d (by rw [hdb]; simp [h]) x (hmem1 x (Or.inr hx))
      · simp only [guarded_heap.content]
        rw [coe_insert, hdb, ← Multiset.singleton_add, ← Multiset.coe_add, ← Multiset.coe_add]
        calc ({v} : Multiset α) + (d0 : Multiset α) +
                ((g1.insertion_buffer : Multiset α) + (([b] : List α) : Multiset α)) +
                law.vals g1.heap
            = {v} + (d0 : Multiset α) + (([b] : List α) : Multiset α) +
                ((g1.insertion_buffer : Multiset α) + law.vals g1.heap) := by abel
          _ = {v} + (d0 : Multiset α) + (([b] : List α) : Multiset α) +
                ((g.insertion_buffer : Multiset α) + law.vals g.heap) := by rw [hC1]
          _ = _ := by abel
    · rw [if_neg hfull]
      have hdl : g.deletion_buffer.length < DeletionBufferSize cfg := by
        have := hinv.del_le; omega
      rw [insert_at_eq_some v hdl (by omega)]
      refine ⟨_, rfl, ?_, ?_, rfl⟩
      · refine ⟨hinv.ins_le, ?_, hinv.heap_inv, ?_, ?_⟩
        · simp only [List.length_append, List.length_cons, List.length_take, List.length_drop]
          omega
        · exact ascending_insert hswo v _ pos hinv.del_sorted hlo hhi
        · intro d hd x hx
          rcases List.mem_append.mp hd with h | h
          · exact hinv.del_lower d (List.mem_of_mem_take h) x hx
          · rcases List.mem_cons.mp h with h | h
            · rw [h]; exact hvx x hx
            · exact hinv.del_lower d (List.mem_of_mem_drop h) x hx
      · simp only [guarded_heap.content]
        rw [coe_insert, ← Multiset.singleton_add]
        abel
  · have hcond : ¬ ((!g.deletion_buffer.isEmpty) = true ∧ pos < g.deletion_buffer.length) :=
      fun h => hb h.2
    rw [if_neg hcond, hg1]
    simp only [Option.some_bind]
    rw [push_back_eq_some v hI1]
    have hposeq : pos = g.deletion_buffer.length := by omega
    refine ⟨_, rfl, ?_, ?_, hU1⟩
    · refine ⟨?_, hD1 ▸ hinv.del_le, hH1, hD1 ▸ hinv.del_sorted, ?_⟩
      · simp only [List.length_append, List.length_singleton]; omega
      · intro d hd x hx
        simp only [hD1] at hd
        simp only [List.mem_append, List.mem_singleton] at hx
        rcases hx with (hx | hx) | hx
        · exact hinv.del_lower d hd x (hmem1 x (Or.inl hx))
        · rw [hx]
          apply hlo
          rw [hposeq, List.take_length]
          exact hd
        · exact hinv.del_lower d hd x (hmem1 x (Or.inr hx))
    · simp only [guarded_heap.content]
      rw [hD1, ← Multiset.singleton_add, ← Multiset.coe_add, Multiset.coe_singleton]
      calc (g.deletion_buffer : Multiset α) + ((g1.insertion_buffer : Multiset α) + {v}) +
              law.vals g1.heap
          = {v} + (g.deletion_buffer : Multiset α) +
              ((g1.insertion_buffer : Multiset α) + law.vals g1.heap) := by abel
        _ = {v} + (g.deletion_buffer : Multiset α) +
              ((g.insertion_buffer : Multiset α) + law.vals g.heap) := by rw [hC1]
        _ = _ := by abel

/-! ## The guarded queue: refill -/

theorem min_element_scan_spec (hswo : strict_weak_order comp) :
    ∀ (xs pre : List α) (s : α) (si : Nat), pre[si]? = some s →
      (∀ y ∈ pre, comp y s = false) →
      ∃ m, (pre ++ xs)[min_element_scan comp xs pre.length s si]? = some m ∧
        ∀ y ∈ pre ++ xs, comp y m = false := by
  intro xs
  induction xs with
  | nil =>
    intro pre s si hs hmin
    exact ⟨s, by simpa [min_element_scan] using hs, by simpa using hmin⟩
  | cons x xs ih =>
    intro pre s si hs hmin
    have hsi : si < pre.length := by
      by_contra h
      rw [List.getElem?_eq_none (by omega)] at hs
      exact absurd hs (by simp)
    have hassoc : pre ++ x :: xs = (pre ++ [x]) ++ xs := by simp
    have hlen : (pre ++ [x]).length = pre.length + 1 := by simp
    unfold min_element_scan
    by_cases hc : comp x s = true
    · rw [if_pos hc, hassoc, ← hlen]
      apply ih (pre ++ [x]) x pre.length
      · rw [List.getElem?_append_right (le_refl _)]; simp
      · intro y hy
        rcases List.mem_append.mp hy with h | h
        · exact hswo.asymm (hswo.lt_of_lt_of_le hc (hmin y h))
        · simp at h; rw [h]; exact hswo.irrefl x
    · rw [if_neg hc, hassoc, ← hlen]
      apply ih (pre ++ [x]) s si
      · rw [List.getElem?_append_left hsi]; exact hs
      · intro y hy
        rcases List.mem_append.mp hy with h | h
        · exact hmin y h
        · simp at h; rw [h]; simpa using hc

/-- `std::min_element` on a non-empty range points at a value that no value of the range
is strictly smaller than. -/
theorem min_element_spec (hswo : strict_weak_order comp) (l : List α) (hl : l ≠ []) :
    ∃ m, l[min_element comp l]? = some m ∧ ∀ y ∈ l, comp y m = false := by
  cases l with
  | nil => exact absurd rfl hl
  | cons x xs =>
    have := min_element_scan_spec hswo xs [x] x 0 (by simp)
      (by intro y hy; simp at hy; rw [hy]; exact hswo.irrefl x)
    simpa [min_element] using this

/-- Removing the value at index `i` by overwriting it with the last value and dropping
the last place removes exactly that value. -/
theorem swap_remove_spec (l : List α) (i : Nat) (m : α) (h : l[i]? = some m) :
    (l : Multiset α) = m ::ₘ (swap_remove l i : Multiset α) ∧
      (swap_remove l i).length + 1 = l.length := by
  have hi : i < l.length := by
    by_contra hc
    rw [List.getElem?_eq_none (by omega)] at h
    exact absurd h (by simp)
  have hne : l ≠ [] := by intro hc; rw [hc] at hi; simp at hi
  obtain ⟨init, b, hl⟩ : ∃ init b, l = init ++ [b] := by
    rcases List.eq_nil_or_concat l with h | ⟨d0, b, h⟩
    · exact absurd h hne
    · exact ⟨d0, b, by rw [h, List.concat_eq_append]⟩
  subst hl
  unfold swap_remove
  rw [List.getLast?_concat]
  simp only [List.length_append, List.length_singleton] at hi ⊢
  by_cases hlast : i + 1 = init.length + 1
  · have hii : i = init.length := by omega
    rw [if_neg (by simpa using hlast)]
    rw [hii, List.getElem?_append_right (le_refl _)] at h
    simp at h
    subst h
    simp only [List.dropLast_concat]
    refine ⟨?_, trivial⟩
    rw [← Multiset.coe_add, Multiset.coe_singleton, ← Multiset.singleton_add, add_comm]
  · have hii : i < init.length := by omega
    rw [if_pos hlast, List.set_append_left i b hii, List.dropLast_concat]
    rw [List.getElem?_append_left hii] at h
    have hm : init[i] = m := by
      rw [List.getElem?_eq_getElem hii] at h; exact Option.some.inj h
    refine ⟨?_, by simp⟩
    have h1 : init.set i b = init.take i ++ b :: init.drop (i + 1) :=
      List.set_eq_take_append_cons_drop.trans (by rw [if_pos hii])
    have h2 : init = init.take i ++ m :: init.drop (i + 1) := by
      conv_lhs => rw [← List.take_append_drop i init, List.drop_eq_getElem_cons hii, hm]
    rw [h1]
    conv_lhs => rw [h2]
    simp only [← Multiset.coe_add, ← Multiset.cons_coe, ← Multiset.singleton_add,
      Multiset.coe_singleton]
    abel

/-- The inner scan of the merge stops inside the node: it moves a prefix of values
strictly below `m` to the deletion buffer and leaves a non-empty rest none of whose
values is below `m`. -/
theorem merge_scan_spec (hswo : strict_weak_order comp) (cap : Nat) (m M : α) :
    ∀ (node d : List α), node.getLast? = some M → comp M m = false →
      ascending comp node → d.length + node.length ≤ cap →
      ∃ pre rest, node = pre ++ rest ∧ rest.getLast? = some M ∧
        (∀ p ∈ pre, comp p m = true) ∧ (∀ r ∈ rest, comp r m = false) ∧
        merge_scan comp cap m node d = some (rest, d ++ pre) := by
  intro node
  induction node with
  | nil => intro d h; simp at h
  | cons x rest ih =>
    intro d hlast hM hasc hcap
    obtain ⟨hx, hrest⟩ := ascending_cons.mp hasc
    simp only [List.length_cons] at hcap
    by_cases hc : comp x m = true
    · have hne : rest ≠ [] := by
        intro h
        rw [h] at hlast
        simp at hlast
        rw [hlast] at hc
        rw [hM] at hc
        exact absurd hc (by simp)
      have hlast' : rest.getLast? = some M := by
        cases rest with
        | nil => exact absurd rfl hne
        | cons y ys => rwa [List.getLast?_cons_cons] at hlast
      obtain ⟨pre, rest', h1, h2, h3, h4, h5⟩ :=
        ih (d ++ [x]) hlast' hM hrest (by simp; omega)
      refine ⟨x :: pre, rest', by rw [h1]; rfl, h2, ?_, h4, ?_⟩
      · intro p hp
        rcases List.mem_cons.mp hp with h | h
        · rw [h]; exact hc
        · exact h3 p h
      · unfold merge_scan
        rw [if_pos hc, push_back_eq_some x (by omega), Option.some_bind, h5]
        simp
    · have hc' : comp x m = false := by simpa using hc
      refine ⟨[], x :: rest, rfl, hlast, by simp, ?_, ?_⟩
      · intro r hr
        rcases List.mem_cons.mp hr with h | h
        · rw [h]; exact hc'
        · exact hswo.le_trans hc' (hx r h)
      · unfold merge_scan
        rw [if_neg hc]
        simp


/-- The merge of the small part of the insertion buffer with the top node: the loop
returns, appends to the deletion buffer, and what it leaves, followed by the rest of
the node, is ascending and holds exactly the values it started from. -/
theorem merge_loop_spec (hswo : strict_weak_order comp) (cap : Nat) (M : α) :
    ∀ (fuel : Nat) (small node d : List α), small.length = fuel →
      node.getLast? = some M → (∀ s ∈ small, comp M s = false) →
      d.length + small.length + node.length ≤ cap →
      ascending comp (d ++ node) → (∀ x ∈ d, ∀ s ∈ small, comp s x = false) →
      ∃ node1 d1, merge_loop comp cap fuel small node d = some (node1, d1) ∧
        ascending comp (d1 ++ node1) ∧
        ((d1 ++ node1 : List α) : Multiset α) =
          (d : Multiset α) + (small : Multiset α) + (node : Multiset α) := by
  intro fuel
  induction fuel with
  | zero =>
    intro small node d hlen _ _ _ hasc _
    have : small = [] := List.length_eq_zero.mp hlen
    subst this
    exact ⟨node, d, by simp [merge_loop], hasc, by simp [← Multiset.coe_add]⟩
  | succ fuel ih =>
    intro small node d hlen hlast hsmall hcap hasc hds
    have hne : small ≠ [] := by intro h; rw [h] at hlen; simp at hlen
    have hemp : small.isEmpty = false := by
      cases small with
      | nil => exact absurd rfl hne
      | cons _ _ => rfl
    obtain ⟨m, hm, hmin⟩ := min_element_spec hswo small hne
    have hmem : m ∈ small := List.getElem?_mem hm
    obtain ⟨hasc_d, hasc_node, hdn⟩ := ascending_append.mp hasc
    obtain ⟨pre, rest, hnode, hrl, hpre, hrest, hscan⟩ :=
      merge_scan_spec hswo cap m M node d hlast (hsmall m hmem) hasc_node (by omega)
    obtain ⟨hms, hsl⟩ := swap_remove_spec small (min_element comp small) m hm
    have hsub : ∀ s ∈ swap_remove small (min_element comp small), s ∈ small := by
      intro s hs
      have : s ∈ (small : Multiset α) := by
        rw [hms]; exact Multiset.mem_cons_of_mem (Multiset.mem_coe.mpr hs)
      exact Multiset.mem_coe.mp this
    have hnl : node.length = pre.length + rest.length := by rw [hnode]; simp
    subst hnode
    obtain ⟨hasc_pre, hasc_rest, hpr⟩ := ascending_append.mp hasc_node
    have hstep := ih (swap_remove small (min_element comp small)) rest (d ++ pre ++ [m])
      (by omega) hrl (fun s hs => hsmall s (hsub s hs))
      (by simp only [List.length_append, List.length_singleton]; omega)
      (by
        refine ascending_append.mpr ⟨ascending_append.mpr
          ⟨ascending_append.mpr ⟨hasc_d, hasc_pre, fun a ha b hb =>
            hdn a ha b (List.mem_append_left _ hb)⟩, ascending_singleton m, ?_⟩, hasc_rest, ?_⟩
        · intro a ha b hb
          simp only [List.mem_singleton] at hb
          rw [hb]
          rcases List.mem_append.mp ha with h | h
          · exact hds a h m hmem
          · exact hswo.asymm (hpre a h)
        · intro a ha b hb
          rcases List.mem_append.mp ha with h | h
          · rcases List.mem_append.mp h with h | h
            · exact hdn a h b (List.mem_append_right _ hb)
            · exact hpr a h b hb
          · simp only [List.mem_singleton] at h
            rw [h]; exact hrest b hb)
      (by
        intro x hx s hs
        rcases List.mem_append.mp hx with h | h
        · rcases List.mem_append.mp h with h | h
          · exact hds x h s (hsub s hs)
          · exact hswo.asymm (hswo.lt_of_lt_of_le (hpre x h) (hmin s (hsub s hs)))
        · simp only [List.mem_singleton] at h
          rw [h]; exact hmin s (hsub s hs))
    obtain ⟨node1, d1, hrun, hasc1, hval1⟩ := hstep
    refine ⟨node1, d1, ?_, hasc1, ?_⟩
    · unfold merge_loop
      simp only [hemp, hm, hscan, Option.some_bind]
      rw [push_back_eq_some m (by simp only [List.length_append]; omega), Option.some_bind]
      simpa using hrun
    · rw [hval1, hms]
      simp only [← Multiset.coe_add, ← Multiset.singleton_add, Multiset.coe_singleton]
      abel

theorem refill_pop_loop_done (fuel : Nat) (g : guarded_heap α H)
    (h : ¬ (g.deletion_buffer.length ≠ DeletionBufferSize cfg ∧ hp.empty g.heap = false)) :
    refill_pop_loop hp cfg fuel g = some g := by
  cases fuel with
  | zero => unfold refill_pop_loop; rw [if_neg h]
  | succ n => unfold refill_pop_loop; rw [if_neg h]

theorem ascending_getLast_max (hswo : strict_weak_order comp) (l : List α) (M : α)
    (hl : l.getLast? = some M) (hasc : ascending comp l) : ∀ t ∈ l, comp M t = false := by
  have hl' := List.dropLast_append_getLast? M (by simpa using hl)
  intro t ht
  rw [← hl'] at hasc ht
  rcases List.mem_append.mp ht with h | h
  · exact (ascending_append.mp hasc).2.2 t h M (by simp)
  · simp only [List.mem_singleton] at h
    rw [h]; exact hswo.irrefl M

/-- The first branch of the refill after the flush: one or two nodes are popped into the
empty deletion buffer. -/
theorem refill_pop_loop_spec (law : heap_contract comp cfg.NodeSize hp)
    (hN : 0 < cfg.NodeSize) (g : guarded_heap α H)
    (hD : g.deletion_buffer = []) (hH : law.Inv g.heap) (hne : hp.empty g.heap = false) :
    ∃ g2, refill_pop_loop hp cfg (DeletionBufferSize cfg) g = some g2 ∧
      g2.insertion_buffer = g.insertion_buffer ∧ g2.in_use = g.in_use ∧
      law.Inv g2.heap ∧ ascending comp g2.deletion_buffer ∧
      g2.deletion_buffer.length ≤ DeletionBufferSize cfg ∧ g2.deletion_buffer ≠ [] ∧
      (g2.deletion_buffer : Multiset α) + law.vals g2.heap = law.vals g.heap ∧
      ∀ d ∈ g2.deletion_buffer, ∀ x ∈ law.vals g2.heap, comp x d = false := by
  obtain ⟨u, ib, db, h⟩ := g
  simp only at hD hH hne
  subst hD
  obtain ⟨k, hk⟩ : ∃ k, DeletionBufferSize cfg = k + 2 :=
    ⟨2 * cfg.NodeSize - 2, by unfold DeletionBufferSize; omega⟩
  have hdbs : DeletionBufferSize cfg = 2 * cfg.NodeSize := rfl
  have htl := law.top_length h hH hne
  have hts := law.top_sorted h hH hne
  have hpi := law.pop_inv h hH hne
  have hpv := law.pop_vals h hH hne
  have htle := law.top_le h hH hne
  have htne : hp.top_node h ≠ [] := by
    intro hc; rw [hc] at htl; simp at htl; omega
  have hc1 : ([] : List α).length ≠ DeletionBufferSize cfg ∧ hp.empty h = false :=
    ⟨by simp; omega, hne⟩
  conv => enter [1, g2, 1, 1]; rw [hk]; unfold refill_pop_loop
  simp only [if_pos hc1]
  rw [copy_back_eq_some _ _ (by simp; omega)]
  simp only [Option.some_bind, List.nil_append]
  by_cases he : hp.empty (hp.pop_node h) = true
  · rw [refill_pop_loop_done _ _ (by simp [he])]
    refine ⟨_, rfl, rfl, rfl, hpi, hts, by simp; omega, htne, hpv.symm, htle⟩
  · have he' : hp.empty (hp.pop_node h) = false := by simpa using he
    have htl2 := law.top_length _ hpi he'
    have hts2 := law.top_sorted _ hpi he'
    have hpi2 := law.pop_inv _ hpi he'
    have hpv2 := law.pop_vals _ hpi he'
    have htle2 := law.top_le _ hpi he'
    have hc2 : (hp.top_node h).length ≠ DeletionBufferSize cfg ∧
        hp.empty (hp.pop_node h) = false := ⟨by omega, he'⟩
    unfold refill_pop_loop
    simp only [if_pos hc2]
    rw [copy_back_eq_some _ _ (by omega)]
    simp only [Option.some_bind]
    rw [refill_pop_loop_done _ _ (by simp; omega)]
    have hmem2 : ∀ b ∈ hp.top_node (hp.pop_node h), b ∈ law.vals (hp.pop_node h) := by
      intro b hb
      rw [hpv2]; exact Multiset.mem_add.mpr (Or.inl (Multiset.mem_coe.mpr hb))
    refine ⟨_, rfl, rfl, rfl, hpi2, ?_, by simp; omega, by simp [htne], ?_, ?_⟩
    · exact ascending_append.mpr ⟨hts, hts2, fun a ha b hb => htle a ha b (hmem2 b hb)⟩
    · simp only
      rw [hpv, hpv2, ← Multiset.coe_add]
      abel
    · intro d hd x hx
      rcases List.mem_append.mp hd with hd | hd
      · exact htle d hd x (by rw [hpv2]; exact Multiset.mem_add.mpr (Or.inr hx))
      · exact htle2 d hd x hx


/-- A refill of a queue with nothing in it changes nothing. -/
theorem refill_of_empty (hN : 0 < cfg.NodeSize) (g : guarded_heap α H)
    (hD : g.deletion_buffer = []) (hI : g.insertion_buffer = [])
    (hE : hp.empty g.heap = true) :
    refill_deletion_buffer hp cfg comp g = some g := by
  obtain ⟨u, ib, db, h⟩ := g
  simp only at hD hI hE
  subst hD hI
  have h0 : ¬ (0 = InsertionBufferSize cfg) := by
    unfold InsertionBufferSize; omega
  simp [refill_deletion_buffer, h0, hE, std_sort, copy_back]

/-- `refill_deletion_buffer` on a queue with an empty deletion buffer: it returns, the
result satisfies the invariant and has the same content and lock word, and the deletion
buffer stays empty exactly when there was nothing to take. -/
theorem refill_spec (law : heap_contract comp cfg.NodeSize hp)
    (hswo : strict_weak_order comp) (hN : 0 < cfg.NodeSize) (g : guarded_heap α H)
    (hI : g.insertion_buffer.length ≤ InsertionBufferSize cfg) (hH : law.Inv g.heap)
    (hD : g.deletion_buffer = []) :
    ∃ g1, refill_deletion_buffer hp cfg comp g = some g1 ∧ g1.inv cfg law ∧
      g1.content law = g.content law ∧ g1.in_use = g.in_use ∧
      (g1.deletion_buffer = [] ↔ g.insertion_buffer = [] ∧ hp.empty g.heap = true) := by
  obtain ⟨u, ib, db, h⟩ := g
  simp only at hD hH hI
  subst hD
  have hibs : InsertionBufferSize cfg = cfg.NodeSize := rfl
  have hdbs : DeletionBufferSize cfg = 2 * cfg.NodeSize := rfl
  unfold refill_deletion_buffer
  simp only [List.isEmpty_nil, Bool.not_true, Bool.false_eq_true, if_false]
  by_cases hfull : ib.length = InsertionBufferSize cfg
  · -- the insertion buffer is full
    simp only [if_pos hfull]
    rw [flush_insertion_buffer_eq hN _ hfull]
    simp only [Option.some_bind]
    have hl : (std_sort comp ib).length = cfg.NodeSize := by
      rw [std_sort_length]; exact hfull
    have hInv1 := law.insert_inv h _ hH hl (std_sort_ascending hswo _)
    have hvals1 := law.insert_vals h _ hH hl (std_sort_ascending hswo _)
    rw [std_sort_coe] at hvals1
    have hibne : ib ≠ [] := by
      intro hc; rw [hc] at hfull; simp at hfull; omega
    have hne1 : hp.empty (hp.insert h (std_sort comp ib)) = false := by
      cases he : hp.empty (hp.insert h (std_sort comp ib)) with
      | false => rfl
      | true =>
        have := (law.empty_iff _ hInv1).mp he
        rw [hvals1] at this
        have hz := (add_eq_zero.mp this).2
        exact absurd ((Multiset.coe_eq_zero _).mp hz) hibne
    obtain ⟨g2, hg2, hI2, hU2, hInv2, hs2, hl2, hne2, hv2, hp2⟩ :=
      refill_pop_loop_spec law hN
        ({ in_use := u, insertion_buffer := [], deletion_buffer := [],
           heap := hp.insert h (std_sort comp ib) } : guarded_heap α H) rfl hInv1 hne1
    refine ⟨g2, hg2, ⟨?_, hl2, hInv2, hs2, ?_⟩, ?_, hU2, ?_⟩
    · rw [hI2]; simp
    · intro d hd x hx
      rcases hx with hx | hx
      · rw [hI2] at hx; simp at hx
      · exact hp2 d hd x hx
    · simp only [guarded_heap.content]
      rw [hI2]
      simp only at hv2
      calc (g2.deletion_buffer : Multiset α) + (([] : List α) : Multiset α) + law.vals g2.heap
          = (g2.deletion_buffer : Multiset α) + law.vals g2.heap := by simp
        _ = law.vals h + (ib : Multiset α) := by rw [hv2, hvals1]
        _ = _ := by simp [add_comm]
    · constructor
      · intro hc; exact absurd hc hne2
      · intro hc; exact absurd hc.1 hibne
  · simp only [if_neg hfull]
    have hlt : ib.length < cfg.NodeSize := by omega
    by_cases he : hp.empty h = true
    · -- the heap is empty
      simp only [he, if_true]
      rw [copy_back_eq_some _ _ (by rw [std_sort_length]; simp; omega)]
      have hv0 := (law.empty_iff h hH).mp he
      refine ⟨_, rfl, ⟨by simp, ?_, hH, ?_, ?_⟩, ?_, rfl, ?_⟩
      · simp only [List.nil_append]; rw [std_sort_length]; omega
      · simpa using std_sort_ascending hswo ib
      · intro d _ x hx
        simp only [hv0] at hx
        simp at hx
      · simp only [guarded_heap.content, Option.map_some', List.nil_append, std_sort_coe]
        simp
      · simp only [Option.map_some', List.nil_append]
        constructor
        · intro hc
          have := std_sort_length comp ib
          rw [hc] at this
          exact ⟨List.length_eq_zero.mp this.symm, trivial⟩
        · intro hc
          rw [hc.1]; rfl
    · -- merge of the top node with the small values of the insertion buffer
      have he' : hp.empty h = false := by simpa using he
      simp only [he', Bool.false_eq_true, if_false]
      have htl := law.top_length h hH he'
      have hts := law.top_sorted h hH he'
      have hpi := law.pop_inv h hH he'
      have hpv := law.pop_vals h hH he'
      have htle := law.top_le h hH he'
      have htne : hp.top_node h ≠ [] := by
        intro hc; rw [hc] at htl; simp at htl; omega
      obtain ⟨M, hM⟩ : ∃ M, (hp.top_node h).getLast? = some M := by
        cases hq : (hp.top_node h).getLast? with
        | none => exact absurd (List.getLast?_eq_none_iff.mp hq) htne
        | some M => exact ⟨M, rfl⟩
      have hparts : (if ib.isEmpty = true then some (([] : List α), ([] : List α))
          else (hp.top_node h).getLast?.map (fun M =>
            (ib.filter (fun v => comp M v), ib.filter (fun v => !comp M v)))) =
          some (ib.filter (fun v => comp M v), ib.filter (fun v => !comp M v)) := by
        cases ib with
        | nil => rfl
        | cons a l => simp [hM]
      rw [hparts]
      simp only [Option.some_bind]
      have hMmax := ascending_getLast_max hswo _ M hM hts
      have hMmem : M ∈ hp.top_node h := List.mem_of_mem_getLast? hM
      have hsmall : ∀ s ∈ ib.filter (fun v => !comp M v), comp M s = false := by
        intro s hs
        have := (List.mem_filter.mp hs).2
        simpa using this
      have hlarge : ∀ s ∈ ib.filter (fun v => comp M v), comp M s = true := by
        intro s hs
        exact (List.mem_filter.mp hs).2
      have hsl : (ib.filter (fun v => !comp M v)).length ≤ ib.length := List.length_filter_le _ _
      obtain ⟨node1, d1, hrun, hasc1, hval1⟩ :=
        merge_loop_spec hswo (DeletionBufferSize cfg) M _ (ib.filter (fun v => !comp M v))
          (hp.top_node h) [] rfl hM hsmall (by simp; omega) (by simpa using hts)
          (by intro x hx; simp at hx)
      rw [hrun]
      simp only [Option.some_bind]
      have hcard : d1.length + node1.length =
          (ib.filter (fun v => !comp M v)).length + (hp.top_node h).length := by
        have := congrArg Multiset.card hval1
        simpa using this
      rw [copy_back_eq_some _ _ (by omega)]
      have hmemD : ∀ d ∈ d1 ++ node1, comp M d = false := by
        intro d hd
        have : d ∈ ((d1 ++ node1 : List α) : Multiset α) := Multiset.mem_coe.mpr hd
        rw [hval1] at this
        simp only [Multiset.mem_add, Multiset.mem_coe] at this
        rcases this with (h0 | h1) | h2
        · simp at h0
        · exact hsmall d h1
        · exact hMmax d h2
      have hperm : ((ib.filter (fun v => comp M v) : List α) : Multiset α) +
          ((ib.filter (fun v => !comp M v) : List α) : Multiset α) = (ib : Multiset α) := by
        rw [Multiset.coe_add]
        exact Multiset.coe_eq_coe.mpr (List.filter_append_perm _ ib)
      refine ⟨_, rfl, ⟨?_, ?_, hpi, hasc1, ?_⟩, ?_, rfl, ?_⟩
      · simp only
        have : (ib.filter (fun v => comp M v)).length ≤ ib.length := List.length_filter_le _ _
        omega
      · simp only [List.length_append]; omega
      · intro d hd x hx
        have hdM := hmemD d hd
        rcases hx with hx | hx
        · exact hswo.asymm (hswo.lt_of_le_of_lt hdM (hlarge x hx))
        · exact hswo.le_trans hdM (htle M hMmem x hx)
      · simp only [guarded_heap.content]
        rw [hval1, hpv, ← hperm]
        simp only [Multiset.coe_nil, zero_add]
        abel
      · simp only
        constructor
        · intro hc
          exfalso
          have := congrArg List.length hc
          simp only [List.length_append, List.length_nil] at this
          omega
        · intro hc
          exact hc.2.elim

/-! ## The guarded queue: reachable states -/

theorem std_less_swo : strict_weak_order std_less where
  irrefl := by intro a; simp [std_less]
  trans := by intro a b c; simp only [std_less, decide_eq_true_eq]; omega
  neg_trans := by intro a b c; simp only [std_less, decide_eq_false_iff_not]; omega

theorem std_greater_swo : strict_weak_order std_greater where
  irrefl := by intro a; simp [std_greater]
  trans := by intro a b c; simp only [std_greater, decide_eq_true_eq]; omega
  neg_trans := by intro a b c; simp only [std_greater, decide_eq_false_iff_not]; omega

theorem init_inv (law : heap_contract comp cfg.NodeSize hp) :
    (guarded_heap.init hp : guarded_heap α H).inv cfg law where
  ins_le := by simp [guarded_heap.init]
  del_le := by simp [guarded_heap.init]
  heap_inv := law.inv_init
  del_sorted := ascending_nil
  del_lower := by intro d hd; simp [guarded_heap.init] at hd

theorem init_content (law : heap_contract comp cfg.NodeSize hp) :
    (guarded_heap.init hp : guarded_heap α H).content law = 0 := by
  simp [guarded_heap.content, guarded_heap.init, law.vals_init]

/-- Taking the front of a non-empty deletion buffer: the invariant is kept, the content
loses exactly the value taken, and no value left is strictly smaller than it. -/
theorem pop_front_spec (law : heap_contract comp cfg.NodeSize hp)
    (g : guarded_heap α H) (hinv : g.inv cfg law)
    (v : α) (g1 : guarded_heap α H) (h : g.pop_front = some (v, g1)) :
    g1.inv cfg law ∧ g.content law = v ::ₘ g1.content law ∧ g1.in_use = g.in_use ∧
      g.deletion_buffer = v :: g1.deletion_buffer ∧
      g1.insertion_buffer = g.insertion_buffer ∧ g1.heap = g.heap ∧
      ∀ y ∈ g1.content law, comp y v = false := by
  obtain ⟨u, ib, db, hh⟩ := g
  cases db with
  | nil => simp [guarded_heap.pop_front] at h
  | cons a rest =>
    simp only [guarded_heap.pop_front, Option.some.injEq, Prod.mk.injEq] at h
    obtain ⟨h1, h2⟩ := h
    subst h1 h2
    obtain ⟨hs1, hs2⟩ := ascending_cons.mp hinv.del_sorted
    refine ⟨⟨hinv.ins_le, ?_, hinv.heap_inv, hs2, ?_⟩, ?_, rfl, rfl, rfl, rfl, ?_⟩
    · have := hinv.del_le
      simp only [List.length_cons] at this
      simp only; omega
    · intro d hd x hx
      exact hinv.del_lower d (List.mem_cons_of_mem _ hd) x hx
    · simp only [guarded_heap.content, ← Multiset.cons_coe, Multiset.cons_add]
    · intro y hy
      simp only [guarded_heap.content, Multiset.mem_add, Multiset.mem_coe] at hy
      rcases hy with (hy | hy) | hy
      · exact hs1 y hy
      · exact hinv.del_lower a (by simp) y (Or.inl hy)
      · exact hinv.del_lower a (by simp) y (Or.inr hy)

/-- Every reachable guarded-queue state satisfies the invariant. -/
theorem reachable_inv (law : heap_contract comp cfg.NodeSize hp)
    (hswo : strict_weak_order comp) (hN : 0 < cfg.NodeSize) (g : guarded_heap α H)
    (hr : guarded_heap.reachable hp cfg comp g) : g.inv cfg law := by
  induction hr with
  | init => exact init_inv law
  | push v _ hpush ih =>
    obtain ⟨g2, h2, hinv2, -, -⟩ := push_spec law hswo hN _ ih v
    rw [hpush] at h2
    cases h2
    exact hinv2
  | refill _ hD href ih =>
    obtain ⟨g2, h2, hinv2, -, -, -⟩ := refill_spec law hswo hN _ ih.ins_le ih.heap_inv hD
    rw [href] at h2
    cases h2
    exact hinv2
  | pop_front _ hpop ih =>
    exact (pop_front_spec law _ ih _ _ hpop).1

/-- C3: in every guarded-queue state reachable from the empty queue by push, refill (with an
empty deletion buffer) and taking the front, the deletion buffer is non-decreasing by key,
and no value of the insertion buffer or of the heap is strictly smaller than a value of
the deletion buffer. -/
theorem reachable_sorted_prefix_invariant (law : heap_contract comp cfg.NodeSize hp)
    (hswo : strict_weak_order comp) (hN : 0 < cfg.NodeSize) (g : guarded_heap α H)
    (hr : guarded_heap.reachable hp cfg comp g) :
    ascending comp g.deletion_buffer ∧
      ∀ d ∈ g.deletion_buffer, ∀ x,
        (x ∈ g.insertion_buffer ∨ x ∈ law.vals g.heap) → comp x d = false :=
  ⟨(reachable_inv law hswo hN g hr).del_sorted, (reachable_inv law hswo hN g hr).del_lower⟩

theorem reachable_sorted_prefix_invariant_witness :
    guarded_heap.reachable (sorted_block_heap std_less 2) small_cfg std_less
        ({ in_use := false, insertion_buffer := [], deletion_buffer := [1, 3, 4, 7],
           heap := [] } : guarded_heap Nat (List Nat)) ∧
      ascending std_less [1, 3, 4, 7] ∧
      ∀ d ∈ [1, 3, 4, 7], ∀ x,
        (x ∈ ([] : List Nat) ∨
          x ∈ std_less_contract.vals
            ([] : List Nat)) →
        std_less x d = false :=
  have hreach : guarded_heap.reachable (sorted_block_heap std_less 2) small_cfg std_less
      ({ in_use := false, insertion_buffer := [], deletion_buffer := [1, 3, 4, 7],
         heap := [] } : guarded_heap Nat (List Nat)) :=
    guarded_heap.reachable.refill
      (guarded_heap.reachable.push 3 (guarded_heap.reachable.push 1
        (guarded_heap.reachable.push 7 (guarded_heap.reachable.push 4
          guarded_heap.reachable.init rfl) rfl) rfl) rfl) rfl rfl
  ⟨hreach, reachable_sorted_prefix_invariant
    std_less_contract std_less_swo (by decide : 0 < small_cfg.NodeSize) _ hreach⟩


/-- C4: for a guarded queue with an empty deletion buffer whose heap is in between-node order,
`refill_deletion_buffer` returns and keeps the content; afterwards either the deletion
buffer is non-empty, ascending, of at most `2 * NodeSize` values, and no value left in the
insertion buffer or the heap is strictly smaller than a value in it, or the deletion
buffer, the insertion buffer and the heap are all empty. -/
theorem refill_deletion_buffer_postcondition (law : heap_contract comp cfg.NodeSize hp)
    (hswo : strict_weak_order comp) (hN : 0 < cfg.NodeSize) (g : guarded_heap α H)
    (hI : g.insertion_buffer.length ≤ InsertionBufferSize cfg) (hH : law.Inv g.heap)
    (hD : g.deletion_buffer = []) :
    ∃ g1, refill_deletion_buffer hp cfg comp g = some g1 ∧
      g1.content law = g.content law ∧
      ((g1.deletion_buffer ≠ [] ∧ ascending comp g1.deletion_buffer ∧
          g1.deletion_buffer.length ≤ 2 * cfg.NodeSize ∧
          ∀ d ∈ g1.deletion_buffer, ∀ x,
            (x ∈ g1.insertion_buffer ∨ x ∈ law.vals g1.heap) → comp x d = false) ∨
        (g1.deletion_buffer = [] ∧ g1.insertion_buffer = [] ∧ hp.empty g1.heap = true ∧
          law.vals g1.heap = 0)) := by
  obtain ⟨g1, hg1, hinv1, hc1, -, hiff⟩ := refill_spec law hswo hN g hI hH hD
  refine ⟨g1, hg1, hc1, ?_⟩
  by_cases hd : g1.deletion_buffer = []
  · right
    obtain ⟨hi, he⟩ := hiff.mp hd
    have heq : g1 = g := by
      have : refill_deletion_buffer hp cfg comp g = some g := refill_of_empty hN g hD hi he
      rw [hg1] at this
      exact Option.some.inj this
    rw [heq]
    exact ⟨hD, hi, he, (law.empty_iff _ hH).mp he⟩
  · left
    exact ⟨hd, hinv1.del_sorted, hinv1.del_le, hinv1.del_lower⟩

theorem refill_deletion_buffer_postcondition_witness :
    ∃ g1, refill_deletion_buffer (sorted_block_heap std_less small_cfg.NodeSize) small_cfg
        std_less
        ({ in_use := false, insertion_buffer := [5], deletion_buffer := [],
           heap := [1, 6, 8, 9] } : guarded_heap Nat (List Nat)) = some g1 ∧
      g1.content std_less_contract =
        guarded_heap.content std_less_contract
          ({ in_use := false, insertion_buffer := [5], deletion_buffer := [],
             heap := [1, 6, 8, 9] } : guarded_heap Nat (List Nat)) ∧
      ((g1.deletion_buffer ≠ [] ∧ ascending std_less g1.deletion_buffer ∧
          g1.deletion_buffer.length ≤ 2 * small_cfg.NodeSize ∧
          ∀ d ∈ g1.deletion_buffer, ∀ x,
            (x ∈ g1.insertion_buffer ∨ x ∈ std_less_contract.vals g1.heap) →
              std_less x d = false) ∨
        (g1.deletion_buffer = [] ∧ g1.insertion_buffer = [] ∧
          (sorted_block_heap std_less small_cfg.NodeSize).empty g1.heap = true ∧
          std_less_contract.vals g1.heap = 0)) :=
  refill_deletion_buffer_postcondition std_less_contract std_less_swo
    (by decide : 0 < small_cfg.NodeSize)
    ({ in_use := false, insertion_buffer := [5], deletion_buffer := [],
       heap := [1, 6, 8, 9] } : guarded_heap Nat (List Nat))
    (by decide) ⟨by decide, by decide⟩ rfl

/-- C5: for a guarded queue with an empty deletion buffer, `refill_deletion_buffer` returns, and
the deletion buffer is still empty afterwards if and only if the insertion buffer and the
heap were both empty before; if either held a value the deletion buffer is non-empty. -/
theorem refill_leaves_empty_iff (law : heap_contract comp cfg.NodeSize hp)
    (hswo : strict_weak_order comp) (hN : 0 < cfg.NodeSize) (g : guarded_heap α H)
    (hI : g.insertion_buffer.length ≤ InsertionBufferSize cfg) (hH : law.Inv g.heap)
    (hD : g.deletion_buffer = []) :
    ∃ g1, refill_deletion_buffer hp cfg comp g = some g1 ∧
      (g1.deletion_buffer = [] ↔ g.insertion_buffer = [] ∧ hp.empty g.heap = true) ∧
      ((g.insertion_buffer ≠ [] ∨ hp.empty g.heap = false) → g1.deletion_buffer ≠ []) := by
  obtain ⟨g1, hg1, -, -, -, hiff⟩ := refill_spec law hswo hN g hI hH hD
  refine ⟨g1, hg1, hiff, ?_⟩
  intro h hd
  obtain ⟨hi, he⟩ := hiff.mp hd
  rcases h with h | h
  · exact h hi
  · rw [he] at h; exact absurd h (by simp)

theorem refill_leaves_empty_iff_witness :
    ∃ g1, refill_deletion_buffer (sorted_block_heap std_less small_cfg.NodeSize) small_cfg
        std_less
        ({ in_use := false, insertion_buffer := [5], deletion_buffer := [],
           heap := [] } : guarded_heap Nat (List Nat)) = some g1 ∧
      (g1.deletion_buffer = [] ↔
        ([5] : List Nat) = [] ∧
          (sorted_block_heap std_less small_cfg.NodeSize).empty ([] : List Nat) = true) ∧
      ((([5] : List Nat) ≠ [] ∨
          (sorted_block_heap std_less small_cfg.NodeSize).empty ([] : List Nat) = false) →
        g1.deletion_buffer ≠ []) :=
  refill_leaves_empty_iff std_less_contract std_less_swo
    (by decide : 0 < small_cfg.NodeSize)
    ({ in_use := false, insertion_buffer := [5], deletion_buffer := [],
       heap := [] } : guarded_heap Nat (List Nat))
    (by decide) ⟨by decide, by decide⟩ rfl

/-- C7: in every reachable guarded-queue state the insertion buffer holds at most `NodeSize`
and the deletion buffer at most `2 * NodeSize` values, and every further `push` and every
refill of an empty deletion buffer returns; as an append to, or insertion into, a buffer
at capacity has no result in the model, none is ever performed. -/
theorem reachable_within_capacity (law : heap_contract comp cfg.NodeSize hp)
    (hswo : strict_weak_order comp) (hN : 0 < cfg.NodeSize) (g : guarded_heap α H)
    (hr : guarded_heap.reachable hp cfg comp g) :
    g.insertion_buffer.length ≤ cfg.NodeSize ∧
      g.deletion_buffer.length ≤ 2 * cfg.NodeSize ∧
      (∀ v, ∃ g1, g.push hp cfg comp v = some g1) ∧
      (g.deletion_buffer = [] → ∃ g1, refill_deletion_buffer hp cfg comp g = some g1) := by
  have hinv := reachable_inv law hswo hN g hr
  refine ⟨hinv.ins_le, hinv.del_le, ?_, ?_⟩
  · intro v
    obtain ⟨g1, h1, -⟩ := push_spec law hswo hN g hinv v
    exact ⟨g1, h1⟩
  · intro hD
    obtain ⟨g1, h1, -⟩ := refill_spec law hswo hN g hinv.ins_le hinv.heap_inv hD
    exact ⟨g1, h1⟩

theorem reachable_within_capacity_witness :
    guarded_heap.reachable (sorted_block_heap std_less 2) small_cfg std_less
        ({ in_use := false, insertion_buffer := [4], deletion_buffer := [0, 1, 2, 3],
           heap := [7, 9] } : guarded_heap Nat (List Nat)) ∧
      ([4] : List Nat).length ≤ small_cfg.NodeSize ∧
      ([0, 1, 2, 3] : List Nat).length ≤ 2 * small_cfg.NodeSize ∧
      (∀ v, ∃ g1, guarded_heap.push (sorted_block_heap std_less 2) small_cfg std_less
          ({ in_use := false, insertion_buffer := [4], deletion_buffer := [0, 1, 2, 3],
             heap := [7, 9] } : guarded_heap Nat (List Nat)) v = some g1) ∧
      (([0, 1, 2, 3] : List Nat) = [] →
        ∃ g1, refill_deletion_buffer (sorted_block_heap std_less 2) small_cfg std_less
          ({ in_use := false, insertion_buffer := [4], deletion_buffer := [0, 1, 2, 3],
             heap := [7, 9] } : guarded_heap Nat (List Nat)) = some g1) :=
  have hreach : guarded_heap.reachable (sorted_block_heap std_less 2) small_cfg std_less
      ({ in_use := false, insertion_buffer := [4], deletion_buffer := [0, 1, 2, 3],
         heap := [7, 9] } : guarded_heap Nat (List Nat)) :=
    guarded_heap.reachable.push 0 (guarded_heap.reachable.push 2 (guarded_heap.reachable.push 9
      (guarded_heap.reachable.refill
        (guarded_heap.reachable.push 3 (guarded_heap.reachable.push 1
          (guarded_heap.reachable.push 7 (guarded_heap.reachable.push 4
            guarded_heap.reachable.init rfl) rfl) rfl) rfl) rfl rfl) rfl) rfl) rfl
  ⟨hreach, reachable_within_capacity std_less_contract std_less_swo
    (by decide : 0 < small_cfg.NodeSize) _ hreach⟩


/-- The refill-if-empty step on a queue satisfying the invariant: it returns, keeps the
invariant, the content and the lock word; the deletion buffer is empty afterwards exactly
when the whole queue was empty, and then nothing has changed. -/
theorem refill_if_empty_spec (law : heap_contract comp cfg.NodeSize hp)
    (hswo : strict_weak_order comp) (hN : 0 < cfg.NodeSize) (g : guarded_heap α H)
    (hinv : g.inv cfg law) :
    ∃ g1, refill_if_empty hp cfg comp g = some g1 ∧ g1.inv cfg law ∧
      g1.content law = g.content law ∧ g1.in_use = g.in_use ∧
      (g1.deletion_buffer = [] ↔ g.is_empty hp) ∧
      (g1.deletion_buffer = [] → g1 = g) ∧
      (g.deletion_buffer ≠ [] → g1 = g) := by
  unfold refill_if_empty
  by_cases hD : g.deletion_buffer = []
  · have hemp0 : g.deletion_buffer.isEmpty = true := by rw [hD]; rfl
    rw [hemp0]
    simp only [if_true]
    obtain ⟨g1, hg1, hinv1, hc1, hu1, hiff⟩ :=
      refill_spec law hswo hN g hinv.ins_le hinv.heap_inv hD
    have hemp : g1.deletion_buffer = [] → g1 = g := by
      intro hd
      obtain ⟨hi, he⟩ := hiff.mp hd
      have : refill_deletion_buffer hp cfg comp g = some g := refill_of_empty hN g hD hi he
      rw [hg1] at this
      exact Option.some.inj this
    refine ⟨g1, hg1, hinv1, hc1, hu1, ?_, hemp, fun h => absurd hD h⟩
    constructor
    · intro hd
      exact ⟨hD, (hiff.mp hd).1, (hiff.mp hd).2⟩
    · intro he
      exact hiff.mpr ⟨he.2.1, he.2.2⟩
  · have hne : g.deletion_buffer.isEmpty = false := by
      cases hd : g.deletion_buffer with
      | nil => exact absurd hd hD
      | cons _ _ => rfl
    rw [hne]
    simp only [Bool.false_eq_true, if_false]
    refine ⟨g, rfl, hinv, rfl, rfl, ?_, fun h => absurd h hD, fun _ => rfl⟩
    constructor
    · intro h; exact absurd h hD
    · intro h; exact absurd h.1 hD

theorem push_all_spec (law : heap_contract comp cfg.NodeSize hp)
    (hswo : strict_weak_order comp) (hN : 0 < cfg.NodeSize) (vs : List α) :
    ∀ g : guarded_heap α H, g.inv cfg law →
      ∃ g1, push_all hp cfg comp g vs = some g1 ∧ g1.inv cfg law ∧
        g1.content law = g.content law + (vs : Multiset α) := by
  induction vs with
  | nil => intro g hinv; exact ⟨g, rfl, hinv, by simp⟩
  | cons v vs ih =>
    intro g hinv
    obtain ⟨g1, h1, hinv1, hc1, -⟩ := push_spec law hswo hN g hinv v
    obtain ⟨g2, h2, hinv2, hc2⟩ := ih g1 hinv1
    refine ⟨g2, ?_, hinv2, ?_⟩
    · simp only [push_all, h1, Option.some_bind, h2]
    · rw [hc2, hc1, ← Multiset.cons_coe, ← Multiset.singleton_add, ← Multiset.singleton_add]
      abel

/-- Draining a queue that satisfies the invariant: with more fuel than resident values the
loop returns the whole content in ascending order and leaves the queue empty. -/
theorem drain_spec (law : heap_contract comp cfg.NodeSize hp)
    (hswo : strict_weak_order comp) (hN : 0 < cfg.NodeSize) :
    ∀ (n : Nat) (g : guarded_heap α H), g.inv cfg law →
      Multiset.card (g.content law) = n → ∀ fuel, n < fuel →
      ∃ outs gf, drain hp cfg comp fuel g = some (outs, gf) ∧ ascending comp outs ∧
        (outs : Multiset α) = g.content law ∧ gf.is_empty hp := by
  intro n
  induction n with
  | zero =>
    intro g hinv hcard fuel hfuel
    obtain ⟨f, rfl⟩ : ∃ f, fuel = f + 1 := ⟨fuel - 1, by omega⟩
    obtain ⟨g1, hg1, hinv1, hc1, -, hiff, hsame, -⟩ :=
      refill_if_empty_spec law hswo hN g hinv
    have hzero : g.content law = 0 := Multiset.card_eq_zero.mp hcard
    have hD1 : g1.deletion_buffer = [] := by
      have : g1.content law = 0 := by rw [hc1]; exact hzero
      simp only [guarded_heap.content, add_eq_zero] at this
      exact (Multiset.coe_eq_zero _).mp this.1.1
    refine ⟨[], g1, ?_, ascending_nil, by rw [hzero]; rfl, ?_⟩
    · simp only [drain, hg1, Option.some_bind, guarded_heap.pop_front, hD1]
    · rw [hsame hD1]; exact hiff.mp hD1
  | succ n ih =>
    intro g hinv hcard fuel hfuel
    obtain ⟨f, rfl⟩ : ∃ f, fuel = f + 1 := ⟨fuel - 1, by omega⟩
    obtain ⟨g1, hg1, hinv1, hc1, -, hiff, -, -⟩ :=
      refill_if_empty_spec law hswo hN g hinv
    have hD1 : g1.deletion_buffer ≠ [] := by
      intro hd
      obtain ⟨h1, h2, h3⟩ := hiff.mp hd
      have : g.content law = 0 := by
        simp [guarded_heap.content, h1, h2, (law.empty_iff _ hinv.heap_inv).mp h3]
      rw [this] at hcard
      simp at hcard
    obtain ⟨v, rest, hvr⟩ : ∃ v rest, g1.deletion_buffer = v :: rest := by
      cases hd : g1.deletion_buffer with
      | nil => exact absurd hd hD1
      | cons v rest => exact ⟨v, rest, rfl⟩
    have hpop : g1.pop_front = some (v, { g1 with deletion_buffer := rest }) := by
      simp only [guarded_heap.pop_front, hvr]
    obtain ⟨hinv2, hc2, -, -, -, -, hmin⟩ := pop_front_spec law g1 hinv1 _ _ hpop
    have hcard2 : Multiset.card (guarded_heap.content law
        ({ g1 with deletion_buffer := rest } : guarded_heap α H)) = n := by
      have := congrArg Multiset.card hc2
      rw [hc1, hcard, Multiset.card_cons] at this
      omega
    obtain ⟨outs, gf, hrun, hasc, hval, hemp⟩ := ih _ hinv2 hcard2 f (by omega)
    refine ⟨v :: outs, gf, ?_, ?_, ?_, hemp⟩
    · simp only [drain, hg1, Option.some_bind, hpop, hrun, Option.map_some']
    · refine ascending_cons.mpr ⟨?_, hasc⟩
      intro b hb
      apply hmin
      rw [← hval]
      exact Multiset.mem_coe.mpr hb
    · rw [← hc1, hc2, ← hval, Multiset.cons_coe]

/-- C6: for a guarded queue in isolation and every strict weak order `comp`, pushing the
values of a list and then extracting until the queue is empty (refill the deletion buffer
when it is empty, then take its front) returns: the extracted values are ascending under
`comp` and are a permutation of the pushed values, and the queue is left empty. -/
theorem push_all_drain_sorted_perm (law : heap_contract comp cfg.NodeSize hp)
    (hswo : strict_weak_order comp) (hN : 0 < cfg.NodeSize) (vs : List α) :
    ∃ g, push_all hp cfg comp (guarded_heap.init hp) vs = some g ∧
      ∀ fuel, vs.length < fuel →
        ∃ outs gf, drain hp cfg comp fuel g = some (outs, gf) ∧
          ascending comp outs ∧ outs.Perm vs ∧ gf.is_empty hp := by
  obtain ⟨g, hg, hinv, hc⟩ := push_all_spec law hswo hN vs _ (init_inv law)
  rw [init_content, zero_add] at hc
  refine ⟨g, hg, ?_⟩
  intro fuel hfuel
  obtain ⟨outs, gf, hrun, hasc, hval, hemp⟩ :=
    drain_spec law hswo hN vs.length g hinv (by rw [hc]; rfl) fuel hfuel
  refine ⟨outs, gf, hrun, hasc, ?_, hemp⟩
  rw [hc] at hval
  exact Multiset.coe_eq_coe.mp hval

theorem push_all_drain_sorted_perm_witness :
    (∃ g, push_all (sorted_block_heap std_greater small_cfg.NodeSize) small_cfg std_greater
        (guarded_heap.init (sorted_block_heap std_greater small_cfg.NodeSize))
        [0, 1, 2, 3, 4, 5, 6] = some g ∧
      ∀ fuel, ([0, 1, 2, 3, 4, 5, 6] : List Nat).length < fuel →
        ∃ outs gf, drain (sorted_block_heap std_greater small_cfg.NodeSize) small_cfg
            std_greater fuel g = some (outs, gf) ∧
          ascending std_greater outs ∧ outs.Perm [0, 1, 2, 3, 4, 5, 6] ∧
          gf.is_empty (sorted_block_heap std_greater small_cfg.NodeSize)) ∧
      (push_all (sorted_block_heap std_greater small_cfg.NodeSize) small_cfg std_greater
        (guarded_heap.init (sorted_block_heap std_greater small_cfg.NodeSize))
        [0, 1, 2, 3, 4, 5, 6]).bind
        (fun g => (drain (sorted_block_heap std_greater small_cfg.NodeSize) small_cfg
          std_greater 8 g).map (fun r => r.1)) = some [6, 5, 4, 3, 2, 1, 0] :=
  ⟨push_all_drain_sorted_perm std_greater_contract std_greater_swo
    (by decide : 0 < small_cfg.NodeSize) [0, 1, 2, 3, 4, 5, 6], rfl⟩

end guarded_facts

/-! ## The lock word does not influence the guarded-queue operations -/

section lock_word

variable {α H : Type} {hp : merge_heap α H} {cfg : Configuration} {comp : α → α → Bool}

theorem flush_insertion_buffer_in_use (g : guarded_heap α H) (b : Bool) :
    flush_insertion_buffer hp cfg comp { g with in_use := b } =
      (flush_insertion_buffer hp cfg comp g).map (fun g1 => { g1 with in_use := b }) := by
  unfold flush_insertion_buffer
  by_cases h : g.insertion_buffer.length = InsertionBufferSize cfg
  · simp only [h, if_true, Option.map_map]
    rfl
  · simp only [h, if_false, Option.map_none']

theorem flush_if_full_in_use (g : guarded_heap α H) (b : Bool) :
    flush_if_full hp cfg comp { g with in_use := b } =
      (flush_if_full hp cfg comp g).map (fun g1 => { g1 with in_use := b }) := by
  unfold flush_if_full
  by_cases h : g.insertion_buffer.length = InsertionBufferSize cfg
  · simp only [h, if_true]
    exact flush_insertion_buffer_in_use g b
  · simp only [h, if_false, Option.map_some']

theorem refill_pop_loop_in_use (b : Bool) :
    ∀ (fuel : Nat) (g : guarded_heap α H),
      refill_pop_loop hp cfg fuel { g with in_use := b } =
        (refill_pop_loop hp cfg fuel g).map (fun g1 => { g1 with in_use := b }) := by
  intro fuel
  induction fuel with
  | zero =>
    intro g
    unfold refill_pop_loop
    by_cases h : g.deletion_buffer.length ≠ DeletionBufferSize cfg ∧ hp.empty g.heap = false
    · simp only [h, and_self, if_true, Option.map_none', ne_eq, not_false_eq_true]
    · simp only [h, if_false, Option.map_some']
  | succ n ih =>
    intro g
    unfold refill_pop_loop
    by_cases h : g.deletion_buffer.length ≠ DeletionBufferSize cfg ∧ hp.empty g.heap = false
    · simp only [h, and_self, if_true, ne_eq, not_false_eq_true]
      cases hc : copy_back (DeletionBufferSize cfg) g.deletion_buffer (hp.top_node g.heap) with
      | none => rfl
      | some d =>
        simp only [Option.some_bind]
        exact ih ⟨g.in_use, g.insertion_buffer, d, hp.pop_node g.heap⟩
    · simp only [h, if_false, Option.map_some']

theorem refill_deletion_buffer_in_use (g : guarded_heap α H) (b : Bool) :
    refill_deletion_buffer hp cfg comp { g with in_use := b } =
      (refill_deletion_buffer hp cfg comp g).map (fun g1 => { g1 with in_use := b }) := by
  unfold refill_deletion_buffer
  by_cases hd : (!g.deletion_buffer.isEmpty) = true
  · simp only [hd, if_true, Option.map_none']
  · simp only [hd, Bool.false_eq_true, if_false]
    by_cases hfull : g.insertion_buffer.length = InsertionBufferSize cfg
    · simp only [hfull, if_true]
      rw [flush_insertion_buffer_in_use]
      cases hf : flush_insertion_buffer hp cfg comp g with
      | none => rfl
      | some g1 =>
        simp only [Option.map_some', Option.some_bind]
        exact refill_pop_loop_in_use b _ g1
    · simp only [hfull, if_false]
      by_cases he : hp.empty g.heap = true
      · simp only [he, if_true, Option.map_map]
        rfl
      · simp only [he, Bool.false_eq_true, if_false]
        cases hparts : (if g.insertion_buffer.isEmpty = true then some (([] : List α), ([] : List α))
            else (hp.top_node g.heap).getLast?.map (fun M =>
              (g.insertion_buffer.filter (fun v => comp M v),
               g.insertion_buffer.filter (fun v => !comp M v)))) with
        | none => rfl
        | some p =>
          simp only [Option.some_bind]
          cases hm : merge_loop comp (DeletionBufferSize cfg) p.2.length p.2
              (hp.top_node g.heap) g.deletion_buffer with
          | none => rfl
          | some nd =>
            simp only [Option.some_bind, Option.map_map]
            rfl

theorem refill_if_empty_in_use (g : guarded_heap α H) (b : Bool) :
    refill_if_empty hp cfg comp { g with in_use := b } =
      (refill_if_empty hp cfg comp g).map (fun g1 => { g1 with in_use := b }) := by
  unfold refill_if_empty
  by_cases hd : g.deletion_buffer.isEmpty = true
  · simp only [hd, if_true]
    exact refill_deletion_buffer_in_use g b
  · simp only [hd, Bool.false_eq_true, if_false, Option.map_some']

theorem push_in_use (g : guarded_heap α H) (v : α) (b : Bool) :
    guarded_heap.push hp cfg comp { g with in_use := b } v =
      (g.push hp cfg comp v).map (fun g1 => { g1 with in_use := b }) := by
  unfold guarded_heap.push
  simp only
  by_cases h1 : (!g.deletion_buffer.isEmpty) = true ∧
      push_scan comp v g.deletion_buffer g.deletion_buffer.length < g.deletion_buffer.length
  · simp only [h1, and_self, if_true]
    by_cases h2 : g.deletion_buffer.length = DeletionBufferSize cfg
    · simp only [h2, if_true]
      rw [flush_if_full_in_use]
      cases hf : flush_if_full hp cfg comp g with
      | none => rfl
      | some g1 =>
        simp only [Option.map_some', Option.some_bind]
        cases hl : g1.deletion_buffer.getLast? with
        | none => rfl
        | some b1 =>
          simp only
          cases hpb : push_back (InsertionBufferSize cfg) g1.insertion_buffer b1 with
          | none => rfl
          | some i1 =>
            simp only [Option.some_bind, Option.map_map]
            rfl
    · simp only [h2, if_false, Option.map_map]
      rfl
  · simp only [h1, if_false]
    rw [flush_if_full_in_use]
    cases hf : flush_if_full hp cfg comp g with
    | none => rfl
    | some g1 =>
      simp only [Option.map_some', Option.some_bind, Option.map_map]
      rfl

end lock_word

/-! ## The multiqueue: single steps -/

section mq_facts

variable {α H : Type}

theorem acquired_append (a b : List Event) : acquired (a ++ b) = acquired a ++ acquired b := by
  induction a with
  | nil => rfl
  | cons e es ih => cases e <;> simp [acquired, ih]

theorem store_get_same (mq : numa_aware_merge_mq α H) (i : Nat) (g : guarded_heap α H)
    (h : i < mq.heap_list_.length) : (mq.store i g).heap_list_[i]? = some g := by
  simp [numa_aware_merge_mq.store, List.getElem?_set, h]

theorem store_get_ne (mq : numa_aware_merge_mq α H) (i j : Nat) (g : guarded_heap α H)
    (h : i ≠ j) : (mq.store i g).heap_list_[j]? = mq.heap_list_[j]? := by
  simp [numa_aware_merge_mq.store, List.getElem?_set, h]

theorem store_store (mq : numa_aware_merge_mq α H) (i : Nat) (g g1 : guarded_heap α H) :
    (mq.store i g).store i g1 = mq.store i g1 := by
  simp [numa_aware_merge_mq.store, List.set_set]

theorem store_self (mq : numa_aware_merge_mq α H) (i : Nat) (g : guarded_heap α H)
    (h : mq.heap_list_[i]? = some g) : mq.store i g = mq := by
  obtain ⟨l, n⟩ := mq
  simp only [numa_aware_merge_mq.store, numa_aware_merge_mq.mk.injEq, and_true]
  simp only at h
  apply List.ext_getElem?
  intro k
  rw [List.getElem?_set]
  split
  · next hik =>
    subst hik
    split
    · exact h.symm
    · next hlt => rw [List.getElem?_eq_none (by omega)]
  · rfl

theorem store_comm (mq : numa_aware_merge_mq α H) (i j : Nat) (g g1 : guarded_heap α H)
    (h : i ≠ j) : (mq.store i g).store j g1 = (mq.store j g1).store i g := by
  simp only [numa_aware_merge_mq.store]
  congr 1
  exact List.set_comm g g1 _ h

theorem lt_of_get {l : List α} {i : Nat} {a : α} (h : l[i]? = some a) : i < l.length := by
  by_contra hc
  rw [List.getElem?_eq_none (by omega)] at h
  exact absurd h (by simp)

theorem lock_with_in_use (g : guarded_heap α H) (b c : Bool) :
    ({ ({ g with in_use := b } : guarded_heap α H) with in_use := c } : guarded_heap α H) =
      { g with in_use := c } := rfl

theorem in_use_self (g : guarded_heap α H) (b : Bool) (h : g.in_use = b) :
    ({ g with in_use := b } : guarded_heap α H) = g := by
  cases g; simp only at h; subst h; rfl

/-- The global probing loop, when it returns, has locked a queue that was free; the
index is one of the draws reduced modulo `num_queues_`. -/
theorem lock_loop_inv (mq : numa_aware_merge_mq α H) :
    ∀ (rs : List Nat) (tr : List Event) (j : Nat) (e1 : exec α H),
      lock_loop mq rs tr = some (j, e1) →
      ∃ g, mq.heap_list_[j]? = some g ∧ g.in_use = false ∧
        e1.mq = mq.store j { g with in_use := true } ∧
        acquired e1.trace = acquired tr ++ [j] ∧ ∃ r ∈ rs, j = r % mq.num_queues_ := by
  intro rs
  induction rs with
  | nil => intro tr j e1 h; simp [lock_loop] at h
  | cons r rs ih =>
    intro tr j e1 h
    unfold lock_loop try_lock at h
    simp only at h
    cases hq : mq.heap_list_[r % mq.num_queues_]? with
    | none => rw [hq] at h; simp at h
    | some g =>
      rw [hq] at h
      simp only at h
      cases hu : g.in_use with
      | true =>
        rw [hu] at h
        simp only [if_true] at h
        obtain ⟨g1, h1, h2, h3, h4, r1, hr1, h5⟩ := ih _ _ _ h
        refine ⟨g1, h1, h2, h3, ?_, r1, List.mem_cons_of_mem _ hr1, h5⟩
        rw [h4, acquired_append]
        simp [acquired]
      | false =>
        rw [hu] at h
        simp only [Bool.false_eq_true, if_false, Option.some.injEq, Prod.mk.injEq] at h
        obtain ⟨hj, he⟩ := h
        subst hj he
        refine ⟨g, hq, hu, rfl, ?_, r, List.mem_cons_self _ _, rfl⟩
        simp [acquired_append, acquired]


theorem try_lock_free (e : exec α H) (i : Nat) (g : guarded_heap α H)
    (h : e.mq.heap_list_[i]? = some g) (hf : g.in_use = false) :
    try_lock i e = some (true, { e with mq := e.mq.store i { g with in_use := true },
                                        trace := e.trace ++ [Event.acquire i] }) := by
  simp [try_lock, h, hf]

theorem on_queue_eq (e : exec α H) (i : Nat) (f : guarded_heap α H → Option (guarded_heap α H))
    (g g1 : guarded_heap α H) (h : e.mq.heap_list_[i]? = some g) (hf : f g = some g1) :
    on_queue i f e = some { e with mq := e.mq.store i g1,
                                   trace := e.trace ++ [Event.access i] } := by
  simp [on_queue, h, hf]

theorem read_deletion_buffer_eq (e : exec α H) (i : Nat) (g : guarded_heap α H)
    (h : e.mq.heap_list_[i]? = some g) :
    read_deletion_buffer i e =
      some (g.deletion_buffer, { e with trace := e.trace ++ [Event.access i] }) := by
  simp [read_deletion_buffer, h]

theorem unlock_eq (e : exec α H) (i : Nat) (g : guarded_heap α H)
    (h : e.mq.heap_list_[i]? = some g) :
    unlock i e = some { e with mq := e.mq.store i { g with in_use := false },
                               trace := e.trace ++ [Event.release i] } := by
  simp [unlock, h]

theorem take_front_eq (e : exec α H) (i : Nat) (g : guarded_heap α H) (v : α) (rest : List α)
    (h : e.mq.heap_list_[i]? = some g) (hd : g.deletion_buffer = v :: rest) :
    take_front i e =
      some { ret := true, retval := some v,
             mq := e.mq.store i { g with deletion_buffer := rest, in_use := false },
             rng := e.rng,
             trace := e.trace ++ [Event.access i] ++ [Event.release i] } := by
  have hi := lt_of_get h
  simp only [take_front, h, guarded_heap.pop_front, hd, unlock]
  rw [store_get_same _ _ _ hi]
  simp [store_store]

end mq_facts

/-! ## The multiqueue: what `extract_top` does -/

section extract

variable {Key T H : Type} {hp : merge_heap (Key × T) H} {cfg : Configuration}
  {comp : Key → Key → Bool}

/-- The local probing loop started with every lock free locks the first home-block slot
it tries. -/
theorem probe_first_inv (mq : numa_aware_merge_mq (Key × T) H)
    (hfree : ∀ g ∈ mq.heap_list_, g.in_use = false) (id start : Nat) (rs : List Nat)
    (fi : Option Nat) (e1 : exec (Key × T) H)
    (h : probe_first cfg id start cfg.C 0 none { mq := mq, rng := rs, trace := [] } =
      some (fi, e1)) :
    (cfg.C = 0 ∧ fi = none) ∨
    ∃ g1, fi = some (cfg.C * id % 2 ^ 32 + start % cfg.C) ∧
      mq.heap_list_[cfg.C * id % 2 ^ 32 + start % cfg.C]? = some g1 ∧
      e1 = { mq := mq.store (cfg.C * id % 2 ^ 32 + start % cfg.C) { g1 with in_use := true },
             rng := rs, trace := [Event.acquire (cfg.C * id % 2 ^ 32 + start % cfg.C)] } := by
  by_cases hC : cfg.C = 0
  · left
    rw [hC] at h
    simp only [probe_first, Option.some.injEq, Prod.mk.injEq] at h
    exact ⟨hC, h.1.symm⟩
  · right
    obtain ⟨n, hn⟩ := Nat.exists_eq_succ_of_ne_zero hC
    rw [hn] at h
    unfold probe_first at h
    simp only [Nat.add_zero] at h
    cases hq : mq.heap_list_[cfg.C * id % 2 ^ 32 + start % cfg.C]? with
    | none =>
      simp only [try_lock, hq] at h
      exact absurd h (by simp)
    | some g1 =>
      have hf : g1.in_use = false := hfree g1 (List.getElem?_mem hq)
      rw [try_lock_free _ _ g1 hq hf] at h
      simp only [Option.some.injEq, Prod.mk.injEq] at h
      exact ⟨g1, h.1.symm, rfl, by rw [← h.2]; simp⟩


theorem inv_store {law : heap_contract (value_comparator comp) cfg.NodeSize hp}
    (mq : numa_aware_merge_mq (Key × T) H) (hinv : mq.inv cfg law) (i : Nat)
    (g : guarded_heap (Key × T) H) (hg : g.inv cfg law) (hu : g.in_use = false) :
    (mq.store i g).inv cfg law := by
  refine ⟨?_, ?_, ?_⟩
  · simp only [numa_aware_merge_mq.store, List.length_set]; exact hinv.size_eq
  · intro x hx
    rcases List.mem_or_eq_of_mem_set hx with h | h
    · exact hinv.free x h
    · rw [h]; exact hu
  · intro x hx
    rcases List.mem_or_eq_of_mem_set hx with h | h
    · exact hinv.queues x h
    · rw [h]; exact hg

/-- The second half of `extract_top`, started in a state `e4` in which every queue with a
free lock satisfies the invariant and, unless the first queue was released as empty, the
first queue `i` is locked and has deletion buffer `d1`. -/
theorem extract_top_second_cases (law : heap_contract (value_comparator comp) cfg.NodeSize hp)
    (hswo : strict_weak_order comp) (hN : 0 < cfg.NodeSize)
    (e4 : exec (Key × T) H) (i : Nat) (d1 : List (Key × T))
    (hfree : ∀ g ∈ e4.mq.heap_list_, g.in_use = false → g.inv cfg law)
    (g1 : guarded_heap (Key × T) H)
    (hfirst : d1 ≠ [] → e4.mq.heap_list_[i]? = some g1 ∧ g1.in_use = true ∧
      g1.deletion_buffer = d1)
    (r : extract_result (Key × T) H)
    (h : extract_top_second hp cfg comp i d1 e4 = some r) :
    ∃ j g2 g2r,
      (∃ r1 ∈ e4.rng, j = r1 % e4.mq.num_queues_) ∧
      e4.mq.heap_list_[j]? = some g2 ∧ g2.in_use = false ∧
      refill_if_empty hp cfg (value_comparator comp) g2 = some g2r ∧
      acquired r.trace = acquired e4.trace ++ [j] ∧
      ((d1 = [] ∧ g2r.deletion_buffer = [] ∧ r.ret = false ∧ r.retval = none ∧
          r.mq = e4.mq) ∨
        (∃ v2 r2, d1 = [] ∧ g2r.deletion_buffer = v2 :: r2 ∧ r.ret = true ∧
          r.retval = some v2 ∧ r.mq = e4.mq.store j { g2r with deletion_buffer := r2 }) ∨
        (∃ v1 r1, d1 = v1 :: r1 ∧ g2r.deletion_buffer = [] ∧ r.ret = true ∧
          r.retval = some v1 ∧
          r.mq = e4.mq.store i { g1 with deletion_buffer := r1, in_use := false }) ∨
        (∃ v1 r1 v2 r2, d1 = v1 :: r1 ∧ g2r.deletion_buffer = v2 :: r2 ∧
          comp v2.1 v1.1 = true ∧ r.ret = true ∧ r.retval = some v2 ∧
          r.mq = (e4.mq.store i { g1 with in_use := false }).store j
            { g2r with deletion_buffer := r2 }) ∨
        (∃ v1 r1 v2 r2, d1 = v1 :: r1 ∧ g2r.deletion_buffer = v2 :: r2 ∧
          comp v2.1 v1.1 = false ∧ r.ret = true ∧ r.retval = some v1 ∧
          r.mq = (e4.mq.store i { g1 with deletion_buffer := r1, in_use := false }).store j
            g2r)) := by
  have hswo' : strict_weak_order (@value_comparator Key T comp) := hswo.value_comparator
  unfold extract_top_second at h
  cases hl : lock_loop e4.mq e4.rng e4.trace with
  | none => rw [hl] at h; simp at h
  | some je =>
    obtain ⟨j, e5⟩ := je
    rw [hl] at h
    simp only [Option.some_bind] at h
    obtain ⟨g2, hq2, hu2, he5, htr5, hr5⟩ := lock_loop_inv _ _ _ _ _ hl
    have hjlt : j < e4.mq.heap_list_.length := lt_of_get hq2
    have hg2inv : g2.inv cfg law := hfree g2 (List.getElem?_mem hq2) hu2
    obtain ⟨g2r, hg2r, hinv2r, -, hu2r, hiff2, hsame2, -⟩ :=
      refill_if_empty_spec law hswo' hN g2 hg2inv
    rw [hu2] at hu2r
    have hq5 : e5.mq.heap_list_[j]? = some { g2 with in_use := true } := by
      rw [he5]; exact store_get_same _ _ _ hjlt
    rw [on_queue_eq e5 j _ { g2 with in_use := true } { g2r with in_use := true } hq5
      (by rw [refill_if_empty_in_use, hg2r]; rfl)] at h
    simp only [Option.some_bind] at h
    rw [read_deletion_buffer_eq _ j { g2r with in_use := true }
      (by simp only [he5, store_store]; exact store_get_same _ _ _ hjlt)] at h
    simp only [Option.some_bind, he5, store_store] at h
    refine ⟨j, g2, g2r, hr5, hq2, hu2, hg2r, ?_⟩
    have hacq : ∀ es : List Event, acquired es = [] →
        acquired (e5.trace ++ es) = acquired e4.trace ++ [j] := by
      intro es hes
      rw [acquired_append, htr5, hes, List.append_nil]
    obtain ⟨u2, ib2, db2, hh2⟩ := g2r
    simp only at hu2r hsame2 h ⊢
    subst hu2r
    cases db2 with
    | nil =>
      have hg2eq := hsame2 rfl
      simp only [List.isEmpty_nil, if_true] at h
      rw [unlock_eq _ j _ (store_get_same _ _ _ hjlt)] at h
      simp only [Option.some_bind, store_store] at h
      have hback : e4.mq.store j
          ({ in_use := false, insertion_buffer := ib2, deletion_buffer := [],
             heap := hh2 } : guarded_heap (Key × T) H) = e4.mq := by
        rw [hg2eq]; exact store_self _ _ _ hq2
      rw [hback] at h
      cases d1 with
      | nil =>
        simp only [List.isEmpty_nil, if_true, Option.some.injEq] at h
        subst h
        refine ⟨?_, Or.inl ⟨rfl, rfl, rfl, rfl, rfl⟩⟩
        simp only [List.append_assoc]
        exact hacq _ rfl
      | cons v1 r1 =>
        obtain ⟨hq1, hu1, hd1⟩ := hfirst (by simp)
        simp only [List.isEmpty_cons, Bool.false_eq_true, if_false] at h
        rw [take_front_eq _ i g1 v1 r1 (by exact hq1) hd1] at h
        simp only [Option.some.injEq] at h
        subst h
        refine ⟨?_, Or.inr (Or.inr (Or.inl ⟨v1, r1, rfl, rfl, rfl, rfl, rfl⟩))⟩
        simp only [List.append_assoc]
        exact hacq _ rfl
    | cons v2 r2 =>
      simp only [List.isEmpty_cons, Bool.false_eq_true, if_false] at h
      cases d1 with
      | nil =>
        simp only [List.isEmpty_nil, if_true, Bool.not_true, Bool.false_eq_true, if_false,
          Option.some_bind] at h
        rw [take_front_eq _ j _ v2 r2 (store_get_same _ _ _ hjlt) rfl] at h
        simp only [Option.some.injEq, store_store] at h
        subst h
        refine ⟨?_, Or.inr (Or.inl ⟨v2, r2, rfl, rfl, rfl, rfl, rfl⟩)⟩
        simp only [List.append_assoc]
        exact hacq _ rfl
      | cons v1 r1 =>
        obtain ⟨hq1, hu1, hd1⟩ := hfirst (by simp)
        have hij : i ≠ j := by
          intro hc
          rw [hc, hq2] at hq1
          have := Option.some.inj hq1
          rw [← this, hu2] at hu1
          exact absurd hu1 (by simp)
        simp only [List.isEmpty_cons, Bool.false_eq_true, if_false, List.head?_cons] at h
        cases hc : comp v2.1 v1.1 with
        | true =>
          rw [hc] at h
          simp only [Bool.not_false, if_true] at h
          rw [unlock_eq _ i g1 (by rw [store_get_ne _ _ _ _ (Ne.symm hij)]; exact hq1)] at h
          simp only [Option.some_bind] at h
          rw [take_front_eq _ j _ v2 r2
            (by rw [store_get_ne _ _ _ _ hij]; exact store_get_same _ _ _ hjlt) rfl] at h
          simp only [Option.some.injEq] at h
          subst h
          refine ⟨?_, Or.inr (Or.inr (Or.inr (Or.inl
            ⟨v1, r1, v2, r2, rfl, rfl, hc, rfl, rfl, ?_⟩)))⟩
          · simp only [List.append_assoc]
            exact hacq _ rfl
          · simp only
            rw [store_comm _ j i _ _ (Ne.symm hij), store_store]
        | false =>
          rw [hc] at h
          simp only at h
          rw [unlock_eq _ j _ (store_get_same _ _ _ hjlt)] at h
          simp only [Option.some_bind, store_store] at h
          rw [take_front_eq _ i g1 v1 r1
            (by rw [store_get_ne _ _ _ _ (Ne.symm hij)]; exact hq1) hd1] at h
          simp only [Option.some.injEq] at h
          subst h
          refine ⟨?_, Or.inr (Or.inr (Or.inr (Or.inr
            ⟨v1, r1, v2, r2, rfl, rfl, hc, rfl, rfl, ?_⟩)))⟩
          · simp only [List.append_assoc]
            exact hacq _ rfl
          · simp only
            rw [store_comm _ j i _ _ (Ne.symm hij)]

/-- What a returning `extract_top` has done, when it starts between two calls of a
single-threaded run: `i` and `j` are the two queues it locked, `g1` and `g2` their states
before the call, `g1r` and `g2r` their states after the refill-if-empty step. -/
theorem extract_top_cases (law : heap_contract (value_comparator comp) cfg.NodeSize hp)
    (hswo : strict_weak_order comp) (hN : 0 < cfg.NodeSize)
    (mq : numa_aware_merge_mq (Key × T) H) (hinv : mq.inv cfg law) (id : Nat)
    (rng : List Nat) (r : extract_result (Key × T) H)
    (h : mq.extract_top hp cfg comp id rng = some r) :
    ∃ r0 rs i j g1 g2 g1r g2r,
      rng = r0 :: rs ∧ i = cfg.C * id % 2 ^ 32 + r0 % cfg.C ∧ acquired r.trace = [i, j] ∧
      (∃ r1 ∈ rs, j = r1 % mq.num_queues_) ∧
      mq.heap_list_[i]? = some g1 ∧ mq.heap_list_[j]? = some g2 ∧
      refill_if_empty hp cfg (value_comparator comp) g1 = some g1r ∧
      refill_if_empty hp cfg (value_comparator comp) g2 = some g2r ∧
      (g1r.deletion_buffer ≠ [] → j ≠ i) ∧
      ((g1r.deletion_buffer = [] ∧ g2r.deletion_buffer = [] ∧
          r.ret = false ∧ r.retval = none ∧ r.mq = mq) ∨
        (∃ v2 r2, g1r.deletion_buffer = [] ∧ g2r.deletion_buffer = v2 :: r2 ∧
          r.ret = true ∧ r.retval = some v2 ∧
          r.mq = mq.store j { g2r with deletion_buffer := r2 }) ∨
        (∃ v1 r1, g1r.deletion_buffer = v1 :: r1 ∧ g2r.deletion_buffer = [] ∧
          r.ret = true ∧ r.retval = some v1 ∧
          r.mq = mq.store i { g1r with deletion_buffer := r1 }) ∨
        (∃ v1 r1 v2 r2, g1r.deletion_buffer = v1 :: r1 ∧ g2r.deletion_buffer = v2 :: r2 ∧
          comp v2.1 v1.1 = true ∧ r.ret = true ∧ r.retval = some v2 ∧
          r.mq = (mq.store i g1r).store j { g2r with deletion_buffer := r2 }) ∨
        (∃ v1 r1 v2 r2, g1r.deletion_buffer = v1 :: r1 ∧ g2r.deletion_buffer = v2 :: r2 ∧
          comp v2.1 v1.1 = false ∧ r.ret = true ∧ r.retval = some v1 ∧
          r.mq = (mq.store i { g1r with deletion_buffer := r1 }).store j g2r)) := by
  have hswo' : strict_weak_order (@value_comparator Key T comp) := hswo.value_comparator
  cases rng with
  | nil => simp [numa_aware_merge_mq.extract_top] at h
  | cons r0 rs =>
    unfold numa_aware_merge_mq.extract_top at h
    simp only at h
    cases hprobe : probe_first cfg id (r0 % cfg.C) cfg.C 0 none
        ({ mq := mq, rng := rs, trace := [] } : exec (Key × T) H) with
    | none => rw [hprobe] at h; simp at h
    | some pe =>
      obtain ⟨fi, e1⟩ := pe
      rw [hprobe] at h
      rcases probe_first_inv mq hinv.free id (r0 % cfg.C) rs fi e1 hprobe with
        ⟨-, hfi⟩ | ⟨g1, hfi, hq1, he1⟩
      · subst hfi; simp at h
      · rw [Nat.mod_mod] at hfi hq1 he1
        subst hfi he1
        simp only at h
        generalize hi : cfg.C * id % 2 ^ 32 + r0 % cfg.C = i at *
        have hilt : i < mq.heap_list_.length := lt_of_get hq1
        have hu1 : g1.in_use = false := hinv.free g1 (List.getElem?_mem hq1)
        have hg1inv : g1.inv cfg law := hinv.queues g1 (List.getElem?_mem hq1)
        obtain ⟨g1r, hg1r, hinv1r, -, hu1r, hiff1, hsame1, -⟩ :=
          refill_if_empty_spec law hswo' hN g1 hg1inv
        rw [hu1] at hu1r
        -- the refill-if-empty step on the first queue
        rw [on_queue_eq _ i _ { g1 with in_use := true } { g1r with in_use := true }
          (store_get_same _ _ _ hilt)
          (by rw [refill_if_empty_in_use, hg1r]; rfl)] at h
        simp only [Option.some_bind, store_store] at h
        rw [read_deletion_buffer_eq _ i { g1r with in_use := true }
          (store_get_same _ _ _ hilt)] at h
        simp only [Option.some_bind] at h
        obtain ⟨u1, ib1, db1, hh1⟩ := g1r
        simp only at hu1r hsame1 h
        subst hu1r
        cases db1 with
        | nil =>
          have hg1eq := hsame1 rfl
          simp only [List.isEmpty_nil, if_true] at h
          rw [unlock_eq _ i _ (store_get_same _ _ _ hilt)] at h
          simp only [Option.some_bind, store_store] at h
          have hback : mq.store i
              ({ in_use := false, insertion_buffer := ib1, deletion_buffer := [],
                 heap := hh1 } : guarded_heap (Key × T) H) = mq := by
            rw [hg1eq]; exact store_self _ _ _ hq1
          rw [hback] at h
          obtain ⟨j, g2, g2r, hrj, hq2, -, hg2r, htr, hout⟩ :=
            extract_top_second_cases law hswo hN _ i [] (fun g hg _ => hinv.queues g hg) g1
              (fun hc => absurd rfl hc) r h
          refine ⟨r0, rs, i, j, g1, g2, _, g2r, rfl, hi.symm, ?_, hrj, hq1, hq2, hg1r, hg2r,
            fun hc => absurd rfl hc, ?_⟩
          · rw [htr]; rfl
          · rcases hout with ⟨-, h2, h3, h4, h5⟩ | ⟨v2, r2, -, h2, h3, h4, h5⟩ |
              ⟨v1, r1, hc, -⟩ | ⟨v1, r1, v2, r2, hc, -⟩ | ⟨v1, r1, v2, r2, hc, -⟩
            · exact Or.inl ⟨rfl, h2, h3, h4, h5⟩
            · exact Or.inr (Or.inl ⟨v2, r2, rfl, h2, h3, h4, h5⟩)
            · exact absurd hc (by simp)
            · exact absurd hc (by simp)
            · exact absurd hc (by simp)
        | cons v1 r1 =>
          simp only [List.isEmpty_cons, Bool.false_eq_true, if_false, Option.some_bind] at h
          obtain ⟨j, g2, g2r, hrj, hq2, hu2, hg2r, htr, hout⟩ :=
            extract_top_second_cases law hswo hN _ i (v1 :: r1)
              (by
                intro g hg hgu
                rcases List.mem_or_eq_of_mem_set hg with hm | hm
                · exact hinv.queues g hm
                · rw [hm] at hgu; exact absurd hgu (by simp))
              ({ in_use := true, insertion_buffer := ib1, deletion_buffer := v1 :: r1,
                 heap := hh1 } : guarded_heap (Key × T) H)
              (fun _ => ⟨store_get_same _ _ _ hilt, rfl, rfl⟩) r h
          have hji : j ≠ i := by
            intro hc
            rw [hc] at hq2
            simp only at hq2
            rw [store_get_same _ _ _ hilt] at hq2
            have := Option.some.inj hq2
            rw [← this] at hu2
            exact absurd hu2 (by simp)
          simp only at hq2
          rw [store_get_ne _ _ _ _ (Ne.symm hji)] at hq2
          refine ⟨r0, rs, i, j, g1, g2, _, g2r, rfl, hi.symm, ?_, hrj, hq1, hq2, hg1r, hg2r,
            fun _ => hji, ?_⟩
          · rw [htr]; rfl
          · rcases hout with ⟨hc, -⟩ | ⟨v2, r2, hc, -⟩ |
              ⟨w1, s1, hd, h2, h3, h4, h5⟩ | ⟨w1, s1, v2, r2, hd, h2, hcmp, h3, h4, h5⟩ |
              ⟨w1, s1, v2, r2, hd, h2, hcmp, h3, h4, h5⟩
            · exact absurd hc (by simp)
            · exact absurd hc (by simp)
            · simp only [List.cons.injEq] at hd
              obtain ⟨hd1, hd2⟩ := hd
              subst hd1 hd2
              simp only [store_store] at h5
              exact Or.inr (Or.inr (Or.inl ⟨v1, r1, rfl, h2, h3, h4, h5⟩))
            · simp only [List.cons.injEq] at hd
              obtain ⟨hd1, hd2⟩ := hd
              subst hd1 hd2
              simp only [store_store] at h5
              exact Or.inr (Or.inr (Or.inr (Or.inl ⟨v1, r1, v2, r2, rfl, h2, hcmp, h3, h4, h5⟩)))
            · simp only [List.cons.injEq] at hd
              obtain ⟨hd1, hd2⟩ := hd
              subst hd1 hd2
              simp only [store_store] at h5
              exact Or.inr (Or.inr (Or.inr (Or.inr ⟨v1, r1, v2, r2, rfl, h2, hcmp, h3, h4, h5⟩)))

end extract

/-! ## The multiqueue: accounting of values -/

section accounting

variable {Key T H : Type} {hp : merge_heap (Key × T) H} {cfg : Configuration}
  {comp : Key → Key → Bool}

theorem sum_map_set {β M : Type} [AddCommMonoid M] (f : β → M) :
    ∀ (l : List β) (i : Nat) (a b : β), l[i]? = some a →
      ((l.set i b).map f).sum + f a = (l.map f).sum + f b := by
  intro l
  induction l with
  | nil => intro i a b h; simp at h
  | cons x xs ih =>
    intro i a b h
    cases i with
    | zero =>
      simp only [List.getElem?_cons_zero, Option.some.injEq] at h
      subst h
      simp only [List.set_cons_zero, List.map_cons, List.sum_cons]
      abel
    | succ n =>
      simp only [List.getElem?_cons_succ] at h
      simp only [List.set_cons_succ, List.map_cons, List.sum_cons]
      rw [add_assoc, ih n a b h, add_assoc]

/-- Replacing one guarded queue changes the resident multiset by that queue's content. -/
theorem content_store (law : heap_contract (value_comparator comp) cfg.NodeSize hp)
    (mq : numa_aware_merge_mq (Key × T) H) (i : Nat) (g g1 : guarded_heap (Key × T) H)
    (h : mq.heap_list_[i]? = some g) :
    (mq.store i g1).content law + g.content law = mq.content law + g1.content law :=
  sum_map_set (fun g => g.content law) mq.heap_list_ i g g1 h

/-- What a returning `push` has done, when it starts between two calls of a
single-threaded run. -/
theorem push_cases
    (mq : numa_aware_merge_mq (Key × T) H) (v : Key × T)
    (rng : List Nat) (e : exec (Key × T) H)
    (h : mq.push hp cfg comp v rng = some e) :
    ∃ j g g1, (∃ r ∈ rng, j = r % mq.num_queues_) ∧ mq.heap_list_[j]? = some g ∧
      g.push hp cfg (value_comparator comp) v = some g1 ∧ e.mq = mq.store j g1 ∧
      acquired e.trace = [j] := by
  unfold numa_aware_merge_mq.push at h
  cases hl : lock_loop mq rng [] with
  | none => rw [hl] at h; simp at h
  | some je =>
    obtain ⟨j, e1⟩ := je
    rw [hl] at h
    simp only at h
    obtain ⟨g, hq, hu, he1, htr, hr⟩ := lock_loop_inv _ _ _ _ _ hl
    have hjlt := lt_of_get hq
    have hq1 : e1.mq.heap_list_[j]? = some { g with in_use := true } := by
      rw [he1]; exact store_get_same _ _ _ hjlt
    cases hp1 : g.push hp cfg (value_comparator comp) v with
    | none =>
      simp only [on_queue, hq1, push_in_use, hp1, Option.map_none', Option.none_bind] at h
      exact absurd h (by simp)
    | some g1 =>
      have hu1 : g1.in_use = false := by
        have := @push_in_use (Key × T) H hp cfg (value_comparator comp) g v g.in_use
        rw [in_use_self g _ rfl, hp1] at this
        simp only [Option.map_some', Option.some.injEq] at this
        rw [← hu]
        rw [this]
      rw [on_queue_eq e1 j _ { g with in_use := true } { g1 with in_use := true } hq1
        (by rw [push_in_use, hp1]; rfl)] at h
      simp only [Option.some_bind] at h
      rw [unlock_eq _ j { g1 with in_use := true }
        (by simp only [he1, store_store]; exact store_get_same _ _ _ hjlt)] at h
      simp only [Option.some.injEq, he1, store_store] at h
      subst h
      refine ⟨j, g, g1, hr, hq, hp1, ?_, ?_⟩
      · simp only
        rw [← hu1]
      · simp only [acquired_append, htr]
        rfl


/-- The effect of a returning `push` between two calls of a single-threaded run: the
invariant is kept and the resident multiset gains exactly the pushed value. -/
theorem push_effect (law : heap_contract (value_comparator comp) cfg.NodeSize hp)
    (hswo : strict_weak_order comp) (hN : 0 < cfg.NodeSize)
    (mq : numa_aware_merge_mq (Key × T) H) (hinv : mq.inv cfg law) (v : Key × T)
    (rng : List Nat) (e : exec (Key × T) H)
    (h : mq.push hp cfg comp v rng = some e) :
    e.mq.inv cfg law ∧ e.mq.content law = v ::ₘ mq.content law := by
  have hswo' : strict_weak_order (@value_comparator Key T comp) := hswo.value_comparator
  obtain ⟨j, g, g1, -, hq, hp1, he, -⟩ := push_cases mq v rng e h
  have hginv := hinv.queues g (List.getElem?_mem hq)
  have hgu := hinv.free g (List.getElem?_mem hq)
  obtain ⟨g2, hp2, hinv2, hc2, hu2⟩ := push_spec law hswo' hN g hginv v
  rw [hp1] at hp2
  cases hp2
  rw [he]
  refine ⟨inv_store mq hinv j g1 hinv2 (by rw [hu2, hgu]), ?_⟩
  have := content_store law mq j g g1 hq
  rw [hc2] at this
  have h3 : (mq.store j g1).content law + g.content law =
      (v ::ₘ mq.content law) + g.content law := by
    rw [this, ← Multiset.singleton_add, ← Multiset.singleton_add]
    abel
  exact add_right_cancel h3

theorem content_store_same (law : heap_contract (value_comparator comp) cfg.NodeSize hp)
    (mq : numa_aware_merge_mq (Key × T) H) (i : Nat) (g g1 : guarded_heap (Key × T) H)
    (h : mq.heap_list_[i]? = some g) (hc : g1.content law = g.content law) :
    (mq.store i g1).content law = mq.content law := by
  have := content_store law mq i g g1 h
  rw [hc] at this
  exact add_right_cancel this

theorem content_store_pop (law : heap_contract (value_comparator comp) cfg.NodeSize hp)
    (mq : numa_aware_merge_mq (Key × T) H) (i : Nat) (g g1 : guarded_heap (Key × T) H)
    (v : Key × T) (h : mq.heap_list_[i]? = some g) (hc : g.content law = v ::ₘ g1.content law) :
    mq.content law = v ::ₘ (mq.store i g1).content law := by
  have := content_store law mq i g g1 h
  rw [hc] at this
  have h3 : mq.content law + g1.content law =
      (v ::ₘ (mq.store i g1).content law) + g1.content law := by
    rw [← this, ← Multiset.singleton_add, ← Multiset.singleton_add]
    abel
  exact add_right_cancel h3

/-- Refilling a queue if its deletion buffer is empty and then taking the front. -/
theorem refill_then_pop (law : heap_contract (value_comparator comp) cfg.NodeSize hp)
    (hswo : strict_weak_order comp) (hN : 0 < cfg.NodeSize)
    (g gr : guarded_heap (Key × T) H) (hg : g.inv cfg law)
    (hr : refill_if_empty hp cfg (value_comparator comp) g = some gr) :
    gr.inv cfg law ∧ gr.content law = g.content law ∧ gr.in_use = g.in_use ∧
      ∀ v rest, gr.deletion_buffer = v :: rest →
        guarded_heap.inv cfg law ({ gr with deletion_buffer := rest } : guarded_heap (Key × T) H) ∧
        g.content law = v ::ₘ guarded_heap.content law
          ({ gr with deletion_buffer := rest } : guarded_heap (Key × T) H) ∧
        ∀ y ∈ guarded_heap.content law
            ({ gr with deletion_buffer := rest } : guarded_heap (Key × T) H),
          comp y.1 v.1 = false := by
  have hswo' : strict_weak_order (@value_comparator Key T comp) := hswo.value_comparator
  obtain ⟨g2, h2, hinv2, hc2, hu2, -⟩ := refill_if_empty_spec law hswo' hN g hg
  rw [hr] at h2
  cases h2
  refine ⟨hinv2, hc2, hu2, ?_⟩
  intro v rest hd
  have hpop : gr.pop_front = some (v, { gr with deletion_buffer := rest }) := by
    simp only [guarded_heap.pop_front, hd]
  obtain ⟨hi3, hc3, -, -, -, -, hmin⟩ := pop_front_spec law gr hinv2 _ _ hpop
  exact ⟨hi3, by rw [← hc2, hc3], hmin⟩

/-- The effect of a returning `extract_top` between two calls of a single-threaded run:
the invariant is kept; the resident multiset loses exactly the returned value; and a
returned value comes from one of the two locked queues, `k`, whose content loses it and
keeps no value strictly smaller, every other queue keeping its content. -/
theorem extract_top_effect (law : heap_contract (value_comparator comp) cfg.NodeSize hp)
    (hswo : strict_weak_order comp) (hN : 0 < cfg.NodeSize)
    (mq : numa_aware_merge_mq (Key × T) H) (hinv : mq.inv cfg law) (id : Nat)
    (rng : List Nat) (r : extract_result (Key × T) H)
    (h : mq.extract_top hp cfg comp id rng = some r) :
    r.mq.inv cfg law ∧
      mq.content law = (r.retval.toList : Multiset (Key × T)) + r.mq.content law ∧
      (r.ret = true → ∃ v k g g1, r.retval = some v ∧ k ∈ acquired r.trace ∧
        mq.heap_list_[k]? = some g ∧ r.mq.heap_list_[k]? = some g1 ∧
        g.content law = v ::ₘ g1.content law ∧
        (∀ y ∈ g1.content law, comp y.1 v.1 = false) ∧
        ∀ m, m ≠ k → (r.mq.heap_list_[m]?).map (fun q => q.content law) =
          (mq.heap_list_[m]?).map (fun q => q.content law)) := by
  obtain ⟨r0, rs, i, j, g1, g2, g1r, g2r, -, -, hacq, -, hq1, hq2, hr1, hr2, hji, hout⟩ :=
    extract_top_cases law hswo hN mq hinv id rng r h
  have hg1 := hinv.queues g1 (List.getElem?_mem hq1)
  have hg2 := hinv.queues g2 (List.getElem?_mem hq2)
  have hu1 := hinv.free g1 (List.getElem?_mem hq1)
  have hu2 := hinv.free g2 (List.getElem?_mem hq2)
  have hilt := lt_of_get hq1
  have hjlt := lt_of_get hq2
  obtain ⟨hi1r, hc1r, hu1r, hpop1⟩ := refill_then_pop law hswo hN g1 g1r hg1 hr1
  obtain ⟨hi2r, hc2r, hu2r, hpop2⟩ := refill_then_pop law hswo hN g2 g2r hg2 hr2
  rw [hu1] at hu1r
  rw [hu2] at hu2r
  rcases hout with ⟨-, -, hret, hval, hmq⟩ | ⟨v2, r2, -, hd2, hret, hval, hmq⟩ |
    ⟨v1, r1, hd1, -, hret, hval, hmq⟩ | ⟨v1, r1, v2, r2, hd1, hd2, -, hret, hval, hmq⟩ |
    ⟨v1, r1, v2, r2, hd1, hd2, -, hret, hval, hmq⟩
  · rw [hmq, hval]
    refine ⟨hinv, by simp, ?_⟩
    intro hc; rw [hret] at hc; exact absurd hc (by simp)
  · obtain ⟨hpi, hpc, hpm⟩ := hpop2 v2 r2 hd2
    rw [hmq, hval]
    refine ⟨inv_store mq hinv j _ hpi hu2r, ?_, ?_⟩
    · rw [Option.toList_some, Multiset.coe_singleton, Multiset.singleton_add]
      exact content_store_pop law mq j g2 _ v2 hq2 hpc
    · intro _
      refine ⟨v2, j, g2, _, rfl, by rw [hacq]; simp, hq2, store_get_same _ _ _ hjlt, hpc, hpm, ?_⟩
      intro m hm
      rw [store_get_ne _ _ _ _ (Ne.symm hm)]
  · obtain ⟨hpi, hpc, hpm⟩ := hpop1 v1 r1 hd1
    rw [hmq, hval]
    refine ⟨inv_store mq hinv i _ hpi hu1r, ?_, ?_⟩
    · rw [Option.toList_some, Multiset.coe_singleton, Multiset.singleton_add]
      exact content_store_pop law mq i g1 _ v1 hq1 hpc
    · intro _
      refine ⟨v1, i, g1, _, rfl, by rw [hacq]; simp, hq1, store_get_same _ _ _ hilt, hpc, hpm, ?_⟩
      intro m hm
      rw [store_get_ne _ _ _ _ (Ne.symm hm)]
  · obtain ⟨hpi, hpc, hpm⟩ := hpop2 v2 r2 hd2
    have hne : j ≠ i := hji (by rw [hd1]; simp)
    have hqA : (mq.store i g1r).heap_list_[j]? = some g2 := by
      rw [store_get_ne _ _ _ _ (Ne.symm hne)]; exact hq2
    have hAlt : j < (mq.store i g1r).heap_list_.length := lt_of_get hqA
    rw [hmq, hval]
    refine ⟨inv_store _ (inv_store mq hinv i _ hi1r hu1r) j _ hpi hu2r, ?_, ?_⟩
    · rw [Option.toList_some, Multiset.coe_singleton, Multiset.singleton_add,
        ← content_store_pop law (mq.store i g1r) j g2 _ v2 hqA hpc,
        content_store_same law mq i g1 g1r hq1 hc1r]
    · intro _
      refine ⟨v2, j, g2, _, rfl, by rw [hacq]; simp, hq2, store_get_same _ _ _ hAlt, hpc, hpm, ?_⟩
      intro m hm
      rw [store_get_ne _ _ _ _ (Ne.symm hm)]
      by_cases hmi : m = i
      · subst hmi
        rw [store_get_same _ _ _ hilt, hq1]
        simp only [Option.map_some', hc1r]
      · rw [store_get_ne _ _ _ _ (Ne.symm hmi)]
  · obtain ⟨hpi, hpc, hpm⟩ := hpop1 v1 r1 hd1
    have hne : j ≠ i := hji (by rw [hd1]; simp)
    have hqA : (mq.store i ({ g1r with deletion_buffer := r1 } : guarded_heap (Key × T) H)).heap_list_[j]?
        = some g2 := by
      rw [store_get_ne _ _ _ _ (Ne.symm hne)]; exact hq2
    have hAlt := lt_of_get hqA
    rw [hmq, hval]
    refine ⟨inv_store _ (inv_store mq hinv i _ hpi hu1r) j _ hi2r hu2r, ?_, ?_⟩
    · rw [Option.toList_some, Multiset.coe_singleton, Multiset.singleton_add,
        content_store_same law _ j g2 g2r hqA hc2r]
      exact content_store_pop law mq i g1 _ v1 hq1 hpc
    · intro _
      refine ⟨v1, i, g1, _, rfl, by rw [hacq]; simp, hq1, ?_, hpc, hpm, ?_⟩
      · rw [store_get_ne _ _ _ _ hne]; exact store_get_same _ _ _ hilt
      · intro m hm
        by_cases hmj : m = j
        · subst hmj
          rw [store_get_same _ _ _ hAlt, hq2]
          simp only [Option.map_some', hc2r]
        · rw [store_get_ne _ _ _ _ (Ne.symm hmj), store_get_ne _ _ _ _ (Ne.symm hm)]

end accounting

/-! ## The multiqueue: single-threaded runs -/

section runs

variable {Key T H : Type} {hp : merge_heap (Key × T) H} {cfg : Configuration}
  {comp : Key → Key → Bool}

/-- A freshly constructed multiqueue satisfies the invariant. -/
theorem new_inv (law : heap_contract (value_comparator comp) cfg.NodeSize hp) (P : Nat) :
    (numa_aware_merge_mq.new hp cfg P : numa_aware_merge_mq (Key × T) H).inv cfg law := by
  refine ⟨rfl, ?_, ?_⟩
  · intro g hg
    rw [List.eq_of_mem_replicate hg]
    rfl
  · intro g hg
    rw [List.eq_of_mem_replicate hg]
    exact init_inv law

/-- A freshly constructed multiqueue holds no value. -/
theorem new_content (law : heap_contract (value_comparator comp) cfg.NodeSize hp) (P : Nat) :
    (numa_aware_merge_mq.new hp cfg P : numa_aware_merge_mq (Key × T) H).content law = 0 := by
  unfold numa_aware_merge_mq.content numa_aware_merge_mq.new
  simp only [List.map_replicate, init_content, List.sum_replicate, smul_zero]

/-- The number of queues of a new multiqueue: the product `num_threads * C` modulo
`2 ^ 32`. -/
theorem new_length_mod (P : Nat) :
    (numa_aware_merge_mq.new hp cfg P : numa_aware_merge_mq (Key × T) H).heap_list_.length =
      (P * cfg.C) % 2 ^ 32 := by
  simp only [numa_aware_merge_mq.new, List.length_replicate]

/-- A new multiqueue has `C * P` queues when the product does not wrap. -/
theorem new_length (P : Nat) (hw : P * cfg.C < 2 ^ 32) :
    (numa_aware_merge_mq.new hp cfg P : numa_aware_merge_mq (Key × T) H).heap_list_.length =
      cfg.C * P := by
  rw [new_length_mod, Nat.mod_eq_of_lt hw, Nat.mul_comm]

/-- A single-threaded run keeps the invariant, and what was resident before plus what was
pushed is what was extracted plus what is resident afterwards. -/
theorem run_spec (law : heap_contract (value_comparator comp) cfg.NodeSize hp)
    (hswo : strict_weak_order comp) (hN : 0 < cfg.NodeSize) :
    ∀ (ops : List (Op (Key × T))) (mq mq1 : numa_aware_merge_mq (Key × T) H)
      (outs : List (Key × T)), mq.inv cfg law → run hp cfg comp mq ops = some (mq1, outs) →
      mq1.inv cfg law ∧
        mq.content law + (pushed ops : Multiset (Key × T)) =
          (outs : Multiset (Key × T)) + mq1.content law := by
  intro ops
  induction ops with
  | nil =>
    intro mq mq1 outs hinv h
    simp only [run, Option.some.injEq, Prod.mk.injEq] at h
    obtain ⟨h1, h2⟩ := h
    subst h1 h2
    exact ⟨hinv, by simp [pushed]⟩
  | cons op ops ih =>
    intro mq mq1 outs hinv h
    cases op with
    | push v rng =>
      simp only [run] at h
      cases hp1 : mq.push hp cfg comp v rng with
      | none => rw [hp1] at h; simp at h
      | some e =>
        rw [hp1] at h
        simp only [Option.some_bind] at h
        obtain ⟨hinv1, hc1⟩ := push_effect law hswo hN mq hinv v rng e hp1
        obtain ⟨hinv2, hc2⟩ := ih e.mq mq1 outs hinv1 h
        refine ⟨hinv2, ?_⟩
        rw [← hc2, hc1]
        simp only [pushed, ← Multiset.cons_coe, ← Multiset.singleton_add]
        abel
    | extract_top id rng =>
      simp only [run] at h
      cases hx : mq.extract_top hp cfg comp id rng with
      | none => rw [hx] at h; simp at h
      | some r =>
        rw [hx] at h
        simp only [Option.some_bind] at h
        cases hrest : run hp cfg comp r.mq ops with
        | none => rw [hrest] at h; simp at h
        | some p =>
          rw [hrest] at h
          simp only [Option.map_some', Option.some.injEq, Prod.mk.injEq] at h
          obtain ⟨h1, h2⟩ := h
          subst h1 h2
          obtain ⟨hinv1, hc1, -⟩ := extract_top_effect law hswo hN mq hinv id rng r hx
          obtain ⟨hinv2, hc2⟩ := ih r.mq p.1 p.2 hinv1 (by rw [hrest])
          refine ⟨hinv2, ?_⟩
          simp only [pushed]
          rw [hc1, add_assoc, hc2, ← Multiset.coe_add]
          abel

theorem run_push_only :
    ∀ (ops : List (Op (Key × T))) (mq mq1 : numa_aware_merge_mq (Key × T) H)
      (outs : List (Key × T)), (∀ op ∈ ops, ∃ v rng, op = Op.push v rng) →
      run hp cfg comp mq ops = some (mq1, outs) → outs = [] := by
  intro ops
  induction ops with
  | nil =>
    intro mq mq1 outs _ h
    simp only [run, Option.some.injEq, Prod.mk.injEq] at h
    exact h.2.symm
  | cons op ops ih =>
    intro mq mq1 outs hall h
    obtain ⟨v, rng, hop⟩ := hall op (List.mem_cons_self _ _)
    subst hop
    simp only [run] at h
    cases hp1 : mq.push hp cfg comp v rng with
    | none => rw [hp1] at h; simp at h
    | some e =>
      rw [hp1] at h
      simp only [Option.some_bind] at h
      exact ih e.mq mq1 outs (fun op hop => hall op (List.mem_cons_of_mem _ hop)) h

end runs

/-! ## The multiqueue: the operations return -/

section totality

variable {Key T H : Type} {hp : merge_heap (Key × T) H} {cfg : Configuration}
  {comp : Key → Key → Bool}

/-- The global probing loop returns as soon as one of the draws names a free queue. -/
theorem lock_loop_total {α : Type} (mq : numa_aware_merge_mq α H) :
    ∀ (rs : List Nat) (tr : List Event),
      (∀ r ∈ rs, r % mq.num_queues_ < mq.heap_list_.length) →
      (∃ r ∈ rs, ∃ g, mq.heap_list_[r % mq.num_queues_]? = some g ∧ g.in_use = false) →
      ∃ je, lock_loop mq rs tr = some je := by
  intro rs
  induction rs with
  | nil => intro tr _ h; obtain ⟨r, hr, -⟩ := h; simp at hr
  | cons r rs ih =>
    intro tr hrange hfree
    have hlt := hrange r (List.mem_cons_self _ _)
    have hq : mq.heap_list_[r % mq.num_queues_]? = some (mq.heap_list_[r % mq.num_queues_]) :=
      List.getElem?_eq_getElem hlt
    unfold lock_loop try_lock
    simp only [hq]
    cases hu : (mq.heap_list_[r % mq.num_queues_]).in_use with
    | false => simp
    | true =>
      simp only [if_true]
      apply ih _ (fun x hx => hrange x (List.mem_cons_of_mem _ hx))
      obtain ⟨r1, hr1, g, hg, hgu⟩ := hfree
      rcases List.mem_cons.mp hr1 with h | h
      · subst h
        rw [hq] at hg
        have := Option.some.inj hg
        rw [← this, hu] at hgu
        exact absurd hgu (by simp)
      · exact ⟨r1, h, g, hg, hgu⟩

/-- The second half of `extract_top` returns whenever its probing loop does. -/
theorem extract_top_second_total
    (law : heap_contract (value_comparator comp) cfg.NodeSize hp)
    (hswo : strict_weak_order comp) (hN : 0 < cfg.NodeSize)
    (e4 : exec (Key × T) H) (i : Nat) (d1 : List (Key × T))
    (hfree : ∀ g ∈ e4.mq.heap_list_, g.in_use = false → g.inv cfg law)
    (g1 : guarded_heap (Key × T) H)
    (hfirst : d1 ≠ [] → e4.mq.heap_list_[i]? = some g1 ∧ g1.in_use = true ∧
      g1.deletion_buffer = d1)
    (hl : ∃ je, lock_loop e4.mq e4.rng e4.trace = some je) :
    ∃ r, extract_top_second hp cfg comp i d1 e4 = some r := by
  have hswo' : strict_weak_order (@value_comparator Key T comp) := hswo.value_comparator
  obtain ⟨⟨j, e5⟩, hl⟩ := hl
  unfold extract_top_second
  rw [hl]
  simp only [Option.some_bind]
  obtain ⟨g2, hq2, hu2, he5, -, -⟩ := lock_loop_inv _ _ _ _ _ hl
  have hjlt : j < e4.mq.heap_list_.length := lt_of_get hq2
  have hg2inv : g2.inv cfg law := hfree g2 (List.getElem?_mem hq2) hu2
  obtain ⟨g2r, hg2r, -, -, hu2r, -, -, -⟩ :=
    refill_if_empty_spec law hswo' hN g2 hg2inv
  rw [hu2] at hu2r
  have hq5 : e5.mq.heap_list_[j]? = some { g2 with in_use := true } := by
    rw [he5]; exact store_get_same _ _ _ hjlt
  rw [on_queue_eq e5 j _ { g2 with in_use := true } { g2r with in_use := true } hq5
    (by rw [refill_if_empty_in_use, hg2r]; rfl)]
  simp only [Option.some_bind]
  rw [read_deletion_buffer_eq _ j { g2r with in_use := true }
    (by simp only [he5, store_store]; exact store_get_same _ _ _ hjlt)]
  simp only [Option.some_bind, he5, store_store]
  obtain ⟨u2, ib2, db2, hh2⟩ := g2r
  simp only at hu2r ⊢
  subst hu2r
  cases db2 with
  | nil =>
    simp only [List.isEmpty_nil, if_true]
    rw [unlock_eq _ j _ (store_get_same _ _ _ hjlt)]
    simp only [Option.some_bind, store_store]
    cases d1 with
    | nil => exact ⟨_, rfl⟩
    | cons v1 r1 =>
      obtain ⟨hq1, hu1, hd1⟩ := hfirst (by simp)
      have hij : i ≠ j := by
        intro hc
        rw [hc, hq2] at hq1
        have := Option.some.inj hq1
        rw [← this, hu2] at hu1
        exact absurd hu1 (by simp)
      simp only [List.isEmpty_cons, Bool.false_eq_true, if_false]
      rw [take_front_eq _ i g1 v1 r1
        (by rw [store_get_ne _ _ _ _ (Ne.symm hij)]; exact hq1) hd1]
      exact ⟨_, rfl⟩
  | cons v2 r2 =>
    simp only [List.isEmpty_cons, Bool.false_eq_true, if_false]
    cases d1 with
    | nil =>
      simp only [List.isEmpty_nil, if_true, Bool.not_true, Bool.false_eq_true, if_false,
        Option.some_bind]
      rw [take_front_eq _ j _ v2 r2 (store_get_same _ _ _ hjlt) rfl]
      exact ⟨_, rfl⟩
    | cons v1 r1 =>
      obtain ⟨hq1, hu1, hd1⟩ := hfirst (by simp)
      have hij : i ≠ j := by
        intro hc
        rw [hc, hq2] at hq1
        have := Option.some.inj hq1
        rw [← this, hu2] at hu1
        exact absurd hu1 (by simp)
      simp only [List.isEmpty_cons, Bool.false_eq_true, if_false, List.head?_cons]
      cases hc : comp v2.1 v1.1 with
      | true =>
        simp only [Bool.not_false, if_true]
        rw [unlock_eq _ i g1 (by rw [store_get_ne _ _ _ _ (Ne.symm hij)]; exact hq1)]
        simp only [Option.some_bind]
        rw [take_front_eq _ j _ v2 r2
          (by rw [store_get_ne _ _ _ _ hij]; exact store_get_same _ _ _ hjlt) rfl]
        exact ⟨_, rfl⟩
      | false =>
        simp only
        rw [unlock_eq _ j _ (store_get_same _ _ _ hjlt)]
        simp only [Option.some_bind, store_store]
        rw [take_front_eq _ i g1 v1 r1
          (by rw [store_get_ne _ _ _ _ (Ne.symm hij)]; exact hq1) hd1]
        exact ⟨_, rfl⟩

/-- `extract_top` returns when started between two calls of a single-threaded run with a
valid handle, a draw for the local offset, and a later draw that names a queue other than
the first one (or any later draw, if the first queue is empty). -/
theorem extract_top_total (law : heap_contract (value_comparator comp) cfg.NodeSize hp)
    (hswo : strict_weak_order comp) (hN : 0 < cfg.NodeSize) (hC : 0 < cfg.C)
    (mq : numa_aware_merge_mq (Key × T) H) (hinv : mq.inv cfg law) (id r0 : Nat)
    (rs : List Nat) (g1 : guarded_heap (Key × T) H)
    (hq1 : mq.heap_list_[cfg.C * id % 2 ^ 32 + r0 % cfg.C]? = some g1)
    (hrs : ∃ r1 ∈ rs, r1 % mq.num_queues_ ≠ cfg.C * id % 2 ^ 32 + r0 % cfg.C ∨ g1.is_empty hp) :
    ∃ r, mq.extract_top hp cfg comp id (r0 :: rs) = some r := by
  have hswo' : strict_weak_order (@value_comparator Key T comp) := hswo.value_comparator
  have hu1 : g1.in_use = false := hinv.free g1 (List.getElem?_mem hq1)
  have hg1inv : g1.inv cfg law := hinv.queues g1 (List.getElem?_mem hq1)
  have hilt := lt_of_get hq1
  have hQ : 0 < mq.num_queues_ := by rw [hinv.size_eq]; omega
  have hrange : ∀ r ∈ rs, r % mq.num_queues_ < mq.heap_list_.length := by
    intro r _
    rw [← hinv.size_eq]
    exact Nat.mod_lt _ hQ
  obtain ⟨n, hn⟩ : ∃ n, cfg.C = n + 1 := ⟨cfg.C - 1, by omega⟩
  have hprobe : probe_first cfg id (r0 % cfg.C) cfg.C 0 none
      ({ mq := mq, rng := rs, trace := [] } : exec (Key × T) H) =
      some (some (cfg.C * id % 2 ^ 32 + r0 % cfg.C),
        { mq := mq.store (cfg.C * id % 2 ^ 32 + r0 % cfg.C) { g1 with in_use := true }, rng := rs,
          trace := [Event.acquire (cfg.C * id % 2 ^ 32 + r0 % cfg.C)] }) := by
    have h1 : probe_first cfg id (r0 % cfg.C) (n + 1) 0 none
        ({ mq := mq, rng := rs, trace := [] } : exec (Key × T) H) =
        some (some (cfg.C * id % 2 ^ 32 + r0 % cfg.C),
          { mq := mq.store (cfg.C * id % 2 ^ 32 + r0 % cfg.C) { g1 with in_use := true }, rng := rs,
            trace := [Event.acquire (cfg.C * id % 2 ^ 32 + r0 % cfg.C)] }) := by
      unfold probe_first
      simp only [Nat.add_zero, Nat.mod_mod]
      rw [try_lock_free _ _ g1 hq1 hu1]
      simp
    rw [← hn] at h1
    exact h1
  unfold numa_aware_merge_mq.extract_top
  simp only [hprobe]
  generalize cfg.C * id % 2 ^ 32 + r0 % cfg.C = i at *
  obtain ⟨g1r, hg1r, hinv1r, -, hu1r, hiff1, hsame1, -⟩ :=
    refill_if_empty_spec law hswo' hN g1 hg1inv
  rw [hu1] at hu1r
  rw [on_queue_eq _ i _ { g1 with in_use := true } { g1r with in_use := true }
    (store_get_same _ _ _ hilt) (by rw [refill_if_empty_in_use, hg1r]; rfl)]
  simp only [Option.some_bind, store_store]
  rw [read_deletion_buffer_eq _ i { g1r with in_use := true } (store_get_same _ _ _ hilt)]
  simp only [Option.some_bind]
  obtain ⟨u1, ib1, db1, hh1⟩ := g1r
  simp only at hu1r hsame1 hiff1 ⊢
  subst hu1r
  cases db1 with
  | nil =>
    have hg1eq := hsame1 rfl
    simp only [List.isEmpty_nil, if_true]
    rw [unlock_eq _ i _ (store_get_same _ _ _ hilt)]
    simp only [Option.some_bind, store_store]
    have hback : mq.store i
        ({ in_use := false, insertion_buffer := ib1, deletion_buffer := [],
           heap := hh1 } : guarded_heap (Key × T) H) = mq := by
      rw [hg1eq]; exact store_self _ _ _ hq1
    rw [hback]
    apply extract_top_second_total law hswo hN _ i [] (fun g hg _ => hinv.queues g hg) g1
      (fun hc => absurd rfl hc)
    apply lock_loop_total mq rs _ hrange
    obtain ⟨r1, hr1, -⟩ := hrs
    have hlt1 := hrange r1 hr1
    exact ⟨r1, hr1, _, List.getElem?_eq_getElem hlt1,
      hinv.free _ (List.getElem_mem hlt1)⟩
  | cons v1 r1 =>
    simp only [List.isEmpty_cons, Bool.false_eq_true, if_false, Option.some_bind]
    apply extract_top_second_total law hswo hN _ i (v1 :: r1)
      (by
        intro g hg hgu
        rcases List.mem_or_eq_of_mem_set hg with hm | hm
        · exact hinv.queues g hm
        · rw [hm] at hgu; exact absurd hgu (by simp))
      ({ in_use := true, insertion_buffer := ib1, deletion_buffer := v1 :: r1,
         heap := hh1 } : guarded_heap (Key × T) H)
      (fun _ => ⟨store_get_same _ _ _ hilt, rfl, rfl⟩)
    apply lock_loop_total _ rs _
      (by
        intro r hr
        simp only [numa_aware_merge_mq.store, List.length_set]
        exact hrange r hr)
    obtain ⟨r1, hr1, hne | hemp⟩ := hrs
    · have hlt1 := hrange r1 hr1
      refine ⟨r1, hr1, mq.heap_list_[r1 % mq.num_queues_], ?_,
        hinv.free _ (List.getElem_mem hlt1)⟩
      show (mq.store i _).heap_list_[r1 % mq.num_queues_]? = _
      rw [store_get_ne _ _ _ _ (Ne.symm hne)]
      exact List.getElem?_eq_getElem hlt1
    · have := hiff1.mpr hemp
      exact absurd this (by simp)

/-- On a multiqueue all of whose guarded queues are empty, `extract_top` returns false and
changes nothing. -/
theorem extract_top_all_empty (law : heap_contract (value_comparator comp) cfg.NodeSize hp)
    (hswo : strict_weak_order comp) (hN : 0 < cfg.NodeSize) (hC : 0 < cfg.C)
    (P id : Nat) (hid : id < P) (mq : numa_aware_merge_mq (Key × T) H)
    (hinv : mq.inv cfg law) (hlen : mq.heap_list_.length = cfg.C * P)
    (hemp : ∀ g ∈ mq.heap_list_, g.is_empty hp) (rng : List Nat) :
    (2 ≤ rng.length → ∃ r, mq.extract_top hp cfg comp id rng = some r) ∧
      ∀ r, mq.extract_top hp cfg comp id rng = some r →
        r.ret = false ∧ r.retval = none ∧ r.mq = mq := by
  have hswo' : strict_weak_order (@value_comparator Key T comp) := hswo.value_comparator
  constructor
  · intro h2
    obtain ⟨r0, r1, rs, rfl⟩ : ∃ r0 r1 rs, rng = r0 :: r1 :: rs := by
      cases rng with
      | nil => simp at h2
      | cons a l =>
        cases l with
        | nil => simp at h2
        | cons b l => exact ⟨a, b, l, rfl⟩
    have hi : cfg.C * id % 2 ^ 32 + r0 % cfg.C < mq.heap_list_.length := by
      rw [hlen]
      have h1 : r0 % cfg.C < cfg.C := Nat.mod_lt _ hC
      have h2 : cfg.C * (id + 1) ≤ cfg.C * P := Nat.mul_le_mul_left _ hid
      rw [Nat.mul_add, Nat.mul_one] at h2
      omega
    exact extract_top_total law hswo hN hC mq hinv id r0 (r1 :: rs) _
      (List.getElem?_eq_getElem hi)
      ⟨r1, List.mem_cons_self _ _, Or.inr (hemp _ (List.getElem_mem hi))⟩
  · intro r h
    obtain ⟨r0, rs, i, j, g1, g2, g1r, g2r, -, -, -, -, hq1, hq2, hr1, hr2, -, hout⟩ :=
      extract_top_cases law hswo hN mq hinv id rng r h
    obtain ⟨x1, hx1, -, -, -, hiff1, -, -⟩ :=
      refill_if_empty_spec law hswo' hN g1 (hinv.queues g1 (List.getElem?_mem hq1))
    obtain ⟨x2, hx2, -, -, -, hiff2, -, -⟩ :=
      refill_if_empty_spec law hswo' hN g2 (hinv.queues g2 (List.getElem?_mem hq2))
    rw [hr1] at hx1
    rw [hr2] at hx2
    cases hx1
    cases hx2
    have hd1 := hiff1.mpr (hemp g1 (List.getElem?_mem hq1))
    have hd2 := hiff2.mpr (hemp g2 (List.getElem?_mem hq2))
    rcases hout with ⟨-, -, hret, hval, hmq⟩ | ⟨v2, r2, -, hc, -⟩ |
      ⟨v1, r1, hc, -⟩ | ⟨v1, r1, v2, r2, hc, -⟩ | ⟨v1, r1, v2, r2, hc, -⟩
    · exact ⟨hret, hval, hmq⟩
    · rw [hd2] at hc; exact absurd hc (by simp)
    · rw [hd1] at hc; exact absurd hc (by simp)
    · rw [hd1] at hc; exact absurd hc (by simp)
    · rw [hd1] at hc; exact absurd hc (by simp)

/-- `push` returns when started between two calls of a single-threaded run with at least
one draw, on a multiqueue with at least one queue. -/
theorem push_total (law : heap_contract (value_comparator comp) cfg.NodeSize hp)
    (hswo : strict_weak_order comp) (hN : 0 < cfg.NodeSize)
    (mq : numa_aware_merge_mq (Key × T) H) (hinv : mq.inv cfg law)
    (hQ : 0 < mq.heap_list_.length) (v : Key × T) (rng : List Nat) (hrng : rng ≠ []) :
    ∃ e, mq.push hp cfg comp v rng = some e := by
  have hswo' : strict_weak_order (@value_comparator Key T comp) := hswo.value_comparator
  have hrange : ∀ r ∈ rng, r % mq.num_queues_ < mq.heap_list_.length := by
    intro r _
    rw [← hinv.size_eq]
    exact Nat.mod_lt _ (by rw [hinv.size_eq]; exact hQ)
  obtain ⟨r0, rs, rfl⟩ : ∃ r0 rs, rng = r0 :: rs := by
    cases rng with
    | nil => exact absurd rfl hrng
    | cons a l => exact ⟨a, l, rfl⟩
  have hlt0 := hrange r0 (List.mem_cons_self _ _)
  obtain ⟨⟨j, e1⟩, hl⟩ := lock_loop_total mq (r0 :: rs) [] hrange
    ⟨r0, List.mem_cons_self _ _, _, List.getElem?_eq_getElem hlt0,
      hinv.free _ (List.getElem_mem hlt0)⟩
  obtain ⟨g, hq, hu, he1, -, -⟩ := lock_loop_inv _ _ _ _ _ hl
  have hjlt := lt_of_get hq
  obtain ⟨g1, hp1, -⟩ := push_spec law hswo' hN g (hinv.queues g (List.getElem?_mem hq)) v
  have hq1 : e1.mq.heap_list_[j]? = some { g with in_use := true } := by
    rw [he1]; exact store_get_same _ _ _ hjlt
  unfold numa_aware_merge_mq.push
  rw [hl]
  simp only
  rw [on_queue_eq e1 j _ { g with in_use := true } { g1 with in_use := true } hq1
    (by rw [push_in_use, hp1]; rfl)]
  simp only [Option.some_bind]
  rw [unlock_eq _ j { g1 with in_use := true }
    (by simp only [he1, store_store]; exact store_get_same _ _ _ hjlt)]
  exact ⟨_, rfl⟩

theorem push_length (mq : numa_aware_merge_mq (Key × T) H) (v : Key × T) (rng : List Nat)
    (e : exec (Key × T) H) (h : mq.push hp cfg comp v rng = some e) :
    e.mq.heap_list_.length = mq.heap_list_.length := by
  obtain ⟨j, g, g1, -, -, -, he, -⟩ := push_cases mq v rng e h
  rw [he]
  simp only [numa_aware_merge_mq.store, List.length_set]

theorem extract_top_length (law : heap_contract (value_comparator comp) cfg.NodeSize hp)
    (hswo : strict_weak_order comp) (hN : 0 < cfg.NodeSize)
    (mq : numa_aware_merge_mq (Key × T) H) (hinv : mq.inv cfg law) (id : Nat)
    (rng : List Nat) (r : extract_result (Key × T) H)
    (h : mq.extract_top hp cfg comp id rng = some r) :
    r.mq.heap_list_.length = mq.heap_list_.length := by
  obtain ⟨r0, rs, i, j, g1, g2, g1r, g2r, -, -, -, -, -, -, -, -, -, hout⟩ :=
    extract_top_cases law hswo hN mq hinv id rng r h
  rcases hout with ⟨-, -, -, -, hmq⟩ | ⟨v2, r2, -, -, -, -, hmq⟩ |
    ⟨v1, r1, -, -, -, -, hmq⟩ | ⟨v1, r1, v2, r2, -, -, -, -, -, hmq⟩ |
    ⟨v1, r1, v2, r2, -, -, -, -, -, hmq⟩ <;>
  simp only [hmq, numa_aware_merge_mq.store, List.length_set]

/-- A single-threaded run returns when every call is supplied with enough draws. -/
theorem run_total (law : heap_contract (value_comparator comp) cfg.NodeSize hp)
    (hswo : strict_weak_order comp) (hN : 0 < cfg.NodeSize) (hC : 0 < cfg.C) (P : Nat)
    (hP : 0 < P) :
    ∀ (ops : List (Op (Key × T))) (mq : numa_aware_merge_mq (Key × T) H),
      mq.inv cfg law → mq.heap_list_.length = cfg.C * P →
      (∀ op ∈ ops, Op.supplied cfg P op) →
      ∃ res, run hp cfg comp mq ops = some res := by
  intro ops
  induction ops with
  | nil => intro mq _ _ _; exact ⟨_, rfl⟩
  | cons op ops ih =>
    intro mq hinv hlen hsup
    have hQ : 0 < mq.heap_list_.length := by rw [hlen]; exact Nat.mul_pos hC hP
    have hop := hsup op (List.mem_cons_self _ _)
    have hrest : ∀ o ∈ ops, Op.supplied cfg P o :=
      fun o ho => hsup o (List.mem_cons_of_mem _ ho)
    cases op with
    | push v rng =>
      obtain ⟨e, he⟩ := push_total law hswo hN mq hinv hQ v rng hop
      obtain ⟨hinv1, -⟩ := push_effect law hswo hN mq hinv v rng e he
      obtain ⟨res, hres⟩ := ih e.mq hinv1 (by rw [push_length mq v rng e he, hlen]) hrest
      exact ⟨res, by simp only [run, he, Option.some_bind, hres]⟩
    | extract_top id rng =>
      obtain ⟨hid, r0, r1, r2, rs, hrng, hne⟩ := hop
      subst hrng
      have hi : cfg.C * id % 2 ^ 32 + r0 % cfg.C < mq.heap_list_.length := by
        rw [hlen]
        have h1 : r0 % cfg.C < cfg.C := Nat.mod_lt _ hC
        have h2 : cfg.C * (id + 1) ≤ cfg.C * P := Nat.mul_le_mul_left _ hid
        rw [Nat.mul_add, Nat.mul_one] at h2
        omega
      have hnum : mq.num_queues_ = cfg.C * P := by rw [hinv.size_eq, hlen]
      obtain ⟨r, hr⟩ := extract_top_total law hswo hN hC mq hinv id r0 (r1 :: r2 :: rs) _
        (List.getElem?_eq_getElem hi)
        (by
          rw [hnum]
          by_cases h1 : r1 % (cfg.C * P) = cfg.C * id % 2 ^ 32 + r0 % cfg.C
          · refine ⟨r2, by simp, Or.inl ?_⟩
            intro h2
            exact hne (h1.trans h2.symm)
          · exact ⟨r1, by simp, Or.inl h1⟩)
      obtain ⟨hinv1, -, -⟩ := extract_top_effect law hswo hN mq hinv id _ r hr
      obtain ⟨res, hres⟩ := ih r.mq hinv1
        (by rw [extract_top_length law hswo hN mq hinv id _ r hr, hlen]) hrest
      exact ⟨(res.1, r.retval.toList ++ res.2),
        by simp only [run, hr, Option.some_bind, hres, Option.map_some']⟩

end totality

/-! ## The multiqueue: contract of push and extract_top -/

section claims

variable {Key T H : Type} {hp : merge_heap (Key × T) H} {cfg : Configuration}
  {comp : Key → Key → Bool}

/-- C1: after every single-threaded sequence of push and extract_top calls on a new
multiqueue, for every choice of the random draws, the multiset of pushed values is the
multiset of values returned by successful extracts plus the multiset union of all deletion
buffers, insertion buffers and heaps; with no extracts the resident multiset is the pushed
multiset; this holds for the multiqueue built for any thread count `P`.  The sequence
runs to its end whenever every call is supplied with enough draws, on the multiqueue
built for `P ≥ 1` threads with `C ≥ 1` whose number of queues `C * P` fits an
`unsigned int` (the constructor computes it modulo `2 ^ 32`). -/
theorem pushed_eq_extracted_add_resident
    (law : heap_contract (value_comparator comp) cfg.NodeSize hp)
    (hswo : strict_weak_order comp) (hN : 0 < cfg.NodeSize) (P : Nat)
    (ops : List (Op (Key × T))) :
    (0 < cfg.C → 0 < P → P * cfg.C < 2 ^ 32 → (∀ op ∈ ops, Op.supplied cfg P op) →
      ∃ res, run hp cfg comp (numa_aware_merge_mq.new hp cfg P) ops = some res) ∧
    ∀ (mq1 : numa_aware_merge_mq (Key × T) H) (outs : List (Key × T)),
      run hp cfg comp (numa_aware_merge_mq.new hp cfg P) ops = some (mq1, outs) →
      (pushed ops : Multiset (Key × T)) = (outs : Multiset (Key × T)) + mq1.content law ∧
        ((∀ op ∈ ops, ∃ v rng, op = Op.push v rng) →
          mq1.content law = (pushed ops : Multiset (Key × T))) := by
  constructor
  · intro hC hP hw hsup
    exact run_total law hswo hN hC P hP ops _ (new_inv law P) (new_length P hw) hsup
  · intro mq1 outs h
    obtain ⟨-, hc⟩ := run_spec law hswo hN ops _ mq1 outs (new_inv law P) h
    rw [new_content, zero_add] at hc
    refine ⟨hc, ?_⟩
    intro hall
    have := run_push_only ops _ mq1 outs hall h
    rw [this] at hc
    rw [hc]
    simp

theorem pushed_eq_extracted_add_resident_witness :
    ∃ mq1 outs,
      run (sorted_block_heap (@value_comparator Nat Nat std_less) small_cfg.NodeSize)
        small_cfg std_less
        (numa_aware_merge_mq.new
          (sorted_block_heap (@value_comparator Nat Nat std_less) small_cfg.NodeSize)
          small_cfg 1)
        [Op.push (5, 50) [1], Op.push (3, 30) [1], Op.push (9, 90) [2], Op.push (1, 10) [1],
         Op.extract_top 0 [1, 1, 2], Op.push (4, 40) [5], Op.extract_top 0 [2, 2, 0],
         Op.extract_top 0 [3, 3, 0]] = some (mq1, outs) ∧
      outs = [(1, 10), (9, 90)] ∧
      mq1.content pair_less_contract = (([(3, 30), (4, 40), (5, 50)] : List (Nat × Nat)) :
        Multiset (Nat × Nat)) ∧
      (((pushed [Op.push (5, 50) [1], Op.push (3, 30) [1], Op.push (9, 90) [2],
          Op.push (1, 10) [1], Op.extract_top 0 [1, 1, 2], Op.push (4, 40) [5],
          Op.extract_top 0 [2, 2, 0], Op.extract_top 0 [3, 3, 0]] : List (Nat × Nat)) :
          Multiset (Nat × Nat)) = (outs : Multiset (Nat × Nat)) +
            mq1.content pair_less_contract ∧
        ((∀ op ∈ [Op.push (5, 50) [1], Op.push (3, 30) [1], Op.push (9, 90) [2],
          Op.push (1, 10) [1], Op.extract_top 0 [1, 1, 2], Op.push (4, 40) [5],
          Op.extract_top 0 [2, 2, 0], Op.extract_top 0 [3, 3, 0]],
            ∃ v rng, op = Op.push v rng) →
          mq1.content pair_less_contract =
            ((pushed [Op.push (5, 50) [1], Op.push (3, 30) [1], Op.push (9, 90) [2],
              Op.push (1, 10) [1], Op.extract_top 0 [1, 1, 2], Op.push (4, 40) [5],
              Op.extract_top 0 [2, 2, 0], Op.extract_top 0 [3, 3, 0]] : List (Nat × Nat)) :
              Multiset (Nat × Nat)))) :=
  ⟨_, _, rfl, rfl, by decide,
    (pushed_eq_extracted_add_resident pair_less_contract std_less_swo
      (by decide : 0 < small_cfg.NodeSize) 1
      [Op.push (5, 50) [1], Op.push (3, 30) [1], Op.push (9, 90) [2], Op.push (1, 10) [1],
       Op.extract_top 0 [1, 1, 2], Op.push (4, 40) [5], Op.extract_top 0 [2, 2, 0],
       Op.extract_top 0 [3, 3, 0]]).2 _ _ rfl⟩

/-- C2: whenever `extract_top` returns true in a state reachable from construction by push and
extract_top, the returned value `v` was popped from one of the two locked queues, `k`:
the content of that queue (deletion buffer, insertion buffer and heap) before the call is
`v` plus its content afterwards, and no value remaining in that queue has a strictly
smaller key. -/
theorem extract_top_returns_queue_minimum
    (law : heap_contract (value_comparator comp) cfg.NodeSize hp)
    (hswo : strict_weak_order comp) (hN : 0 < cfg.NodeSize) (P : Nat)
    (ops : List (Op (Key × T))) (mq : numa_aware_merge_mq (Key × T) H)
    (outs : List (Key × T))
    (hrun : run hp cfg comp (numa_aware_merge_mq.new hp cfg P) ops = some (mq, outs))
    (id : Nat) (rng : List Nat) (r : extract_result (Key × T) H)
    (h : mq.extract_top hp cfg comp id rng = some r) (hret : r.ret = true) :
    ∃ v k g g1, r.retval = some v ∧ k ∈ acquired r.trace ∧
      mq.heap_list_[k]? = some g ∧ r.mq.heap_list_[k]? = some g1 ∧
      g.content law = v ::ₘ g1.content law ∧
      ∀ y ∈ g1.content law, comp y.1 v.1 = false := by
  obtain ⟨hinv, -⟩ := run_spec law hswo hN ops _ mq outs (new_inv law P) hrun
  obtain ⟨-, -, hmin⟩ := extract_top_effect law hswo hN mq hinv id rng r h
  obtain ⟨v, k, g, g1, h1, h2, h3, h4, h5, h6, -⟩ := hmin hret
  exact ⟨v, k, g, g1, h1, h2, h3, h4, h5, h6⟩

theorem extract_top_returns_queue_minimum_witness :
    ∃ mq r,
      run (sorted_block_heap (@value_comparator Nat Nat std_less) small_cfg.NodeSize)
        small_cfg std_less
        (numa_aware_merge_mq.new
          (sorted_block_heap (@value_comparator Nat Nat std_less) small_cfg.NodeSize)
          small_cfg 1)
        [Op.push (5, 50) [1], Op.push (3, 30) [1], Op.push (9, 90) [2], Op.push (1, 10) [1],
         Op.push (7, 70) [1]] = some (mq, []) ∧
      mq.extract_top
        (sorted_block_heap (@value_comparator Nat Nat std_less) small_cfg.NodeSize)
        small_cfg std_less 0 [1, 2] = some r ∧
      r.ret = true ∧ r.retval = some (1, 10) ∧
      ∃ v k g g1, r.retval = some v ∧ k ∈ acquired r.trace ∧
        mq.heap_list_[k]? = some g ∧ r.mq.heap_list_[k]? = some g1 ∧
        g.content pair_less_contract = v ::ₘ g1.content pair_less_contract ∧
        ∀ y ∈ g1.content pair_less_contract, std_less y.1 v.1 = false :=
  ⟨_, _, rfl, rfl, rfl, rfl,
    extract_top_returns_queue_minimum pair_less_contract std_less_swo
      (by decide : 0 < small_cfg.NodeSize) 1
      [Op.push (5, 50) [1], Op.push (3, 30) [1], Op.push (9, 90) [2], Op.push (1, 10) [1],
       Op.push (7, 70) [1]] _ [] rfl 0 [1, 2] _ rfl rfl⟩

/-- C8: between two calls of a single-threaded run `extract_top` returns as soon as the draws
supply the local offset and a global probe naming a queue other than the first (any
global probe, if the first queue is empty).  It has then locked a first queue `i` and a
second queue `j`, and it returns false if and only if both were empty (deletion buffer,
insertion buffer and heap), which is the case exactly when both deletion buffers are empty
after the refill-if-empty step; otherwise it returns true and writes a value to the
output. -/
theorem extract_top_false_iff_both_empty
    (law : heap_contract (value_comparator comp) cfg.NodeSize hp)
    (hswo : strict_weak_order comp) (hN : 0 < cfg.NodeSize)
    (mq : numa_aware_merge_mq (Key × T) H) (hinv : mq.inv cfg law) (id : Nat)
    (rng : List Nat) :
    (∀ r0 rs g1, rng = r0 :: rs → 0 < cfg.C →
      mq.heap_list_[cfg.C * id % 2 ^ 32 + r0 % cfg.C]? = some g1 →
      (∃ r1 ∈ rs, r1 % mq.num_queues_ ≠ cfg.C * id % 2 ^ 32 + r0 % cfg.C ∨ g1.is_empty hp) →
      ∃ r, mq.extract_top hp cfg comp id rng = some r) ∧
    ∀ r, mq.extract_top hp cfg comp id rng = some r →
    ∃ i j g1 g2 g1r g2r, acquired r.trace = [i, j] ∧
      mq.heap_list_[i]? = some g1 ∧ mq.heap_list_[j]? = some g2 ∧
      refill_if_empty hp cfg (value_comparator comp) g1 = some g1r ∧
      refill_if_empty hp cfg (value_comparator comp) g2 = some g2r ∧
      (r.ret = false ↔ g1r.deletion_buffer = [] ∧ g2r.deletion_buffer = []) ∧
      (r.ret = false ↔ g1.is_empty hp ∧ g2.is_empty hp) ∧
      (r.ret = false → r.retval = none) ∧
      (r.ret = true → ∃ v, r.retval = some v) := by
  have hswo' : strict_weak_order (@value_comparator Key T comp) := hswo.value_comparator
  refine ⟨fun r0 rs g1 hrng hC hq hrs => by
    subst hrng
    exact extract_top_total law hswo hN hC mq hinv id r0 rs g1 hq hrs, ?_⟩
  intro r h
  obtain ⟨r0, rs, i, j, g1, g2, g1r, g2r, -, -, hacq, -, hq1, hq2, hr1, hr2, -, hout⟩ :=
    extract_top_cases law hswo hN mq hinv id rng r h
  obtain ⟨x1, hx1, -, -, -, hiff1, -, -⟩ :=
    refill_if_empty_spec law hswo' hN g1 (hinv.queues g1 (List.getElem?_mem hq1))
  obtain ⟨x2, hx2, -, -, -, hiff2, -, -⟩ :=
    refill_if_empty_spec law hswo' hN g2 (hinv.queues g2 (List.getElem?_mem hq2))
  rw [hr1] at hx1
  rw [hr2] at hx2
  cases hx1
  cases hx2
  have key : (r.ret = false ↔ g1r.deletion_buffer = [] ∧ g2r.deletion_buffer = []) ∧
      (r.ret = false → r.retval = none) ∧ (r.ret = true → ∃ v, r.retval = some v) := by
    rcases hout with ⟨hd1, hd2, hret, hval, -⟩ | ⟨v2, r2, hd1, hd2, hret, hval, -⟩ |
      ⟨v1, r1, hd1, hd2, hret, hval, -⟩ | ⟨v1, r1, v2, r2, hd1, hd2, -, hret, hval, -⟩ |
      ⟨v1, r1, v2, r2, hd1, hd2, -, hret, hval, -⟩
    · exact ⟨⟨fun _ => ⟨hd1, hd2⟩, fun _ => hret⟩, fun _ => hval,
        fun hc => by rw [hret] at hc; exact absurd hc (by simp)⟩
    · refine ⟨⟨fun hc => by rw [hret] at hc; exact absurd hc (by simp),
        fun hc => by rw [hd2] at hc; exact absurd hc.2 (by simp)⟩,
        fun hc => by rw [hret] at hc; exact absurd hc (by simp), fun _ => ⟨v2, hval⟩⟩
    · refine ⟨⟨fun hc => by rw [hret] at hc; exact absurd hc (by simp),
        fun hc => by rw [hd1] at hc; exact absurd hc.1 (by simp)⟩,
        fun hc => by rw [hret] at hc; exact absurd hc (by simp), fun _ => ⟨v1, hval⟩⟩
    · refine ⟨⟨fun hc => by rw [hret] at hc; exact absurd hc (by simp),
        fun hc => by rw [hd1] at hc; exact absurd hc.1 (by simp)⟩,
        fun hc => by rw [hret] at hc; exact absurd hc (by simp), fun _ => ⟨v2, hval⟩⟩
    · refine ⟨⟨fun hc => by rw [hret] at hc; exact absurd hc (by simp),
        fun hc => by rw [hd1] at hc; exact absurd hc.1 (by simp)⟩,
        fun hc => by rw [hret] at hc; exact absurd hc (by simp), fun _ => ⟨v1, hval⟩⟩
  refine ⟨i, j, g1, g2, g1r, g2r, hacq, hq1, hq2, hr1, hr2, key.1, ?_, key.2.1, key.2.2⟩
  rw [key.1, hiff1, hiff2]

theorem extract_top_false_iff_both_empty_witness :
    ∃ mq r,
      run (sorted_block_heap (@value_comparator Nat Nat std_less) small_cfg.NodeSize)
        small_cfg std_less
        (numa_aware_merge_mq.new
          (sorted_block_heap (@value_comparator Nat Nat std_less) small_cfg.NodeSize)
          small_cfg 1)
        [Op.push (5, 50) [1], Op.push (3, 30) [1], Op.push (9, 90) [2]] = some (mq, []) ∧
      mq.extract_top
        (sorted_block_heap (@value_comparator Nat Nat std_less) small_cfg.NodeSize)
        small_cfg std_less 0 [0, 3] = some r ∧
      r.ret = false ∧
      ∃ i j g1 g2 g1r g2r, acquired r.trace = [i, j] ∧
        mq.heap_list_[i]? = some g1 ∧ mq.heap_list_[j]? = some g2 ∧
        refill_if_empty
          (sorted_block_heap (@value_comparator Nat Nat std_less) small_cfg.NodeSize)
          small_cfg (value_comparator std_less) g1 = some g1r ∧
        refill_if_empty
          (sorted_block_heap (@value_comparator Nat Nat std_less) small_cfg.NodeSize)
          small_cfg (value_comparator std_less) g2 = some g2r ∧
        (r.ret = false ↔ g1r.deletion_buffer = [] ∧ g2r.deletion_buffer = []) ∧
        (r.ret = false ↔
          g1.is_empty
            (sorted_block_heap (@value_comparator Nat Nat std_less) small_cfg.NodeSize) ∧
          g2.is_empty
            (sorted_block_heap (@value_comparator Nat Nat std_less) small_cfg.NodeSize)) ∧
        (r.ret = false → r.retval = none) ∧
        (r.ret = true → ∃ v, r.retval = some v) :=
  ⟨_, _, rfl, rfl, rfl,
    (extract_top_false_iff_both_empty pair_less_contract std_less_swo
      (by decide : 0 < small_cfg.NodeSize) _
      (run_spec pair_less_contract std_less_swo (by decide : 0 < small_cfg.NodeSize)
        [Op.push (5, 50) [1], Op.push (3, 30) [1], Op.push (9, 90) [2]] _ _ []
        (new_inv pair_less_contract 1) rfl).1
      0 [0, 3]).2 _ rfl⟩

/-- C9: between two calls of a single-threaded run `extract_top` returns as soon as the draws
supply the local offset and a global probe naming a queue other than the first (any
global probe, if the first queue is empty).  A returning `extract_top` has locked a first
queue `i` and a second queue `j`, with states `g1r` and `g2r` after the refill-if-empty
step.  When both have a front, the front of the second is returned exactly when its key
is strictly smaller than the key of the first front, otherwise the front of the first
(ties go to the first); the returned key is not larger than either front.  When exactly
one has a front, that front is returned.  In each case the queue chosen loses its front
and the other queue is left as it was after the refill step. -/
theorem extract_top_two_choice
    (law : heap_contract (value_comparator comp) cfg.NodeSize hp)
    (hswo : strict_weak_order comp) (hN : 0 < cfg.NodeSize)
    (mq : numa_aware_merge_mq (Key × T) H) (hinv : mq.inv cfg law) (id : Nat)
    (rng : List Nat) :
    (∀ r0 rs g1, rng = r0 :: rs → 0 < cfg.C →
      mq.heap_list_[cfg.C * id % 2 ^ 32 + r0 % cfg.C]? = some g1 →
      (∃ r1 ∈ rs, r1 % mq.num_queues_ ≠ cfg.C * id % 2 ^ 32 + r0 % cfg.C ∨ g1.is_empty hp) →
      ∃ r, mq.extract_top hp cfg comp id rng = some r) ∧
    ∀ r, mq.extract_top hp cfg comp id rng = some r →
    ∃ i j g1 g2 g1r g2r, acquired r.trace = [i, j] ∧
      mq.heap_list_[i]? = some g1 ∧ mq.heap_list_[j]? = some g2 ∧
      refill_if_empty hp cfg (value_comparator comp) g1 = some g1r ∧
      refill_if_empty hp cfg (value_comparator comp) g2 = some g2r ∧
      (∀ v1 r1 v2 r2, g1r.deletion_buffer = v1 :: r1 → g2r.deletion_buffer = v2 :: r2 →
        j ≠ i ∧ r.ret = true ∧
        (comp v2.1 v1.1 = true → r.retval = some v2 ∧
          r.mq.heap_list_[j]? = some { g2r with deletion_buffer := r2 } ∧
          r.mq.heap_list_[i]? = some g1r) ∧
        (comp v2.1 v1.1 = false → r.retval = some v1 ∧
          r.mq.heap_list_[i]? = some { g1r with deletion_buffer := r1 } ∧
          r.mq.heap_list_[j]? = some g2r) ∧
        ∃ v, r.retval = some v ∧ comp v1.1 v.1 = false ∧ comp v2.1 v.1 = false) ∧
      (∀ v1 r1, g1r.deletion_buffer = v1 :: r1 → g2r.deletion_buffer = [] →
        r.ret = true ∧ r.retval = some v1 ∧
        r.mq.heap_list_[i]? = some { g1r with deletion_buffer := r1 } ∧
        r.mq.heap_list_[j]? = some g2r) ∧
      (∀ v2 r2, g1r.deletion_buffer = [] → g2r.deletion_buffer = v2 :: r2 →
        r.ret = true ∧ r.retval = some v2 ∧
        r.mq.heap_list_[j]? = some { g2r with deletion_buffer := r2 } ∧
        r.mq.heap_list_[i]? = some g1r) := by
  have hswo' : strict_weak_order (@value_comparator Key T comp) := hswo.value_comparator
  refine ⟨fun r0 rs g1 hrng hC hq hrs => by
    subst hrng
    exact extract_top_total law hswo hN hC mq hinv id r0 rs g1 hq hrs, ?_⟩
  intro r h
  obtain ⟨r0, rs, i, j, g1, g2, g1r, g2r, -, -, hacq, -, hq1, hq2, hr1, hr2, hji, hout⟩ :=
    extract_top_cases law hswo hN mq hinv id rng r h
  have hilt := lt_of_get hq1
  have hjlt := lt_of_get hq2
  obtain ⟨x1, hx1, -, -, -, -, hsame1, -⟩ :=
    refill_if_empty_spec law hswo' hN g1 (hinv.queues g1 (List.getElem?_mem hq1))
  obtain ⟨x2, hx2, -, -, -, -, hsame2, -⟩ :=
    refill_if_empty_spec law hswo' hN g2 (hinv.queues g2 (List.getElem?_mem hq2))
  rw [hr1] at hx1
  rw [hr2] at hx2
  cases hx1
  cases hx2
  refine ⟨i, j, g1, g2, g1r, g2r, hacq, hq1, hq2, hr1, hr2, ?_, ?_, ?_⟩
  · intro v1 r1 v2 r2 hd1 hd2
    have hne : j ≠ i := hji (by rw [hd1]; simp)
    rcases hout with ⟨hc, -⟩ | ⟨w2, s2, hc, -⟩ | ⟨w1, s1, -, hc, -⟩ |
      ⟨w1, s1, w2, s2, he1, he2, hcmp, hret, hval, hmq⟩ |
      ⟨w1, s1, w2, s2, he1, he2, hcmp, hret, hval, hmq⟩
    · rw [hd1] at hc; exact absurd hc (by simp)
    · rw [hd1] at hc; exact absurd hc (by simp)
    · rw [hd2] at hc; exact absurd hc (by simp)
    · rw [hd1] at he1
      rw [hd2] at he2
      simp only [List.cons.injEq] at he1 he2
      obtain ⟨rfl, rfl⟩ := he1
      obtain ⟨rfl, rfl⟩ := he2
      refine ⟨hne, hret, ?_, ?_, ⟨v2, hval, hswo.asymm hcmp, hswo.irrefl _⟩⟩
      · intro _
        refine ⟨hval, ?_, ?_⟩
        · rw [hmq]
          exact store_get_same _ _ _ (by simp only [numa_aware_merge_mq.store, List.length_set]; exact hjlt)
        · rw [hmq, store_get_ne _ _ _ _ hne]
          exact store_get_same _ _ _ hilt
      · intro hc; rw [hcmp] at hc; exact absurd hc (by simp)
    · rw [hd1] at he1
      rw [hd2] at he2
      simp only [List.cons.injEq] at he1 he2
      obtain ⟨rfl, rfl⟩ := he1
      obtain ⟨rfl, rfl⟩ := he2
      refine ⟨hne, hret, ?_, ?_, ⟨v1, hval, hswo.irrefl _, hcmp⟩⟩
      · intro hc; rw [hcmp] at hc; exact absurd hc (by simp)
      · intro _
        refine ⟨hval, ?_, ?_⟩
        · rw [hmq, store_get_ne _ _ _ _ hne]
          exact store_get_same _ _ _ hilt
        · rw [hmq]
          exact store_get_same _ _ _ (by simp only [numa_aware_merge_mq.store, List.length_set]; exact hjlt)
  · intro v1 r1 hd1 hd2
    have hne : j ≠ i := hji (by rw [hd1]; simp)
    rcases hout with ⟨hc, -⟩ | ⟨w2, s2, hc, -⟩ | ⟨w1, s1, he1, -, hret, hval, hmq⟩ |
      ⟨w1, s1, w2, s2, -, hc, -⟩ | ⟨w1, s1, w2, s2, -, hc, -⟩
    · rw [hd1] at hc; exact absurd hc (by simp)
    · rw [hd1] at hc; exact absurd hc (by simp)
    · rw [hd1] at he1
      simp only [List.cons.injEq] at he1
      obtain ⟨rfl, rfl⟩ := he1
      refine ⟨hret, hval, ?_, ?_⟩
      · rw [hmq]; exact store_get_same _ _ _ hilt
      · rw [hmq, store_get_ne _ _ _ _ (Ne.symm hne), hsame2 hd2]; exact hq2
    · rw [hd2] at hc; exact absurd hc (by simp)
    · rw [hd2] at hc; exact absurd hc (by simp)
  · intro v2 r2 hd1 hd2
    rcases hout with ⟨-, hc, -⟩ | ⟨w2, s2, -, he2, hret, hval, hmq⟩ | ⟨w1, s1, hc, -⟩ |
      ⟨w1, s1, w2, s2, hc, -⟩ | ⟨w1, s1, w2, s2, hc, -⟩
    · rw [hd2] at hc; exact absurd hc (by simp)
    · rw [hd2] at he2
      simp only [List.cons.injEq] at he2
      obtain ⟨rfl, rfl⟩ := he2
      have hne : i ≠ j := by
        intro hc
        rw [hc, hq2] at hq1
        have hg := Option.some.inj hq1
        rw [← hg, hr2] at hr1
        have hgr := Option.some.inj hr1
        rw [← hgr, hd2] at hd1
        exact absurd hd1 (by simp)
      refine ⟨hret, hval, ?_, ?_⟩
      · rw [hmq]; exact store_get_same _ _ _ hjlt
      · rw [hmq, store_get_ne _ _ _ _ (Ne.symm hne), hsame1 hd1]; exact hq1
    · rw [hd1] at hc; exact absurd hc (by simp)
    · rw [hd1] at hc; exact absurd hc (by simp)
    · rw [hd1] at hc; exact absurd hc (by simp)

theorem extract_top_two_choice_witness :
    ∃ mq r,
      run (sorted_block_heap (@value_comparator Nat Nat std_less) small_cfg.NodeSize)
        small_cfg std_less
        (numa_aware_merge_mq.new
          (sorted_block_heap (@value_comparator Nat Nat std_less) small_cfg.NodeSize)
          small_cfg 1)
        [Op.push (5, 50) [1], Op.push (3, 30) [1], Op.push (9, 90) [2], Op.push (3, 31) [2]] =
          some (mq, []) ∧
      mq.extract_top
        (sorted_block_heap (@value_comparator Nat Nat std_less) small_cfg.NodeSize)
        small_cfg std_less 0 [1, 2] = some r ∧
      r.retval = some (3, 30) ∧
      ∃ i j g1 g2 g1r g2r, acquired r.trace = [i, j] ∧
        mq.heap_list_[i]? = some g1 ∧ mq.heap_list_[j]? = some g2 ∧
        refill_if_empty
          (sorted_block_heap (@value_comparator Nat Nat std_less) small_cfg.NodeSize)
          small_cfg (value_comparator std_less) g1 = some g1r ∧
        refill_if_empty
          (sorted_block_heap (@value_comparator Nat Nat std_less) small_cfg.NodeSize)
          small_cfg (value_comparator std_less) g2 = some g2r ∧
        (∀ v1 r1 v2 r2, g1r.deletion_buffer = v1 :: r1 → g2r.deletion_buffer = v2 :: r2 →
          j ≠ i ∧ r.ret = true ∧
          (std_less v2.1 v1.1 = true → r.retval = some v2 ∧
            r.mq.heap_list_[j]? = some { g2r with deletion_buffer := r2 } ∧
            r.mq.heap_list_[i]? = some g1r) ∧
          (std_less v2.1 v1.1 = false → r.retval = some v1 ∧
            r.mq.heap_list_[i]? = some { g1r with deletion_buffer := r1 } ∧
            r.mq.heap_list_[j]? = some g2r) ∧
          ∃ v, r.retval = some v ∧ std_less v1.1 v.1 = false ∧ std_less v2.1 v.1 = false) ∧
        (∀ v1 r1, g1r.deletion_buffer = v1 :: r1 → g2r.deletion_buffer = [] →
          r.ret = true ∧ r.retval = some v1 ∧
          r.mq.heap_list_[i]? = some { g1r with deletion_buffer := r1 } ∧
          r.mq.heap_list_[j]? = some g2r) ∧
        (∀ v2 r2, g1r.deletion_buffer = [] → g2r.deletion_buffer = v2 :: r2 →
          r.ret = true ∧ r.retval = some v2 ∧
          r.mq.heap_list_[j]? = some { g2r with deletion_buffer := r2 } ∧
          r.mq.heap_list_[i]? = some g1r) :=
  ⟨_, _, rfl, rfl, rfl,
    (extract_top_two_choice pair_less_contract std_less_swo
      (by decide : 0 < small_cfg.NodeSize) _
      (run_spec pair_less_contract std_less_swo (by decide : 0 < small_cfg.NodeSize)
        [Op.push (5, 50) [1], Op.push (3, 30) [1], Op.push (9, 90) [2], Op.push (3, 31) [2]]
        _ _ [] (new_inv pair_less_contract 1) rfl).1
      0 [1, 2]).2 _ rfl⟩

/-- C10 (as amended): for every thread count `P` whose number of queues `C * P` fits an
`unsigned int` (`C * P < 2 ^ 32`), every handle id below `P` (so `P ≥ 1`) and every
choice of the random draws, `extract_top` on a brand-new multiqueue, and on any
multiqueue whose guarded queues are all empty, returns false, writes no value, and leaves
the multiqueue as it was, every buffer and heap empty (the call returns as soon as the
draws cover the local offset and one global probe). -/
theorem extract_top_on_empty_returns_false
    (law : heap_contract (value_comparator comp) cfg.NodeSize hp)
    (hswo : strict_weak_order comp) (hN : 0 < cfg.NodeSize) (hC : 0 < cfg.C)
    (P id : Nat) (hid : id < P) (hw : P * cfg.C < 2 ^ 32) (rng : List Nat) :
    ((2 ≤ rng.length →
        ∃ r, (numa_aware_merge_mq.new hp cfg P).extract_top hp cfg comp id rng = some r) ∧
      ∀ r, (numa_aware_merge_mq.new hp cfg P).extract_top hp cfg comp id rng = some r →
        r.ret = false ∧ r.retval = none ∧ r.mq = numa_aware_merge_mq.new hp cfg P ∧
        ∀ g ∈ r.mq.heap_list_, g.is_empty hp) ∧
    ∀ mq : numa_aware_merge_mq (Key × T) H, mq.inv cfg law →
      mq.heap_list_.length = cfg.C * P → (∀ g ∈ mq.heap_list_, g.is_empty hp) →
      (2 ≤ rng.length → ∃ r, mq.extract_top hp cfg comp id rng = some r) ∧
      ∀ r, mq.extract_top hp cfg comp id rng = some r →
        r.ret = false ∧ r.retval = none ∧ r.mq = mq ∧
        ∀ g ∈ r.mq.heap_list_, g.is_empty hp := by
  have hgen : ∀ mq : numa_aware_merge_mq (Key × T) H, mq.inv cfg law →
      mq.heap_list_.length = cfg.C * P → (∀ g ∈ mq.heap_list_, g.is_empty hp) →
      (2 ≤ rng.length → ∃ r, mq.extract_top hp cfg comp id rng = some r) ∧
      ∀ r, mq.extract_top hp cfg comp id rng = some r →
        r.ret = false ∧ r.retval = none ∧ r.mq = mq ∧
        ∀ g ∈ r.mq.heap_list_, g.is_empty hp := by
    intro mq hinv hlen hemp
    obtain ⟨h1, h2⟩ := extract_top_all_empty law hswo hN hC P id hid mq hinv hlen hemp rng
    refine ⟨h1, ?_⟩
    intro r hr
    obtain ⟨h3, h4, h5⟩ := h2 r hr
    exact ⟨h3, h4, h5, by rw [h5]; exact hemp⟩
  refine ⟨hgen _ (new_inv law P) (new_length P hw) ?_, hgen⟩
  · intro g hg
    rw [List.eq_of_mem_replicate hg]
    exact ⟨rfl, rfl, (law.empty_iff _ law.inv_init).mpr law.vals_init⟩

theorem extract_top_on_empty_returns_false_witness :
    ((2 ≤ ([7, 9] : List Nat).length →
        ∃ r, (numa_aware_merge_mq.new
          (sorted_block_heap (@value_comparator Nat Nat std_less) small_cfg.NodeSize)
          small_cfg 2).extract_top
          (sorted_block_heap (@value_comparator Nat Nat std_less) small_cfg.NodeSize)
          small_cfg std_less 1 [7, 9] = some r) ∧
      ∀ r, (numa_aware_merge_mq.new
          (sorted_block_heap (@value_comparator Nat Nat std_less) small_cfg.NodeSize)
          small_cfg 2).extract_top
          (sorted_block_heap (@value_comparator Nat Nat std_less) small_cfg.NodeSize)
          small_cfg std_less 1 [7, 9] = some r →
        r.ret = false ∧ r.retval = none ∧
        r.mq = numa_aware_merge_mq.new
          (sorted_block_heap (@value_comparator Nat Nat std_less) small_cfg.NodeSize)
          small_cfg 2 ∧
        ∀ g ∈ r.mq.heap_list_, g.is_empty
          (sorted_block_heap (@value_comparator Nat Nat std_less) small_cfg.NodeSize)) ∧
    ∀ mq : numa_aware_merge_mq (Nat × Nat) (List (Nat × Nat)),
      mq.inv small_cfg pair_less_contract →
      mq.heap_list_.length = small_cfg.C * 2 →
      (∀ g ∈ mq.heap_list_, g.is_empty
        (sorted_block_heap (@value_comparator Nat Nat std_less) small_cfg.NodeSize)) →
      (2 ≤ ([7, 9] : List Nat).length →
        ∃ r, mq.extract_top
          (sorted_block_heap (@value_comparator Nat Nat std_less) small_cfg.NodeSize)
          small_cfg std_less 1 [7, 9] = some r) ∧
      ∀ r, mq.extract_top
          (sorted_block_heap (@value_comparator Nat Nat std_less) small_cfg.NodeSize)
          small_cfg std_less 1 [7, 9] = some r →
        r.ret = false ∧ r.retval = none ∧ r.mq = mq ∧
        ∀ g ∈ r.mq.heap_list_, g.is_empty
          (sorted_block_heap (@value_comparator Nat Nat std_less) small_cfg.NodeSize) :=
  extract_top_on_empty_returns_false pair_less_contract std_less_swo
    (by decide : 0 < small_cfg.NodeSize) (by decide : 0 < small_cfg.C) 2 1 (by decide)
    (by decide) [7, 9]

/-- C10, the claim as stated fails where the number of queues wraps: the constructor
computes `num_threads * C` as an `unsigned int`, modulo `2 ^ 32`.  With `C = 4` and
`P = 2 ^ 30` threads it builds no queue, and `extract_top` for the handle id 0 indexes an
empty vector: it has no result.  With `P = 2 ^ 30 + 1` it builds four queues, and
`extract_top` for the handle id 1 (below `P`) indexes the queues 4 to 7, which are not
there. -/
theorem extract_top_on_wrapped_count_counterexample :
    (numa_aware_merge_mq.new pair_heap small_cfg (2 ^ 30)).heap_list_ = [] ∧
    (numa_aware_merge_mq.new pair_heap small_cfg (2 ^ 30)).num_queues_ = 0 ∧
    (numa_aware_merge_mq.new pair_heap small_cfg (2 ^ 30)).extract_top pair_heap small_cfg
        std_less 0 [7, 9] = none ∧
    (numa_aware_merge_mq.new pair_heap small_cfg (2 ^ 30 + 1)).heap_list_.length = 4 ∧
    (numa_aware_merge_mq.new pair_heap small_cfg (2 ^ 30 + 1)).extract_top pair_heap small_cfg
        std_less 1 [7, 9] = none :=
  ⟨rfl, rfl, rfl, rfl, rfl⟩

end claims

/-! ## The guarded queue: the branches of `push` and of the refill -/

section branch_facts
variable {α H : Type} {hp : merge_heap α H} {cfg : Configuration} {comp : α → α → Bool}

/-- A list with a last element is an initial part followed by that element. -/
theorem getLast?_split {l : List α} {b : α} (h : l.getLast? = some b) :
    ∃ d0, l = d0 ++ [b] := by
  rcases List.eq_nil_or_concat l with h1 | ⟨d0, b1, h1⟩
  · rw [h1] at h; simp at h
  · rw [h1, List.concat_eq_append, List.getLast?_concat] at h
    cases h
    exact ⟨d0, by rw [h1, List.concat_eq_append]⟩

/-- `flush_if_full` in closed form. -/
theorem flush_if_full_eq (hN : 0 < cfg.NodeSize) (g : guarded_heap α H) :
    flush_if_full hp cfg comp g = some
      (if g.insertion_buffer.length = InsertionBufferSize cfg then
        { g with insertion_buffer := [],
                 heap := hp.insert g.heap (std_sort comp g.insertion_buffer) }
       else g) := by
  unfold flush_if_full
  by_cases hfull : g.insertion_buffer.length = InsertionBufferSize cfg
  · rw [if_pos hfull, if_pos hfull, flush_insertion_buffer_eq hN g hfull]
  · rw [if_neg hfull, if_neg hfull]

/-- The scan of `push` does not move when the value is not smaller than the back. -/
theorem push_scan_back_false (v b : α) (d0 : List α) (h : comp v b = false) :
    push_scan comp v (d0 ++ [b]) (d0 ++ [b]).length = (d0 ++ [b]).length := by
  rw [List.length_append, List.length_singleton]
  simp [push_scan, h]

/-- The scan of `push` passes the back when the value is smaller than it. -/
theorem push_scan_back_true (v b : α) (d0 : List α) (h : comp v b = true) :
    push_scan comp v (d0 ++ [b]) (d0 ++ [b]).length ≤ d0.length := by
  rw [List.length_append, List.length_singleton]
  simp only [push_scan, List.getElem?_concat_length, h, if_true]
  exact push_scan_le comp v _ _

/-- Where the scan of `push` stops, the value before it is not greater than the pushed one. -/
theorem push_scan_stop (comp : α → α → Bool) (v : α) (d : List α) :
    ∀ n, n ≤ d.length → ∀ p, push_scan comp v d n = p + 1 →
      ∃ e, d[p]? = some e ∧ comp v e = false := by
  intro n
  induction n with
  | zero => intro _ p h; simp [push_scan] at h
  | succ n ih =>
    intro hn p h
    have hlt : n < d.length := by omega
    simp only [push_scan, List.getElem?_eq_getElem hlt] at h
    cases hc : comp v d[n] with
    | true =>
      rw [hc] at h
      simp only [if_true] at h
      exact ih (by omega) p h
    | false =>
      rw [hc] at h
      simp only [Bool.false_eq_true, if_false, Nat.add_right_cancel_iff] at h
      subst h
      exact ⟨d[n], List.getElem?_eq_getElem hlt, hc⟩

/-- The split of the deletion buffer at the position the scan of `push` finds. -/
theorem push_scan_split (v : α) (d : List α) :
    d = d.take (push_scan comp v d d.length) ++ d.drop (push_scan comp v d d.length) ∧
      (∀ x ∈ d.drop (push_scan comp v d d.length), comp v x = true) ∧
      (∀ e, (d.take (push_scan comp v d d.length)).getLast? = some e → comp v e = false) := by
  refine ⟨(List.take_append_drop _ _).symm, ?_, ?_⟩
  · have := push_scan_drop comp v d d.length (le_refl _)
    rw [List.take_length] at this
    exact this
  · intro e he
    have hle := push_scan_le comp v d d.length
    cases hp : push_scan comp v d d.length with
    | zero => rw [hp] at he; simp at he
    | succ p =>
      obtain ⟨e1, he1, hc⟩ := push_scan_stop comp v d d.length (le_refl _) p hp
      rw [hp] at he hle
      have hlt : p < d.length := by omega
      rw [List.getLast?_eq_getElem?] at he
      simp only [List.length_take, Nat.min_eq_left hle, Nat.add_sub_cancel] at he
      rw [List.getElem?_take_of_lt (by omega)] at he
      rw [he1] at he
      cases he
      exact hc


/-- Pushing into a queue whose deletion buffer is empty, while the insertion buffer has
room for all the values, appends them to the insertion buffer and touches nothing else. -/
theorem push_all_append (vs : List α) :
    ∀ g : guarded_heap α H, g.deletion_buffer = [] →
      g.insertion_buffer.length + vs.length ≤ InsertionBufferSize cfg →
      push_all hp cfg comp g vs =
        some { g with insertion_buffer := g.insertion_buffer ++ vs } := by
  induction vs with
  | nil => intro g _ _; simp [push_all]
  | cons v vs ih =>
    intro g hD hlen
    simp only [List.length_cons] at hlen
    have hlt : g.insertion_buffer.length < InsertionBufferSize cfg := by omega
    have hne : g.insertion_buffer.length ≠ InsertionBufferSize cfg := by omega
    have hpush : g.push hp cfg comp v =
        some { g with insertion_buffer := g.insertion_buffer ++ [v] } := by
      simp only [guarded_heap.push, hD, List.isEmpty_nil, Bool.not_true, Bool.false_eq_true,
        false_and, if_false, flush_if_full, hne, Option.some_bind,
        push_back_eq_some v hlt, Option.map_some']
    simp only [push_all, hpush, Option.some_bind]
    have := ih { g with insertion_buffer := g.insertion_buffer ++ [v] } hD
      (by simp only [List.length_append, List.length_singleton]; omega)
    rw [this]
    simp

/-- The second branch of `push` in closed form. -/
theorem push_second_branch (hN : 0 < cfg.NodeSize) (g : guarded_heap α H)
    (hI : g.insertion_buffer.length ≤ InsertionBufferSize cfg) (v : α)
    (hcond : g.deletion_buffer = [] ∨
      ∃ b, g.deletion_buffer.getLast? = some b ∧ comp v b = false) :
    g.push hp cfg comp v = some
      (if g.insertion_buffer.length = InsertionBufferSize cfg then
        { g with insertion_buffer := [v],
                 heap := hp.insert g.heap (std_sort comp g.insertion_buffer) }
       else { g with insertion_buffer := g.insertion_buffer ++ [v] }) := by
  have hbranch : ¬ ((!g.deletion_buffer.isEmpty) = true ∧
      push_scan comp v g.deletion_buffer g.deletion_buffer.length <
        g.deletion_buffer.length) := by
    rcases hcond with hD | ⟨b, hb, hvb⟩
    · simp [hD]
    · obtain ⟨d0, hd0⟩ := getLast?_split hb
      rw [hd0, push_scan_back_false v b d0 hvb]
      simp
  unfold guarded_heap.push
  simp only
  rw [if_neg hbranch, flush_if_full_eq hN]
  by_cases hfull : g.insertion_buffer.length = InsertionBufferSize cfg
  · simp only [if_pos hfull, Option.some_bind]
    rw [push_back_eq_some v (by simp [InsertionBufferSize]; exact hN)]
    simp
  · simp only [if_neg hfull, Option.some_bind]
    rw [push_back_eq_some v (by omega)]
    simp

/-- The second branch of `refill_deletion_buffer` in closed form. -/
theorem refill_heap_empty (g : guarded_heap α H) (hD : g.deletion_buffer = [])
    (hI : g.insertion_buffer.length < InsertionBufferSize cfg)
    (hE : hp.empty g.heap = true) :
    refill_deletion_buffer hp cfg comp g =
      some { g with insertion_buffer := [],
                    deletion_buffer := std_sort comp g.insertion_buffer } := by
  have hne : g.insertion_buffer.length ≠ InsertionBufferSize cfg := by omega
  unfold refill_deletion_buffer
  simp only [hD, List.isEmpty_nil, Bool.not_true, Bool.false_eq_true, if_false, hne, hE,
    if_true]
  rw [copy_back_eq_some _ _ (by
    simp only [List.length_nil, std_sort_length, DeletionBufferSize, InsertionBufferSize] at hI ⊢
    omega)]
  simp


/-- The first branch of `push` in closed form: `pos` is where the scan stops. -/
theorem push_first_branch (hN : 0 < cfg.NodeSize) (g : guarded_heap α H)
    (hI : g.insertion_buffer.length ≤ InsertionBufferSize cfg)
    (hDle : g.deletion_buffer.length ≤ DeletionBufferSize cfg) (v b : α) (d0 : List α)
    (hd : g.deletion_buffer = d0 ++ [b]) (hvb : comp v b = true) :
    push_scan comp v g.deletion_buffer g.deletion_buffer.length ≤ d0.length ∧
    g.push hp cfg comp v = some
      (if g.deletion_buffer.length = DeletionBufferSize cfg then
        (if g.insertion_buffer.length = InsertionBufferSize cfg then
          { g with
            insertion_buffer := [b]
            deletion_buffer :=
              d0.take (push_scan comp v g.deletion_buffer g.deletion_buffer.length) ++
                v :: d0.drop (push_scan comp v g.deletion_buffer g.deletion_buffer.length)
            heap := hp.insert g.heap (std_sort comp g.insertion_buffer) }
        else
          { g with
            insertion_buffer := g.insertion_buffer ++ [b]
            deletion_buffer :=
              d0.take (push_scan comp v g.deletion_buffer g.deletion_buffer.length) ++
                v :: d0.drop (push_scan comp v g.deletion_buffer g.deletion_buffer.length) })
      else
        { g with
          deletion_buffer :=
            g.deletion_buffer.take
                (push_scan comp v g.deletion_buffer g.deletion_buffer.length) ++
              v :: g.deletion_buffer.drop
                (push_scan comp v g.deletion_buffer g.deletion_buffer.length) }) := by
  have hpos : push_scan comp v g.deletion_buffer g.deletion_buffer.length ≤ d0.length := by
    rw [hd]; exact push_scan_back_true v b d0 hvb
  have hlen : g.deletion_buffer.length = d0.length + 1 := by rw [hd]; simp
  refine ⟨hpos, ?_⟩
  have hbranch : (!g.deletion_buffer.isEmpty) = true ∧
      push_scan comp v g.deletion_buffer g.deletion_buffer.length <
        g.deletion_buffer.length := by
    refine ⟨?_, by omega⟩
    rw [hd]; cases d0 <;> simp
  unfold guarded_heap.push
  simp only
  rw [if_pos hbranch]
  by_cases hfullD : g.deletion_buffer.length = DeletionBufferSize cfg
  · rw [if_pos hfullD, if_pos hfullD, flush_if_full_eq hN]
    have hins : insert_at (DeletionBufferSize cfg) d0
        (push_scan comp v g.deletion_buffer g.deletion_buffer.length) v =
        some (d0.take (push_scan comp v g.deletion_buffer g.deletion_buffer.length) ++
          v :: d0.drop (push_scan comp v g.deletion_buffer g.deletion_buffer.length)) :=
      insert_at_eq_some v (by omega) hpos
    by_cases hfullI : g.insertion_buffer.length = InsertionBufferSize cfg
    · simp only [if_pos hfullI, Option.some_bind, hd, List.getLast?_concat,
        List.dropLast_concat]
      rw [push_back_eq_some b (by simp [InsertionBufferSize]; exact hN)]
      simp only [Option.some_bind]
      rw [← hd, hins]
      simp
    · simp only [if_neg hfullI, Option.some_bind, hd, List.getLast?_concat,
        List.dropLast_concat]
      rw [push_back_eq_some b (by omega)]
      simp only [Option.some_bind]
      rw [← hd, hins]
      simp
  · rw [if_neg hfullD, if_neg hfullD]
    rw [insert_at_eq_some v (by omega) (by omega)]
    simp


/-- C13: exactly `NodeSize` pushes into an empty guarded queue trigger no flush: after
each of them the heap and the deletion buffer are as before (empty) and the insertion
buffer holds the values pushed so far in push order; after the last it holds exactly the
`NodeSize` pushed values. -/
theorem node_size_pushes_trigger_no_flush (g : guarded_heap α H) (hg : g.is_empty hp)
    (vs : List α) (hlen : vs.length = cfg.NodeSize) :
    (∀ k, push_all hp cfg comp g (vs.take k) =
        some { g with insertion_buffer := vs.take k }) ∧
      ∃ g1, push_all hp cfg comp g vs = some g1 ∧ g1.insertion_buffer = vs ∧
        g1.insertion_buffer.length = InsertionBufferSize cfg ∧
        g1.deletion_buffer = [] ∧ g1.heap = g.heap ∧ hp.empty g1.heap = true := by
  obtain ⟨hD, hI, hE⟩ := hg
  have hgen : ∀ ws : List α, ws.length ≤ cfg.NodeSize →
      push_all hp cfg comp g ws = some { g with insertion_buffer := ws } := by
    intro ws hws
    have := @push_all_append α H hp cfg comp ws g hD
      (by rw [hI]; simpa [InsertionBufferSize] using hws)
    rw [this, hI]
    rfl
  refine ⟨fun k => hgen _ ?_, _, hgen vs (le_of_eq hlen), rfl, hlen, hD, rfl, hE⟩
  rw [List.length_take]
  omega

theorem node_size_pushes_trigger_no_flush_witness :
    (∀ k, push_all (sorted_block_heap std_less 2) small_cfg std_less
        (guarded_heap.init (sorted_block_heap std_less 2)) (([5, 3] : List Nat).take k) =
        some { guarded_heap.init (sorted_block_heap std_less 2) with
               insertion_buffer := ([5, 3] : List Nat).take k }) ∧
      ∃ g1, push_all (sorted_block_heap std_less 2) small_cfg std_less
          (guarded_heap.init (sorted_block_heap std_less 2)) [5, 3] = some g1 ∧
        g1.insertion_buffer = [5, 3] ∧
        g1.insertion_buffer.length = InsertionBufferSize small_cfg ∧
        g1.deletion_buffer = [] ∧
        g1.heap = (guarded_heap.init (sorted_block_heap std_less 2)).heap ∧
        (sorted_block_heap std_less 2).empty g1.heap = true :=
  node_size_pushes_trigger_no_flush
    (guarded_heap.init (sorted_block_heap std_less 2)) ⟨rfl, rfl, rfl⟩ [5, 3] rfl

/-- C15: `push(v)` when the deletion buffer `D` is non-empty and `v` is strictly smaller than
`D.back()`: `D` splits as `lo ++ hi` where every value of `hi` is greater than `v` and the
last value of `lo` (if any) is not; the new deletion buffer is `lo ++ v :: hi`, with the old
back dropped from `hi` if `D` was full, so an ascending `D` stays ascending.  If `D` was
full its length stays `2 * NodeSize` and the old back is appended to the insertion buffer,
which is flushed to the heap first if it was full; otherwise the insertion buffer and the
heap are untouched.  In no case is `v` placed in the insertion buffer. -/
theorem push_smaller_inserts_into_deletion_buffer (hswo : strict_weak_order comp)
    (hN : 0 < cfg.NodeSize) (g : guarded_heap α H)
    (hI : g.insertion_buffer.length ≤ InsertionBufferSize cfg)
    (hDle : g.deletion_buffer.length ≤ DeletionBufferSize cfg) (v b : α)
    (hb : g.deletion_buffer.getLast? = some b) (hvb : comp v b = true) :
    ∃ g1 lo hi, g.push hp cfg comp v = some g1 ∧ g.deletion_buffer = lo ++ hi ∧
      (∀ x ∈ hi, comp v x = true) ∧ (∀ e, lo.getLast? = some e → comp v e = false) ∧
      hi.getLast? = some b ∧ g1.in_use = g.in_use ∧
      (g.deletion_buffer.length < DeletionBufferSize cfg →
        g1.deletion_buffer = lo ++ v :: hi ∧ g1.insertion_buffer = g.insertion_buffer ∧
        g1.heap = g.heap) ∧
      (g.deletion_buffer.length = DeletionBufferSize cfg →
        g1.deletion_buffer = lo ++ v :: hi.dropLast ∧
        g1.deletion_buffer.length = DeletionBufferSize cfg ∧
        (g.insertion_buffer.length < InsertionBufferSize cfg →
          g1.insertion_buffer = g.insertion_buffer ++ [b] ∧ g1.heap = g.heap) ∧
        (g.insertion_buffer.length = InsertionBufferSize cfg →
          g1.insertion_buffer = [b] ∧
          g1.heap = hp.insert g.heap (std_sort comp g.insertion_buffer))) ∧
      (ascending comp g.deletion_buffer → ascending comp g1.deletion_buffer) := by
  obtain ⟨d0, hd⟩ := getLast?_split hb
  obtain ⟨hpos, hpush⟩ := @push_first_branch α H hp cfg comp hN g hI hDle v b d0 hd hvb
  obtain ⟨hsplit, hhi, hlo⟩ := @push_scan_split α comp v g.deletion_buffer
  have hlen : g.deletion_buffer.length = d0.length + 1 := by rw [hd]; simp
  have htake : g.deletion_buffer.take
      (push_scan comp v g.deletion_buffer g.deletion_buffer.length) =
      d0.take (push_scan comp v g.deletion_buffer g.deletion_buffer.length) := by
    rw [hd, List.take_append_of_le_length (by rw [← hd]; exact hpos)]
  have hdrop : g.deletion_buffer.drop
      (push_scan comp v g.deletion_buffer g.deletion_buffer.length) =
      d0.drop (push_scan comp v g.deletion_buffer g.deletion_buffer.length) ++ [b] := by
    rw [hd, List.drop_append_of_le_length (by rw [← hd]; exact hpos)]
  have hasc : ascending comp g.deletion_buffer →
      ascending comp (g.deletion_buffer.take
        (push_scan comp v g.deletion_buffer g.deletion_buffer.length) ++
          v :: g.deletion_buffer.drop
            (push_scan comp v g.deletion_buffer g.deletion_buffer.length)) := by
    intro hasc
    refine ascending_insert hswo v _ _ hasc ?_ hhi
    exact push_scan_take hswo v _ hasc _ (le_refl _)
  refine ⟨_, _, _, hpush, hsplit, hhi, hlo, ?_, ?_, ?_, ?_, ?_⟩
  · rw [hdrop, List.getLast?_concat]
  · split_ifs <;> rfl
  · intro hlt
    have hne : g.deletion_buffer.length ≠ DeletionBufferSize cfg := by omega
    rw [if_neg hne]
    exact ⟨rfl, rfl, rfl⟩
  · intro hfull
    rw [if_pos hfull]
    have hD1 : d0.take (push_scan comp v g.deletion_buffer g.deletion_buffer.length) ++
        v :: d0.drop (push_scan comp v g.deletion_buffer g.deletion_buffer.length) =
        g.deletion_buffer.take
            (push_scan comp v g.deletion_buffer g.deletion_buffer.length) ++
          v :: (g.deletion_buffer.drop
            (push_scan comp v g.deletion_buffer g.deletion_buffer.length)).dropLast := by
      rw [htake, hdrop, List.dropLast_concat]
    have hlen1 : (d0.take (push_scan comp v g.deletion_buffer g.deletion_buffer.length) ++
        v :: d0.drop (push_scan comp v g.deletion_buffer g.deletion_buffer.length)).length =
        DeletionBufferSize cfg := by
      simp only [List.length_append, List.length_cons, List.length_take, List.length_drop]
      omega
    refine ⟨?_, ?_, ?_, ?_⟩
    · split_ifs <;> exact hD1
    · split_ifs <;> exact hlen1
    · intro hlt
      have hne : g.insertion_buffer.length ≠ InsertionBufferSize cfg := by omega
      rw [if_neg hne]
      exact ⟨rfl, rfl⟩
    · intro hfullI
      rw [if_pos hfullI]
      exact ⟨rfl, rfl⟩
  · intro hasc0
    have h1 := hasc hasc0
    by_cases hfull : g.deletion_buffer.length = DeletionBufferSize cfg
    · rw [if_pos hfull]
      have h2 : ascending comp
          (d0.take (push_scan comp v g.deletion_buffer g.deletion_buffer.length) ++
            v :: d0.drop (push_scan comp v g.deletion_buffer g.deletion_buffer.length)) := by
        rw [htake, hdrop] at h1
        have h3 : (d0.take (push_scan comp v g.deletion_buffer g.deletion_buffer.length) ++
            v :: (d0.drop (push_scan comp v g.deletion_buffer g.deletion_buffer.length)
              ++ [b])) =
            (d0.take (push_scan comp v g.deletion_buffer g.deletion_buffer.length) ++
            v :: d0.drop (push_scan comp v g.deletion_buffer g.deletion_buffer.length))
              ++ [b] := by simp
        rw [h3] at h1
        exact (ascending_append.mp h1).1
      split_ifs <;> exact h2
    · rw [if_neg hfull]
      exact h1

/-- C16: `push(v)` when the deletion buffer is empty or `v` is not smaller than `D.back()`:
the deletion buffer is unchanged and `v` becomes the last value of the insertion buffer,
which is the old one with `v` appended (heap untouched) if it was not full, and exactly
`[v]` if it was full, the old content having gone to the heap as one sorted block of
`NodeSize` values. -/
theorem push_not_smaller_appends_to_insertion_buffer (hN : 0 < cfg.NodeSize)
    (g : guarded_heap α H) (hI : g.insertion_buffer.length ≤ InsertionBufferSize cfg) (v : α)
    (hcond : g.deletion_buffer = [] ∨
      ∃ b, g.deletion_buffer.getLast? = some b ∧ comp v b = false) :
    ∃ g1, g.push hp cfg comp v = some g1 ∧ g1.deletion_buffer = g.deletion_buffer ∧
      g1.in_use = g.in_use ∧ g1.insertion_buffer.getLast? = some v ∧
      (g.insertion_buffer.length < InsertionBufferSize cfg →
        g1.insertion_buffer = g.insertion_buffer ++ [v] ∧ g1.heap = g.heap) ∧
      (g.insertion_buffer.length = InsertionBufferSize cfg →
        g1.insertion_buffer = [v] ∧
        g1.heap = hp.insert g.heap (std_sort comp g.insertion_buffer) ∧
        (std_sort comp g.insertion_buffer).length = cfg.NodeSize) := by
  refine ⟨_, @push_second_branch α H hp cfg comp hN g hI v hcond, ?_, ?_, ?_, ?_, ?_⟩
  · split_ifs <;> rfl
  · split_ifs <;> rfl
  · split_ifs
    · rfl
    · simp
  · intro hlt
    have hne : g.insertion_buffer.length ≠ InsertionBufferSize cfg := by omega
    rw [if_neg hne]
    exact ⟨rfl, rfl⟩
  · intro hfull
    rw [if_pos hfull]
    exact ⟨rfl, rfl, by rw [std_sort_length]; exact hfull⟩

/-- C18: `refill_deletion_buffer`, second case (deletion buffer empty, heap empty, insertion
buffer `I` not full): afterwards the deletion buffer is `I` sorted by the comparator, an
ascending permutation of `I`, the insertion buffer is empty and the heap is untouched,
still empty. -/
theorem refill_heap_empty_sorts_insertion_buffer (hswo : strict_weak_order comp)
    (g : guarded_heap α H) (hD : g.deletion_buffer = [])
    (hI : g.insertion_buffer.length < InsertionBufferSize cfg)
    (hE : hp.empty g.heap = true) :
    ∃ g1, refill_deletion_buffer hp cfg comp g = some g1 ∧
      g1.deletion_buffer = std_sort comp g.insertion_buffer ∧
      ascending comp g1.deletion_buffer ∧ g1.deletion_buffer.Perm g.insertion_buffer ∧
      g1.insertion_buffer = [] ∧ g1.heap = g.heap ∧ hp.empty g1.heap = true ∧
      g1.in_use = g.in_use :=
  ⟨_, refill_heap_empty g hD hI hE, rfl, std_sort_ascending hswo _, std_sort_perm comp _,
    rfl, rfl, hE, rfl⟩

end branch_facts

section refill_facts
variable {α H : Type} {hp : merge_heap α H} {cfg : Configuration} {comp : α → α → Bool}

/-- The pop loop of the first refill case on an empty deletion buffer and a non-empty
heap, in closed form: one node if the heap is empty after the first pop, else two. -/
theorem refill_pop_loop_closed (law : heap_contract comp cfg.NodeSize hp)
    (hN : 0 < cfg.NodeSize) (g : guarded_heap α H)
    (hD : g.deletion_buffer = []) (hH : law.Inv g.heap) (hne : hp.empty g.heap = false) :
    refill_pop_loop hp cfg (DeletionBufferSize cfg) g = some
      (if hp.empty (hp.pop_node g.heap) = true then
        { g with deletion_buffer := hp.top_node g.heap, heap := hp.pop_node g.heap }
      else
        { g with deletion_buffer := hp.top_node g.heap ++ hp.top_node (hp.pop_node g.heap),
                 heap := hp.pop_node (hp.pop_node g.heap) }) := by
  obtain ⟨u, ib, db, h⟩ := g
  simp only at hD hH hne
  subst hD
  obtain ⟨k, hk⟩ : ∃ k, DeletionBufferSize cfg = k + 2 :=
    ⟨2 * cfg.NodeSize - 2, by unfold DeletionBufferSize; omega⟩
  have hdbs : DeletionBufferSize cfg = 2 * cfg.NodeSize := rfl
  have htl := law.top_length h hH hne
  have hpi := law.pop_inv h hH hne
  have hc1 : ([] : List α).length ≠ DeletionBufferSize cfg ∧ hp.empty h = false :=
    ⟨by simp; omega, hne⟩
  rw [hk]
  unfold refill_pop_loop
  simp only [if_pos hc1]
  rw [copy_back_eq_some _ _ (by simp; omega)]
  simp only [Option.some_bind, List.nil_append]
  by_cases he : hp.empty (hp.pop_node h) = true
  · rw [refill_pop_loop_done _ _ (by simp [he]), if_pos he]
  · have he' : hp.empty (hp.pop_node h) = false := by simpa using he
    have htl2 := law.top_length _ hpi he'
    have hc2 : (hp.top_node h).length ≠ DeletionBufferSize cfg ∧
        hp.empty (hp.pop_node h) = false := ⟨by omega, he'⟩
    unfold refill_pop_loop
    simp only [if_pos hc2]
    rw [copy_back_eq_some _ _ (by omega)]
    simp only [Option.some_bind]
    rw [refill_pop_loop_done _ _ (by simp; omega), if_neg he]

/-- The heap after the flush of a full insertion buffer: in between-node order, holding
the old values and those of the buffer, and not empty. -/
theorem flushed_heap (law : heap_contract comp cfg.NodeSize hp)
    (hswo : strict_weak_order comp) (hN : 0 < cfg.NodeSize) (h : H) (ib : List α)
    (hfull : ib.length = InsertionBufferSize cfg) (hH : law.Inv h) :
    law.Inv (hp.insert h (std_sort comp ib)) ∧
      law.vals (hp.insert h (std_sort comp ib)) = law.vals h + (ib : Multiset α) ∧
      hp.empty (hp.insert h (std_sort comp ib)) = false := by
  have hl : (std_sort comp ib).length = cfg.NodeSize := by
    rw [std_sort_length]; exact hfull
  have hInv1 := law.insert_inv h _ hH hl (std_sort_ascending hswo _)
  have hvals1 := law.insert_vals h _ hH hl (std_sort_ascending hswo _)
  rw [std_sort_coe] at hvals1
  have hibne : ib ≠ [] := by
    intro hc; rw [hc] at hfull; simp [InsertionBufferSize] at hfull; omega
  refine ⟨hInv1, hvals1, ?_⟩
  cases he : hp.empty (hp.insert h (std_sort comp ib)) with
  | false => rfl
  | true =>
    have := (law.empty_iff _ hInv1).mp he
    rw [hvals1] at this
    have hz := (add_eq_zero.mp this).2
    exact absurd ((Multiset.coe_eq_zero _).mp hz) hibne

/-- The first case of `refill_deletion_buffer` in closed form. -/
theorem refill_full_closed (law : heap_contract comp cfg.NodeSize hp)
    (hswo : strict_weak_order comp) (hN : 0 < cfg.NodeSize) (g : guarded_heap α H)
    (hD : g.deletion_buffer = [])
    (hfull : g.insertion_buffer.length = InsertionBufferSize cfg) (hH : law.Inv g.heap) :
    refill_deletion_buffer hp cfg comp g = some
      (if hp.empty (hp.pop_node (hp.insert g.heap (std_sort comp g.insertion_buffer))) = true
      then
        { g with
          insertion_buffer := []
          deletion_buffer := hp.top_node (hp.insert g.heap (std_sort comp g.insertion_buffer))
          heap := hp.pop_node (hp.insert g.heap (std_sort comp g.insertion_buffer)) }
      else
        { g with
          insertion_buffer := []
          deletion_buffer :=
            hp.top_node (hp.insert g.heap (std_sort comp g.insertion_buffer)) ++
              hp.top_node (hp.pop_node (hp.insert g.heap (std_sort comp g.insertion_buffer)))
          heap := hp.pop_node
            (hp.pop_node (hp.insert g.heap (std_sort comp g.insertion_buffer))) }) := by
  obtain ⟨hInv1, -, hne1⟩ := flushed_heap law hswo hN g.heap g.insertion_buffer hfull hH
  unfold refill_deletion_buffer
  simp only [hD, List.isEmpty_nil, Bool.not_true, Bool.false_eq_true, if_false, if_pos hfull]
  rw [flush_insertion_buffer_eq hN _ hfull]
  simp only [Option.some_bind]
  rw [refill_pop_loop_closed law hN
    ({ g with insertion_buffer := [],
              heap := hp.insert g.heap (std_sort comp g.insertion_buffer) } : guarded_heap α H)
    hD hInv1 hne1]

/-- The inner loop of the merge moves an initial part of the node to the deletion buffer. -/
theorem merge_scan_moves (cap : Nat) (m : α) :
    ∀ (node d rest d1 : List α), merge_scan comp cap m node d = some (rest, d1) →
      ∃ pre, node = pre ++ rest ∧ d1 = d ++ pre := by
  intro node
  induction node with
  | nil => intro d rest d1 h; simp [merge_scan] at h
  | cons x xs ih =>
    intro d rest d1 h
    unfold merge_scan at h
    cases hc : comp x m with
    | false =>
      rw [hc] at h
      simp only [Bool.false_eq_true, if_false, Option.some.injEq, Prod.mk.injEq] at h
      exact ⟨[], by rw [← h.1]; rfl, by rw [← h.2]; simp⟩
    | true =>
      rw [hc] at h
      simp only [if_true] at h
      cases hpb : push_back cap d x with
      | none => rw [hpb] at h; simp at h
      | some d2 =>
        rw [hpb] at h
        simp only [Option.some_bind] at h
        obtain ⟨pre, h1, h2⟩ := ih d2 rest d1 h
        have hd2 : d2 = d ++ [x] := by
          unfold push_back at hpb
          split_ifs at hpb
          exact (Option.some.inj hpb).symm
        exact ⟨x :: pre, by rw [h1]; rfl, by rw [h2, hd2]; simp⟩

/-- The merge keeps the values already in the deletion buffer and those of the node in
their order. -/
theorem merge_loop_sublist (cap : Nat) :
    ∀ (fuel : Nat) (small node d node1 d1 : List α),
      merge_loop comp cap fuel small node d = some (node1, d1) →
      (d ++ node).Sublist (d1 ++ node1) := by
  intro fuel
  induction fuel with
  | zero =>
    intro small node d node1 d1 h
    unfold merge_loop at h
    split_ifs at h
    simp only [Option.some.injEq, Prod.mk.injEq] at h
    rw [← h.1, ← h.2]
  | succ fuel ih =>
    intro small node d node1 d1 h
    unfold merge_loop at h
    split_ifs at h
    · simp only [Option.some.injEq, Prod.mk.injEq] at h
      rw [← h.1, ← h.2]
    · cases hm : small[min_element comp small]? with
      | none => rw [hm] at h; simp at h
      | some m =>
        rw [hm] at h
        simp only at h
        cases hs : merge_scan comp cap m node d with
        | none => rw [hs] at h; simp at h
        | some nd =>
          obtain ⟨rest, d2⟩ := nd
          rw [hs] at h
          simp only [Option.some_bind] at h
          cases hpb : push_back cap d2 m with
          | none => rw [hpb] at h; simp at h
          | some d3 =>
            rw [hpb] at h
            simp only [Option.some_bind] at h
            obtain ⟨pre, h1, h2⟩ := merge_scan_moves cap m node d rest d2 hs
            have hd3 : d3 = d2 ++ [m] := by
              unfold push_back at hpb
              split_ifs at hpb
              exact (Option.some.inj hpb).symm
            have := ih _ _ _ _ _ h
            refine List.Sublist.trans ?_ this
            rw [hd3, h2, h1]
            simp only [List.append_assoc]
            refine List.Sublist.append (List.Sublist.refl _) ?_
            refine List.Sublist.append (List.Sublist.refl _) ?_
            exact List.sublist_append_right _ _


/-- The third case of `refill_deletion_buffer` in closed form: `M` is the back of the top
node; the merge returns the ascending arrangement `d1 ++ node1`. -/
theorem refill_merge_closed (law : heap_contract comp cfg.NodeSize hp)
    (hswo : strict_weak_order comp) (hN : 0 < cfg.NodeSize) (g : guarded_heap α H)
    (hD : g.deletion_buffer = [])
    (hI : g.insertion_buffer.length < InsertionBufferSize cfg) (hH : law.Inv g.heap)
    (hE : hp.empty g.heap = false) :
    ∃ M node1 d1, (hp.top_node g.heap).getLast? = some M ∧
      refill_deletion_buffer hp cfg comp g = some
        { g with insertion_buffer := g.insertion_buffer.filter (fun v => comp M v),
                 deletion_buffer := d1 ++ node1,
                 heap := hp.pop_node g.heap } ∧
      ascending comp (d1 ++ node1) ∧
      ((d1 ++ node1 : List α) : Multiset α) =
        ((g.insertion_buffer.filter (fun v => !comp M v) : List α) : Multiset α) +
          (hp.top_node g.heap : Multiset α) ∧
      (hp.top_node g.heap).Sublist (d1 ++ node1) := by
  obtain ⟨u, ib, db, h⟩ := g
  simp only at hD hH hI hE
  subst hD
  have hibs : InsertionBufferSize cfg = cfg.NodeSize := rfl
  have hdbs : DeletionBufferSize cfg = 2 * cfg.NodeSize := rfl
  have hne : ib.length ≠ InsertionBufferSize cfg := by omega
  have htl := law.top_length h hH hE
  have hts := law.top_sorted h hH hE
  have htne : hp.top_node h ≠ [] := by
    intro hc; rw [hc] at htl; simp at htl; omega
  obtain ⟨M, hM⟩ : ∃ M, (hp.top_node h).getLast? = some M := by
    cases hq : (hp.top_node h).getLast? with
    | none => exact absurd (List.getLast?_eq_none_iff.mp hq) htne
    | some M => exact ⟨M, rfl⟩
  have hparts : (if ib.isEmpty = true then some (([] : List α), ([] : List α))
      else (hp.top_node h).getLast?.map (fun M =>
        (ib.filter (fun v => comp M v), ib.filter (fun v => !comp M v)))) =
      some (ib.filter (fun v => comp M v), ib.filter (fun v => !comp M v)) := by
    cases ib with
    | nil => rfl
    | cons a l => simp [hM]
  have hsmall : ∀ s ∈ ib.filter (fun v => !comp M v), comp M s = false := by
    intro s hs
    have := (List.mem_filter.mp hs).2
    simpa using this
  have hsl : (ib.filter (fun v => !comp M v)).length ≤ ib.length := List.length_filter_le _ _
  obtain ⟨node1, d1, hrun, hasc1, hval1⟩ :=
    merge_loop_spec hswo (DeletionBufferSize cfg) M _ (ib.filter (fun v => !comp M v))
      (hp.top_node h) [] rfl hM hsmall (by simp; omega) (by simpa using hts)
      (by intro x hx; simp at hx)
  have hsub := merge_loop_sublist (DeletionBufferSize cfg) _ _ _ _ _ _ hrun
  have hcard : d1.length + node1.length =
      (ib.filter (fun v => !comp M v)).length + (hp.top_node h).length := by
    have := congrArg Multiset.card hval1
    simpa using this
  refine ⟨M, node1, d1, hM, ?_, hasc1, ?_, ?_⟩
  · unfold refill_deletion_buffer
    simp only [List.isEmpty_nil, Bool.not_true, Bool.false_eq_true, if_false, if_neg hne, hE]
    rw [hparts]
    simp only [Option.some_bind]
    rw [hrun]
    simp only [Option.some_bind]
    rw [copy_back_eq_some _ _ (by omega)]
    rfl
  · rw [hval1]; simp
  · simpa using hsub

end refill_facts

section equiv_facts
variable {α : Type} {comp : α → α → Bool}

/-- In an ascending list, fewer than `i + 1` values are strictly smaller than the value at
index `i`. -/
theorem ascending_count_lt (hswo : strict_weak_order comp) (l : List α)
    (hl : ascending comp l) (i : Nat) (x : α) (hx : l[i]? = some x) :
    l.countP (fun y => comp y x) ≤ i := by
  have hi : i < l.length := lt_of_get hx
  have hsplit : l = l.take i ++ l.drop i := (List.take_append_drop i l).symm
  have hz : (l.drop i).countP (fun y => comp y x) = 0 := by
    rw [List.countP_eq_zero]
    intro y hy
    have hd : l.drop i = x :: l.drop (i + 1) := by
      rw [List.drop_eq_getElem_cons hi]
      rw [List.getElem?_eq_getElem hi] at hx
      cases hx
      rfl
    rw [hd] at hy
    rcases List.mem_cons.mp hy with h | h
    · rw [h, hswo.irrefl]; simp
    · have h2 : ascending comp (l.take i ++ (x :: l.drop (i + 1))) := by
        rw [← hd, List.take_append_drop]; exact hl
      have h3 := (ascending_append.mp h2).2.1
      have := (ascending_cons.mp h3).1 y h
      rw [this]; simp
  rw [hsplit, List.countP_append, hz, Nat.add_zero]
  exact le_trans (List.countP_le_length _) (by rw [List.length_take]; omega)

/-- In an ascending list, at least `i + 1` values are not greater than the value at
index `i`. -/
theorem ascending_count_le (hswo : strict_weak_order comp) (l : List α)
    (hl : ascending comp l) (i : Nat) (x : α) (hx : l[i]? = some x) :
    i + 1 ≤ l.countP (fun y => !comp x y) := by
  have hi : i < l.length := lt_of_get hx
  have hd : l.drop i = x :: l.drop (i + 1) := by
    rw [List.drop_eq_getElem_cons hi]
    rw [List.getElem?_eq_getElem hi] at hx
    cases hx
    rfl
  have hsplit : l = l.take i ++ (x :: l.drop (i + 1)) := by
    rw [← hd, List.take_append_drop]
  have hall : (l.take i).countP (fun y => !comp x y) = (l.take i).length := by
    rw [List.countP_eq_length]
    intro y hy
    have h2 : ascending comp (l.take i ++ (x :: l.drop (i + 1))) := by
      rw [← hsplit]; exact hl
    have := (ascending_append.mp h2).2.2 y hy x (List.mem_cons_self _ _)
    simp [this]
  have hlen : (l.take i).length = i := by rw [List.length_take]; omega
  calc i + 1 = (l.take i).countP (fun y => !comp x y) + 1 := by rw [hall, hlen]
    _ ≤ (l.take i).countP (fun y => !comp x y) +
          (x :: l.drop (i + 1)).countP (fun y => !comp x y) := by
        apply Nat.add_le_add_left
        rw [List.countP_cons_of_pos]
        · omega
        · simp [hswo.irrefl]
    _ = l.countP (fun y => !comp x y) := by
        rw [← List.countP_append, ← hsplit]

/-- Two ascending arrangements of the same values agree position by position up to
equivalence under the comparator. -/
theorem ascending_perm_equiv (hswo : strict_weak_order comp) (l₁ l₂ : List α)
    (h₁ : ascending comp l₁) (h₂ : ascending comp l₂) (hperm : l₁.Perm l₂) :
    List.Forall₂ (fun a b => comp a b = false ∧ comp b a = false) l₁ l₂ := by
  have key : ∀ (m₁ m₂ : List α), ascending comp m₁ → ascending comp m₂ → m₁.Perm m₂ →
      ∀ (i : Nat) (x y : α), m₁[i]? = some x → m₂[i]? = some y → comp x y = false := by
    intro m₁ m₂ a₁ a₂ hp i x y hx hy
    cases hc : comp x y with
    | false => rfl
    | true =>
      exfalso
      have hA := ascending_count_le hswo m₁ a₁ i x hx
      have hB := ascending_count_lt hswo m₂ a₂ i y hy
      have hmono : m₁.countP (fun z => !comp x z) ≤ m₁.countP (fun z => comp z y) := by
        apply List.countP_mono_left
        intro z _ hz
        have hz' : comp x z = false := by simpa using hz
        exact hswo.lt_of_le_of_lt hz' hc
      have hpe := hp.countP_eq (fun z => comp z y)
      omega
  apply List.forall₂_of_length_eq_of_get hperm.length_eq
  intro i hi₁ hi₂
  exact ⟨key l₁ l₂ h₁ h₂ hperm i _ _ (List.getElem?_eq_getElem hi₁)
      (List.getElem?_eq_getElem hi₂),
    key l₂ l₁ h₂ h₁ hperm.symm i _ _ (List.getElem?_eq_getElem hi₂)
      (List.getElem?_eq_getElem hi₁)⟩

end equiv_facts


section refill_claims
variable {α H : Type} {hp : merge_heap α H} {cfg : Configuration} {comp : α → α → Bool}

/-- C14: for a guarded queue with an empty heap, an empty deletion buffer and a full
insertion buffer `I`, flushing `I` into the heap and then running the pop loop (which is
what the first case of `refill_deletion_buffer` does) leaves in the deletion buffer
exactly the values of `I` as a multiset, `NodeSize` of them, in ascending order and
agreeing position by position, up to equivalence under the comparator, with `I` sorted
directly; the insertion buffer and the heap are left empty. -/
theorem flush_then_pop_equals_sort (law : heap_contract comp cfg.NodeSize hp)
    (hswo : strict_weak_order comp) (hN : 0 < cfg.NodeSize) (g : guarded_heap α H)
    (hD : g.deletion_buffer = [])
    (hfull : g.insertion_buffer.length = InsertionBufferSize cfg) (hH : law.Inv g.heap)
    (hE : hp.empty g.heap = true) :
    ∃ gf g1, flush_insertion_buffer hp cfg comp g = some gf ∧
      refill_pop_loop hp cfg (DeletionBufferSize cfg) gf = some g1 ∧
      refill_deletion_buffer hp cfg comp g = some g1 ∧
      (g1.deletion_buffer : Multiset α) = (g.insertion_buffer : Multiset α) ∧
      g1.deletion_buffer.length = cfg.NodeSize ∧
      ascending comp g1.deletion_buffer ∧
      List.Forall₂ (fun a b => comp a b = false ∧ comp b a = false)
        g1.deletion_buffer (std_sort comp g.insertion_buffer) ∧
      g1.insertion_buffer = [] ∧ hp.empty g1.heap = true ∧ law.vals g1.heap = 0 := by
  obtain ⟨hInv1, hvals1, hne1⟩ := flushed_heap law hswo hN g.heap g.insertion_buffer hfull hH
  have hv0 := (law.empty_iff _ hH).mp hE
  rw [hv0, zero_add] at hvals1
  have htl := law.top_length _ hInv1 hne1
  have hts := law.top_sorted _ hInv1 hne1
  have hpi := law.pop_inv _ hInv1 hne1
  have hpv := law.pop_vals _ hInv1 hne1
  have hcard := congrArg Multiset.card hpv
  rw [hvals1] at hcard
  simp only [Multiset.coe_card, Multiset.card_add, htl] at hcard
  have hfull' : g.insertion_buffer.length = cfg.NodeSize := hfull
  have hz : law.vals (hp.pop_node (hp.insert g.heap (std_sort comp g.insertion_buffer))) =
      0 := Multiset.card_eq_zero.mp (by omega)
  have he2 := (law.empty_iff _ hpi).mpr hz
  have htop : ((hp.top_node (hp.insert g.heap (std_sort comp g.insertion_buffer)) : List α) :
      Multiset α) = (g.insertion_buffer : Multiset α) := by
    rw [hvals1, hz, add_zero] at hpv
    exact hpv.symm
  have hperm : (hp.top_node (hp.insert g.heap (std_sort comp g.insertion_buffer))).Perm
      (std_sort comp g.insertion_buffer) :=
    (Multiset.coe_eq_coe.mp htop).trans (std_sort_perm comp _).symm
  have hloop := refill_pop_loop_closed law hN
    ({ g with insertion_buffer := [],
              heap := hp.insert g.heap (std_sort comp g.insertion_buffer) } : guarded_heap α H)
    hD hInv1 hne1
  have hrefill := refill_full_closed law hswo hN g hD hfull hH
  simp only [if_pos he2] at hloop hrefill
  exact ⟨_, _, flush_insertion_buffer_eq hN g hfull, hloop, hrefill, htop, htl, hts,
    ascending_perm_equiv hswo _ _ hts (std_sort_ascending hswo _) hperm, rfl, he2, hz⟩

/-- C17: `refill_deletion_buffer`, third case (deletion buffer empty, heap not empty,
insertion buffer `I` not full), with `M` the back of the heap's top node, which is its
largest value: afterwards the insertion buffer holds exactly the values of `I` greater
than `M`; the deletion buffer is ascending, holds exactly the top node together with the
values of `I` not greater than `M` (`NodeSize` plus their number), with the top node's
values in their order; the heap has lost exactly its top node; and every value left in the
insertion buffer is greater than every value in the deletion buffer. -/
theorem refill_merges_top_node_with_small_values (law : heap_contract comp cfg.NodeSize hp)
    (hswo : strict_weak_order comp) (hN : 0 < cfg.NodeSize) (g : guarded_heap α H)
    (hD : g.deletion_buffer = [])
    (hI : g.insertion_buffer.length < InsertionBufferSize cfg) (hH : law.Inv g.heap)
    (hE : hp.empty g.heap = false) :
    ∃ g1 M, refill_deletion_buffer hp cfg comp g = some g1 ∧
      (hp.top_node g.heap).getLast? = some M ∧
      (∀ t ∈ hp.top_node g.heap, comp M t = false) ∧
      (g1.insertion_buffer : Multiset α) =
        Multiset.filter (fun x => comp M x = true) (g.insertion_buffer : Multiset α) ∧
      (g1.deletion_buffer : Multiset α) = (hp.top_node g.heap : Multiset α) +
        Multiset.filter (fun x => comp M x = false) (g.insertion_buffer : Multiset α) ∧
      ascending comp g1.deletion_buffer ∧
      (hp.top_node g.heap).Sublist g1.deletion_buffer ∧
      g1.deletion_buffer.length = cfg.NodeSize +
        (g.insertion_buffer.filter (fun x => !comp M x)).length ∧
      g1.heap = hp.pop_node g.heap ∧
      law.vals g.heap = (hp.top_node g.heap : Multiset α) + law.vals g1.heap ∧
      (∀ x ∈ g1.insertion_buffer, ∀ d ∈ g1.deletion_buffer, comp d x = true) ∧
      g1.in_use = g.in_use := by
  obtain ⟨M, node1, d1, hM, hrefill, hasc, hval, hsub⟩ :=
    refill_merge_closed law hswo hN g hD hI hH hE
  have htl := law.top_length _ hH hE
  have hts := law.top_sorted _ hH hE
  have hMmax := ascending_getLast_max hswo _ M hM hts
  have hfs : ((g.insertion_buffer.filter (fun v => !comp M v) : List α) : Multiset α) =
      Multiset.filter (fun x => comp M x = false) (g.insertion_buffer : Multiset α) := by
    rw [Multiset.filter_coe]
    congr 1
    apply List.filter_congr
    intro x _
    cases comp M x <;> simp
  have hfl : ((g.insertion_buffer.filter (fun v => comp M v) : List α) : Multiset α) =
      Multiset.filter (fun x => comp M x = true) (g.insertion_buffer : Multiset α) := by
    rw [Multiset.filter_coe]
    congr 1
    apply List.filter_congr
    intro x _
    cases comp M x <;> simp
  refine ⟨_, M, hrefill, hM, hMmax, hfl, ?_, hasc, hsub, ?_, rfl,
    law.pop_vals _ hH hE, ?_, rfl⟩
  · simp only
    rw [hval, hfs, add_comm]
  · have := congrArg Multiset.card hval
    simp only [Multiset.coe_card, Multiset.card_add] at this
    simp only
    rw [this, htl, add_comm]
  · intro x hx d hd
    simp only at hx hd
    have hxM : comp M x = true := (List.mem_filter.mp hx).2
    have hdM : comp M d = false := by
      have : d ∈ ((d1 ++ node1 : List α) : Multiset α) := Multiset.mem_coe.mpr hd
      rw [hval] at this
      rcases Multiset.mem_add.mp this with h1 | h2
      · have := (List.mem_filter.mp (Multiset.mem_coe.mp h1)).2
        simpa using this
      · exact hMmax d (Multiset.mem_coe.mp h2)
    exact hswo.lt_of_le_of_lt hdM hxM

/-- C19: `refill_deletion_buffer`, first case (deletion buffer empty, insertion buffer full,
heap holding `n` nodes, that is `n * NodeSize` values): afterwards the insertion buffer is
empty and the deletion buffer is the concatenation, in pop order, of the top nodes popped
after the flush, one if `n = 0` and two otherwise, so `min 2 (n + 1)` nodes and that many
times `NodeSize` values; the heap holds the `n + 1 - min 2 (n + 1)` nodes left.  The loop
runs while the heap is not empty and the deletion buffer not full, and has stopped with the
deletion buffer full or the heap empty. -/
theorem refill_full_pops_up_to_two_nodes (law : heap_contract comp cfg.NodeSize hp)
    (hswo : strict_weak_order comp) (hN : 0 < cfg.NodeSize) (g : guarded_heap α H)
    (hD : g.deletion_buffer = [])
    (hfull : g.insertion_buffer.length = InsertionBufferSize cfg) (hH : law.Inv g.heap)
    (n : Nat) (hn : Multiset.card (law.vals g.heap) = n * cfg.NodeSize) :
    ∃ g1, refill_deletion_buffer hp cfg comp g = some g1 ∧ g1.insertion_buffer = [] ∧
      hp.empty (hp.insert g.heap (std_sort comp g.insertion_buffer)) = false ∧
      (n = 0 →
        hp.empty (hp.pop_node (hp.insert g.heap (std_sort comp g.insertion_buffer))) = true ∧
        g1.deletion_buffer =
          hp.top_node (hp.insert g.heap (std_sort comp g.insertion_buffer)) ∧
        g1.heap = hp.pop_node (hp.insert g.heap (std_sort comp g.insertion_buffer))) ∧
      (0 < n →
        hp.empty (hp.pop_node (hp.insert g.heap (std_sort comp g.insertion_buffer))) = false ∧
        g1.deletion_buffer =
          hp.top_node (hp.insert g.heap (std_sort comp g.insertion_buffer)) ++
            hp.top_node (hp.pop_node (hp.insert g.heap (std_sort comp g.insertion_buffer))) ∧
        g1.heap = hp.pop_node
          (hp.pop_node (hp.insert g.heap (std_sort comp g.insertion_buffer)))) ∧
      g1.deletion_buffer.length = min 2 (n + 1) * cfg.NodeSize ∧
      Multiset.card (law.vals g1.heap) = (n + 1 - min 2 (n + 1)) * cfg.NodeSize ∧
      (g1.deletion_buffer.length = DeletionBufferSize cfg ∨ hp.empty g1.heap = true) ∧
      (g1.deletion_buffer : Multiset α) + law.vals g1.heap =
        law.vals g.heap + (g.insertion_buffer : Multiset α) := by
  obtain ⟨hInv1, hvals1, hne1⟩ := flushed_heap law hswo hN g.heap g.insertion_buffer hfull hH
  have hfull' : g.insertion_buffer.length = cfg.NodeSize := hfull
  have hdbs : DeletionBufferSize cfg = 2 * cfg.NodeSize := rfl
  have htl := law.top_length _ hInv1 hne1
  have hpi := law.pop_inv _ hInv1 hne1
  have hpv := law.pop_vals _ hInv1 hne1
  have hcard := congrArg Multiset.card hpv
  rw [hvals1] at hcard
  simp only [Multiset.coe_card, Multiset.card_add, htl, hn, hfull'] at hcard
  have hcard1 : Multiset.card
      (law.vals (hp.pop_node (hp.insert g.heap (std_sort comp g.insertion_buffer)))) =
      n * cfg.NodeSize := by omega
  have hrefill := refill_full_closed law hswo hN g hD hfull hH
  by_cases hn0 : n = 0
  · have hz : law.vals (hp.pop_node (hp.insert g.heap (std_sort comp g.insertion_buffer))) =
        0 := Multiset.card_eq_zero.mp (by rw [hcard1, hn0]; simp)
    have he2 := (law.empty_iff _ hpi).mpr hz
    simp only [if_pos he2] at hrefill
    refine ⟨_, hrefill, rfl, hne1, fun _ => ⟨he2, rfl, rfl⟩, fun h => by omega, ?_, ?_,
      Or.inr he2, ?_⟩
    · simp only [htl, hn0]; simp
    · simp only [hz, hn0]; simp
    · simp only
      rw [← hvals1, hpv]
  · have hnpos : 0 < n := Nat.pos_of_ne_zero hn0
    have he2 : hp.empty (hp.pop_node (hp.insert g.heap (std_sort comp g.insertion_buffer))) =
        false := by
      cases he : hp.empty (hp.pop_node (hp.insert g.heap (std_sort comp g.insertion_buffer)))
        with
      | false => rfl
      | true =>
        have := (law.empty_iff _ hpi).mp he
        rw [this] at hcard1
        simp only [Multiset.card_zero] at hcard1
        have : 0 < n * cfg.NodeSize := Nat.mul_pos hnpos hN
        omega
    have htl2 := law.top_length _ hpi he2
    have hpv2 := law.pop_vals _ hpi he2
    have hcard2 := congrArg Multiset.card hpv2
    simp only [Multiset.coe_card, Multiset.card_add, htl2, hcard1] at hcard2
    have hne2 : ¬ (hp.empty
        (hp.pop_node (hp.insert g.heap (std_sort comp g.insertion_buffer))) = true) := by
      rw [he2]; simp
    simp only [if_neg hne2] at hrefill
    have hmin : min 2 (n + 1) = 2 := by omega
    refine ⟨_, hrefill, rfl, hne1, fun h => absurd h hn0, fun _ => ⟨he2, rfl, rfl⟩, ?_, ?_,
      Or.inl ?_, ?_⟩
    · simp only [List.length_append, htl, htl2, hmin]; omega
    · simp only [hmin]
      have : (n + 1 - 2) * cfg.NodeSize = n * cfg.NodeSize - cfg.NodeSize := by
        rw [Nat.sub_mul, Nat.add_mul]; omega
      rw [this]; omega
    · simp only [List.length_append, htl, htl2, hdbs]; omega
    · simp only
      rw [← hvals1, hpv, hpv2, ← Multiset.coe_add, add_assoc]

end refill_claims

section branch_witnesses

theorem flush_then_pop_equals_sort_witness :
    ∃ gf g1, flush_insertion_buffer (sorted_block_heap std_less small_cfg.NodeSize) small_cfg
        std_less (sample_queue [5, 3] [] []) = some gf ∧
      refill_pop_loop (sorted_block_heap std_less small_cfg.NodeSize) small_cfg
        (DeletionBufferSize small_cfg) gf = some g1 ∧
      refill_deletion_buffer (sorted_block_heap std_less small_cfg.NodeSize) small_cfg
        std_less (sample_queue [5, 3] [] []) = some g1 ∧
      (g1.deletion_buffer : Multiset Nat) =
        ((sample_queue [5, 3] [] []).insertion_buffer : Multiset Nat) ∧
      g1.deletion_buffer.length = small_cfg.NodeSize ∧
      ascending std_less g1.deletion_buffer ∧
      List.Forall₂ (fun a b => std_less a b = false ∧ std_less b a = false)
        g1.deletion_buffer (std_sort std_less (sample_queue [5, 3] [] []).insertion_buffer) ∧
      g1.insertion_buffer = [] ∧
      (sorted_block_heap std_less small_cfg.NodeSize).empty g1.heap = true ∧
      std_less_contract.vals g1.heap = 0 :=
  flush_then_pop_equals_sort std_less_contract std_less_swo
    (by decide : 0 < small_cfg.NodeSize) (sample_queue [5, 3] [] []) rfl rfl
    ⟨by decide, by decide⟩ rfl

theorem push_smaller_inserts_into_deletion_buffer_witness :
    ∃ g1 lo hi, (sample_queue [8, 9] [1, 3, 5, 7] []).push
        (sorted_block_heap std_less small_cfg.NodeSize) small_cfg std_less 4 = some g1 ∧
      (sample_queue [8, 9] [1, 3, 5, 7] []).deletion_buffer = lo ++ hi ∧
      (∀ x ∈ hi, std_less 4 x = true) ∧ (∀ e, lo.getLast? = some e → std_less 4 e = false) ∧
      hi.getLast? = some 7 ∧ g1.in_use = (sample_queue [8, 9] [1, 3, 5, 7] []).in_use ∧
      ((sample_queue [8, 9] [1, 3, 5, 7] []).deletion_buffer.length <
          DeletionBufferSize small_cfg →
        g1.deletion_buffer = lo ++ 4 :: hi ∧
        g1.insertion_buffer = (sample_queue [8, 9] [1, 3, 5, 7] []).insertion_buffer ∧
        g1.heap = (sample_queue [8, 9] [1, 3, 5, 7] []).heap) ∧
      ((sample_queue [8, 9] [1, 3, 5, 7] []).deletion_buffer.length =
          DeletionBufferSize small_cfg →
        g1.deletion_buffer = lo ++ 4 :: hi.dropLast ∧
        g1.deletion_buffer.length = DeletionBufferSize small_cfg ∧
        ((sample_queue [8, 9] [1, 3, 5, 7] []).insertion_buffer.length <
            InsertionBufferSize small_cfg →
          g1.insertion_buffer =
            (sample_queue [8, 9] [1, 3, 5, 7] []).insertion_buffer ++ [7] ∧
          g1.heap = (sample_queue [8, 9] [1, 3, 5, 7] []).heap) ∧
        ((sample_queue [8, 9] [1, 3, 5, 7] []).insertion_buffer.length =
            InsertionBufferSize small_cfg →
          g1.insertion_buffer = [7] ∧
          g1.heap = (sorted_block_heap std_less small_cfg.NodeSize).insert
            (sample_queue [8, 9] [1, 3, 5, 7] []).heap
            (std_sort std_less (sample_queue [8, 9] [1, 3, 5, 7] []).insertion_buffer))) ∧
      (ascending std_less (sample_queue [8, 9] [1, 3, 5, 7] []).deletion_buffer →
        ascending std_less g1.deletion_buffer) :=
  push_smaller_inserts_into_deletion_buffer std_less_swo (by decide : 0 < small_cfg.NodeSize)
    (sample_queue [8, 9] [1, 3, 5, 7] []) (by decide) (by decide) 4 7 rfl rfl

theorem push_not_smaller_appends_to_insertion_buffer_witness :
    ∃ g1, (sample_queue [8, 9] [1, 3] []).push
        (sorted_block_heap std_less small_cfg.NodeSize) small_cfg std_less 4 = some g1 ∧
      g1.deletion_buffer = (sample_queue [8, 9] [1, 3] []).deletion_buffer ∧
      g1.in_use = (sample_queue [8, 9] [1, 3] []).in_use ∧
      g1.insertion_buffer.getLast? = some 4 ∧
      ((sample_queue [8, 9] [1, 3] []).insertion_buffer.length <
          InsertionBufferSize small_cfg →
        g1.insertion_buffer = (sample_queue [8, 9] [1, 3] []).insertion_buffer ++ [4] ∧
        g1.heap = (sample_queue [8, 9] [1, 3] []).heap) ∧
      ((sample_queue [8, 9] [1, 3] []).insertion_buffer.length =
          InsertionBufferSize small_cfg →
        g1.insertion_buffer = [4] ∧
        g1.heap = (sorted_block_heap std_less small_cfg.NodeSize).insert
          (sample_queue [8, 9] [1, 3] []).heap
          (std_sort std_less (sample_queue [8, 9] [1, 3] []).insertion_buffer) ∧
        (std_sort std_less (sample_queue [8, 9] [1, 3] []).insertion_buffer).length =
          small_cfg.NodeSize) :=
  push_not_smaller_appends_to_insertion_buffer (by decide : 0 < small_cfg.NodeSize)
    (sample_queue [8, 9] [1, 3] []) (by decide) 4 (Or.inr ⟨3, rfl, rfl⟩)

theorem refill_merges_top_node_with_small_values_witness :
    ∃ g1 M, refill_deletion_buffer (sorted_block_heap std_less wide_cfg.NodeSize) wide_cfg
        std_less (sample_queue [7, 2, 9] [] [1, 3, 5, 6, 8, 10, 11, 12]) = some g1 ∧
      ((sorted_block_heap std_less wide_cfg.NodeSize).top_node
        (sample_queue [7, 2, 9] [] [1, 3, 5, 6, 8, 10, 11, 12]).heap).getLast? = some M ∧
      (∀ t ∈ (sorted_block_heap std_less wide_cfg.NodeSize).top_node
          (sample_queue [7, 2, 9] [] [1, 3, 5, 6, 8, 10, 11, 12]).heap,
        std_less M t = false) ∧
      (g1.insertion_buffer : Multiset Nat) =
        Multiset.filter (fun x => std_less M x = true)
          ((sample_queue [7, 2, 9] [] [1, 3, 5, 6, 8, 10, 11, 12]).insertion_buffer :
            Multiset Nat) ∧
      (g1.deletion_buffer : Multiset Nat) =
        (((sorted_block_heap std_less wide_cfg.NodeSize).top_node
          (sample_queue [7, 2, 9] [] [1, 3, 5, 6, 8, 10, 11, 12]).heap : List Nat) :
            Multiset Nat) +
        Multiset.filter (fun x => std_less M x = false)
          ((sample_queue [7, 2, 9] [] [1, 3, 5, 6, 8, 10, 11, 12]).insertion_buffer :
            Multiset Nat) ∧
      ascending std_less g1.deletion_buffer ∧
      ((sorted_block_heap std_less wide_cfg.NodeSize).top_node
        (sample_queue [7, 2, 9] [] [1, 3, 5, 6, 8, 10, 11, 12]).heap).Sublist
          g1.deletion_buffer ∧
      g1.deletion_buffer.length = wide_cfg.NodeSize +
        ((sample_queue [7, 2, 9] [] [1, 3, 5, 6, 8, 10, 11, 12]).insertion_buffer.filter
          (fun x => !std_less M x)).length ∧
      g1.heap = (sorted_block_heap std_less wide_cfg.NodeSize).pop_node
        (sample_queue [7, 2, 9] [] [1, 3, 5, 6, 8, 10, 11, 12]).heap ∧
      wide_less_contract.vals (sample_queue [7, 2, 9] [] [1, 3, 5, 6, 8, 10, 11, 12]).heap =
        (((sorted_block_heap std_less wide_cfg.NodeSize).top_node
          (sample_queue [7, 2, 9] [] [1, 3, 5, 6, 8, 10, 11, 12]).heap : List Nat) :
            Multiset Nat) + wide_less_contract.vals g1.heap ∧
      (∀ x ∈ g1.insertion_buffer, ∀ d ∈ g1.deletion_buffer, std_less d x = true) ∧
      g1.in_use = (sample_queue [7, 2, 9] [] [1, 3, 5, 6, 8, 10, 11, 12]).in_use :=
  refill_merges_top_node_with_small_values wide_less_contract std_less_swo
    (by decide : 0 < wide_cfg.NodeSize)
    (sample_queue [7, 2, 9] [] [1, 3, 5, 6, 8, 10, 11, 12]) rfl (by decide)
    ⟨by decide, by decide⟩ rfl

theorem refill_heap_empty_sorts_insertion_buffer_witness :
    ∃ g1, refill_deletion_buffer (sorted_block_heap std_less wide_cfg.NodeSize) wide_cfg
        std_less (sample_queue [7, 2, 9] [] []) = some g1 ∧
      g1.deletion_buffer = std_sort std_less (sample_queue [7, 2, 9] [] []).insertion_buffer ∧
      ascending std_less g1.deletion_buffer ∧
      g1.deletion_buffer.Perm (sample_queue [7, 2, 9] [] []).insertion_buffer ∧
      g1.insertion_buffer = [] ∧ g1.heap = (sample_queue [7, 2, 9] [] []).heap ∧
      (sorted_block_heap std_less wide_cfg.NodeSize).empty g1.heap = true ∧
      g1.in_use = (sample_queue [7, 2, 9] [] []).in_use :=
  refill_heap_empty_sorts_insertion_buffer std_less_swo (sample_queue [7, 2, 9] [] []) rfl
    (by decide) rfl

theorem refill_full_pops_up_to_two_nodes_witness :
    ∃ g1, refill_deletion_buffer (sorted_block_heap std_less small_cfg.NodeSize) small_cfg
        std_less (sample_queue [5, 3] [] [1, 6, 8, 9]) = some g1 ∧
      g1.insertion_buffer = [] ∧
      (sorted_block_heap std_less small_cfg.NodeSize).empty
        ((sorted_block_heap std_less small_cfg.NodeSize).insert
          (sample_queue [5, 3] [] [1, 6, 8, 9]).heap
          (std_sort std_less (sample_queue [5, 3] [] [1, 6, 8, 9]).insertion_buffer)) = false ∧
      (2 = 0 →
        (sorted_block_heap std_less small_cfg.NodeSize).empty
          ((sorted_block_heap std_less small_cfg.NodeSize).pop_node
            ((sorted_block_heap std_less small_cfg.NodeSize).insert
              (sample_queue [5, 3] [] [1, 6, 8, 9]).heap
              (std_sort std_less (sample_queue [5, 3] [] [1, 6, 8, 9]).insertion_buffer))) =
            true ∧
        g1.deletion_buffer =
          (sorted_block_heap std_less small_cfg.NodeSize).top_node
            ((sorted_block_heap std_less small_cfg.NodeSize).insert
              (sample_queue [5, 3] [] [1, 6, 8, 9]).heap
              (std_sort std_less (sample_queue [5, 3] [] [1, 6, 8, 9]).insertion_buffer)) ∧
        g1.heap = (sorted_block_heap std_less small_cfg.NodeSize).pop_node
          ((sorted_block_heap std_less small_cfg.NodeSize).insert
            (sample_queue [5, 3] [] [1, 6, 8, 9]).heap
            (std_sort std_less (sample_queue [5, 3] [] [1, 6, 8, 9]).insertion_buffer))) ∧
      (0 < 2 →
        (sorted_block_heap std_less small_cfg.NodeSize).empty
          ((sorted_block_heap std_less small_cfg.NodeSize).pop_node
            ((sorted_block_heap std_less small_cfg.NodeSize).insert
              (sample_queue [5, 3] [] [1, 6, 8, 9]).heap
              (std_sort std_less (sample_queue [5, 3] [] [1, 6, 8, 9]).insertion_buffer))) =
            false ∧
        g1.deletion_buffer =
          (sorted_block_heap std_less small_cfg.NodeSize).top_node
            ((sorted_block_heap std_less small_cfg.NodeSize).insert
              (sample_queue [5, 3] [] [1, 6, 8, 9]).heap
              (std_sort std_less (sample_queue [5, 3] [] [1, 6, 8, 9]).insertion_buffer)) ++
          (sorted_block_heap std_less small_cfg.NodeSize).top_node
            ((sorted_block_heap std_less small_cfg.NodeSize).pop_node
              ((sorted_block_heap std_less small_cfg.NodeSize).insert
                (sample_queue [5, 3] [] [1, 6, 8, 9]).heap
                (std_sort std_less
                  (sample_queue [5, 3] [] [1, 6, 8, 9]).insertion_buffer))) ∧
        g1.heap = (sorted_block_heap std_less small_cfg.NodeSize).pop_node
          ((sorted_block_heap std_less small_cfg.NodeSize).pop_node
            ((sorted_block_heap std_less small_cfg.NodeSize).insert
              (sample_queue [5, 3] [] [1, 6, 8, 9]).heap
              (std_sort std_less (sample_queue [5, 3] [] [1, 6, 8, 9]).insertion_buffer)))) ∧
      g1.deletion_buffer.length = min 2 (2 + 1) * small_cfg.NodeSize ∧
      Multiset.card (std_less_contract.vals g1.heap) =
        (2 + 1 - min 2 (2 + 1)) * small_cfg.NodeSize ∧
      (g1.deletion_buffer.length = DeletionBufferSize small_cfg ∨
        (sorted_block_heap std_less small_cfg.NodeSize).empty g1.heap = true) ∧
      (g1.deletion_buffer : Multiset Nat) + std_less_contract.vals g1.heap =
        std_less_contract.vals (sample_queue [5, 3] [] [1, 6, 8, 9]).heap +
          ((sample_queue [5, 3] [] [1, 6, 8, 9]).insertion_buffer : Multiset Nat) :=
  refill_full_pops_up_to_two_nodes std_less_contract std_less_swo
    (by decide : 0 < small_cfg.NodeSize) (sample_queue [5, 3] [] [1, 6, 8, 9]) rfl rfl
    ⟨by decide, by decide⟩ 2 rfl

end branch_witnesses

/-! ## The lock discipline -/

section discipline

variable {α H : Type}

theorem lock_discipline_append (a : List Event) :
    ∀ (held : List Nat) (b : List Event),
      lock_discipline held (a ++ b) =
        (lock_discipline held a).bind (fun h => lock_discipline h b) := by
  induction a with
  | nil => intro held b; rfl
  | cons ev a ih =>
    intro held b
    cases ev with
    | acquire i =>
      simp only [List.cons_append, lock_discipline]
      split_ifs
      · rfl
      · exact ih _ _
    | fail i =>
      simp only [List.cons_append, lock_discipline]
      exact ih _ _
    | release i =>
      simp only [List.cons_append, lock_discipline]
      split_ifs
      · exact ih _ _
      · rfl
    | access i =>
      simp only [List.cons_append, lock_discipline]
      split_ifs
      · exact ih _ _
      · rfl

/-- An access to a held queue keeps the discipline. -/
theorem lock_ok_access {held : List Nat} {e : exec α H} (h : lock_ok held e) (i : Nat)
    (hi : i ∈ held) (mq1 : numa_aware_merge_mq α H) (rng1 : List Nat)
    (hl : ∀ k ∈ held, ∃ g, mq1.heap_list_[k]? = some g ∧ g.in_use = true) :
    lock_ok held { mq := mq1, rng := rng1, trace := e.trace ++ [Event.access i] } := by
  refine ⟨?_, h.nodup, hl⟩
  simp only [lock_discipline_append, h.trace_ok, Option.some_bind, lock_discipline, hi,
    if_true]

theorem try_lock_ok {held : List Nat} {e e1 : exec α H} (h : lock_ok held e) (i : Nat)
    (b : Bool) (ht : try_lock i e = some (b, e1)) :
    (b = true → i ∉ held ∧ lock_ok (i :: held) e1) ∧ (b = false → lock_ok held e1) ∧
      e1.rng = e.rng ∧ (b = false → e1.mq = e.mq) := by
  unfold try_lock at ht
  cases hq : e.mq.heap_list_[i]? with
  | none => rw [hq] at ht; simp at ht
  | some g =>
    rw [hq] at ht
    simp only at ht
    cases hu : g.in_use with
    | true =>
      rw [hu] at ht
      simp only [if_true, Option.some.injEq, Prod.mk.injEq] at ht
      obtain ⟨hb, he⟩ := ht
      subst hb he
      refine ⟨fun hc => absurd hc (by simp), fun _ => ⟨?_, h.nodup, h.locked⟩, rfl,
        fun _ => rfl⟩
      simp only [lock_discipline_append, h.trace_ok, Option.some_bind, lock_discipline]
    | false =>
      rw [hu] at ht
      simp only [Bool.false_eq_true, if_false, Option.some.injEq, Prod.mk.injEq] at ht
      obtain ⟨hb, he⟩ := ht
      subst hb he
      have hni : i ∉ held := by
        intro hc
        obtain ⟨g1, hg1, hu1⟩ := h.locked i hc
        rw [hq] at hg1
        cases hg1
        rw [hu] at hu1
        exact absurd hu1 (by simp)
      refine ⟨fun _ => ⟨hni, ?_, List.nodup_cons.mpr ⟨hni, h.nodup⟩, ?_⟩,
        fun hc => absurd hc (by simp), rfl, fun hc => absurd hc (by simp)⟩
      · simp only [lock_discipline_append, h.trace_ok, Option.some_bind, lock_discipline, hni,
          if_false]
      · intro k hk
        have hilt := lt_of_get hq
        rcases List.mem_cons.mp hk with hki | hkh
        · subst hki
          exact ⟨_, store_get_same _ _ _ hilt, rfl⟩
        · have hne : k ≠ i := fun hc => hni (hc ▸ hkh)
          obtain ⟨g1, hg1, hu1⟩ := h.locked k hkh
          exact ⟨g1, by rw [store_get_ne _ _ _ _ (Ne.symm hne)]; exact hg1, hu1⟩

theorem unlock_ok {held : List Nat} {e e1 : exec α H} (h : lock_ok held e) (i : Nat)
    (hi : i ∈ held) (ht : unlock i e = some e1) : lock_ok (held.erase i) e1 := by
  unfold unlock at ht
  cases hq : e.mq.heap_list_[i]? with
  | none => rw [hq] at ht; simp at ht
  | some g =>
    rw [hq] at ht
    simp only [Option.some.injEq] at ht
    subst ht
    refine ⟨?_, h.nodup.erase i, ?_⟩
    · simp only [lock_discipline_append, h.trace_ok, Option.some_bind, lock_discipline, hi,
        if_true]
    · intro k hk
      have hk' := (h.nodup.mem_erase_iff).mp hk
      obtain ⟨g1, hg1, hu1⟩ := h.locked k hk'.2
      exact ⟨g1, by rw [store_get_ne _ _ _ _ (Ne.symm hk'.1)]; exact hg1, hu1⟩

theorem on_queue_ok {held : List Nat} {e e1 : exec α H} (h : lock_ok held e) (i : Nat)
    (hi : i ∈ held) (f : guarded_heap α H → Option (guarded_heap α H))
    (hf : ∀ g g1, f g = some g1 → g1.in_use = g.in_use)
    (ht : on_queue i f e = some e1) : lock_ok held e1 := by
  unfold on_queue at ht
  cases hq : e.mq.heap_list_[i]? with
  | none => rw [hq] at ht; simp at ht
  | some g =>
    rw [hq] at ht
    simp only at ht
    cases hfg : f g with
    | none => rw [hfg] at ht; simp at ht
    | some g1 =>
      rw [hfg] at ht
      simp only [Option.map_some', Option.some.injEq] at ht
      subst ht
      apply lock_ok_access h i hi
      intro k hk
      have hilt := lt_of_get hq
      by_cases hki : k = i
      · subst hki
        obtain ⟨g2, hg2, hu2⟩ := h.locked k hk
        rw [hq] at hg2
        cases hg2
        exact ⟨g1, store_get_same _ _ _ hilt, by rw [hf _ _ hfg]; exact hu2⟩
      · obtain ⟨g2, hg2, hu2⟩ := h.locked k hk
        exact ⟨g2, by rw [store_get_ne _ _ _ _ (Ne.symm hki)]; exact hg2, hu2⟩

theorem read_deletion_buffer_ok {held : List Nat} {e e1 : exec α H} (h : lock_ok held e)
    (i : Nat) (hi : i ∈ held) (d : List α) (ht : read_deletion_buffer i e = some (d, e1)) :
    lock_ok held e1 := by
  unfold read_deletion_buffer at ht
  cases hq : e.mq.heap_list_[i]? with
  | none => rw [hq] at ht; simp at ht
  | some g =>
    rw [hq] at ht
    simp only [Option.some.injEq, Prod.mk.injEq] at ht
    obtain ⟨-, he⟩ := ht
    subst he
    exact lock_ok_access h i hi _ _ h.locked

theorem take_front_ok {held : List Nat} {e : exec α H} {r : extract_result α H}
    (h : lock_ok held e) (i : Nat) (hi : i ∈ held) (ht : take_front i e = some r) :
    lock_discipline [] r.trace = some (held.erase i) := by
  unfold take_front at ht
  cases hq : e.mq.heap_list_[i]? with
  | none => rw [hq] at ht; simp at ht
  | some g =>
    rw [hq] at ht
    simp only at ht
    cases hpf : g.pop_front with
    | none => rw [hpf] at ht; simp at ht
    | some vg =>
      obtain ⟨v, g1⟩ := vg
      rw [hpf] at ht
      simp only at ht
      have hu1 : g1.in_use = g.in_use := by
        unfold guarded_heap.pop_front at hpf
        cases hd : g.deletion_buffer with
        | nil => rw [hd] at hpf; simp at hpf
        | cons a l =>
          rw [hd] at hpf
          simp only [Option.some.injEq, Prod.mk.injEq] at hpf
          rw [← hpf.2]
      have hilt := lt_of_get hq
      have hok : lock_ok held ({ mq := e.mq.store i g1, rng := e.rng,
                                 trace := e.trace ++ [Event.access i] } : exec α H) := by
        apply lock_ok_access h i hi
        intro k hk
        by_cases hki : k = i
        · subst hki
          obtain ⟨g2, hg2, hu2⟩ := h.locked k hk
          rw [hq] at hg2
          cases hg2
          exact ⟨g1, store_get_same _ _ _ hilt, by rw [hu1]; exact hu2⟩
        · obtain ⟨g2, hg2, hu2⟩ := h.locked k hk
          exact ⟨g2, by rw [store_get_ne _ _ _ _ (Ne.symm hki)]; exact hg2, hu2⟩
      cases hun : unlock i ({ mq := e.mq.store i g1, rng := e.rng,
                              trace := e.trace ++ [Event.access i] } : exec α H) with
      | none => rw [hun] at ht; simp at ht
      | some e1 =>
        rw [hun] at ht
        simp only [Option.map_some', Option.some.injEq] at ht
        subst ht
        exact (unlock_ok hok i hi hun).trace_ok

theorem lock_loop_ok (mq : numa_aware_merge_mq α H) (held : List Nat) :
    ∀ (rs : List Nat) (tr : List Event) (rng0 : List Nat) (j : Nat) (e1 : exec α H),
      lock_ok held ({ mq := mq, rng := rng0, trace := tr } : exec α H) →
      lock_loop mq rs tr = some (j, e1) → j ∉ held ∧ lock_ok (j :: held) e1 := by
  intro rs
  induction rs with
  | nil => intro tr rng0 j e1 _ h; simp [lock_loop] at h
  | cons r rs ih =>
    intro tr rng0 j e1 hok h
    unfold lock_loop at h
    have hok' : lock_ok held ({ mq := mq, rng := rs, trace := tr } : exec α H) :=
      ⟨hok.trace_ok, hok.nodup, hok.locked⟩
    cases ht : try_lock (random_queue_index mq r)
        ({ mq := mq, rng := rs, trace := tr } : exec α H) with
    | none => rw [ht] at h; simp at h
    | some be =>
      obtain ⟨b, e2⟩ := be
      rw [ht] at h
      obtain ⟨h1, h2, h3, h4⟩ := try_lock_ok hok' _ b ht
      cases b with
      | true =>
        simp only [Option.some.injEq, Prod.mk.injEq] at h
        obtain ⟨hj, he⟩ := h
        subst hj he
        exact h1 rfl
      | false =>
        simp only at h
        have hok2 := h2 rfl
        have hmq := h4 rfl
        simp only at hmq
        exact ih e2.trace e2.rng j e1
          ⟨hok2.trace_ok, hok2.nodup, by rw [← hmq]; exact hok2.locked⟩ h

end discipline

section discipline_ops

variable {Key T H : Type} {hp : merge_heap (Key × T) H} {cfg : Configuration}
  {comp : Key → Key → Bool}

theorem push_keeps_in_use {α : Type} {hq : merge_heap α H} {cmp : α → α → Bool}
    (g g1 : guarded_heap α H) (v : α)
    (h : g.push hq cfg cmp v = some g1) : g1.in_use = g.in_use := by
  have h2 : g.push hq cfg cmp v =
      (g.push hq cfg cmp v).map (fun g1 => { g1 with in_use := g.in_use }) :=
    push_in_use g v g.in_use
  rw [h] at h2
  simp only [Option.map_some', Option.some.injEq] at h2
  rw [h2]

theorem refill_if_empty_keeps_in_use {α : Type} {hq : merge_heap α H} {cmp : α → α → Bool}
    (g g1 : guarded_heap α H)
    (h : refill_if_empty hq cfg cmp g = some g1) : g1.in_use = g.in_use := by
  have h2 : refill_if_empty hq cfg cmp g =
      (refill_if_empty hq cfg cmp g).map (fun g1 => { g1 with in_use := g.in_use }) :=
    refill_if_empty_in_use g g.in_use
  rw [h] at h2
  simp only [Option.map_some', Option.some.injEq] at h2
  rw [h2]

/-- With `C = 4` the local probing loop, when it returns, holds exactly one lock, that of
the queue it reports as `first_index`. -/
theorem probe_first_ok {α : Type} (id start : Nat) :
    ∀ (n i : Nat) (fi0 fi : Option Nat) (e e1 : exec α H), 1 ≤ n → n + i = 4 →
      lock_ok [] e → probe_first cfg id start n i fi0 e = some (fi, e1) →
      ∃ idx, fi = some idx ∧ lock_ok [idx] e1 := by
  intro n
  induction n with
  | zero => intro i fi0 fi e e1 h; omega
  | succ n ih =>
    intro i fi0 fi e e1 _ hsum hok h
    unfold probe_first at h
    cases ht : try_lock (cfg.C * id % 2 ^ 32 + (start + i) % cfg.C) e with
    | none => rw [ht] at h; simp at h
    | some be =>
      obtain ⟨b, e2⟩ := be
      rw [ht] at h
      obtain ⟨h1, h2, -, -⟩ := try_lock_ok hok _ b ht
      cases b with
      | true =>
        simp only [Option.some.injEq, Prod.mk.injEq] at h
        obtain ⟨hfi, he⟩ := h
        subst hfi he
        exact ⟨_, rfl, (h1 rfl).2⟩
      | false =>
        simp only at h
        have hok2 := h2 rfl
        by_cases hi3 : i = 3
        · rw [if_pos hi3] at h
          have hn0 : n = 0 := by omega
          subst hn0
          cases hl : lock_loop e2.mq e2.rng e2.trace with
          | none => rw [hl] at h; simp at h
          | some ge =>
            obtain ⟨gi, e3⟩ := ge
            rw [hl] at h
            simp only [probe_first, Option.some.injEq, Prod.mk.injEq] at h
            obtain ⟨hfi, he⟩ := h
            subst hfi he
            exact ⟨gi, rfl, (lock_loop_ok e2.mq [] e2.rng e2.trace e2.rng gi _
              ⟨hok2.trace_ok, hok2.nodup, hok2.locked⟩ hl).2⟩
        · rw [if_neg hi3] at h
          exact ih (i + 1) _ fi e2 e1 (by omega) (by omega) hok2 h

/-- `push` keeps the lock discipline and releases its lock. -/
theorem push_discipline (mq : numa_aware_merge_mq (Key × T) H) (v : Key × T)
    (rng : List Nat) (e : exec (Key × T) H) (h : mq.push hp cfg comp v rng = some e) :
    lock_discipline [] e.trace = some [] := by
  unfold numa_aware_merge_mq.push at h
  cases hl : lock_loop mq rng [] with
  | none => rw [hl] at h; simp at h
  | some je =>
    obtain ⟨j, e1⟩ := je
    rw [hl] at h
    simp only at h
    have hok1 := (lock_loop_ok mq [] rng [] rng j e1
      ⟨rfl, List.nodup_nil, fun k hk => absurd hk (List.not_mem_nil k)⟩ hl).2
    cases ho : on_queue j (fun g => g.push hp cfg (value_comparator comp) v) e1 with
    | none => rw [ho] at h; simp at h
    | some e2 =>
      rw [ho] at h
      simp only [Option.some_bind] at h
      have hok2 := on_queue_ok hok1 j (List.mem_singleton.mpr rfl) _
        (fun g g1 hg => push_keeps_in_use g g1 v hg) ho
      have := (unlock_ok hok2 j (List.mem_singleton.mpr rfl) h).trace_ok
      simpa using this

/-- The second half of `extract_top` keeps the lock discipline and releases every lock,
when started holding the first queue's lock exactly if its deletion buffer `d1` is not
empty. -/
theorem extract_top_second_discipline (first_index : Nat) (d1 : List (Key × T))
    (e4 : exec (Key × T) H) (r : extract_result (Key × T) H)
    (hok : lock_ok (if d1.isEmpty then [] else [first_index]) e4)
    (h : extract_top_second hp cfg comp first_index d1 e4 = some r) :
    lock_discipline [] r.trace = some [] := by
  unfold extract_top_second at h
  cases hl : lock_loop e4.mq e4.rng e4.trace with
  | none => rw [hl] at h; simp at h
  | some je =>
    obtain ⟨j, e5⟩ := je
    rw [hl] at h
    simp only [Option.some_bind] at h
    obtain ⟨hj, hok5⟩ := lock_loop_ok e4.mq _ e4.rng e4.trace e4.rng j e5
      ⟨hok.trace_ok, hok.nodup, hok.locked⟩ hl
    have hjmem : j ∈ j :: (if d1.isEmpty then [] else [first_index]) :=
      List.mem_cons_self _ _
    cases ho : on_queue j (refill_if_empty hp cfg (value_comparator comp)) e5 with
    | none => rw [ho] at h; simp at h
    | some e6 =>
      rw [ho] at h
      simp only [Option.some_bind] at h
      have hok6 := on_queue_ok hok5 j hjmem _
        (fun g g1 hg => refill_if_empty_keeps_in_use g g1 hg) ho
      cases hr : read_deletion_buffer j e6 with
      | none => rw [hr] at h; simp at h
      | some de =>
        obtain ⟨d2, e7⟩ := de
        rw [hr] at h
        simp only [Option.some_bind] at h
        have hok7 := read_deletion_buffer_ok hok6 j hjmem d2 hr
        by_cases hd1 : d1.isEmpty = true
        · -- the first queue was released as empty: only the second lock is held
          simp only [hd1, if_true] at hok7 hj h
          by_cases hd2 : d2.isEmpty = true
          · simp only [hd2, if_true] at h
            cases hu : unlock j e7 with
            | none => rw [hu] at h; simp at h
            | some e8 =>
              rw [hu] at h
              simp only [Option.some_bind, Option.some.injEq] at h
              subst h
              have := (unlock_ok hok7 j (List.mem_singleton.mpr rfl) hu).trace_ok
              simpa using this
          · simp only [hd2, Bool.false_eq_true, if_false, Bool.not_true, Option.some_bind] at h
            have := take_front_ok hok7 j (List.mem_singleton.mpr rfl) h
            simpa using this
        · -- the first lock is still held
          simp only [hd1, Bool.false_eq_true, if_false] at hok7 hj h
          have hji : j ≠ first_index := fun hc => hj (List.mem_singleton.mpr hc)
          have hfmem : first_index ∈ [j, first_index] := by simp
          have hjmem2 : j ∈ [j, first_index] := by simp
          have herase_j : [j, first_index].erase j = [first_index] := by simp
          have herase_f : [j, first_index].erase first_index = [j] := by
            rw [List.erase_cons_tail (by simpa using hji)]
            simp
          by_cases hd2 : d2.isEmpty = true
          · simp only [hd2, if_true] at h
            cases hu : unlock j e7 with
            | none => rw [hu] at h; simp at h
            | some e8 =>
              rw [hu] at h
              simp only [Option.some_bind] at h
              have hok8 := unlock_ok hok7 j hjmem2 hu
              rw [herase_j] at hok8
              have := take_front_ok hok8 first_index (List.mem_singleton.mpr rfl) h
              simpa using this
          · simp only [hd2, Bool.false_eq_true, if_false] at h
            cases hh2 : d2.head? with
            | none => rw [hh2] at h; simp at h
            | some f2 =>
              cases hh1 : d1.head? with
              | none => rw [hh2, hh1] at h; simp at h
              | some f1 =>
                rw [hh2, hh1] at h
                simp only at h
                have hok8 : lock_ok [j, first_index]
                    ({ e7 with trace := e7.trace ++
                        [Event.access j, Event.access first_index] } : exec (Key × T) H) := by
                  refine ⟨?_, hok7.nodup, hok7.locked⟩
                  simp only [lock_discipline_append, hok7.trace_ok, Option.some_bind,
                    lock_discipline, hfmem, hjmem2, if_true]
                cases hc : comp f2.1 f1.1 with
                | true =>
                  rw [hc] at h
                  simp only [Bool.not_false, if_true] at h
                  cases hu : unlock first_index ({ e7 with trace := e7.trace ++
                      [Event.access j, Event.access first_index] } : exec (Key × T) H) with
                  | none => rw [hu] at h; simp at h
                  | some e9 =>
                    rw [hu] at h
                    simp only [Option.some_bind] at h
                    have hok9 := unlock_ok hok8 first_index hfmem hu
                    rw [herase_f] at hok9
                    have := take_front_ok hok9 j (List.mem_singleton.mpr rfl) h
                    simpa using this
                | false =>
                  rw [hc] at h
                  simp only at h
                  cases hu : unlock j ({ e7 with trace := e7.trace ++
                      [Event.access j, Event.access first_index] } : exec (Key × T) H) with
                  | none => rw [hu] at h; simp at h
                  | some e9 =>
                    rw [hu] at h
                    simp only [Option.some_bind] at h
                    have hok9 := unlock_ok hok8 j hjmem2 hu
                    rw [herase_j] at hok9
                    have := take_front_ok hok9 first_index (List.mem_singleton.mpr rfl) h
                    simpa using this

/-- With `C = 4`, `extract_top` keeps the lock discipline and releases every lock. -/
theorem extract_top_discipline (hC : cfg.C = 4) (mq : numa_aware_merge_mq (Key × T) H)
    (id : Nat) (rng : List Nat) (r : extract_result (Key × T) H)
    (h : mq.extract_top hp cfg comp id rng = some r) :
    lock_discipline [] r.trace = some [] := by
  unfold numa_aware_merge_mq.extract_top at h
  cases rng with
  | nil => simp at h
  | cons r0 rs =>
    simp only at h
    cases hprobe : probe_first cfg id (random_local_queue_index cfg r0) cfg.C 0 none
        ({ mq := mq, rng := rs, trace := [] } : exec (Key × T) H) with
    | none => rw [hprobe] at h; simp at h
    | some pe =>
      obtain ⟨fi, e1⟩ := pe
      rw [hprobe] at h
      obtain ⟨i, hfi, hok1⟩ := probe_first_ok id (random_local_queue_index cfg r0) cfg.C 0 none
        fi ({ mq := mq, rng := rs, trace := [] } : exec (Key × T) H) e1 (by omega) (by omega)
        ⟨rfl, List.nodup_nil, fun k hk => absurd hk (List.not_mem_nil k)⟩ hprobe
      subst hfi
      simp only at h
      have himem : i ∈ [i] := List.mem_singleton.mpr rfl
      cases ho : on_queue i (refill_if_empty hp cfg (value_comparator comp)) e1 with
      | none => rw [ho] at h; simp at h
      | some e2 =>
        rw [ho] at h
        simp only [Option.some_bind] at h
        have hok2 := on_queue_ok hok1 i himem _
          (fun g g1 hg => refill_if_empty_keeps_in_use g g1 hg) ho
        cases hr : read_deletion_buffer i e2 with
        | none => rw [hr] at h; simp at h
        | some de =>
          obtain ⟨d1, e3⟩ := de
          rw [hr] at h
          simp only [Option.some_bind] at h
          have hok3 := read_deletion_buffer_ok hok2 i himem d1 hr
          by_cases hd1 : d1.isEmpty = true
          · simp only [hd1, if_true] at h
            cases hu : unlock i e3 with
            | none => rw [hu] at h; simp at h
            | some e4 =>
              rw [hu] at h
              simp only [Option.some_bind] at h
              have hok4 := unlock_ok hok3 i himem hu
              exact extract_top_second_discipline i d1 e4 r
                (by simpa [hd1] using hok4) h
          · simp only [hd1, Bool.false_eq_true, if_false, Option.some_bind] at h
            exact extract_top_second_discipline i d1 e3 r
              (by simpa [hd1] using hok3) h

end discipline_ops

section discipline_claims

variable {Key T H : Type} {hp : merge_heap (Key × T) H} {cfg : Configuration}
  {comp : Key → Key → Bool}

theorem lock_discipline_nodup (es : List Event) :
    ∀ (held held1 : List Nat), held.Nodup → lock_discipline held es = some held1 →
      held1.Nodup := by
  induction es with
  | nil =>
    intro held held1 hn h
    simp only [lock_discipline, Option.some.injEq] at h
    rw [← h]; exact hn
  | cons ev es ih =>
    intro held held1 hn h
    cases ev with
    | acquire i =>
      simp only [lock_discipline] at h
      split_ifs at h with hi
      exact ih _ _ (List.nodup_cons.mpr ⟨hi, hn⟩) h
    | fail i =>
      simp only [lock_discipline] at h
      exact ih _ _ hn h
    | release i =>
      simp only [lock_discipline] at h
      split_ifs at h
      exact ih _ _ (hn.erase i) h
    | access i =>
      simp only [lock_discipline] at h
      split_ifs at h
      exact ih _ _ hn h

/-- Under the lock discipline a queue that is not held is accessed only after its lock
has been acquired. -/
theorem lock_discipline_access (i : Nat) (es : List Event) :
    ∀ (held held1 : List Nat), lock_discipline held es = some held1 → i ∉ held →
      Event.access i ∈ es → Event.acquire i ∈ es := by
  induction es with
  | nil => intro held held1 _ _ h; simp at h
  | cons ev es ih =>
    intro held held1 h hi hmem
    cases ev with
    | acquire k =>
      simp only [lock_discipline] at h
      split_ifs at h with hk
      by_cases hki : k = i
      · subst hki; exact List.mem_cons_self _ _
      · refine List.mem_cons_of_mem _ (ih _ _ h ?_ ?_)
        · intro hc
          rcases List.mem_cons.mp hc with h1 | h1
          · exact hki h1.symm
          · exact hi h1
        · rcases List.mem_cons.mp hmem with h1 | h1
          · cases h1
          · exact h1
    | fail k =>
      simp only [lock_discipline] at h
      refine List.mem_cons_of_mem _ (ih _ _ h hi ?_)
      rcases List.mem_cons.mp hmem with h1 | h1
      · cases h1
      · exact h1
    | release k =>
      simp only [lock_discipline] at h
      split_ifs at h
      refine List.mem_cons_of_mem _ (ih _ _ h (fun hc => hi (List.mem_of_mem_erase hc)) ?_)
      rcases List.mem_cons.mp hmem with h1 | h1
      · cases h1
      · exact h1
    | access k =>
      simp only [lock_discipline] at h
      split_ifs at h with hk
      refine List.mem_cons_of_mem _ (ih _ _ h hi ?_)
      rcases List.mem_cons.mp hmem with h1 | h1
      · cases h1; exact absurd hk hi
      · exact h1

/-- Under the lock discipline a queue is accessed after its release only if its lock has
been acquired again in between. -/
theorem lock_discipline_after_release (tr pre post : List Event) (i : Nat)
    (held1 : List Nat) (h : lock_discipline [] tr = some held1)
    (hsplit : tr = pre ++ Event.release i :: post) (hacc : Event.access i ∈ post) :
    Event.acquire i ∈ post := by
  rw [hsplit, lock_discipline_append] at h
  cases hpre : lock_discipline [] pre with
  | none => rw [hpre] at h; simp at h
  | some h1 =>
    rw [hpre] at h
    simp only [Option.some_bind, lock_discipline] at h
    split_ifs at h
    have hn := lock_discipline_nodup pre [] h1 List.nodup_nil hpre
    exact lock_discipline_access i post _ _ h
      (fun hc => ((hn.mem_erase_iff).mp hc).1 rfl) hacc

/-- C20: in `push` and in `extract_top` with `C = 4`, started from any state of the lock
words, every access to a guarded queue's buffers or heap happens while the operation holds
that queue's lock, between its successful `try_lock` and its `unlock` on that queue, and
every lock taken is released before the operation returns; in particular a queue that has
been released (as the first queue is when it is found empty) is not accessed again unless
its lock is acquired again. -/
theorem containers_accessed_only_under_lock (hC : cfg.C = 4)
    (mq : numa_aware_merge_mq (Key × T) H) :
    (∀ (v : Key × T) (rng : List Nat) (e : exec (Key × T) H),
        mq.push hp cfg comp v rng = some e → lock_discipline [] e.trace = some []) ∧
      ∀ (id : Nat) (rng : List Nat) (r : extract_result (Key × T) H),
        mq.extract_top hp cfg comp id rng = some r →
          lock_discipline [] r.trace = some [] ∧
          ∀ pre post i, r.trace = pre ++ Event.release i :: post →
            Event.access i ∈ post → Event.acquire i ∈ post := by
  refine ⟨fun v rng e h => push_discipline mq v rng e h, fun id rng r h => ?_⟩
  have hd := extract_top_discipline hC mq id rng r h
  exact ⟨hd, fun pre post i hs ha => lock_discipline_after_release _ pre post i _ hd hs ha⟩

theorem containers_accessed_only_under_lock_witness :
    ∃ e r,
      sample_mq.push (sorted_block_heap (@value_comparator Nat Nat std_less) 2) small_cfg
        std_less (7, 70) [3, 2] = some e ∧
      e.trace = [Event.fail 3, Event.acquire 2, Event.access 2, Event.release 2] ∧
      lock_discipline [] e.trace = some [] ∧
      sample_mq.extract_top (sorted_block_heap (@value_comparator Nat Nat std_less) 2)
        small_cfg std_less 0 [1, 1, 2] = some r ∧
      r.trace = [Event.acquire 1, Event.access 1, Event.access 1, Event.fail 1,
        Event.acquire 2, Event.access 2, Event.access 2, Event.access 2, Event.access 1,
        Event.release 1, Event.access 2, Event.release 2] ∧
      r.retval = some (1, 10) ∧
      lock_discipline [] r.trace = some [] ∧
      ∀ pre post i, r.trace = pre ++ Event.release i :: post →
        Event.access i ∈ post → Event.acquire i ∈ post :=
  ⟨_, _, rfl, rfl,
    (@containers_accessed_only_under_lock Nat Nat (List (Nat × Nat))
      (sorted_block_heap (@value_comparator Nat Nat std_less) 2) small_cfg std_less
      (rfl : small_cfg.C = 4) sample_mq).1 (7, 70) [3, 2] _ rfl,
    rfl, rfl, rfl,
    (@containers_accessed_only_under_lock Nat Nat (List (Nat × Nat))
      (sorted_block_heap (@value_comparator Nat Nat std_less) 2) small_cfg std_less
      (rfl : small_cfg.C = 4) sample_mq).2 0 [1, 1, 2] _ rfl⟩

/-- The hypothesis `C = 4` is needed: with `C = 2` the local probing loop can end without a
lock (the global probing after the fourth failure is never reached), and the operation
then accesses and unlocks a queue it does not hold. -/
theorem lock_discipline_needs_four_local_queues :
    ∃ r, locked_mq.extract_top (sorted_block_heap (@value_comparator Nat Nat std_less) 2)
        narrow_cfg std_less 0 [0, 1] = some r ∧
      r.trace = [Event.fail 0, Event.fail 1, Event.access 1, Event.access 1, Event.release 1,
        Event.acquire 1, Event.access 1, Event.access 1, Event.release 1] ∧
      lock_discipline [] r.trace = none :=
  ⟨_, rfl, rfl, rfl⟩

end discipline_claims

/-! ## The multiqueue: one loaded queue -/

section one_loaded

variable {Key T H : Type} {hp : merge_heap (Key × T) H} {cfg : Configuration}
  {comp : Key → Key → Bool}

/-- The default-constructed heap is empty. -/
theorem init_heap_empty {α : Type} {hq : merge_heap α H} {cmp : α → α → Bool} {n : Nat}
    (law : heap_contract cmp n hq) : hq.empty hq.init = true :=
  (law.empty_iff _ law.inv_init).mpr law.vals_init

/-- Every queue of a new multiqueue is the default-constructed one. -/
theorem new_get (P k : Nat) (g : guarded_heap (Key × T) H)
    (h : (numa_aware_merge_mq.new hp cfg P).heap_list_[k]? = some g) :
    g = guarded_heap.init hp :=
  List.eq_of_mem_replicate (List.getElem?_mem h)

/-- `extract_top` on a multiqueue in which every queue other than `q` is empty: it returns
false and changes nothing when it does not lock `q` or `q` is empty too, and otherwise
returns the front of `q` after its refill-if-empty step. -/
theorem extract_top_one_loaded (law : heap_contract (value_comparator comp) cfg.NodeSize hp)
    (hswo : strict_weak_order comp) (hN : 0 < cfg.NodeSize)
    (mq : numa_aware_merge_mq (Key × T) H) (hinv : mq.inv cfg law) (q : Nat)
    (hoth : ∀ k g, k ≠ q → mq.heap_list_[k]? = some g → g.is_empty hp)
    (gq : guarded_heap (Key × T) H) (hq : mq.heap_list_[q]? = some gq)
    (id : Nat) (rng : List Nat) (r : extract_result (Key × T) H)
    (h : mq.extract_top hp cfg comp id rng = some r) :
    ∃ gqr r0 rs i j, refill_if_empty hp cfg (value_comparator comp) gq = some gqr ∧
      rng = r0 :: rs ∧ i = cfg.C * id % 2 ^ 32 + r0 % cfg.C ∧ acquired r.trace = [i, j] ∧
      (gqr.deletion_buffer ≠ [] → i = q → j ≠ q) ∧
      (((q ≠ i ∧ q ≠ j) ∨ gqr.deletion_buffer = []) →
        r.ret = false ∧ r.retval = none ∧ r.mq = mq) ∧
      ((q = i ∨ q = j) → ∀ v rest, gqr.deletion_buffer = v :: rest →
        r.ret = true ∧ r.retval = some v ∧
        r.mq = mq.store q { gqr with deletion_buffer := rest }) := by
  have hswo' : strict_weak_order (@value_comparator Key T comp) := hswo.value_comparator
  obtain ⟨r0, rs, i, j, g1, g2, g1r, g2r, hrng, hi, hacq, -, hq1, hq2, hr1, hr2, hji, hout⟩ :=
    extract_top_cases law hswo hN mq hinv id rng r h
  obtain ⟨gqr, hgqr, -⟩ :=
    refill_if_empty_spec law hswo' hN gq (hinv.queues gq (List.getElem?_mem hq))
  have key : ∀ k g gr, mq.heap_list_[k]? = some g →
      refill_if_empty hp cfg (value_comparator comp) g = some gr →
      (k ≠ q → gr.deletion_buffer = []) ∧ (k = q → gr = gqr) := by
    intro k g gr hk hgr
    constructor
    · intro hne
      obtain ⟨x, hx, -, -, -, hiff, -, -⟩ :=
        refill_if_empty_spec law hswo' hN g (hinv.queues g (List.getElem?_mem hk))
      rw [hgr] at hx
      cases hx
      exact hiff.mpr (hoth k g hne hk)
    · intro he
      subst he
      rw [hq] at hk
      cases hk
      rw [hgqr] at hgr
      exact (Option.some.inj hgr).symm
  obtain ⟨k1a, k1b⟩ := key i g1 g1r hq1 hr1
  obtain ⟨k2a, k2b⟩ := key j g2 g2r hq2 hr2
  refine ⟨gqr, r0, rs, i, j, hgqr, hrng, hi, hacq, ?_, ?_, ?_⟩
  · intro hne hiq hjq
    have h1 : g1r = gqr := k1b hiq
    exact hji (by rw [h1]; exact hne) (by rw [hiq, hjq])
  · intro hcond
    have hd1 : g1r.deletion_buffer = [] := by
      by_cases hiq : i = q
      · rcases hcond with hc | hc
        · exact absurd hiq.symm hc.1
        · rw [k1b hiq]; exact hc
      · exact k1a hiq
    have hd2 : g2r.deletion_buffer = [] := by
      by_cases hjq : j = q
      · rcases hcond with hc | hc
        · exact absurd hjq.symm hc.2
        · rw [k2b hjq]; exact hc
      · exact k2a hjq
    rcases hout with ⟨-, -, hret, hval, hmq⟩ | ⟨v2, r2, -, hc, -⟩ |
      ⟨v1, r1, hc, -⟩ | ⟨v1, r1, v2, r2, hc, -⟩ | ⟨v1, r1, v2, r2, hc, -⟩
    · exact ⟨hret, hval, hmq⟩
    · rw [hd2] at hc; exact absurd hc (by simp)
    · rw [hd1] at hc; exact absurd hc (by simp)
    · rw [hd1] at hc; exact absurd hc (by simp)
    · rw [hd1] at hc; exact absurd hc (by simp)
  · intro hcond v rest hv
    rcases hout with ⟨hc1, hc2, -⟩ | ⟨v2, r2, hc1, hc2, hret, hval, hmq⟩ |
      ⟨v1, r1, hc1, hc2, hret, hval, hmq⟩ | ⟨v1, r1, v2, r2, hc1, hc2, -⟩ |
      ⟨v1, r1, v2, r2, hc1, hc2, -⟩
    · exfalso
      rcases hcond with hc | hc
      · rw [k1b hc.symm, hv] at hc1; exact absurd hc1 (by simp)
      · rw [k2b hc.symm, hv] at hc2; exact absurd hc2 (by simp)
    · have hjq : j = q := by
        by_contra hne
        rw [k2a hne] at hc2
        exact absurd hc2 (by simp)
      have h2 : g2r = gqr := k2b hjq
      rw [h2, hv] at hc2
      simp only [List.cons.injEq] at hc2
      obtain ⟨rfl, rfl⟩ := hc2
      rw [hjq, h2] at hmq
      exact ⟨hret, hval, hmq⟩
    · have hiq : i = q := by
        by_contra hne
        rw [k1a hne] at hc1
        exact absurd hc1 (by simp)
      have h1 : g1r = gqr := k1b hiq
      rw [h1, hv] at hc1
      simp only [List.cons.injEq] at hc1
      obtain ⟨rfl, rfl⟩ := hc1
      rw [hiq, h1] at hmq
      exact ⟨hret, hval, hmq⟩
    · exfalso
      have hiq : i = q := by
        by_contra hne
        rw [k1a hne] at hc1
        exact absurd hc1 (by simp)
      have hjq : j = q := by
        by_contra hne
        rw [k2a hne] at hc2
        exact absurd hc2 (by simp)
      exact hji (by rw [hc1]; simp) (by rw [hiq, hjq])
    · exfalso
      have hiq : i = q := by
        by_contra hne
        rw [k1a hne] at hc1
        exact absurd hc1 (by simp)
      have hjq : j = q := by
        by_contra hne
        rw [k2a hne] at hc2
        exact absurd hc2 (by simp)
      exact hji (by rw [hc1]; simp) (by rw [hiq, hjq])

end one_loaded

section single_value

variable {Key T H : Type} {hp : merge_heap (Key × T) H} {cfg : Configuration}
  {comp : Key → Key → Bool}

/-- A guarded queue holding exactly one value, with a non-empty deletion buffer, holds it
there. -/
theorem single_content_front {α : Type} {hq : merge_heap α H} {cmp : α → α → Bool} {n : Nat}
    (law : heap_contract cmp n hq) (g : guarded_heap α H) (v : α)
    (hc : g.content law = {v}) (hne : g.deletion_buffer ≠ []) :
    g.deletion_buffer = [v] := by
  unfold guarded_heap.content at hc
  cases hd : g.deletion_buffer with
  | nil => exact absurd hd hne
  | cons a l =>
    rw [hd] at hc
    have hcard := congrArg Multiset.card hc
    simp only [Multiset.card_add, Multiset.coe_card, List.length_cons,
      Multiset.card_singleton] at hcard
    have hl : l = [] := List.length_eq_zero.mp (by omega)
    have hi : g.insertion_buffer = [] := List.length_eq_zero.mp (by omega)
    have hv : law.vals g.heap = 0 := Multiset.card_eq_zero.mp (by omega)
    rw [hl, hi, hv] at hc
    simp only [Multiset.coe_nil, add_zero, Multiset.coe_singleton,
      Multiset.singleton_inj] at hc
    rw [hc, hl]

/-- What a push on a new multiqueue does: it locks one queue and leaves the value in that
queue's insertion buffer. -/
theorem push_on_new (law : heap_contract (value_comparator comp) cfg.NodeSize hp)
    (hswo : strict_weak_order comp) (hN : 0 < cfg.NodeSize) (P : Nat) (v : Key × T)
    (rng : List Nat) (e : exec (Key × T) H)
    (h : (numa_aware_merge_mq.new hp cfg P).push hp cfg comp v rng = some e) :
    ∃ q, acquired e.trace = [q] ∧ e.mq.inv cfg law ∧ e.mq.content law = {v} ∧
      e.mq.heap_list_[q]? =
        some { guarded_heap.init hp with insertion_buffer := [v] } ∧
      (∀ k g, k ≠ q → e.mq.heap_list_[k]? = some g → g.is_empty hp) ∧
      e.mq.heap_list_.length = (P * cfg.C) % 2 ^ 32 := by
  have hinv0 : (numa_aware_merge_mq.new hp cfg P : numa_aware_merge_mq (Key × T) H).inv cfg law :=
    new_inv law P
  obtain ⟨j, g, g1, -, hq, hp1, hmq, hacq⟩ := push_cases _ v rng e h
  obtain ⟨hinv1, hc1⟩ := push_effect law hswo hN _ hinv0 v rng e h
  rw [new_content law P] at hc1
  have hg : g = guarded_heap.init hp := new_get P j g hq
  subst hg
  have hpush := @push_second_branch (Key × T) H hp cfg (value_comparator comp) hN
    (guarded_heap.init hp) (by simp [guarded_heap.init]) v (Or.inl rfl)
  rw [hp1] at hpush
  have hne : ¬ ((guarded_heap.init hp : guarded_heap (Key × T) H).insertion_buffer.length =
      InsertionBufferSize cfg) := by
    simp only [guarded_heap.init, List.length_nil, InsertionBufferSize]; omega
  rw [if_neg hne] at hpush
  have hg1 : g1 = { guarded_heap.init hp with insertion_buffer := [v] } := by
    have := Option.some.inj hpush
    rw [this]; rfl
  refine ⟨j, hacq, hinv1, by rw [hc1]; rfl, ?_, ?_, ?_⟩
  · rw [hmq, ← hg1]; exact store_get_same _ _ _ (lt_of_get hq)
  · intro k g hk hkg
    rw [hmq, store_get_ne _ _ _ _ (Ne.symm hk)] at hkg
    rw [new_get P k g hkg]
    exact ⟨rfl, rfl, init_heap_empty law⟩
  · rw [hmq]
    simp [numa_aware_merge_mq.store, numa_aware_merge_mq.new]

/-- C11 (as amended): for every thread count `P` whose number of queues `C * P` fits an
`unsigned int` (`C * P < 2 ^ 32`), every handle id below `P` (so `P ≥ 1`), every value
`v` and every choice of the random draws, a single `push(v)` on a new multiqueue returns
(given one draw) and locks one queue `q`; a following `extract_top` returns when a later
draw names a queue other than its first one, and it returns true with the output `v`,
leaving the multiqueue empty, if `q` is one of the two queues it locks, and false, leaving
`v` resident, if `q` is neither. -/
theorem single_push_then_extract_top
    (law : heap_contract (value_comparator comp) cfg.NodeSize hp)
    (hswo : strict_weak_order comp) (hN : 0 < cfg.NodeSize) (hC : 0 < cfg.C)
    (P id : Nat) (hid : id < P) (hw : P * cfg.C < 2 ^ 32) (v : Key × T)
    (rngp rnge : List Nat) :
    (rngp ≠ [] → ∃ e, (numa_aware_merge_mq.new hp cfg P).push hp cfg comp v rngp = some e) ∧
      ∀ e, (numa_aware_merge_mq.new hp cfg P).push hp cfg comp v rngp = some e →
        ∃ q, acquired e.trace = [q] ∧ e.mq.content law = {v} ∧
          (∀ r0 rs, rnge = r0 :: rs →
            (∃ r1 ∈ rs, r1 % e.mq.num_queues_ ≠ cfg.C * id % 2 ^ 32 + r0 % cfg.C) →
            ∃ r, e.mq.extract_top hp cfg comp id rnge = some r) ∧
          ∀ r, e.mq.extract_top hp cfg comp id rnge = some r →
            ∃ i j, acquired r.trace = [i, j] ∧
              ((q = i ∨ q = j) →
                r.ret = true ∧ r.retval = some v ∧ r.mq.content law = 0) ∧
              ((q ≠ i ∧ q ≠ j) → r.ret = false ∧ r.retval = none ∧ r.mq = e.mq) := by
  have hswo' : strict_weak_order (@value_comparator Key T comp) := hswo.value_comparator
  have hinv0 : (numa_aware_merge_mq.new hp cfg P : numa_aware_merge_mq (Key × T) H).inv cfg law :=
    new_inv law P
  constructor
  · intro hne
    refine push_total law hswo hN _ hinv0 ?_ v rngp hne
    rw [new_length P hw]
    exact Nat.mul_pos hC (by omega)
  · intro e he
    obtain ⟨q, hacq, hinv1, hc1, hq, hoth, hlen⟩ := push_on_new law hswo hN P v rngp e he
    refine ⟨q, hacq, hc1, ?_, ?_⟩
    · intro r0 rs hrng hdraw
      obtain ⟨r1, hr1, hne⟩ := hdraw
      have hi : cfg.C * id % 2 ^ 32 + r0 % cfg.C < e.mq.heap_list_.length := by
        rw [hlen, Nat.mod_eq_of_lt hw]
        have h1 : r0 % cfg.C < cfg.C := Nat.mod_lt _ hC
        have h2 : cfg.C * (id + 1) ≤ cfg.C * P := Nat.mul_le_mul_left _ hid
        rw [Nat.mul_add, Nat.mul_one] at h2
        rw [Nat.mul_comm P]
        omega
      rw [hrng]
      exact extract_top_total law hswo hN hC e.mq hinv1 id r0 rs _
        (List.getElem?_eq_getElem hi) ⟨r1, hr1, Or.inl hne⟩
    · intro r hr
      obtain ⟨gqr, r0, rs, i, j, hgqr, -, -, hacq2, -, hfalse, htrue⟩ :=
        extract_top_one_loaded law hswo hN e.mq hinv1 q hoth _ hq id rnge r hr
      obtain ⟨x, hx, -, hcx, -, hiffx, -, -⟩ :=
        refill_if_empty_spec law hswo' hN _ (hinv1.queues _ (List.getElem?_mem hq))
      rw [hgqr] at hx
      cases hx
      have hne : gqr.deletion_buffer ≠ [] := by
        intro hc
        have := (hiffx.mp hc).2.1
        simp at this
      have hcq : gqr.content law = {v} := by
        rw [hcx]
        simp [guarded_heap.content, guarded_heap.init, law.vals_init]
      have hD := single_content_front law gqr v hcq hne
      refine ⟨i, j, hacq2, ?_, fun hc => hfalse (Or.inl hc)⟩
      intro hc
      obtain ⟨hret, hval, -⟩ := htrue hc v [] hD
      refine ⟨hret, hval, ?_⟩
      obtain ⟨-, hcont, -⟩ := extract_top_effect law hswo hN e.mq hinv1 id rnge r hr
      rw [hc1, hval] at hcont
      simp only [Option.toList_some, Multiset.coe_singleton] at hcont
      have h3 : ({v} : Multiset (Key × T)) + 0 = {v} + r.mq.content law := by
        rw [add_zero]; exact hcont
      exact (add_left_cancel h3).symm

end single_value

/-! ## The multiqueue: which queues an operation locks -/

section probes

variable {α H : Type}

/-- The global probing loop locks the queue its first draw names, if that queue is free. -/
theorem lock_loop_head (mq : numa_aware_merge_mq α H) (r : Nat) (rs : List Nat)
    (tr : List Event) (g : guarded_heap α H)
    (hq : mq.heap_list_[r % mq.num_queues_]? = some g) (hf : g.in_use = false) :
    lock_loop mq (r :: rs) tr =
      some (r % mq.num_queues_,
        { mq := mq.store (r % mq.num_queues_) { g with in_use := true }, rng := rs,
          trace := tr ++ [Event.acquire (r % mq.num_queues_)] }) := by
  unfold lock_loop
  rw [try_lock_free _ _ g hq hf]

theorem on_queue_acquired (i : Nat) (f : guarded_heap α H → Option (guarded_heap α H))
    (e e1 : exec α H) (h : on_queue i f e = some e1) :
    acquired e1.trace = acquired e.trace := by
  unfold on_queue at h
  cases hq : e.mq.heap_list_[i]? with
  | none => rw [hq] at h; simp at h
  | some g =>
    rw [hq] at h
    simp only at h
    cases hfg : f g with
    | none => rw [hfg] at h; simp at h
    | some g1 =>
      rw [hfg] at h
      simp only [Option.map_some', Option.some.injEq] at h
      subst h
      simp [acquired_append, acquired]

theorem read_deletion_buffer_acquired (i : Nat) (e e1 : exec α H) (d : List α)
    (h : read_deletion_buffer i e = some (d, e1)) :
    acquired e1.trace = acquired e.trace := by
  unfold read_deletion_buffer at h
  cases hq : e.mq.heap_list_[i]? with
  | none => rw [hq] at h; simp at h
  | some g =>
    rw [hq] at h
    simp only [Option.some.injEq, Prod.mk.injEq] at h
    obtain ⟨-, he⟩ := h
    subst he
    simp [acquired_append, acquired]

theorem unlock_acquired (i : Nat) (e e1 : exec α H) (h : unlock i e = some e1) :
    acquired e1.trace = acquired e.trace := by
  unfold unlock at h
  cases hq : e.mq.heap_list_[i]? with
  | none => rw [hq] at h; simp at h
  | some g =>
    rw [hq] at h
    simp only [Option.some.injEq] at h
    subst h
    simp [acquired_append, acquired]

theorem take_front_acquired (i : Nat) (e : exec α H) (r : extract_result α H)
    (h : take_front i e = some r) : acquired r.trace = acquired e.trace := by
  unfold take_front at h
  cases hq : e.mq.heap_list_[i]? with
  | none => rw [hq] at h; simp at h
  | some g =>
    rw [hq] at h
    simp only at h
    cases hpf : g.pop_front with
    | none => rw [hpf] at h; simp at h
    | some vg =>
      obtain ⟨v, g1⟩ := vg
      rw [hpf] at h
      simp only at h
      cases hun : unlock i ({ mq := e.mq.store i g1, rng := e.rng,
                              trace := e.trace ++ [Event.access i] } : exec α H) with
      | none => rw [hun] at h; simp at h
      | some e1 =>
        rw [hun] at h
        simp only [Option.map_some', Option.some.injEq] at h
        subst h
        rw [unlock_acquired _ _ _ hun]
        simp [acquired_append, acquired]

end probes

section probes_extract

variable {Key T H : Type} {hp : merge_heap (Key × T) H} {cfg : Configuration}
  {comp : Key → Key → Bool}

/-- The second queue `extract_top` locks is the one its global probing loop returns. -/
theorem extract_top_second_probe (first_index : Nat) (d1 : List (Key × T))
    (e4 : exec (Key × T) H) (r : extract_result (Key × T) H)
    (h : extract_top_second hp cfg comp first_index d1 e4 = some r) :
    ∃ j e5, lock_loop e4.mq e4.rng e4.trace = some (j, e5) ∧
      acquired r.trace = acquired e5.trace := by
  unfold extract_top_second at h
  cases hl : lock_loop e4.mq e4.rng e4.trace with
  | none => rw [hl] at h; simp at h
  | some je =>
    obtain ⟨j, e5⟩ := je
    rw [hl] at h
    simp only [Option.some_bind] at h
    refine ⟨j, e5, rfl, ?_⟩
    cases ho : on_queue j (refill_if_empty hp cfg (value_comparator comp)) e5 with
    | none => rw [ho] at h; simp at h
    | some e6 =>
      rw [ho] at h
      simp only [Option.some_bind] at h
      have h6 := on_queue_acquired _ _ _ _ ho
      cases hr : read_deletion_buffer j e6 with
      | none => rw [hr] at h; simp at h
      | some de =>
        obtain ⟨d2, e7⟩ := de
        rw [hr] at h
        simp only [Option.some_bind] at h
        have h7 := read_deletion_buffer_acquired _ _ _ _ hr
        by_cases hd2 : d2.isEmpty = true
        · simp only [hd2, if_true] at h
          cases hu : unlock j e7 with
          | none => rw [hu] at h; simp at h
          | some e8 =>
            rw [hu] at h
            simp only [Option.some_bind] at h
            have h8 := unlock_acquired _ _ _ hu
            by_cases hd1 : d1.isEmpty = true
            · simp only [hd1, if_true, Option.some.injEq] at h
              subst h
              simp only
              rw [h8, h7, h6]
            · simp only [hd1, Bool.false_eq_true, if_false] at h
              rw [take_front_acquired _ _ _ h, h8, h7, h6]
        · simp only [hd2, Bool.false_eq_true, if_false] at h
          by_cases hd1 : d1.isEmpty = true
          · simp only [hd1, if_true, Bool.not_true, Bool.false_eq_true, if_false,
              Option.some_bind] at h
            rw [take_front_acquired _ _ _ h, h7, h6]
          · simp only [hd1, Bool.false_eq_true, if_false] at h
            cases hh2 : d2.head? with
            | none => rw [hh2] at h; simp at h
            | some f2 =>
              cases hh1 : d1.head? with
              | none => rw [hh2, hh1] at h; simp at h
              | some f1 =>
                rw [hh2, hh1] at h
                simp only at h
                cases hc : comp f2.1 f1.1 with
                | true =>
                  rw [hc] at h
                  simp only [Bool.not_false, if_true] at h
                  cases hu : unlock first_index ({ e7 with trace := e7.trace ++
                      [Event.access j, Event.access first_index] } : exec (Key × T) H) with
                  | none => rw [hu] at h; simp at h
                  | some e9 =>
                    rw [hu] at h
                    simp only [Option.some_bind] at h
                    rw [take_front_acquired _ _ _ h, unlock_acquired _ _ _ hu]
                    simp only [acquired_append, acquired, List.append_nil]
                    rw [h7, h6]
                | false =>
                  rw [hc] at h
                  simp only at h
                  cases hu : unlock j ({ e7 with trace := e7.trace ++
                      [Event.access j, Event.access first_index] } : exec (Key × T) H) with
                  | none => rw [hu] at h; simp at h
                  | some e9 =>
                    rw [hu] at h
                    simp only [Option.some_bind] at h
                    rw [take_front_acquired _ _ _ h, unlock_acquired _ _ _ hu]
                    simp only [acquired_append, acquired, List.append_nil]
                    rw [h7, h6]

/-- When the first queue of `extract_top` is empty, the second queue is the one the first
draw of the global probing names: every lock is free at that point. -/
theorem extract_top_first_empty_probe
    (law : heap_contract (value_comparator comp) cfg.NodeSize hp)
    (hswo : strict_weak_order comp) (hN : 0 < cfg.NodeSize) (hC : 0 < cfg.C)
    (mq : numa_aware_merge_mq (Key × T) H) (hinv : mq.inv cfg law) (id r0 r1 : Nat)
    (rs : List Nat) (g1 : guarded_heap (Key × T) H)
    (hq1 : mq.heap_list_[cfg.C * id % 2 ^ 32 + r0 % cfg.C]? = some g1) (he1 : g1.is_empty hp)
    (r : extract_result (Key × T) H)
    (h : mq.extract_top hp cfg comp id (r0 :: r1 :: rs) = some r) :
    acquired r.trace = [cfg.C * id % 2 ^ 32 + r0 % cfg.C, r1 % mq.num_queues_] := by
  have hswo' : strict_weak_order (@value_comparator Key T comp) := hswo.value_comparator
  have hu1 : g1.in_use = false := hinv.free g1 (List.getElem?_mem hq1)
  have hg1inv : g1.inv cfg law := hinv.queues g1 (List.getElem?_mem hq1)
  have hilt := lt_of_get hq1
  have hQ : 0 < mq.num_queues_ := by rw [hinv.size_eq]; omega
  obtain ⟨n, hn⟩ : ∃ n, cfg.C = n + 1 := ⟨cfg.C - 1, by omega⟩
  have hprobe : probe_first cfg id (r0 % cfg.C) cfg.C 0 none
      ({ mq := mq, rng := r1 :: rs, trace := [] } : exec (Key × T) H) =
      some (some (cfg.C * id % 2 ^ 32 + r0 % cfg.C),
        { mq := mq.store (cfg.C * id % 2 ^ 32 + r0 % cfg.C) { g1 with in_use := true },
          rng := r1 :: rs,
          trace := [Event.acquire (cfg.C * id % 2 ^ 32 + r0 % cfg.C)] }) := by
    have h1 : probe_first cfg id (r0 % cfg.C) (n + 1) 0 none
        ({ mq := mq, rng := r1 :: rs, trace := [] } : exec (Key × T) H) =
        some (some (cfg.C * id % 2 ^ 32 + r0 % cfg.C),
          { mq := mq.store (cfg.C * id % 2 ^ 32 + r0 % cfg.C) { g1 with in_use := true },
            rng := r1 :: rs,
            trace := [Event.acquire (cfg.C * id % 2 ^ 32 + r0 % cfg.C)] }) := by
      unfold probe_first
      simp only [Nat.add_zero, Nat.mod_mod]
      rw [try_lock_free _ _ g1 hq1 hu1]
      simp
    rw [← hn] at h1
    exact h1
  unfold numa_aware_merge_mq.extract_top at h
  simp only [hprobe] at h
  generalize cfg.C * id % 2 ^ 32 + r0 % cfg.C = i at *
  obtain ⟨g1r, hg1r, -, -, hu1r, hiff1, hsame1, -⟩ :=
    refill_if_empty_spec law hswo' hN g1 hg1inv
  have hd1 : g1r.deletion_buffer = [] := hiff1.mpr he1
  have hg1eq : g1r = g1 := hsame1 hd1
  subst hg1eq
  rw [on_queue_eq _ i _ { g1r with in_use := true } { g1r with in_use := true }
    (store_get_same _ _ _ hilt) (by rw [refill_if_empty_in_use, hg1r]; rfl)] at h
  simp only [Option.some_bind, store_store] at h
  rw [read_deletion_buffer_eq _ i { g1r with in_use := true }
    (store_get_same _ _ _ hilt)] at h
  simp only [Option.some_bind, hd1, List.isEmpty_nil, if_true] at h
  rw [unlock_eq _ i _ (store_get_same _ _ _ hilt)] at h
  simp only [Option.some_bind, store_store] at h
  have hg : (⟨false, g1r.insertion_buffer, [], g1r.heap⟩ : guarded_heap (Key × T) H) = g1r := by
    rw [← hd1, ← hu1]
  have hback : mq.store i (⟨false, g1r.insertion_buffer, [], g1r.heap⟩ :
      guarded_heap (Key × T) H) = mq := by
    rw [hg]; exact store_self _ _ _ hq1
  rw [hback] at h
  obtain ⟨j, e5, hl, hacq⟩ := extract_top_second_probe i [] _ r h
  have hlt1 : r1 % mq.num_queues_ < mq.heap_list_.length := by
    rw [← hinv.size_eq]; exact Nat.mod_lt _ hQ
  simp only at hl
  rw [lock_loop_head mq r1 rs _ _ (List.getElem?_eq_getElem hlt1)
    (hinv.free _ (List.getElem_mem hlt1))] at hl
  simp only [Option.some.injEq, Prod.mk.injEq] at hl
  obtain ⟨hj, he5⟩ := hl
  rw [hacq, ← he5]
  simp [acquired_append, acquired]

end probes_extract

/-! ## The multiqueue: runs served by one queue -/

section one_queue

variable {Key T H : Type} {hp : merge_heap (Key × T) H} {cfg : Configuration}
  {comp : Key → Key → Bool}

/-- A run of two sequences of calls one after the other. -/
theorem run_append (ops1 : List (Op (Key × T))) :
    ∀ (mq : numa_aware_merge_mq (Key × T) H) (ops2 : List (Op (Key × T))),
      run hp cfg comp mq (ops1 ++ ops2) =
        (run hp cfg comp mq ops1).bind (fun p1 =>
          (run hp cfg comp p1.1 ops2).map (fun p2 => (p2.1, p1.2 ++ p2.2))) := by
  induction ops1 with
  | nil =>
    intro mq ops2
    simp only [List.nil_append, run, Option.some_bind, List.nil_append]
    cases run hp cfg comp mq ops2 <;> simp
  | cons op ops ih =>
    intro mq ops2
    cases op with
    | push v rng =>
      rw [List.cons_append]
      simp only [run]
      cases mq.push hp cfg comp v rng with
      | none => simp
      | some e => simp only [Option.some_bind]; exact ih _ _
    | extract_top id rng =>
      rw [List.cons_append]
      simp only [run]
      cases mq.extract_top hp cfg comp id rng with
      | none => simp
      | some r =>
        simp only [Option.some_bind]
        rw [ih]
        cases run hp cfg comp r.mq ops with
        | none => simp
        | some p1 =>
          simp only [Option.some_bind, Option.map_some']
          cases run hp cfg comp p1.1 ops2 with
          | none => simp
          | some p2 => simp

/-- A push whose first draw names a queue locks that queue (every lock is free between
two calls) and pushes the value into it. -/
theorem push_head (law : heap_contract (value_comparator comp) cfg.NodeSize hp)
    (hswo : strict_weak_order comp) (hN : 0 < cfg.NodeSize)
    (mq : numa_aware_merge_mq (Key × T) H) (hinv : mq.inv cfg law) (v : Key × T)
    (r : Nat) (rs : List Nat) (g : guarded_heap (Key × T) H)
    (hq : mq.heap_list_[r % mq.num_queues_]? = some g) :
    ∃ g1 e, g.push hp cfg (value_comparator comp) v = some g1 ∧
      mq.push hp cfg comp v (r :: rs) = some e ∧
      e.mq = mq.store (r % mq.num_queues_) g1 ∧ acquired e.trace = [r % mq.num_queues_] := by
  have hswo' : strict_weak_order (@value_comparator Key T comp) := hswo.value_comparator
  have hu : g.in_use = false := hinv.free g (List.getElem?_mem hq)
  have hjlt := lt_of_get hq
  obtain ⟨g1, hp1, -, -, hu1⟩ := push_spec law hswo' hN g (hinv.queues g (List.getElem?_mem hq)) v
  rw [hu] at hu1
  refine ⟨g1, ?_⟩
  unfold numa_aware_merge_mq.push
  rw [lock_loop_head mq r rs [] g hq hu]
  simp only
  rw [on_queue_eq _ (r % mq.num_queues_) _ { g with in_use := true }
    { g1 with in_use := true } (store_get_same _ _ _ hjlt)
    (by rw [push_in_use, hp1]; rfl)]
  simp only [Option.some_bind]
  rw [unlock_eq _ (r % mq.num_queues_) { g1 with in_use := true }
    (by simp only [store_store]; exact store_get_same _ _ _ hjlt)]
  refine ⟨_, hp1, rfl, ?_, ?_⟩
  · simp only [store_store]
    rw [in_use_self g1 false hu1]
  · simp [acquired_append, acquired]

/-- A push served by `q` on a multiqueue in which only `q` is loaded. -/
theorem push_served (law : heap_contract (value_comparator comp) cfg.NodeSize hp)
    (hswo : strict_weak_order comp) (hN : 0 < cfg.NodeSize) (P q : Nat)
    (mq : numa_aware_merge_mq (Key × T) H) (g : guarded_heap (Key × T) H)
    (hl : mq.only_loaded cfg law P q g) (v : Key × T) (rng : List Nat)
    (hs : (Op.push v rng).served_by cfg P q) :
    ∃ g1 e, g.push hp cfg (value_comparator comp) v = some g1 ∧
      mq.push hp cfg comp v rng = some e ∧ e.mq.only_loaded cfg law P q g1 ∧
      g1.content law = v ::ₘ g.content law := by
  have hswo' : strict_weak_order (@value_comparator Key T comp) := hswo.value_comparator
  obtain ⟨r, rs, hrng, hr⟩ := hs
  subst hrng
  have hQ : mq.num_queues_ = cfg.C * P := by rw [hl.inv.size_eq, hl.length_eq]
  have hq : mq.heap_list_[r % mq.num_queues_]? = some g := by rw [hQ, hr]; exact hl.at_q
  obtain ⟨g1, e, hp1, he, hmq, -⟩ := push_head law hswo hN mq hl.inv v r rs g hq
  obtain ⟨g2, hp2, hinv2, hc2, hu2⟩ :=
    push_spec law hswo' hN g (hl.inv.queues g (List.getElem?_mem hq)) v
  rw [hp1] at hp2
  cases hp2
  rw [hQ, hr] at hmq
  refine ⟨g1, e, hp1, he, ⟨?_, ?_, ?_, ?_⟩, hc2⟩
  · exact (push_effect law hswo hN mq hl.inv v _ e he).1
  · rw [hmq]; simp only [numa_aware_merge_mq.store, List.length_set]; exact hl.length_eq
  · rw [hmq]; exact store_get_same _ _ _ (lt_of_get hl.at_q)
  · intro k g' hk hkg
    rw [hmq, store_get_ne _ _ _ _ (Ne.symm hk)] at hkg
    exact hl.others k g' hk hkg

/-- An extract_top served by `q` on a multiqueue in which only `q` is loaded, and `q` has
a front after its refill-if-empty step: it returns that front and takes it off `q`. -/
theorem extract_top_served (law : heap_contract (value_comparator comp) cfg.NodeSize hp)
    (hswo : strict_weak_order comp) (hN : 0 < cfg.NodeSize) (hC : 0 < cfg.C) (P q : Nat)
    (mq : numa_aware_merge_mq (Key × T) H) (g gr : guarded_heap (Key × T) H)
    (hl : mq.only_loaded cfg law P q g) (id : Nat) (rng : List Nat)
    (hs : (Op.extract_top id rng : Op (Key × T)).served_by cfg P q)
    (hgr : refill_if_empty hp cfg (value_comparator comp) g = some gr)
    (v : Key × T) (rest : List (Key × T)) (hD : gr.deletion_buffer = v :: rest) :
    ∃ r, mq.extract_top hp cfg comp id rng = some r ∧ r.ret = true ∧ r.retval = some v ∧
      r.mq.only_loaded cfg law P q { gr with deletion_buffer := rest } := by
  have hswo' : strict_weak_order (@value_comparator Key T comp) := hswo.value_comparator
  obtain ⟨hid, r0, rs, hrng, hcase⟩ := hs
  subst hrng
  have hQ : mq.num_queues_ = cfg.C * P := by rw [hl.inv.size_eq, hl.length_eq]
  have hi : cfg.C * id % 2 ^ 32 + r0 % cfg.C < mq.heap_list_.length := by
    rw [hl.length_eq]
    have h1 : r0 % cfg.C < cfg.C := Nat.mod_lt _ hC
    have h2 : cfg.C * (id + 1) ≤ cfg.C * P := Nat.mul_le_mul_left _ hid
    rw [Nat.mul_add, Nat.mul_one] at h2
    omega
  have hne : gr.deletion_buffer ≠ [] := by rw [hD]; simp
  have hgne : ¬ g.is_empty hp := by
    intro hc
    obtain ⟨x, hx, -, -, -, hiff, -, -⟩ :=
      refill_if_empty_spec law hswo' hN g (hl.inv.queues g (List.getElem?_mem hl.at_q))
    rw [hgr] at hx
    cases hx
    exact hne (hiff.mpr hc)
  have hres : ∃ r, mq.extract_top hp cfg comp id (r0 :: rs) = some r ∧
      (q = cfg.C * id % 2 ^ 32 + r0 % cfg.C ∨ ∃ i, acquired r.trace = [i, q]) := by
    rcases hcase with ⟨hiq, r1, hr1, hr1q⟩ | ⟨hiq, r1, rs1, hrs, hr1q⟩
    · obtain ⟨r, hr⟩ := extract_top_total law hswo hN hC mq hl.inv id r0 rs _
        (List.getElem?_eq_getElem hi) ⟨r1, hr1, Or.inl (by rw [hQ, hiq]; exact hr1q)⟩
      exact ⟨r, hr, Or.inl hiq.symm⟩
    · subst hrs
      have hemp := hl.others _ _ hiq (List.getElem?_eq_getElem hi)
      obtain ⟨r, hr⟩ := extract_top_total law hswo hN hC mq hl.inv id r0 (r1 :: rs1) _
        (List.getElem?_eq_getElem hi) ⟨r1, List.mem_cons_self _ _, Or.inr hemp⟩
      have hacq := extract_top_first_empty_probe law hswo hN hC mq hl.inv id r0 r1 rs1 _
        (List.getElem?_eq_getElem hi) hemp r hr
      rw [hQ, hr1q] at hacq
      exact ⟨r, hr, Or.inr ⟨_, hacq⟩⟩
  obtain ⟨r, hr, hwhich⟩ := hres
  obtain ⟨gqr, r0', rs', i, j, hgqr, hrng', hi', hacq, -, -, htrue⟩ :=
    extract_top_one_loaded law hswo hN mq hl.inv q hl.others g hl.at_q id _ r hr
  rw [hgr] at hgqr
  cases hgqr
  simp only [List.cons.injEq] at hrng'
  obtain ⟨rfl, rfl⟩ := hrng'
  have hqij : q = i ∨ q = j := by
    rcases hwhich with h1 | ⟨i2, h2⟩
    · left; rw [hi']; exact h1
    · right
      rw [hacq] at h2
      simp only [List.cons.injEq, and_true] at h2
      exact h2.2.symm
  obtain ⟨hret, hval, hmq⟩ := htrue hqij v rest hD
  refine ⟨r, hr, hret, hval, ⟨?_, ?_, ?_, ?_⟩⟩
  · exact (extract_top_effect law hswo hN mq hl.inv id _ r hr).1
  · rw [hmq]; simp only [numa_aware_merge_mq.store, List.length_set]; exact hl.length_eq
  · rw [hmq]; exact store_get_same _ _ _ (lt_of_get hl.at_q)
  · intro k g' hk hkg
    rw [hmq, store_get_ne _ _ _ _ (Ne.symm hk)] at hkg
    exact hl.others k g' hk hkg

end one_queue

section one_queue_runs

variable {Key T H : Type} {hp : merge_heap (Key × T) H} {cfg : Configuration}
  {comp : Key → Key → Bool}

/-- A new multiqueue has only queue `q` loaded, with the default-constructed state. -/
theorem new_only_loaded (law : heap_contract (value_comparator comp) cfg.NodeSize hp)
    (P q : Nat) (hq : q < cfg.C * P) (hw : P * cfg.C < 2 ^ 32) :
    (numa_aware_merge_mq.new hp cfg P).only_loaded cfg law P q (guarded_heap.init hp) := by
  refine ⟨new_inv law P, new_length P hw, ?_, ?_⟩
  · simp only [numa_aware_merge_mq.new]
    rw [List.getElem?_replicate, if_pos (by rw [Nat.mod_eq_of_lt hw, Nat.mul_comm]; exact hq)]
  · intro k g _ hk
    rw [new_get P k g hk]
    exact ⟨rfl, rfl, init_heap_empty law⟩

/-- Pushes served by `q`, run one after the other, are pushes into the guarded queue `q`. -/
theorem run_pushes_one_queue (law : heap_contract (value_comparator comp) cfg.NodeSize hp)
    (hswo : strict_weak_order comp) (hN : 0 < cfg.NodeSize) (P q : Nat) :
    ∀ (pv : List ((Key × T) × List Nat)) (mq : numa_aware_merge_mq (Key × T) H)
      (g : guarded_heap (Key × T) H), mq.only_loaded cfg law P q g →
      (∀ p ∈ pv, (Op.push p.1 p.2).served_by cfg P q) →
      ∃ mq1 g1, run hp cfg comp mq (pv.map (fun p => Op.push p.1 p.2)) = some (mq1, []) ∧
        mq1.only_loaded cfg law P q g1 ∧
        g1.content law = g.content law + ((pv.map Prod.fst : List (Key × T)) : Multiset (Key × T)) := by
  intro pv
  induction pv with
  | nil =>
    intro mq g hl _
    exact ⟨mq, g, rfl, hl, by simp⟩
  | cons p pv ih =>
    intro mq g hl hs
    obtain ⟨g1, e, -, he, hl1, hc1⟩ :=
      push_served law hswo hN P q mq g hl p.1 p.2 (hs p (List.mem_cons_self _ _))
    obtain ⟨mq2, g2, hrun, hl2, hc2⟩ :=
      ih e.mq g1 hl1 (fun x hx => hs x (List.mem_cons_of_mem _ hx))
    refine ⟨mq2, g2, ?_, hl2, ?_⟩
    · simp only [List.map_cons, run, he, Option.some_bind]
      exact hrun
    · rw [hc2, hc1, List.map_cons, ← Multiset.cons_coe, ← Multiset.singleton_add,
        ← Multiset.singleton_add]
      abel

/-- As many extractions as queue `q` holds values, all served by `q`, return what draining
the guarded queue `q` in isolation returns, in the same order, and leave it as the drain
does. -/
theorem run_extracts_one_queue (law : heap_contract (value_comparator comp) cfg.NodeSize hp)
    (hswo : strict_weak_order comp) (hN : 0 < cfg.NodeSize) (hC : 0 < cfg.C) (P q : Nat) :
    ∀ (n : Nat) (er : List (Nat × List Nat)) (mq : numa_aware_merge_mq (Key × T) H)
      (g : guarded_heap (Key × T) H), mq.only_loaded cfg law P q g →
      Multiset.card (g.content law) = n → er.length = n →
      (∀ p ∈ er, (Op.extract_top p.1 p.2 : Op (Key × T)).served_by cfg P q) →
      ∃ mq1 gf outs,
        run hp cfg comp mq (er.map (fun p => Op.extract_top p.1 p.2)) = some (mq1, outs) ∧
        mq1.only_loaded cfg law P q gf ∧
        drain hp cfg (value_comparator comp) (n + 1) g = some (outs, gf) := by
  have hswo' : strict_weak_order (@value_comparator Key T comp) := hswo.value_comparator
  intro n
  induction n with
  | zero =>
    intro er mq g hl hcard hlen _
    have her : er = [] := List.length_eq_zero.mp hlen
    subst her
    have hginv := hl.inv.queues g (List.getElem?_mem hl.at_q)
    have hc0 : g.content law = 0 := Multiset.card_eq_zero.mp hcard
    unfold guarded_heap.content at hc0
    have h1 := add_eq_zero.mp hc0
    have h2 := add_eq_zero.mp h1.1
    have hemp : g.is_empty hp :=
      ⟨(Multiset.coe_eq_zero _).mp h2.1, (Multiset.coe_eq_zero _).mp h2.2,
        (law.empty_iff _ hginv.heap_inv).mpr h1.2⟩
    obtain ⟨gr, hgr, -, -, -, hiff, hsame, -⟩ := refill_if_empty_spec law hswo' hN g hginv
    have hd := hiff.mpr hemp
    have hgeq := hsame hd
    subst hgeq
    refine ⟨mq, gr, [], rfl, hl, ?_⟩
    simp only [drain, hgr, Option.some_bind, guarded_heap.pop_front, hd]
  | succ n ih =>
    intro er mq g hl hcard hlen hs
    obtain ⟨p, er1, rfl⟩ : ∃ p er1, er = p :: er1 := by
      cases er with
      | nil => simp at hlen
      | cons a l => exact ⟨a, l, rfl⟩
    have hginv := hl.inv.queues g (List.getElem?_mem hl.at_q)
    obtain ⟨gr, hgr, hgrinv, hgrc, -, hiff, -, -⟩ := refill_if_empty_spec law hswo' hN g hginv
    have hne : gr.deletion_buffer ≠ [] := by
      intro hc
      obtain ⟨hD, hI, hE⟩ := hiff.mp hc
      have hv := (law.empty_iff _ hginv.heap_inv).mp hE
      simp [guarded_heap.content, hD, hI, hv] at hcard
    obtain ⟨v, rest, hD⟩ : ∃ v rest, gr.deletion_buffer = v :: rest := by
      cases hd : gr.deletion_buffer with
      | nil => exact absurd hd hne
      | cons a l => exact ⟨a, l, rfl⟩
    obtain ⟨r, hr, -, hval, hl1⟩ := extract_top_served law hswo hN hC P q mq g gr hl p.1 p.2
      (hs p (List.mem_cons_self _ _)) hgr v rest hD
    have hpop : gr.pop_front = some (v, { gr with deletion_buffer := rest }) := by
      simp only [guarded_heap.pop_front, hD]
    obtain ⟨-, hcpop, -⟩ := pop_front_spec law gr hgrinv v _ hpop
    have hcard1 : Multiset.card
        (({ gr with deletion_buffer := rest } : guarded_heap (Key × T) H).content law) = n := by
      have := congrArg Multiset.card hcpop
      rw [hgrc, hcard, Multiset.card_cons] at this
      omega
    obtain ⟨mq2, gf, outs, hrun, hl2, hdrain⟩ := ih er1 r.mq _ hl1 hcard1
      (by simpa using hlen) (fun x hx => hs x (List.mem_cons_of_mem _ hx))
    refine ⟨mq2, gf, v :: outs, ?_, hl2, ?_⟩
    · simp only [List.map_cons, run, hr, Option.some_bind, hrun, Option.map_some', hval,
        Option.toList_some, List.singleton_append]
    · rw [drain]
      simp only [hgr, Option.some_bind, hpop, hdrain, Option.map_some']

end one_queue_runs

section relaxed_claims

variable {T H : Type} {hp : merge_heap (Nat × T) H} {cfg : Configuration}

/-- An ascending arrangement of values whose keys are `999, ..., 0` has the keys
`0, ..., 999` in this order. -/
theorem ascending_keys_eq_range (n : Nat) (outs vs : List (Nat × T))
    (hasc : ascending (value_comparator std_less) outs)
    (hperm : (outs : Multiset (Nat × T)) = (vs : Multiset (Nat × T)))
    (hkeys : vs.map Prod.fst = (List.range n).reverse) :
    outs.map Prod.fst = List.range n := by
  have hp1 : (outs.map Prod.fst).Perm (List.range n) := by
    have h1 : outs.Perm vs := Multiset.coe_eq_coe.mp hperm
    have h2 := h1.map Prod.fst
    rw [hkeys] at h2
    exact h2.trans (List.reverse_perm _)
  have hs1 : (outs.map Prod.fst).Sorted (· ≤ ·) := by
    unfold List.Sorted
    rw [List.pairwise_map]
    refine List.Pairwise.imp ?_ hasc
    intro a b hab
    simp only [value_comparator, std_less, decide_eq_false_iff_not, not_lt] at hab
    exact hab
  exact List.eq_of_perm_of_sorted hp1 hs1 (List.sorted_le_range n)

/-- C12 (as amended): with `P = 1`, for every choice of the draws in which all calls are
served by one queue `q` (the first draw of every push names `q`, and every extract_top has
`q` as its first queue, or else as its second), pushing the keys `999, 998, ..., 0` and then
calling `extract_top` 1000 times returns: every call succeeds, the keys come out as
`0, 1, ..., 999` in exactly that order, and the next `extract_top` returns false. -/
theorem reverse_pushes_one_queue_in_order
    (law : heap_contract (value_comparator std_less) cfg.NodeSize hp)
    (hN : 0 < cfg.NodeSize) (hC : 0 < cfg.C) (q : Nat) (hq : q < cfg.C)
    (pv : List ((Nat × T) × List Nat)) (er : List (List Nat))
    (hkeys : pv.map (fun p => p.1.1) = (List.range 1000).reverse)
    (hps : ∀ p ∈ pv, (Op.push p.1 p.2).served_by cfg 1 q)
    (hlen : er.length = 1000)
    (hes : ∀ rng ∈ er, (Op.extract_top 0 rng : Op (Nat × T)).served_by cfg 1 q) :
    ∃ mq1 outs,
      run hp cfg std_less (numa_aware_merge_mq.new hp cfg 1)
        (pv.map (fun p => Op.push p.1 p.2) ++ er.map (fun rng => Op.extract_top 0 rng)) =
          some (mq1, outs) ∧
      outs.map Prod.fst = List.range 1000 ∧
      (outs : Multiset (Nat × T)) = ((pv.map Prod.fst : List (Nat × T)) : Multiset (Nat × T)) ∧
      ∀ rng, (2 ≤ rng.length → ∃ r, mq1.extract_top hp cfg std_less 0 rng = some r) ∧
        ∀ r, mq1.extract_top hp cfg std_less 0 rng = some r →
          r.ret = false ∧ r.retval = none := by
  have hswo := std_less_swo
  have hswo' : strict_weak_order (@value_comparator Nat T std_less) := hswo.value_comparator
  have hl0 := @new_only_loaded Nat T H hp cfg std_less law 1 q (by omega)
    (by rw [Nat.one_mul]; exact cfg.C_lt)
  obtain ⟨mq1, g1, hrun1, hl1, hc1⟩ :=
    run_pushes_one_queue law hswo hN 1 q pv _ _ hl0 hps
  rw [init_content law, zero_add] at hc1
  have hcard : Multiset.card (g1.content law) = 1000 := by
    rw [hc1, Multiset.coe_card, List.length_map]
    have := congrArg List.length hkeys
    simpa using this
  obtain ⟨mq2, gf, outs, hrun2, hl2, hdrain⟩ :=
    run_extracts_one_queue law hswo hN hC 1 q 1000 (er.map (fun rng => (0, rng))) mq1 g1 hl1
      hcard (by simpa using hlen)
      (by
        intro p hp
        obtain ⟨rng, hrng, rfl⟩ := List.mem_map.mp hp
        exact hes rng hrng)
  have hmap : (er.map (fun rng => ((0 : Nat), rng))).map
      (fun p => (Op.extract_top p.1 p.2 : Op (Nat × T))) =
      er.map (fun rng => Op.extract_top 0 rng) := by
    rw [List.map_map]; rfl
  rw [hmap] at hrun2
  obtain ⟨outs', gf', hdrain', hasc, hperm, hemp⟩ :=
    drain_spec law hswo' hN 1000 g1 (hl1.inv.queues g1 (List.getElem?_mem hl1.at_q)) hcard
      1001 (by omega)
  rw [hdrain] at hdrain'
  simp only [Option.some.injEq, Prod.mk.injEq] at hdrain'
  obtain ⟨rfl, rfl⟩ := hdrain'
  rw [hc1] at hperm
  have hallemp : ∀ g ∈ mq2.heap_list_, g.is_empty hp := by
    intro g hg
    obtain ⟨k, hk, hkg⟩ := List.getElem_of_mem hg
    have hk' : mq2.heap_list_[k]? = some g := by rw [List.getElem?_eq_getElem hk, hkg]
    by_cases hkq : k = q
    · subst hkq
      rw [hl2.at_q] at hk'
      cases hk'
      exact hemp
    · exact hl2.others k g hkq hk'
  refine ⟨mq2, outs, ?_, ?_, hperm, ?_⟩
  · rw [run_append, hrun1]
    simp only [Option.some_bind, hrun2, Option.map_some', List.nil_append]
  · refine ascending_keys_eq_range 1000 outs (pv.map Prod.fst) hasc hperm ?_
    rw [List.map_map]
    exact hkeys
  · intro rng
    obtain ⟨h1, h2⟩ := extract_top_all_empty law hswo hN hC 1 0 (by omega) mq2 hl2.inv
      hl2.length_eq hallemp rng
    exact ⟨h1, fun r hr => ⟨(h2 r hr).1, (h2 r hr).2.1⟩⟩

theorem reverse_pushes_one_queue_in_order_witness :
    ∃ mq1 outs,
      run (sorted_block_heap (@value_comparator Nat Nat std_less) small_cfg.NodeSize)
        small_cfg std_less
        (numa_aware_merge_mq.new
          (sorted_block_heap (@value_comparator Nat Nat std_less) small_cfg.NodeSize)
          small_cfg 1)
        ((((List.range 1000).reverse).map (fun k => (((k, 0) : Nat × Nat), [0]))).map
            (fun p => Op.push p.1 p.2) ++
          (List.replicate 1000 [0, 1]).map (fun rng => Op.extract_top 0 rng)) =
          some (mq1, outs) ∧
      outs.map Prod.fst = List.range 1000 ∧
      (outs : Multiset (Nat × Nat)) =
        (((((List.range 1000).reverse).map (fun k => (((k, 0) : Nat × Nat), [0]))).map
          Prod.fst : List (Nat × Nat)) : Multiset (Nat × Nat)) ∧
      ∀ rng, (2 ≤ rng.length → ∃ r, mq1.extract_top
          (sorted_block_heap (@value_comparator Nat Nat std_less) small_cfg.NodeSize)
          small_cfg std_less 0 rng = some r) ∧
        ∀ r, mq1.extract_top
          (sorted_block_heap (@value_comparator Nat Nat std_less) small_cfg.NodeSize)
          small_cfg std_less 0 rng = some r → r.ret = false ∧ r.retval = none :=
  reverse_pushes_one_queue_in_order pair_less_contract (by decide : 0 < small_cfg.NodeSize)
    (by decide : 0 < small_cfg.C) 0 (by decide : 0 < small_cfg.C)
    (((List.range 1000).reverse).map (fun k => (((k, 0) : Nat × Nat), [0])))
    (List.replicate 1000 [0, 1])
    (by rw [List.map_map]; exact List.map_id _)
    (by
      intro p hp
      obtain ⟨k, -, rfl⟩ := List.mem_map.mp hp
      exact ⟨0, [], rfl, rfl⟩)
    (List.length_replicate _ _)
    (by
      intro rng hrng
      rw [List.eq_of_mem_replicate hrng]
      exact ⟨by decide, 0, [1], rfl,
        Or.inl ⟨rfl, 1, List.mem_singleton.mpr rfl, by decide⟩⟩)

/-- A run that C12 as stated excludes: with `P = 1` and `C = 4`, when every push of the keys
`999, ..., 0` probes queue 0 and the first `extract_top` probes queues 1 and 2, that call
returns false instead of the key 0. -/
theorem reverse_pushes_counterexample :
    ∃ mq1 r,
      run (sorted_block_heap (@value_comparator Nat Nat std_less) small_cfg.NodeSize)
        small_cfg std_less
        (numa_aware_merge_mq.new
          (sorted_block_heap (@value_comparator Nat Nat std_less) small_cfg.NodeSize)
          small_cfg 1)
        ((((List.range 1000).reverse).map (fun k => (((k, 0) : Nat × Nat), [0]))).map
            (fun p => Op.push p.1 p.2)) = some (mq1, []) ∧
      mq1.extract_top
        (sorted_block_heap (@value_comparator Nat Nat std_less) small_cfg.NodeSize)
        small_cfg std_less 0 [1, 2] = some r ∧
      acquired r.trace = [1, 2] ∧ r.ret = false ∧ r.retval = none := by
  have hswo := std_less_swo
  have hN : 0 < small_cfg.NodeSize := by decide
  have hC : 0 < small_cfg.C := by decide
  have hl0 := @new_only_loaded Nat Nat (List (Nat × Nat))
    (sorted_block_heap (@value_comparator Nat Nat std_less) small_cfg.NodeSize) small_cfg
    std_less pair_less_contract 1 0 (by decide) (by decide)
  obtain ⟨mq1, g1, hrun1, hl1, -⟩ :=
    run_pushes_one_queue pair_less_contract hswo hN 1 0
      (((List.range 1000).reverse).map (fun k => (((k, 0) : Nat × Nat), [0]))) _ _ hl0
      (by
        intro p hp
        obtain ⟨k, -, rfl⟩ := List.mem_map.mp hp
        exact ⟨0, [], rfl, rfl⟩)
  have hlen : mq1.heap_list_.length = 4 := hl1.length_eq
  have h1 : (1 : Nat) < mq1.heap_list_.length := by omega
  have hemp1 := hl1.others 1 _ (by decide) (List.getElem?_eq_getElem h1)
  obtain ⟨r, hr⟩ := extract_top_total pair_less_contract hswo hN hC mq1 hl1.inv 0 1 [2] _
    (List.getElem?_eq_getElem h1) ⟨2, List.mem_singleton.mpr rfl, Or.inr hemp1⟩
  have hacq := extract_top_first_empty_probe pair_less_contract hswo hN hC mq1 hl1.inv 0 1 2 []
    _ (List.getElem?_eq_getElem h1) hemp1 r hr
  have hQ : mq1.num_queues_ = 4 := by rw [hl1.inv.size_eq, hlen]
  rw [hQ] at hacq
  obtain ⟨gqr, r0, rs, i, j, -, -, -, hacq2, -, hfalse, -⟩ :=
    extract_top_one_loaded pair_less_contract hswo hN mq1 hl1.inv 0 hl1.others g1 hl1.at_q
      0 [1, 2] r hr
  rw [hacq2] at hacq
  simp only [List.cons.injEq, and_true] at hacq
  obtain ⟨hi, hj⟩ := hacq
  have hres := hfalse (Or.inl ⟨by rw [hi]; decide, by rw [hj]; decide⟩)
  refine ⟨mq1, r, hrun1, hr, ?_, hres.1, hres.2.1⟩
  rw [hacq2, hi, hj]
  rfl

end relaxed_claims

section single_value_witness

theorem single_push_then_extract_top_witness :
    (([0] : List Nat) ≠ [] → ∃ e, (numa_aware_merge_mq.new
        (sorted_block_heap (@value_comparator Nat Nat std_less) small_cfg.NodeSize)
        small_cfg 1).push
        (sorted_block_heap (@value_comparator Nat Nat std_less) small_cfg.NodeSize)
        small_cfg std_less (5, 50) [0] = some e) ∧
      ∀ e, (numa_aware_merge_mq.new
          (sorted_block_heap (@value_comparator Nat Nat std_less) small_cfg.NodeSize)
          small_cfg 1).push
          (sorted_block_heap (@value_comparator Nat Nat std_less) small_cfg.NodeSize)
          small_cfg std_less (5, 50) [0] = some e →
        ∃ q, acquired e.trace = [q] ∧ e.mq.content pair_less_contract = {(5, 50)} ∧
          (∀ r0 rs, ([0, 1] : List Nat) = r0 :: rs →
            (∃ r1 ∈ rs, r1 % e.mq.num_queues_ ≠ small_cfg.C * 0 + r0 % small_cfg.C) →
            ∃ r, e.mq.extract_top
              (sorted_block_heap (@value_comparator Nat Nat std_less) small_cfg.NodeSize)
              small_cfg std_less 0 [0, 1] = some r) ∧
          ∀ r, e.mq.extract_top
              (sorted_block_heap (@value_comparator Nat Nat std_less) small_cfg.NodeSize)
              small_cfg std_less 0 [0, 1] = some r →
            ∃ i j, acquired r.trace = [i, j] ∧
              ((q = i ∨ q = j) →
                r.ret = true ∧ r.retval = some (5, 50) ∧
                  r.mq.content pair_less_contract = 0) ∧
              ((q ≠ i ∧ q ≠ j) → r.ret = false ∧ r.retval = none ∧ r.mq = e.mq) :=
  single_push_then_extract_top pair_less_contract std_less_swo
    (by decide : 0 < small_cfg.NodeSize) (by decide : 0 < small_cfg.C) 1 0 (by decide)
    (by decide) (5, 50) [0] [0, 1]

/-- Two runs that C11 as stated excludes.  With `P = 1` and `C = 4`, when the push of
`(5, 50)` probes queue 0 and the `extract_top` probes queues 1 and 2, the `extract_top`
returns false.  With `P = 2 ^ 30` and `C = 4` the constructor computes `C * P` modulo
`2 ^ 32` and builds no queue, so that the push indexes an empty vector and has no
result. -/
theorem single_push_then_extract_top_counterexample :
    (∃ e r, (numa_aware_merge_mq.new
        (sorted_block_heap (@value_comparator Nat Nat std_less) small_cfg.NodeSize)
        small_cfg 1).push
        (sorted_block_heap (@value_comparator Nat Nat std_less) small_cfg.NodeSize)
        small_cfg std_less (5, 50) [0] = some e ∧
      e.mq.extract_top
        (sorted_block_heap (@value_comparator Nat Nat std_less) small_cfg.NodeSize)
        small_cfg std_less 0 [1, 2] = some r ∧
      acquired e.trace = [0] ∧ acquired r.trace = [1, 2] ∧
      r.ret = false ∧ r.retval = none) ∧
    (numa_aware_merge_mq.new
        (sorted_block_heap (@value_comparator Nat Nat std_less) small_cfg.NodeSize)
        small_cfg (2 ^ 30)).heap_list_ = [] ∧
    (numa_aware_merge_mq.new
        (sorted_block_heap (@value_comparator Nat Nat std_less) small_cfg.NodeSize)
        small_cfg (2 ^ 30)).push
        (sorted_block_heap (@value_comparator Nat Nat std_less) small_cfg.NodeSize)
        small_cfg std_less (5, 50) [0] = none :=
  ⟨⟨_, _, rfl, rfl, rfl, rfl, rfl, rfl⟩, rfl, rfl⟩

end single_value_witness

/-! ## The multiqueue: the local probing loop -/

section probe_shape

variable {α H : Type} {cfg : Configuration}

theorem lock_word_some {mq : numa_aware_merge_mq α H} {k : Nat} {b : Bool}
    (h : lock_word mq k = some b) : ∃ g, mq.heap_list_[k]? = some g ∧ g.in_use = b := by
  unfold lock_word at h
  cases hq : mq.heap_list_[k]? with
  | none => rw [hq] at h; simp at h
  | some g =>
    rw [hq] at h
    simp only [Option.map_some', Option.some.injEq] at h
    exact ⟨g, rfl, h⟩

theorem try_lock_held (e : exec α H) (i : Nat) (g : guarded_heap α H)
    (h : e.mq.heap_list_[i]? = some g) (hf : g.in_use = true) :
    try_lock i e = some (false, { e with trace := e.trace ++ [Event.fail i] }) := by
  simp [try_lock, h, hf]

theorem acquired_fails (f : Nat → Nat) (l : List Nat) :
    acquired (l.map (fun m => Event.fail (f m))) = [] := by
  induction l with
  | nil => rfl
  | cons a l ih => simpa [acquired] using ih

/-- The local probing loop, from round `i` with `n` rounds left: if the slots of the next
`k` rounds are locked and the slot after them is free, the loop locks that slot after `k`
failed attempts, and draws no global sample. -/
theorem probe_first_local (id start : Nat) :
    ∀ (k n i : Nat) (fi0 : Option Nat) (e : exec α H), k < n → n + i = 4 →
      (∀ m, m < k → lock_word e.mq (cfg.C * id % 2 ^ 32 + (start + (i + m)) % cfg.C) = some true) →
      lock_word e.mq (cfg.C * id % 2 ^ 32 + (start + (i + k)) % cfg.C) = some false →
      ∃ g, e.mq.heap_list_[cfg.C * id % 2 ^ 32 + (start + (i + k)) % cfg.C]? = some g ∧
        probe_first cfg id start n i fi0 e =
          some (some (cfg.C * id % 2 ^ 32 + (start + (i + k)) % cfg.C),
            { mq := e.mq.store (cfg.C * id % 2 ^ 32 + (start + (i + k)) % cfg.C)
                { g with in_use := true },
              rng := e.rng,
              trace := e.trace ++
                (List.range' i k).map (fun m => Event.fail (cfg.C * id % 2 ^ 32 + (start + m) % cfg.C)) ++
                [Event.acquire (cfg.C * id % 2 ^ 32 + (start + (i + k)) % cfg.C)] }) := by
  intro k
  induction k with
  | zero =>
    intro n i fi0 e hk _ _ hfree
    obtain ⟨g, hg, hu⟩ := lock_word_some hfree
    obtain ⟨n1, rfl⟩ : ∃ n1, n = n1 + 1 := ⟨n - 1, by omega⟩
    refine ⟨g, hg, ?_⟩
    unfold probe_first
    simp only [Nat.add_zero] at hg ⊢
    rw [try_lock_free e _ g hg hu]
    simp
  | succ k ih =>
    intro n i fi0 e hk hsum hlocked hfree
    obtain ⟨n1, rfl⟩ : ∃ n1, n = n1 + 1 := ⟨n - 1, by omega⟩
    obtain ⟨g0, hg0, hu0⟩ := lock_word_some (hlocked 0 (by omega))
    simp only [Nat.add_zero] at hg0
    have hi3 : i ≠ 3 := by omega
    obtain ⟨g, hg, hpf⟩ := ih n1 (i + 1) (some (cfg.C * id % 2 ^ 32 + (start + i) % cfg.C))
      ({ e with trace := e.trace ++ [Event.fail (cfg.C * id % 2 ^ 32 + (start + i) % cfg.C)] } : exec α H)
      (by omega) (by omega)
      (fun m hm => by
        have := hlocked (m + 1) (by omega)
        rw [show i + 1 + m = i + (m + 1) by omega]
        exact this)
      (by rw [show i + 1 + k = i + (k + 1) by omega]; exact hfree)
    rw [show i + 1 + k = i + (k + 1) by omega] at hg hpf
    refine ⟨g, hg, ?_⟩
    unfold probe_first
    rw [try_lock_held e _ g0 hg0 hu0]
    simp only [if_neg hi3]
    rw [hpf]
    simp [List.range'_succ]

/-- The local probing loop, from round `i` with `n` rounds left: if the slots of all
remaining rounds are locked, the result is that of the global probing loop that follows
the failed attempt of round 3. -/
theorem probe_first_global (id start : Nat) :
    ∀ (n i : Nat) (fi0 : Option Nat) (e : exec α H), 1 ≤ n → n + i = 4 →
      (∀ m, m < n → lock_word e.mq (cfg.C * id % 2 ^ 32 + (start + (i + m)) % cfg.C) = some true) →
      probe_first cfg id start n i fi0 e =
        (lock_loop e.mq e.rng (e.trace ++
          (List.range' i n).map (fun m => Event.fail (cfg.C * id % 2 ^ 32 + (start + m) % cfg.C)))).map
          (fun p => (some p.1, p.2)) := by
  intro n
  induction n with
  | zero => intro i fi0 e h; omega
  | succ n ih =>
    intro i fi0 e _ hsum hlocked
    obtain ⟨g0, hg0, hu0⟩ := lock_word_some (hlocked 0 (by omega))
    simp only [Nat.add_zero] at hg0
    unfold probe_first
    rw [try_lock_held e _ g0 hg0 hu0]
    by_cases hi3 : i = 3
    · have hn0 : n = 0 := by omega
      subst hn0
      simp only [if_pos hi3]
      subst hi3
      simp only [List.range', List.map_cons, List.map_nil]
      cases hl : lock_loop e.mq e.rng
          (e.trace ++ [Event.fail (cfg.C * id % 2 ^ 32 + (start + 3) % cfg.C)]) with
      | none => simp
      | some p => obtain ⟨gi, e2⟩ := p; simp [probe_first]
    · simp only [if_neg hi3]
      rw [ih (i + 1) _ _ (by omega) (by omega) (fun m hm => by
        have := hlocked (m + 1) (by omega)
        rw [show i + 1 + m = i + (m + 1) by omega]
        exact this)]
      simp [List.range'_succ]

/-- What the local probing loop has done when it returns, from round `i` with `n` rounds
left: either it locked the first free slot it met, or all its slots were locked and the
global probing loop delivered the index. -/
theorem probe_first_shape (id start : Nat) :
    ∀ (n i : Nat) (fi0 fi : Option Nat) (e e1 : exec α H), 1 ≤ n → n + i = 4 →
      probe_first cfg id start n i fi0 e = some (fi, e1) →
      (∃ k, k < n ∧
        (∀ m, m < k → lock_word e.mq (cfg.C * id % 2 ^ 32 + (start + (i + m)) % cfg.C) = some true) ∧
        lock_word e.mq (cfg.C * id % 2 ^ 32 + (start + (i + k)) % cfg.C) = some false ∧
        fi = some (cfg.C * id % 2 ^ 32 + (start + (i + k)) % cfg.C)) ∨
      ((∀ m, m < n → lock_word e.mq (cfg.C * id % 2 ^ 32 + (start + (i + m)) % cfg.C) = some true) ∧
        ∃ gi, fi = some gi ∧
          lock_loop e.mq e.rng (e.trace ++
            (List.range' i n).map (fun m => Event.fail (cfg.C * id % 2 ^ 32 + (start + m) % cfg.C))) =
            some (gi, e1)) := by
  intro n
  induction n with
  | zero => intro i fi0 fi e e1 h; omega
  | succ n ih =>
    intro i fi0 fi e e1 _ hsum h
    cases hq : e.mq.heap_list_[cfg.C * id % 2 ^ 32 + (start + i) % cfg.C]? with
    | none =>
      unfold probe_first try_lock at h
      rw [hq] at h
      simp at h
    | some g0 =>
      cases hu0 : g0.in_use with
      | false =>
        left
        have hw : lock_word e.mq (cfg.C * id % 2 ^ 32 + (start + (i + 0)) % cfg.C) = some false := by
          simp only [Nat.add_zero, lock_word, hq, Option.map_some', hu0]
        obtain ⟨g, hg, hpf⟩ := probe_first_local id start 0 (n + 1) i fi0 e (by omega) hsum
          (fun m hm => absurd hm (by omega)) hw
        rw [hpf] at h
        simp only [Option.some.injEq, Prod.mk.injEq] at h
        exact ⟨0, by omega, fun m hm => absurd hm (by omega), hw, h.1.symm⟩
      | true =>
        have hw0 : lock_word e.mq (cfg.C * id % 2 ^ 32 + (start + i) % cfg.C) = some true := by
          simp only [lock_word, hq, Option.map_some', hu0]
        by_cases hn0 : n = 0
        · right
          subst hn0
          have hall : ∀ m, m < 0 + 1 →
              lock_word e.mq (cfg.C * id % 2 ^ 32 + (start + (i + m)) % cfg.C) = some true := by
            intro m hm
            have : m = 0 := by omega
            subst this
            exact hw0
          rw [probe_first_global id start 1 i fi0 e (by omega) hsum hall] at h
          refine ⟨hall, ?_⟩
          cases hl : lock_loop e.mq e.rng (e.trace ++
              (List.range' i (0 + 1)).map
                (fun m => Event.fail (cfg.C * id % 2 ^ 32 + (start + m) % cfg.C))) with
          | none =>
            simp only [Nat.zero_add] at hl
            simp only [hl, Option.map_none'] at h
            exact absurd h (by simp)
          | some p =>
            obtain ⟨gi, e2⟩ := p
            simp only [Nat.zero_add] at hl
            simp only [hl, Option.map_some', Option.some.injEq, Prod.mk.injEq] at h
            exact ⟨gi, h.1.symm, by rw [h.2]⟩
        · have hi3 : i ≠ 3 := by omega
          unfold probe_first at h
          rw [try_lock_held e _ g0 hq hu0] at h
          simp only [if_neg hi3] at h
          rcases ih (i + 1) _ fi _ e1 (by omega) (by omega) h with hloc | hglob
          · left
            obtain ⟨k, hk, hlk, hfk, hfi⟩ := hloc
            simp only at hlk hfk
            refine ⟨k + 1, by omega, ?_, ?_, ?_⟩
            · intro m hm
              cases m with
              | zero => exact hw0
              | succ m =>
                have := hlk m (by omega)
                rw [show i + 1 + m = i + (m + 1) by omega] at this
                exact this
            · rw [show i + 1 + k = i + (k + 1) by omega] at hfk
              exact hfk
            · rw [show i + 1 + k = i + (k + 1) by omega] at hfi
              exact hfi
          · right
            obtain ⟨hall, gi, hfi, hl⟩ := hglob
            simp only at hall hl
            refine ⟨?_, gi, hfi, ?_⟩
            · intro m hm
              cases m with
              | zero => exact hw0
              | succ m =>
                have := hall m (by omega)
                rw [show i + 1 + m = i + (m + 1) by omega] at this
                exact this
            · rw [← hl]
              simp [List.range'_succ]

/-- Adding a fixed offset and reducing modulo `C` permutes the residues below `C`. -/
theorem shifted_residues_perm (C s : Nat) :
    ((List.range C).map (fun i => (s + i) % C)).Perm (List.range C) := by
  by_cases hC : C = 0
  · subst hC; simp
  have hpos : 0 < C := Nat.pos_of_ne_zero hC
  have hnd : ((List.range C).map (fun i => (s + i) % C)).Nodup := by
    refine List.Nodup.map_on ?_ (List.nodup_range C)
    intro a ha b hb hab
    have ha' := List.mem_range.mp ha
    have hb' := List.mem_range.mp hb
    have h1 : a % C = b % C := Nat.ModEq.add_left_cancel' s hab
    rwa [Nat.mod_eq_of_lt ha', Nat.mod_eq_of_lt hb'] at h1
  have hsub : (List.range C).map (fun i => (s + i) % C) ⊆ List.range C := by
    intro x hx
    obtain ⟨i, -, rfl⟩ := List.mem_map.mp hx
    exact List.mem_range.mpr (Nat.mod_lt _ hpos)
  exact (List.subperm_of_subset hnd hsub).perm_of_length_le (by simp)

/-- The local probing walk visits every index of the home block exactly once. -/
theorem home_walk_perm (cfg : Configuration) (id start : Nat) :
    (home_walk cfg id start).Perm (List.range' (cfg.C * id % 2 ^ 32) cfg.C) := by
  have h1 : home_walk cfg id start =
      ((List.range cfg.C).map (fun i => (start + i) % cfg.C)).map (fun j => cfg.C * id % 2 ^ 32 + j) := by
    simp [home_walk, List.map_map, Function.comp_def]
  have h2 : List.range' (cfg.C * id % 2 ^ 32) cfg.C =
      (List.range cfg.C).map (fun j => cfg.C * id % 2 ^ 32 + j) := by
    rw [List.range'_eq_map_range]
  rw [h1, h2]
  exact (shifted_residues_perm cfg.C start).map _

/-- With `C = 4` the local probing loop, when it returns, has acquired exactly one lock,
that of the queue it reports as `first_index`. -/
theorem probe_first_acquired (hC : cfg.C = 4) (mq : numa_aware_merge_mq α H)
    (id start : Nat) (rs : List Nat) (fi : Option Nat) (e1 : exec α H)
    (h : probe_first cfg id start cfg.C 0 none { mq := mq, rng := rs, trace := [] } =
      some (fi, e1)) :
    ∃ idx, fi = some idx ∧ lock_ok [idx] e1 ∧ acquired e1.trace = [idx] := by
  have hok0 : lock_ok [] ({ mq := mq, rng := rs, trace := [] } : exec α H) :=
    ⟨rfl, List.nodup_nil, fun k hk => absurd hk (List.not_mem_nil k)⟩
  obtain ⟨idx, hidx, hok⟩ := probe_first_ok id start cfg.C 0 none fi _ e1 (by omega)
    (by omega) hok0 h
  subst hidx
  refine ⟨idx, rfl, hok, ?_⟩
  rcases probe_first_shape id start cfg.C 0 none _ _ e1 (by omega) (by omega) h with
    hloc | hglob
  · obtain ⟨k, hk, hlk, hfk, hfi⟩ := hloc
    simp only [Option.some.injEq] at hfi
    obtain ⟨g, hg, hpf⟩ := probe_first_local id start k cfg.C 0 none
      ({ mq := mq, rng := rs, trace := [] } : exec α H) hk (by omega) hlk hfk
    rw [h] at hpf
    simp only [Option.some.injEq, Prod.mk.injEq] at hpf
    rw [hpf.2]
    simp only [List.nil_append, acquired_append, acquired_fails]
    rw [hfi]
    rfl
  · obtain ⟨-, gi, hfi, hl⟩ := hglob
    simp only [Option.some.injEq] at hfi
    subst hfi
    obtain ⟨g, -, -, -, hacq, -⟩ := lock_loop_inv _ _ _ _ _ hl
    rw [hacq]
    simp only [List.nil_append, acquired_fails]

/-- C22: in `extract_top` with `C = 4` and offset `start`, (1) the walk
`C * id + (start + i) % C`, `i < C`, visits every index of the home block exactly once;
(2) the first lock acquired is that of the first unlocked queue of the walk, after one
failed attempt on each earlier one and without a global sample; (3) if all `C` queues of
the walk are locked, the first lock is the one the global probing loop delivers after the
`C` failed attempts; (4) whenever the probing phase ends, it has done one of the two, and
the caller holds exactly one lock, that of `first_index`. -/
theorem first_lock_is_first_free_home_slot (hC : cfg.C = 4)
    (mq : numa_aware_merge_mq α H) (id start : Nat) (rs : List Nat) :
    (home_walk cfg id start).Perm (List.range' (cfg.C * id % 2 ^ 32) cfg.C) ∧
    (∀ k, k < cfg.C →
      (∀ m, m < k → lock_word mq (cfg.C * id % 2 ^ 32 + (start + m) % cfg.C) = some true) →
      lock_word mq (cfg.C * id % 2 ^ 32 + (start + k) % cfg.C) = some false →
      ∃ e1, probe_first cfg id start cfg.C 0 none { mq := mq, rng := rs, trace := [] } =
          some (some (cfg.C * id % 2 ^ 32 + (start + k) % cfg.C), e1) ∧
        e1.rng = rs ∧
        e1.trace = (List.range k).map (fun m => Event.fail (cfg.C * id % 2 ^ 32 + (start + m) % cfg.C)) ++
          [Event.acquire (cfg.C * id % 2 ^ 32 + (start + k) % cfg.C)] ∧
        lock_ok [cfg.C * id % 2 ^ 32 + (start + k) % cfg.C] e1) ∧
    ((∀ m, m < cfg.C → lock_word mq (cfg.C * id % 2 ^ 32 + (start + m) % cfg.C) = some true) →
      probe_first cfg id start cfg.C 0 none { mq := mq, rng := rs, trace := [] } =
        (lock_loop mq rs
          ((List.range cfg.C).map
            (fun m => Event.fail (cfg.C * id % 2 ^ 32 + (start + m) % cfg.C)))).map
          (fun p => (some p.1, p.2))) ∧
    (∀ fi e1, probe_first cfg id start cfg.C 0 none { mq := mq, rng := rs, trace := [] } =
        some (fi, e1) →
      ∃ idx, fi = some idx ∧ lock_ok [idx] e1 ∧ acquired e1.trace = [idx] ∧
        ((∃ k, k < cfg.C ∧
            (∀ m, m < k → lock_word mq (cfg.C * id % 2 ^ 32 + (start + m) % cfg.C) = some true) ∧
            lock_word mq (cfg.C * id % 2 ^ 32 + (start + k) % cfg.C) = some false ∧
            idx = cfg.C * id % 2 ^ 32 + (start + k) % cfg.C ∧ e1.rng = rs) ∨
          ((∀ m, m < cfg.C → lock_word mq (cfg.C * id % 2 ^ 32 + (start + m) % cfg.C) = some true) ∧
            lock_loop mq rs
              ((List.range cfg.C).map
                (fun m => Event.fail (cfg.C * id % 2 ^ 32 + (start + m) % cfg.C))) = some (idx, e1)))) := by
  have hok0 : lock_ok [] ({ mq := mq, rng := rs, trace := [] } : exec α H) :=
    ⟨rfl, List.nodup_nil, fun k hk => absurd hk (List.not_mem_nil k)⟩
  have hlocal : ∀ k, k < cfg.C →
      (∀ m, m < k → lock_word mq (cfg.C * id % 2 ^ 32 + (start + m) % cfg.C) = some true) →
      lock_word mq (cfg.C * id % 2 ^ 32 + (start + k) % cfg.C) = some false →
      ∃ e1, probe_first cfg id start cfg.C 0 none { mq := mq, rng := rs, trace := [] } =
          some (some (cfg.C * id % 2 ^ 32 + (start + k) % cfg.C), e1) ∧
        e1.rng = rs ∧
        e1.trace = (List.range k).map (fun m => Event.fail (cfg.C * id % 2 ^ 32 + (start + m) % cfg.C)) ++
          [Event.acquire (cfg.C * id % 2 ^ 32 + (start + k) % cfg.C)] ∧
        lock_ok [cfg.C * id % 2 ^ 32 + (start + k) % cfg.C] e1 := by
    intro k hk hlocked hfree
    obtain ⟨g, hg, hpf⟩ := probe_first_local id start k cfg.C 0 none
      ({ mq := mq, rng := rs, trace := [] } : exec α H) hk (by omega)
      (fun m hm => by simpa using hlocked m hm) (by simpa using hfree)
    simp only [Nat.zero_add, List.nil_append] at hpf hg
    refine ⟨_, hpf, rfl, ?_, ?_⟩
    · simp [List.range_eq_range']
    · obtain ⟨idx, hidx, hok⟩ := probe_first_ok id start cfg.C 0 none _ _ _ (by omega)
        (by omega) hok0 hpf
      simp only [Option.some.injEq] at hidx
      subst hidx
      exact hok
  have hglobal : (∀ m, m < cfg.C →
        lock_word mq (cfg.C * id % 2 ^ 32 + (start + m) % cfg.C) = some true) →
      probe_first cfg id start cfg.C 0 none { mq := mq, rng := rs, trace := [] } =
        (lock_loop mq rs
          ((List.range cfg.C).map
            (fun m => Event.fail (cfg.C * id % 2 ^ 32 + (start + m) % cfg.C)))).map
          (fun p => (some p.1, p.2)) := by
    intro hall
    rw [probe_first_global id start cfg.C 0 none _ (by omega) (by omega)
      (fun m hm => by simpa using hall m hm)]
    simp [List.range_eq_range']
  refine ⟨home_walk_perm cfg id start, hlocal, hglobal, ?_⟩
  intro fi e1 h
  obtain ⟨idx, hidx, hok⟩ := probe_first_ok id start cfg.C 0 none fi _ e1 (by omega)
    (by omega) hok0 h
  subst hidx
  rcases probe_first_shape id start cfg.C 0 none _ _ e1 (by omega) (by omega) h with
    hloc | hglob
  · obtain ⟨k, hk, hlk, hfk, hfi⟩ := hloc
    simp only [Nat.zero_add] at hlk hfk hfi
    simp only [Option.some.injEq] at hfi
    obtain ⟨e2, h2, hrng, htr, -⟩ := hlocal k hk hlk hfk
    rw [h] at h2
    simp only [Option.some.injEq, Prod.mk.injEq] at h2
    obtain ⟨-, he⟩ := h2
    subst he
    refine ⟨idx, rfl, hok, ?_, Or.inl ⟨k, hk, hlk, hfk, hfi, hrng⟩⟩
    rw [htr, acquired_append, acquired_fails, hfi]
    rfl
  · obtain ⟨hall, gi, hfi, hl⟩ := hglob
    simp only [Nat.zero_add, List.nil_append] at hall hl
    simp only [Option.some.injEq] at hfi
    subst hfi
    have hl2 : lock_loop mq rs ((List.range cfg.C).map
        (fun m => Event.fail (cfg.C * id % 2 ^ 32 + (start + m) % cfg.C))) = some (idx, e1) := by
      rw [← hl]; simp [List.range_eq_range']
    obtain ⟨g, -, -, -, hacq, -⟩ := lock_loop_inv mq _ _ _ _ hl2
    refine ⟨idx, rfl, hok, ?_, Or.inr ⟨hall, hl2⟩⟩
    rw [hacq, acquired_fails]
    rfl

theorem first_lock_is_first_free_home_slot_witness :
    ∃ e1, probe_first small_cfg 0 3 small_cfg.C 0 none
        { mq := sample_mq, rng := [5], trace := [] } = some (some 0, e1) ∧
      e1.rng = [5] ∧ e1.trace = [Event.fail 3, Event.acquire 0] ∧ lock_ok [0] e1 :=
  (first_lock_is_first_free_home_slot (rfl : small_cfg.C = 4) sample_mq 0 3 [5]).2.1 1
    (by decide) (by decide) (by decide)

end probe_shape

/-! ## The multiqueue: the trace records every change of a lock word -/

section faithful

variable {α H : Type}

theorem apply_events_append (a : List Event) :
    ∀ (w : List Bool) (b : List Event),
      apply_events w (a ++ b) = apply_events (apply_events w a) b := by
  induction a with
  | nil => intro w b; rfl
  | cons ev a ih =>
    intro w b
    cases ev <;> simp only [List.cons_append, apply_events] <;> exact ih _ _

theorem follows_refl (e : exec α H) : e.follows e :=
  ⟨[], by simp, rfl, fun ev hev => absurd hev (List.not_mem_nil ev), rfl⟩

theorem follows_trans {e e1 e2 : exec α H} (h1 : e.follows e1) (h2 : e1.follows e2) :
    e.follows e2 := by
  obtain ⟨a, ha1, ha2, ha3, ha4⟩ := h1
  obtain ⟨b, hb1, hb2, hb3, hb4⟩ := h2
  refine ⟨a ++ b, ?_, ?_, ?_, ?_⟩
  · rw [hb1, ha1, List.append_assoc]
  · rw [hb2, ha2, apply_events_append]
  · intro ev hev
    rcases List.mem_append.mp hev with h | h
    · exact ha3 ev h
    · rw [← ha4]; exact hb3 ev h
  · rw [hb4, ha4]

theorem lock_words_store (mq : numa_aware_merge_mq α H) (i : Nat) (g : guarded_heap α H) :
    lock_words (mq.store i g) = (lock_words mq).set i g.in_use := by
  simp [lock_words, numa_aware_merge_mq.store, List.map_set]

theorem lock_words_store_same (mq : numa_aware_merge_mq α H) (i : Nat)
    (g0 g : guarded_heap α H) (h : mq.heap_list_[i]? = some g0) (hu : g.in_use = g0.in_use) :
    lock_words (mq.store i g) = lock_words mq := by
  rw [lock_words_store]
  apply List.ext_getElem?
  intro k
  rw [List.getElem?_set]
  split
  · next hik =>
    subst hik
    have hlt : i < (lock_words mq).length := by
      simp only [lock_words, List.length_map]; exact lt_of_get h
    simp only [hlt, if_true]
    simp only [lock_words, List.getElem?_map, h, Option.map_some', hu]
  · rfl

theorem store_length (mq : numa_aware_merge_mq α H) (i : Nat) (g : guarded_heap α H) :
    (mq.store i g).heap_list_.length = mq.heap_list_.length := by
  simp [numa_aware_merge_mq.store]

theorem try_lock_follows (i : Nat) (e e1 : exec α H) (b : Bool)
    (h : try_lock i e = some (b, e1)) : e.follows e1 := by
  unfold try_lock at h
  cases hq : e.mq.heap_list_[i]? with
  | none => rw [hq] at h; simp at h
  | some g =>
    rw [hq] at h
    simp only at h
    have hlt := lt_of_get hq
    cases hu : g.in_use with
    | true =>
      rw [hu] at h
      simp only [if_true, Option.some.injEq, Prod.mk.injEq] at h
      obtain ⟨-, he⟩ := h
      subst he
      exact ⟨[Event.fail i], rfl, rfl, by simpa [Event.index] using hlt, rfl⟩
    | false =>
      rw [hu] at h
      simp only [Bool.false_eq_true, if_false, Option.some.injEq, Prod.mk.injEq] at h
      obtain ⟨-, he⟩ := h
      subst he
      exact ⟨[Event.acquire i], rfl, by simp [apply_events, lock_words_store],
        by simpa [Event.index] using hlt, store_length _ _ _⟩

theorem unlock_follows (i : Nat) (e e1 : exec α H) (h : unlock i e = some e1) :
    e.follows e1 := by
  unfold unlock at h
  cases hq : e.mq.heap_list_[i]? with
  | none => rw [hq] at h; simp at h
  | some g =>
    rw [hq] at h
    simp only [Option.some.injEq] at h
    subst h
    exact ⟨[Event.release i], rfl, by simp [apply_events, lock_words_store],
      by simpa [Event.index] using lt_of_get hq, store_length _ _ _⟩

theorem on_queue_some (i : Nat) (f : guarded_heap α H → Option (guarded_heap α H))
    (e e1 : exec α H) (h : on_queue i f e = some e1) :
    ∃ g g1, e.mq.heap_list_[i]? = some g ∧ f g = some g1 ∧
      e1 = { mq := e.mq.store i g1, rng := e.rng, trace := e.trace ++ [Event.access i] } := by
  unfold on_queue at h
  cases hq : e.mq.heap_list_[i]? with
  | none => rw [hq] at h; simp at h
  | some g =>
    rw [hq] at h
    simp only at h
    cases hfg : f g with
    | none => rw [hfg] at h; simp at h
    | some g1 =>
      rw [hfg] at h
      simp only [Option.map_some', Option.some.injEq] at h
      exact ⟨g, g1, rfl, hfg, h.symm⟩

theorem on_queue_follows (i : Nat) (f : guarded_heap α H → Option (guarded_heap α H))
    (hf : ∀ g g1, f g = some g1 → g1.in_use = g.in_use)
    (e e1 : exec α H) (h : on_queue i f e = some e1) : e.follows e1 := by
  obtain ⟨g, g1, hq, hfg, he⟩ := on_queue_some i f e e1 h
  subst he
  exact ⟨[Event.access i], rfl,
    by simp only [apply_events]; exact lock_words_store_same _ _ g g1 hq (hf _ _ hfg),
    by simpa [Event.index] using lt_of_get hq, store_length _ _ _⟩

theorem read_deletion_buffer_some (i : Nat) (e e1 : exec α H) (d : List α)
    (h : read_deletion_buffer i e = some (d, e1)) :
    ∃ g, e.mq.heap_list_[i]? = some g ∧ d = g.deletion_buffer ∧
      e1 = { mq := e.mq, rng := e.rng, trace := e.trace ++ [Event.access i] } := by
  unfold read_deletion_buffer at h
  cases hq : e.mq.heap_list_[i]? with
  | none => rw [hq] at h; simp at h
  | some g =>
    rw [hq] at h
    simp only [Option.some.injEq, Prod.mk.injEq] at h
    exact ⟨g, rfl, h.1.symm, h.2.symm⟩

theorem read_deletion_buffer_follows (i : Nat) (e e1 : exec α H) (d : List α)
    (h : read_deletion_buffer i e = some (d, e1)) : e.follows e1 := by
  obtain ⟨g, hq, -, he⟩ := read_deletion_buffer_some i e e1 d h
  subst he
  exact ⟨[Event.access i], rfl, rfl, by simpa [Event.index] using lt_of_get hq, rfl⟩

theorem take_front_follows (i : Nat) (e : exec α H) (r : extract_result α H)
    (h : take_front i e = some r) :
    e.follows { mq := r.mq, rng := r.rng, trace := r.trace } := by
  unfold take_front at h
  cases hq : e.mq.heap_list_[i]? with
  | none => rw [hq] at h; simp at h
  | some g =>
    rw [hq] at h
    simp only at h
    cases hpf : g.pop_front with
    | none => rw [hpf] at h; simp at h
    | some vg =>
      obtain ⟨v, g1⟩ := vg
      rw [hpf] at h
      simp only at h
      have hu1 : g1.in_use = g.in_use := by
        unfold guarded_heap.pop_front at hpf
        cases hd : g.deletion_buffer with
        | nil => rw [hd] at hpf; simp at hpf
        | cons a l =>
          rw [hd] at hpf
          simp only [Option.some.injEq, Prod.mk.injEq] at hpf
          rw [← hpf.2]
      cases hun : unlock i ({ mq := e.mq.store i g1, rng := e.rng,
                              trace := e.trace ++ [Event.access i] } : exec α H) with
      | none => rw [hun] at h; simp at h
      | some e1 =>
        rw [hun] at h
        simp only [Option.map_some', Option.some.injEq] at h
        subst h
        have h1 : e.follows (⟨e.mq.store i g1, e.rng, e.trace ++ [Event.access i]⟩ : exec α H) :=
          ⟨[Event.access i], rfl,
            by simp only [apply_events]; exact lock_words_store_same _ _ g g1 hq hu1,
            by simpa [Event.index] using lt_of_get hq, store_length _ _ _⟩
        exact follows_trans h1 (unlock_follows i _ _ hun)

theorem lock_loop_follows (mq : numa_aware_merge_mq α H) :
    ∀ (rs : List Nat) (tr : List Event) (rng0 : List Nat) (j : Nat) (e1 : exec α H),
      lock_loop mq rs tr = some (j, e1) →
      exec.follows ({ mq := mq, rng := rng0, trace := tr } : exec α H) e1 := by
  intro rs
  induction rs with
  | nil => intro tr rng0 j e1 h; simp [lock_loop] at h
  | cons r rs ih =>
    intro tr rng0 j e1 h
    unfold lock_loop at h
    cases ht : try_lock (random_queue_index mq r)
        ({ mq := mq, rng := rs, trace := tr } : exec α H) with
    | none => rw [ht] at h; simp at h
    | some be =>
      obtain ⟨b, e2⟩ := be
      rw [ht] at h
      have hf := try_lock_follows _ _ _ _ ht
      have hf0 : exec.follows ({ mq := mq, rng := rng0, trace := tr } : exec α H) e2 := hf
      cases b with
      | true =>
        simp only [Option.some.injEq, Prod.mk.injEq] at h
        obtain ⟨-, he⟩ := h
        subst he
        exact hf0
      | false =>
        simp only at h
        have hmq : e2.mq = mq := by
          unfold try_lock at ht
          cases hq : mq.heap_list_[random_queue_index mq r]? with
          | none => simp only [hq] at ht; exact absurd ht (by simp)
          | some g =>
            simp only [hq] at ht
            split_ifs at ht
            · simp only [Option.some.injEq, Prod.mk.injEq] at ht
              rw [← ht.2]
            · simp at ht
        have h2 := ih e2.trace e2.rng j e1 h
        have he2 : e2 = (⟨mq, e2.rng, e2.trace⟩ : exec α H) := by
          cases e2; simp only at hmq; subst hmq; rfl
        rw [← he2] at h2
        exact follows_trans hf0 h2

theorem unlock_lt (i : Nat) (e e1 : exec α H) (h : unlock i e = some e1) :
    i < e.mq.heap_list_.length ∧ e1.mq.heap_list_.length = e.mq.heap_list_.length := by
  unfold unlock at h
  cases hq : e.mq.heap_list_[i]? with
  | none => rw [hq] at h; simp at h
  | some g =>
    rw [hq] at h
    simp only [Option.some.injEq] at h
    subst h
    exact ⟨lt_of_get hq, store_length _ _ _⟩

theorem take_front_lt (i : Nat) (e : exec α H) (r : extract_result α H)
    (h : take_front i e = some r) : i < e.mq.heap_list_.length := by
  unfold take_front at h
  cases hq : e.mq.heap_list_[i]? with
  | none => rw [hq] at h; simp at h
  | some g => exact lt_of_get hq

theorem probe_first_follows {cfg : Configuration} (id start : Nat) :
    ∀ (n i : Nat) (fi0 fi : Option Nat) (e e1 : exec α H),
      probe_first cfg id start n i fi0 e = some (fi, e1) → e.follows e1 := by
  intro n
  induction n with
  | zero =>
    intro i fi0 fi e e1 h
    simp only [probe_first, Option.some.injEq, Prod.mk.injEq] at h
    rw [← h.2]
    exact follows_refl e
  | succ n ih =>
    intro i fi0 fi e e1 h
    unfold probe_first at h
    cases ht : try_lock (cfg.C * id % 2 ^ 32 + (start + i) % cfg.C) e with
    | none => rw [ht] at h; simp at h
    | some be =>
      obtain ⟨b, e2⟩ := be
      rw [ht] at h
      have hf := try_lock_follows _ _ _ _ ht
      cases b with
      | true =>
        simp only [Option.some.injEq, Prod.mk.injEq] at h
        rw [← h.2]
        exact hf
      | false =>
        simp only at h
        by_cases hi3 : i = 3
        · rw [if_pos hi3] at h
          cases hl : lock_loop e2.mq e2.rng e2.trace with
          | none => rw [hl] at h; simp at h
          | some ge =>
            obtain ⟨gi, e3⟩ := ge
            rw [hl] at h
            simp only at h
            have h3 : e2.follows e3 := lock_loop_follows e2.mq e2.rng e2.trace e2.rng gi e3 hl
            exact follows_trans hf (follows_trans h3 (ih _ _ _ _ _ h))
        · rw [if_neg hi3] at h
          exact follows_trans hf (ih _ _ _ _ _ h)

end faithful

section faithful_ops

variable {Key T H : Type} {hp : merge_heap (Key × T) H} {cfg : Configuration}
  {comp : Key → Key → Bool}

/-- Every change `push` makes to a lock word is recorded in its trace. -/
theorem push_follows (mq : numa_aware_merge_mq (Key × T) H) (v : Key × T)
    (rng : List Nat) (e : exec (Key × T) H) (h : mq.push hp cfg comp v rng = some e) :
    exec.follows ({ mq := mq, rng := rng, trace := [] } : exec (Key × T) H) e := by
  unfold numa_aware_merge_mq.push at h
  cases hl : lock_loop mq rng [] with
  | none => rw [hl] at h; simp at h
  | some je =>
    obtain ⟨j, e1⟩ := je
    rw [hl] at h
    simp only at h
    have h1 := lock_loop_follows mq rng [] rng j e1 hl
    cases ho : on_queue j (fun g => g.push hp cfg (value_comparator comp) v) e1 with
    | none => rw [ho] at h; simp at h
    | some e2 =>
      rw [ho] at h
      simp only [Option.some_bind] at h
      have h2 := on_queue_follows j _ (fun g g1 hg => push_keeps_in_use g g1 v hg) e1 e2 ho
      exact follows_trans h1 (follows_trans h2 (unlock_follows j e2 e h))

theorem extract_top_second_follows (first_index : Nat) (d1 : List (Key × T))
    (e4 : exec (Key × T) H) (r : extract_result (Key × T) H)
    (h : extract_top_second hp cfg comp first_index d1 e4 = some r) :
    e4.follows { mq := r.mq, rng := r.rng, trace := r.trace } := by
  unfold extract_top_second at h
  cases hl : lock_loop e4.mq e4.rng e4.trace with
  | none => rw [hl] at h; simp at h
  | some je =>
    obtain ⟨j, e5⟩ := je
    rw [hl] at h
    simp only [Option.some_bind] at h
    have h5 : e4.follows e5 := lock_loop_follows e4.mq e4.rng e4.trace e4.rng j e5 hl
    cases ho : on_queue j (refill_if_empty hp cfg (value_comparator comp)) e5 with
    | none => rw [ho] at h; simp at h
    | some e6 =>
      rw [ho] at h
      simp only [Option.some_bind] at h
      have h6 := follows_trans h5 (on_queue_follows j _
        (fun g g1 hg => refill_if_empty_keeps_in_use g g1 hg) e5 e6 ho)
      cases hr : read_deletion_buffer j e6 with
      | none => rw [hr] at h; simp at h
      | some de =>
        obtain ⟨d2, e7⟩ := de
        rw [hr] at h
        simp only [Option.some_bind] at h
        have h7 := follows_trans h6 (read_deletion_buffer_follows j e6 e7 d2 hr)
        by_cases hd2 : d2.isEmpty = true
        · simp only [hd2, if_true] at h
          cases hu : unlock j e7 with
          | none => rw [hu] at h; simp at h
          | some e8 =>
            rw [hu] at h
            simp only [Option.some_bind] at h
            have h8 := follows_trans h7 (unlock_follows j e7 e8 hu)
            by_cases hd1 : d1.isEmpty = true
            · simp only [hd1, if_true, Option.some.injEq] at h
              subst h
              exact h8
            · simp only [hd1, Bool.false_eq_true, if_false] at h
              exact follows_trans h8 (take_front_follows first_index e8 r h)
        · simp only [hd2, Bool.false_eq_true, if_false] at h
          by_cases hd1 : d1.isEmpty = true
          · simp only [hd1, if_true, Bool.not_true, Bool.false_eq_true, if_false,
              Option.some_bind] at h
            exact follows_trans h7 (take_front_follows j e7 r h)
          · simp only [hd1, Bool.false_eq_true, if_false] at h
            cases hh2 : d2.head? with
            | none => rw [hh2] at h; simp at h
            | some f2 =>
              cases hh1 : d1.head? with
              | none => rw [hh2, hh1] at h; simp at h
              | some f1 =>
                rw [hh2, hh1] at h
                simp only at h
                have hj : j < e7.mq.heap_list_.length := by
                  obtain ⟨g, hq, -, -⟩ := read_deletion_buffer_some j e6 e7 d2 hr
                  obtain ⟨g, hq, -, he⟩ := read_deletion_buffer_some j e6 e7 d2 hr
                  rw [he]
                  exact lt_of_get hq
                have h8 : first_index < e7.mq.heap_list_.length →
                    e7.follows (⟨e7.mq, e7.rng, e7.trace ++
                      [Event.access j, Event.access first_index]⟩ : exec (Key × T) H) := by
                  intro hfi
                  refine ⟨[Event.access j, Event.access first_index], rfl, rfl, ?_, rfl⟩
                  intro ev hev
                  simp only [List.mem_cons, List.mem_singleton, List.not_mem_nil, or_false] at hev
                  rcases hev with hev | hev
                  · subst hev; exact hj
                  · subst hev; exact hfi
                cases hc : comp f2.1 f1.1 with
                | true =>
                  rw [hc] at h
                  simp only [Bool.not_false, if_true] at h
                  cases hu : unlock first_index ({ e7 with trace := e7.trace ++
                      [Event.access j, Event.access first_index] } : exec (Key × T) H) with
                  | none => rw [hu] at h; simp at h
                  | some e9 =>
                    rw [hu] at h
                    simp only [Option.some_bind] at h
                    have hfi := (unlock_lt _ _ _ hu).1
                    exact follows_trans h7 (follows_trans (h8 hfi)
                      (follows_trans (unlock_follows _ _ _ hu) (take_front_follows j e9 r h)))
                | false =>
                  rw [hc] at h
                  simp only at h
                  cases hu : unlock j ({ e7 with trace := e7.trace ++
                      [Event.access j, Event.access first_index] } : exec (Key × T) H) with
                  | none => rw [hu] at h; simp at h
                  | some e9 =>
                    rw [hu] at h
                    simp only [Option.some_bind] at h
                    have hfi : first_index < e7.mq.heap_list_.length := by
                      have h1 := take_front_lt _ _ _ h
                      rw [(unlock_lt _ _ _ hu).2] at h1
                      exact h1
                    exact follows_trans h7 (follows_trans (h8 hfi)
                      (follows_trans (unlock_follows _ _ _ hu)
                        (take_front_follows first_index e9 r h)))

/-- Every change `extract_top` makes to a lock word is recorded in its trace. -/
theorem extract_top_follows (mq : numa_aware_merge_mq (Key × T) H) (id : Nat)
    (rng : List Nat) (r : extract_result (Key × T) H)
    (h : mq.extract_top hp cfg comp id rng = some r) :
    exec.follows ({ mq := mq, rng := rng, trace := [] } : exec (Key × T) H)
      { mq := r.mq, rng := r.rng, trace := r.trace } := by
  unfold numa_aware_merge_mq.extract_top at h
  cases rng with
  | nil => simp at h
  | cons r0 rs =>
    simp only at h
    cases hprobe : probe_first cfg id (random_local_queue_index cfg r0) cfg.C 0 none
        ({ mq := mq, rng := rs, trace := [] } : exec (Key × T) H) with
    | none => rw [hprobe] at h; simp at h
    | some pe =>
      obtain ⟨fi, e1⟩ := pe
      rw [hprobe] at h
      have h0 : exec.follows ({ mq := mq, rng := rs, trace := [] } : exec (Key × T) H)
          e1 := probe_first_follows id _ _ _ _ _ _ _ hprobe
      have h1 : exec.follows ({ mq := mq, rng := r0 :: rs, trace := [] } : exec (Key × T) H)
          e1 := h0
      cases fi with
      | none => simp at h
      | some i =>
        simp only at h
        cases ho : on_queue i (refill_if_empty hp cfg (value_comparator comp)) e1 with
        | none => rw [ho] at h; simp at h
        | some e2 =>
          rw [ho] at h
          simp only [Option.some_bind] at h
          have h2 := follows_trans h1 (on_queue_follows i _
            (fun g g1 hg => refill_if_empty_keeps_in_use g g1 hg) e1 e2 ho)
          cases hr : read_deletion_buffer i e2 with
          | none => rw [hr] at h; simp at h
          | some de =>
            obtain ⟨d1, e3⟩ := de
            rw [hr] at h
            simp only [Option.some_bind] at h
            have h3 := follows_trans h2 (read_deletion_buffer_follows i e2 e3 d1 hr)
            by_cases hd1 : d1.isEmpty = true
            · simp only [hd1, if_true] at h
              cases hu : unlock i e3 with
              | none => rw [hu] at h; simp at h
              | some e4 =>
                rw [hu] at h
                simp only [Option.some_bind] at h
                exact follows_trans h3 (follows_trans (unlock_follows i e3 e4 hu)
                  (extract_top_second_follows i d1 e4 r h))
            · simp only [hd1, Bool.false_eq_true, if_false, Option.some_bind] at h
              exact follows_trans h3 (extract_top_second_follows i d1 e3 r h)

end faithful_ops

/-! ## The lock discipline: what it implies for the lock words -/

section discipline_facts

end discipline_facts

/-! ## The multiqueue: lock words at return, and how many locks are held -/

section lock_claims

variable {Key T H : Type} {hp : merge_heap (Key × T) H} {cfg : Configuration}
  {comp : Key → Key → Bool}

/-- With `C = 4` the queue the probing phase locks was free before, and locking it is the
only change the phase makes to the multiqueue. -/
theorem probe_first_state {α : Type} (hC : cfg.C = 4) (mq : numa_aware_merge_mq α H)
    (id start : Nat) (rs : List Nat) (fi : Option Nat) (e1 : exec α H)
    (h : probe_first cfg id start cfg.C 0 none { mq := mq, rng := rs, trace := [] } =
      some (fi, e1)) :
    ∃ idx g, fi = some idx ∧ mq.heap_list_[idx]? = some g ∧ g.in_use = false ∧
      e1.mq = mq.store idx { g with in_use := true } ∧ lock_ok [idx] e1 ∧
      acquired e1.trace = [idx] := by
  obtain ⟨idx, hidx, hok, hacq⟩ := probe_first_acquired hC mq id start rs fi e1 h
  subst hidx
  rcases probe_first_shape id start cfg.C 0 none _ _ e1 (by omega) (by omega) h with
    hloc | hglob
  · obtain ⟨k, hk, hlk, hfk, hfi⟩ := hloc
    simp only [Option.some.injEq] at hfi
    obtain ⟨g, hg, hpf⟩ := probe_first_local id start k cfg.C 0 none
      ({ mq := mq, rng := rs, trace := [] } : exec α H) hk (by omega) hlk hfk
    rw [h] at hpf
    simp only [Option.some.injEq, Prod.mk.injEq] at hpf
    obtain ⟨g0, hg0, hu0⟩ := lock_word_some hfk
    simp only at hg hg0
    rw [hg] at hg0
    cases hg0
    refine ⟨idx, g, rfl, by rw [hfi]; exact hg, hu0, ?_, hok, hacq⟩
    rw [hpf.2, hfi]
  · obtain ⟨-, gi, hfi, hl⟩ := hglob
    simp only [Option.some.injEq] at hfi
    subst hfi
    obtain ⟨g, hg, hu, he, -, -⟩ := lock_loop_inv _ _ _ _ _ hl
    exact ⟨idx, g, rfl, hg, hu, he, hok, hacq⟩

/-- With `C = 4`, started from any state of the lock words, a returning `extract_top`
acquires exactly two locks: that of the first queue `i`, free before, and that of a
second queue `j`, which differs from `i` whenever the first queue is not empty after its
refill-if-empty step (its lock is then still held). -/
theorem extract_top_two_locks (hC : cfg.C = 4) (mq : numa_aware_merge_mq (Key × T) H)
    (id : Nat) (rng : List Nat) (r : extract_result (Key × T) H)
    (h : mq.extract_top hp cfg comp id rng = some r) :
    ∃ i j g1 g1r, mq.heap_list_[i]? = some g1 ∧ g1.in_use = false ∧
      refill_if_empty hp cfg (value_comparator comp) g1 = some g1r ∧
      acquired r.trace = [i, j] ∧ (g1r.deletion_buffer ≠ [] → j ≠ i) := by
  unfold numa_aware_merge_mq.extract_top at h
  cases rng with
  | nil => simp at h
  | cons r0 rs =>
    simp only at h
    cases hprobe : probe_first cfg id (random_local_queue_index cfg r0) cfg.C 0 none
        ({ mq := mq, rng := rs, trace := [] } : exec (Key × T) H) with
    | none => rw [hprobe] at h; simp at h
    | some pe =>
      obtain ⟨fi, e1⟩ := pe
      rw [hprobe] at h
      obtain ⟨i, g1, hfi, hq1, hu1, he1, hok1, hacq1⟩ :=
        probe_first_state hC mq id _ rs fi e1 hprobe
      subst hfi
      simp only at h
      have hilt := lt_of_get hq1
      have himem : i ∈ [i] := List.mem_singleton.mpr rfl
      cases ho : on_queue i (refill_if_empty hp cfg (value_comparator comp)) e1 with
      | none => rw [ho] at h; simp at h
      | some e2 =>
        rw [ho] at h
        simp only [Option.some_bind] at h
        have hok2 := on_queue_ok hok1 i himem _
          (fun g g1 hg => refill_if_empty_keeps_in_use g g1 hg) ho
        have hacq2 := on_queue_acquired i _ e1 e2 ho
        obtain ⟨gl, glr, hql, hrl, he2⟩ := on_queue_some i _ e1 e2 ho
        rw [he1, store_get_same _ _ _ hilt] at hql
        cases hql
        have hr1 : refill_if_empty hp cfg (value_comparator comp) g1 =
            some { glr with in_use := false } := by
          have h1 := @refill_if_empty_in_use _ _ hp cfg (value_comparator comp) g1 true
          rw [hrl] at h1
          have h2 := @refill_if_empty_in_use _ _ hp cfg (value_comparator comp) g1 g1.in_use
          rw [in_use_self g1 g1.in_use rfl] at h2
          cases hr0 : refill_if_empty hp cfg (value_comparator comp) g1 with
          | none => rw [hr0] at h1; simp at h1
          | some g1r0 =>
            rw [hr0] at h1 h2
            simp only [Option.map_some', Option.some.injEq] at h1 h2
            rw [h1]
            simp only [hu1] at h2
            rw [h2]
        cases hr : read_deletion_buffer i e2 with
        | none => rw [hr] at h; simp at h
        | some de =>
          obtain ⟨d1, e3⟩ := de
          rw [hr] at h
          simp only [Option.some_bind] at h
          have hok3 := read_deletion_buffer_ok hok2 i himem d1 hr
          have hacq3 := read_deletion_buffer_acquired i e2 e3 d1 hr
          obtain ⟨gd, hqd, hd1, -⟩ := read_deletion_buffer_some i e2 e3 d1 hr
          rw [he2] at hqd
          simp only at hqd
          rw [store_get_same _ _ _ (by rw [he1, store_length]; exact hilt)] at hqd
          cases hqd
          refine ⟨i, ?_⟩
          by_cases hd1e : d1.isEmpty = true
          · simp only [hd1e, if_true] at h
            cases hu : unlock i e3 with
            | none => rw [hu] at h; simp at h
            | some e4 =>
              rw [hu] at h
              simp only [Option.some_bind] at h
              have hacq4 := unlock_acquired i e3 e4 hu
              obtain ⟨j, e5, hl, hacq⟩ := extract_top_second_probe i d1 e4 r h
              obtain ⟨-, -, -, -, hacq5, -⟩ := lock_loop_inv _ _ _ _ _ hl
              refine ⟨j, g1, _, hq1, hu1, hr1, ?_, ?_⟩
              · rw [hacq, hacq5, hacq4, hacq3, hacq2, hacq1]; rfl
              · intro hne
                simp only [ne_eq] at hne
                rw [← hd1] at hne
                exact absurd (List.isEmpty_iff.mp hd1e) hne
          · simp only [hd1e, Bool.false_eq_true, if_false, Option.some_bind] at h
            obtain ⟨j, e5, hl, hacq⟩ := extract_top_second_probe i d1 e3 r h
            obtain ⟨-, -, -, -, hacq5, -⟩ := lock_loop_inv _ _ _ _ _ hl
            obtain ⟨hj, -⟩ := lock_loop_ok e3.mq [i] e3.rng e3.trace e3.rng j e5
              ⟨hok3.trace_ok, hok3.nodup, hok3.locked⟩ hl
            refine ⟨j, g1, _, hq1, hu1, hr1, ?_, ?_⟩
            · rw [hacq, hacq5, hacq3, hacq2, hacq1]; rfl
            · intro _ hc
              exact hj (List.mem_singleton.mpr hc)

/-- The global probing loop rejects a draw that names a locked queue and goes on with the
next draw. -/
theorem lock_loop_reject {α : Type} (mq : numa_aware_merge_mq α H) (r : Nat) (rs : List Nat)
    (tr : List Event) (h : lock_word mq (r % mq.num_queues_) = some true) :
    lock_loop mq (r :: rs) tr = lock_loop mq rs (tr ++ [Event.fail (r % mq.num_queues_)]) := by
  obtain ⟨g, hg, hu⟩ := lock_word_some h
  conv_lhs => unfold lock_loop
  rw [try_lock_held _ _ g hg hu]

/-- C21 (as amended): with `C = 4`, a returning `extract_top` acquires exactly two locks,
first that of a queue `i` and then that of a queue `j`, and `j` differs from `i` whenever
the first queue is not empty after its refill-if-empty step, that is, whenever its lock is
still held while the second queue is sampled; a sample that names a locked queue fails
its `try_lock` and the next draw is taken. -/
theorem second_lock_differs_while_first_held (hC : cfg.C = 4)
    (mq : numa_aware_merge_mq (Key × T) H) (id : Nat) (rng : List Nat)
    (r : extract_result (Key × T) H) (h : mq.extract_top hp cfg comp id rng = some r) :
    (∃ i j g1 g1r, mq.heap_list_[i]? = some g1 ∧
      refill_if_empty hp cfg (value_comparator comp) g1 = some g1r ∧
      acquired r.trace = [i, j] ∧ (g1r.deletion_buffer ≠ [] → j ≠ i)) ∧
    ∀ (mq1 : numa_aware_merge_mq (Key × T) H) (r1 : Nat) (rs : List Nat) (tr : List Event),
      lock_word mq1 (r1 % mq1.num_queues_) = some true →
      lock_loop mq1 (r1 :: rs) tr =
        lock_loop mq1 rs (tr ++ [Event.fail (r1 % mq1.num_queues_)]) := by
  obtain ⟨i, j, g1, g1r, hq1, -, hr1, hacq, hne⟩ := extract_top_two_locks hC mq id rng r h
  exact ⟨⟨i, j, g1, g1r, hq1, hr1, hacq, hne⟩,
    fun mq1 r1 rs tr hw => lock_loop_reject mq1 r1 rs tr hw⟩

theorem second_lock_differs_while_first_held_witness :
    ∃ r, sample_mq.extract_top pair_heap small_cfg std_less 0 [1, 1, 2] = some r ∧
      r.trace = [Event.acquire 1, Event.access 1, Event.access 1, Event.fail 1,
        Event.acquire 2, Event.access 2, Event.access 2, Event.access 2, Event.access 1,
        Event.release 1, Event.access 2, Event.release 2] ∧
      ∃ i j g1 g1r, sample_mq.heap_list_[i]? = some g1 ∧
        refill_if_empty pair_heap small_cfg (value_comparator std_less) g1 = some g1r ∧
        acquired r.trace = [i, j] ∧ (g1r.deletion_buffer ≠ [] → j ≠ i) :=
  ⟨_, rfl, rfl,
    (@second_lock_differs_while_first_held Nat Nat (List (Nat × Nat)) pair_heap small_cfg
      std_less (rfl : small_cfg.C = 4) sample_mq 0 [1, 1, 2] _ rfl).1⟩

/-- C21, the claim as stated fails: on a new multiqueue the first queue is found empty and
released, and the second sample names it again; `extract_top` locks queue 0 twice. -/
theorem second_lock_repeats_first_counterexample :
    ∃ r, empty_mq.extract_top pair_heap small_cfg std_less 0 [0, 0] = some r ∧
      r.ret = false ∧
      r.trace = [Event.acquire 0, Event.access 0, Event.access 0, Event.release 0,
        Event.acquire 0, Event.access 0, Event.access 0, Event.release 0] ∧
      acquired r.trace = [0, 0] :=
  ⟨_, rfl, rfl, rfl, rfl⟩

end lock_claims

/-! ## The multiqueue: every index lies inside the queue array -/

section indices

variable {Key T H : Type} {hp : merge_heap (Key × T) H} {cfg : Configuration}
  {comp : Key → Key → Bool}

theorem home_index_lt (P id j : Nat) (hid : id < P) (hj : j < cfg.C) :
    cfg.C * id % 2 ^ 32 + j < cfg.C * P := by
  have h1 : cfg.C * (id + 1) ≤ cfg.C * P := Nat.mul_le_mul_left _ hid
  rw [Nat.mul_add, Nat.mul_one] at h1
  omega

theorem init_touch_loop_total {α : Type} (cfg : Configuration) (touch : H → Nat → H)
    (id size : Nat) :
    ∀ (n i : Nat) (mq : numa_aware_merge_mq α H),
      cfg.C * id % 2 ^ 32 + (i + n) ≤ mq.heap_list_.length →
      ∃ mq1, init_touch_loop cfg touch id size n i mq = some mq1 ∧
        mq1.heap_list_.length = mq.heap_list_.length ∧ mq1.num_queues_ = mq.num_queues_ ∧
        lock_words mq1 = lock_words mq := by
  intro n
  induction n with
  | zero => intro i mq _; exact ⟨mq, rfl, rfl, rfl, rfl⟩
  | succ n ih =>
    intro i mq h
    have hlt : (cfg.C * id % 2 ^ 32 + i) % 2 ^ 32 < mq.heap_list_.length :=
      Nat.lt_of_le_of_lt (Nat.mod_le _ _) (by omega)
    have hq : mq.heap_list_[(cfg.C * id % 2 ^ 32 + i) % 2 ^ 32]? =
        some (mq.heap_list_[(cfg.C * id % 2 ^ 32 + i) % 2 ^ 32]) :=
      List.getElem?_eq_getElem hlt
    unfold init_touch_loop
    rw [hq]
    simp only
    obtain ⟨mq1, h1, h2, h3, h4⟩ := ih (i + 1)
      (mq.store ((cfg.C * id % 2 ^ 32 + i) % 2 ^ 32)
        { mq.heap_list_[(cfg.C * id % 2 ^ 32 + i) % 2 ^ 32] with
          heap := touch (mq.heap_list_[(cfg.C * id % 2 ^ 32 + i) % 2 ^ 32]).heap size })
      (by rw [store_length]; omega)
    refine ⟨mq1, h1, by rw [h2, store_length], by rw [h3]; rfl, ?_⟩
    rw [h4]
    exact lock_words_store_same mq _ _ _ hq rfl

theorem follows_index_lt {α : Type} (mq : numa_aware_merge_mq α H) (rng : List Nat)
    (e1 : exec α H)
    (h : exec.follows ({ mq := mq, rng := rng, trace := [] } : exec α H) e1) :
    ∀ ev ∈ e1.trace, ev.index < mq.heap_list_.length := by
  obtain ⟨evs, htr, -, hin, -⟩ := h
  simp only [List.nil_append] at htr
  rw [htr]
  exact hin

/-- C23 (as amended): a multiqueue constructed for `P ≥ 1` threads (with `C ≥ 1`) whose
product `C * P` fits an `unsigned int` (`C * P < 2 ^ 32`) owns exactly `Q = C * P`
guarded queues, and `num_queues_` is `Q`; every global sample is below `Q`;
for a handle id below `P` every home-block index `C * id + j` with `j < C`, in particular
every index of the local probing walk, is below `Q` (the product `C * id`, which the
code takes modulo `2 ^ 32`, does not wrap).  On every multiqueue with `Q` queues, every
index that a returning `push` or `extract_top` uses on the queue array is below `Q`,
`init_touch` for a handle id below `P` returns, and between two calls of a
single-threaded run `push` and `extract_top` return, given the draws: no index leaves
the queue array. -/
theorem indices_within_queue_array (hC : 0 < cfg.C) (P : Nat) (hP : 1 ≤ P)
    (hw : P * cfg.C < 2 ^ 32) :
    (numa_aware_merge_mq.new hp cfg P).heap_list_.length = cfg.C * P ∧
    (numa_aware_merge_mq.new hp cfg P).num_queues_ = cfg.C * P ∧
    (∀ r, random_queue_index (numa_aware_merge_mq.new hp cfg P) r < cfg.C * P) ∧
    (∀ id, id < P → ∀ j, j < cfg.C → cfg.C * id % 2 ^ 32 + j < cfg.C * P) ∧
    (∀ id, id < P → ∀ start, ∀ k ∈ home_walk cfg id start, k < cfg.C * P) ∧
    (∀ id, id < P → ∀ start i, cfg.C * id % 2 ^ 32 + (start + i) % cfg.C < cfg.C * P) ∧
    (∀ id, id < P → cfg.C * id % 2 ^ 32 = cfg.C * id) ∧
    ∀ mq : numa_aware_merge_mq (Key × T) H,
      mq.heap_list_.length = cfg.C * P → mq.num_queues_ = cfg.C * P →
      (∀ r, random_queue_index mq r < cfg.C * P) ∧
      (∀ (v : Key × T) (rng : List Nat) (e : exec (Key × T) H),
        mq.push hp cfg comp v rng = some e → ∀ ev ∈ e.trace, ev.index < cfg.C * P) ∧
      (∀ (id : Nat) (rng : List Nat) (r : extract_result (Key × T) H),
        mq.extract_top hp cfg comp id rng = some r → ∀ ev ∈ r.trace, ev.index < cfg.C * P) ∧
      (∀ (touch : H → Nat → H) (id size : Nat), id < P →
        ∃ mq1, mq.init_touch cfg touch id size = some mq1 ∧
          mq1.heap_list_.length = cfg.C * P) ∧
      (∀ law : heap_contract (value_comparator comp) cfg.NodeSize hp,
        strict_weak_order comp → 0 < cfg.NodeSize → mq.inv cfg law →
        (∀ (v : Key × T) (rng : List Nat), rng ≠ [] →
          ∃ e, mq.push hp cfg comp v rng = some e) ∧
        (∀ (id r0 r1 r2 : Nat) (rs : List Nat), id < P →
          r1 % (cfg.C * P) ≠ r2 % (cfg.C * P) →
          ∃ r, mq.extract_top hp cfg comp id (r0 :: r1 :: r2 :: rs) = some r)) := by
  have hQ : 0 < cfg.C * P := Nat.mul_pos hC (by omega)
  have hhome : ∀ id, id < P → ∀ j, j < cfg.C → cfg.C * id % 2 ^ 32 + j < cfg.C * P :=
    fun id hid j hj => home_index_lt P id j hid hj
  have hlen : (numa_aware_merge_mq.new hp cfg P).heap_list_.length = cfg.C * P :=
    new_length P hw
  have hnum : (numa_aware_merge_mq.new hp cfg P).num_queues_ = cfg.C * P :=
    new_length P hw
  refine ⟨hlen, hnum, ?_, hhome, ?_, ?_, ?_, ?_⟩
  · intro r
    simp only [random_queue_index, hnum]
    exact Nat.mod_lt _ hQ
  · intro id hid start k hk
    simp only [home_walk, List.mem_map, List.mem_range] at hk
    obtain ⟨i, -, rfl⟩ := hk
    exact hhome id hid _ (Nat.mod_lt _ hC)
  · intro id hid start i
    exact hhome id hid _ (Nat.mod_lt _ hC)
  · intro id hid
    apply Nat.mod_eq_of_lt
    have h1 : cfg.C * id ≤ cfg.C * P := Nat.mul_le_mul_left _ (Nat.le_of_lt hid)
    rw [Nat.mul_comm P] at hw
    omega
  · intro mq hl hn
    refine ⟨?_, ?_, ?_, ?_, ?_⟩
    · intro r
      simp only [random_queue_index, hn]
      exact Nat.mod_lt _ hQ
    · intro v rng e h
      rw [← hl]
      exact follows_index_lt mq rng e (push_follows mq v rng e h)
    · intro id rng r h
      rw [← hl]
      exact follows_index_lt mq rng ⟨r.mq, r.rng, r.trace⟩ (extract_top_follows mq id rng r h)
    · intro touch id size hid
      obtain ⟨mq1, h1, h2, -, -⟩ := init_touch_loop_total cfg touch id size cfg.C 0 mq (by
        have := hhome id hid (cfg.C - 1) (by omega)
        rw [hl]; omega)
      exact ⟨mq1, h1, by rw [h2, hl]⟩
    · intro law hswo hN hinv
      refine ⟨fun v rng hrng => push_total law hswo hN mq hinv (by rw [hl]; exact hQ) v rng hrng,
        ?_⟩
      intro id r0 r1 r2 rs hid hne
      have hlt : cfg.C * id % 2 ^ 32 + r0 % cfg.C < mq.heap_list_.length := by
        rw [hl]; exact hhome id hid _ (Nat.mod_lt _ hC)
      refine extract_top_total law hswo hN hC mq hinv id r0 (r1 :: r2 :: rs)
        (mq.heap_list_[cfg.C * id % 2 ^ 32 + r0 % cfg.C]) (List.getElem?_eq_getElem hlt) ?_
      rw [hn]
      by_cases h1 : r1 % (cfg.C * P) = cfg.C * id % 2 ^ 32 + r0 % cfg.C
      · exact ⟨r2, by simp, Or.inl (fun hc => hne (by rw [h1, hc]))⟩
      · exact ⟨r1, by simp, Or.inl h1⟩

theorem indices_within_queue_array_witness :
    (numa_aware_merge_mq.new pair_heap small_cfg 2).heap_list_.length = small_cfg.C * 2 ∧
    (∀ r, random_queue_index (numa_aware_merge_mq.new pair_heap small_cfg 2) r <
      small_cfg.C * 2) ∧
    (∀ id, id < 2 → ∀ start, ∀ k ∈ home_walk small_cfg id start, k < small_cfg.C * 2) ∧
    home_walk small_cfg 1 0 = [4, 5, 6, 7] ∧
    ∃ mq1, (numa_aware_merge_mq.new pair_heap small_cfg 2).init_touch small_cfg
        (fun h _ => h) 1 64 = some mq1 ∧ mq1.heap_list_.length = small_cfg.C * 2 :=
  ⟨(@indices_within_queue_array Nat Nat (List (Nat × Nat)) pair_heap small_cfg std_less
      (by decide) 2 (by decide) (by decide)).1,
    (@indices_within_queue_array Nat Nat (List (Nat × Nat)) pair_heap small_cfg std_less
      (by decide) 2 (by decide) (by decide)).2.2.1,
    (@indices_within_queue_array Nat Nat (List (Nat × Nat)) pair_heap small_cfg std_less
      (by decide) 2 (by decide) (by decide)).2.2.2.2.1,
    rfl,
    ((@indices_within_queue_array Nat Nat (List (Nat × Nat)) pair_heap small_cfg std_less
      (by decide) 2 (by decide) (by decide)).2.2.2.2.2.2.2
      (numa_aware_merge_mq.new pair_heap small_cfg 2) rfl rfl).2.2.2.1 (fun h _ => h) 1 64
      (by decide)⟩

/-- C23, the claim as stated fails where the product wraps: the constructor computes
`num_threads * C` as an `unsigned int`, modulo `2 ^ 32`.  With `C = 4`, a multiqueue
constructed for `P = 2 ^ 30` threads owns no queue, and one constructed for
`P = 2 ^ 30 + 1` threads owns four queues, so that the home-block index `C * 1 + 0 = 4`
of the handle id 1 is not smaller than the number of queues. -/
theorem queue_count_wraps_counterexample :
    (numa_aware_merge_mq.new pair_heap small_cfg (2 ^ 30)).heap_list_.length = 0 ∧
    (numa_aware_merge_mq.new pair_heap small_cfg (2 ^ 30)).num_queues_ = 0 ∧
    small_cfg.C * 2 ^ 30 = 2 ^ 32 ∧
    (numa_aware_merge_mq.new pair_heap small_cfg (2 ^ 30 + 1)).heap_list_.length = 4 ∧
    (numa_aware_merge_mq.new pair_heap small_cfg (2 ^ 30 + 1)).num_queues_ = 4 ∧
    ¬ small_cfg.C * 1 + 0 <
      (numa_aware_merge_mq.new pair_heap small_cfg (2 ^ 30 + 1)).heap_list_.length ∧
    (numa_aware_merge_mq.new pair_heap small_cfg (2 ^ 30 + 1)).init_touch small_cfg
        (fun h _ => h) 1 64 = none :=
  ⟨rfl, rfl, rfl, rfl, rfl, by decide, rfl⟩

end indices

/-! ## The guarded queue: when the insertion buffer is flushed -/

section recording

variable {α H : Type} {hp : merge_heap α H} {cfg : Configuration} {comp : α → α → Bool}

theorem flush_loop_forget (buf : List α) :
    ∀ (fuel i : Nat) (h : H × List (List α)),
      (flush_loop (recording_heap hp) cfg buf fuel i h).map Prod.fst =
        flush_loop hp cfg buf fuel i h.1 := by
  intro fuel
  induction fuel with
  | zero =>
    intro i h
    simp only [flush_loop]
    split_ifs <;> rfl
  | succ fuel ih =>
    intro i h
    simp only [flush_loop]
    split_ifs
    · exact ih _ _
    · rfl
    · rfl

theorem flush_insertion_buffer_forget (g : guarded_heap α (H × List (List α))) :
    (flush_insertion_buffer (recording_heap hp) cfg comp g).map guarded_heap.forget =
      flush_insertion_buffer hp cfg comp g.forget := by
  unfold flush_insertion_buffer
  simp only [guarded_heap.forget]
  split_ifs
  · rw [← flush_loop_forget]
    simp only [Option.map_map]
    rfl
  · rfl

theorem flush_if_full_forget (g : guarded_heap α (H × List (List α))) :
    (flush_if_full (recording_heap hp) cfg comp g).map guarded_heap.forget =
      flush_if_full hp cfg comp g.forget := by
  unfold flush_if_full
  have hI : g.forget.insertion_buffer = g.insertion_buffer := rfl
  rw [hI]
  split_ifs
  · exact flush_insertion_buffer_forget g
  · rfl

theorem refill_pop_loop_forget :
    ∀ (fuel : Nat) (g : guarded_heap α (H × List (List α))),
      (refill_pop_loop (recording_heap hp) cfg fuel g).map guarded_heap.forget =
        refill_pop_loop hp cfg fuel g.forget := by
  intro fuel
  induction fuel with
  | zero =>
    intro g
    simp only [refill_pop_loop, guarded_heap.forget, recording_heap]
    split_ifs <;> rfl
  | succ fuel ih =>
    intro g
    simp only [refill_pop_loop, guarded_heap.forget, recording_heap]
    split_ifs
    · cases hc : copy_back (DeletionBufferSize cfg) g.deletion_buffer (hp.top_node g.heap.1) with
      | none => simp
      | some d =>
        simp only [Option.some_bind]
        exact ih _
    · rfl

theorem refill_pop_loop_log :
    ∀ (fuel : Nat) (g g1 : guarded_heap α (H × List (List α))),
      refill_pop_loop (recording_heap hp) cfg fuel g = some g1 → g1.heap.2 = g.heap.2 := by
  intro fuel
  induction fuel with
  | zero =>
    intro g g1 h
    simp only [refill_pop_loop] at h
    split_ifs at h
    simp only [Option.some.injEq] at h
    rw [← h]
  | succ fuel ih =>
    intro g g1 h
    simp only [refill_pop_loop] at h
    split_ifs at h
    · cases hc : copy_back (DeletionBufferSize cfg) g.deletion_buffer
          ((recording_heap hp).top_node g.heap) with
      | none => rw [hc] at h; simp at h
      | some d =>
        rw [hc] at h
        simp only [Option.some_bind] at h
        have h2 := ih ⟨g.in_use, g.insertion_buffer, d, (recording_heap hp).pop_node g.heap⟩ g1 h
        exact h2
    · simp only [Option.some.injEq] at h
      rw [← h]

theorem refill_deletion_buffer_forget (g : guarded_heap α (H × List (List α))) :
    (refill_deletion_buffer (recording_heap hp) cfg comp g).map guarded_heap.forget =
      refill_deletion_buffer hp cfg comp g.forget := by
  unfold refill_deletion_buffer
  have hI : g.forget.insertion_buffer = g.insertion_buffer := rfl
  have hD : g.forget.deletion_buffer = g.deletion_buffer := rfl
  have hE : (recording_heap hp).empty g.heap = hp.empty g.forget.heap := rfl
  have hT : (recording_heap hp).top_node g.heap = hp.top_node g.forget.heap := rfl
  rw [hI, hD, hE, hT]
  by_cases h1 : (!g.deletion_buffer.isEmpty) = true
  · simp only [h1, if_true, Option.map_none']
  · simp only [h1, Bool.false_eq_true, if_false]
    by_cases h2 : g.insertion_buffer.length = InsertionBufferSize cfg
    · simp only [h2, if_true]
      rw [← flush_insertion_buffer_forget]
      cases hf : flush_insertion_buffer (recording_heap hp) cfg comp g with
      | none => simp
      | some g1 =>
        simp only [Option.some_bind, Option.map_some']
        exact refill_pop_loop_forget _ g1
    · simp only [h2, if_false]
      by_cases h3 : hp.empty g.forget.heap = true
      · simp only [h3, if_true, Option.map_map]
        rfl
      · simp only [h3, Bool.false_eq_true, if_false]
        simp only [Option.map_bind]
        congr 1
        funext p
        simp only [Function.comp]
        cases merge_loop comp (DeletionBufferSize cfg) p.2.length p.2
            (hp.top_node g.forget.heap) g.deletion_buffer with
        | none => rfl
        | some nd =>
          simp only [Option.some_bind]
          cases copy_back (DeletionBufferSize cfg) nd.2 nd.1 <;> rfl

theorem push_forget (g : guarded_heap α (H × List (List α))) (v : α) :
    (g.push (recording_heap hp) cfg comp v).map guarded_heap.forget =
      g.forget.push hp cfg comp v := by
  unfold guarded_heap.push
  have hI : g.forget.insertion_buffer = g.insertion_buffer := rfl
  have hD : g.forget.deletion_buffer = g.deletion_buffer := rfl
  simp only [hD]
  split_ifs
  · rw [← flush_if_full_forget]
    cases hf : flush_if_full (recording_heap hp) cfg comp g with
    | none => simp
    | some g1 =>
      simp only [Option.some_bind, Option.map_some']
      have hD1 : g1.forget.deletion_buffer = g1.deletion_buffer := rfl
      have hI1 : g1.forget.insertion_buffer = g1.insertion_buffer := rfl
      rw [hD1, hI1]
      cases g1.deletion_buffer.getLast? with
      | none => rfl
      | some b =>
        simp only
        cases push_back (InsertionBufferSize cfg) g1.insertion_buffer b with
        | none => rfl
        | some i1 =>
          simp only [Option.some_bind]
          cases insert_at (DeletionBufferSize cfg) g1.deletion_buffer.dropLast
            (push_scan comp v g.deletion_buffer g.deletion_buffer.length) v <;> rfl
  · simp only [Option.map_map]
    rfl
  · rw [← flush_if_full_forget]
    cases hf : flush_if_full (recording_heap hp) cfg comp g with
    | none => simp
    | some g1 =>
      simp only [Option.some_bind, Option.map_some', Option.map_map]
      rfl

/-- What `push` on a recording heap adds to the log: nothing, or, when the insertion
buffer is full, the sorted insertion buffer as one block. -/
theorem push_log (hN : 0 < cfg.NodeSize) (g g1 : guarded_heap α (H × List (List α)))
    (v : α) (h : g.push (recording_heap hp) cfg comp v = some g1) :
    (g1.heap.2 = g.heap.2 ∨
      (g.insertion_buffer.length = InsertionBufferSize cfg ∧
        g1.heap.2 = g.heap.2 ++ [std_sort comp g.insertion_buffer])) ∧
    (g.insertion_buffer.length ≠ InsertionBufferSize cfg → g1.heap = g.heap) := by
  have hfl : ∀ g2, flush_if_full (recording_heap hp) cfg comp g = some g2 →
      (g2.heap.2 = g.heap.2 ∨
        (g.insertion_buffer.length = InsertionBufferSize cfg ∧
          g2.heap.2 = g.heap.2 ++ [std_sort comp g.insertion_buffer])) ∧
      (g.insertion_buffer.length ≠ InsertionBufferSize cfg → g2.heap = g.heap) := by
    intro g2 h2
    rw [flush_if_full_eq hN g] at h2
    simp only [Option.some.injEq] at h2
    subst h2
    by_cases hfull : g.insertion_buffer.length = InsertionBufferSize cfg
    · rw [if_pos hfull]
      exact ⟨Or.inr ⟨hfull, rfl⟩, fun hc => absurd hfull hc⟩
    · rw [if_neg hfull]
      exact ⟨Or.inl rfl, fun _ => rfl⟩
  unfold guarded_heap.push at h
  simp only at h
  split_ifs at h
  · cases hf : flush_if_full (recording_heap hp) cfg comp g with
    | none => rw [hf] at h; simp at h
    | some g2 =>
      rw [hf] at h
      simp only [Option.some_bind] at h
      cases hb : g2.deletion_buffer.getLast? with
      | none => rw [hb] at h; simp at h
      | some b =>
        rw [hb] at h
        simp only at h
        cases hpb : push_back (InsertionBufferSize cfg) g2.insertion_buffer b with
        | none => rw [hpb] at h; simp at h
        | some i1 =>
          rw [hpb] at h
          simp only [Option.some_bind] at h
          cases hia : insert_at (DeletionBufferSize cfg) g2.deletion_buffer.dropLast
              (push_scan comp v g.deletion_buffer g.deletion_buffer.length) v with
          | none => rw [hia] at h; simp at h
          | some d1 =>
            rw [hia] at h
            simp only [Option.map_some', Option.some.injEq] at h
            subst h
            exact hfl g2 hf
  · cases hia : insert_at (DeletionBufferSize cfg) g.deletion_buffer
        (push_scan comp v g.deletion_buffer g.deletion_buffer.length) v with
    | none => rw [hia] at h; simp at h
    | some d1 =>
      rw [hia] at h
      simp only [Option.map_some', Option.some.injEq] at h
      subst h
      exact ⟨Or.inl rfl, fun _ => rfl⟩
  · cases hf : flush_if_full (recording_heap hp) cfg comp g with
    | none => rw [hf] at h; simp at h
    | some g2 =>
      rw [hf] at h
      simp only [Option.some_bind] at h
      cases hpb : push_back (InsertionBufferSize cfg) g2.insertion_buffer v with
      | none => rw [hpb] at h; simp at h
      | some i1 =>
        rw [hpb] at h
        simp only [Option.map_some', Option.some.injEq] at h
        subst h
        exact hfl g2 hf

/-- What `refill_deletion_buffer` on a recording heap adds to the log: the sorted
insertion buffer as one block when the insertion buffer is full, nothing otherwise. -/
theorem refill_log (hN : 0 < cfg.NodeSize) (g g1 : guarded_heap α (H × List (List α)))
    (h : refill_deletion_buffer (recording_heap hp) cfg comp g = some g1) :
    (g.insertion_buffer.length = InsertionBufferSize cfg →
      g1.heap.2 = g.heap.2 ++ [std_sort comp g.insertion_buffer]) ∧
    (g.insertion_buffer.length ≠ InsertionBufferSize cfg → g1.heap.2 = g.heap.2) := by
  unfold refill_deletion_buffer at h
  by_cases h1 : (!g.deletion_buffer.isEmpty) = true
  · simp only [h1, if_true] at h
    exact absurd h (by simp)
  · simp only [h1, Bool.false_eq_true, if_false] at h
    by_cases h2 : g.insertion_buffer.length = InsertionBufferSize cfg
    · simp only [h2, if_true] at h
      rw [flush_insertion_buffer_eq hN g h2] at h
      simp only [Option.some_bind] at h
      have := refill_pop_loop_log _ _ _ h
      exact ⟨fun _ => this, fun hc => absurd h2 hc⟩
    · simp only [h2, if_false] at h
      refine ⟨fun hc => absurd hc h2, fun _ => ?_⟩
      by_cases h3 : (recording_heap hp).empty g.heap = true
      · simp only [h3, if_true] at h
        cases hc : copy_back (DeletionBufferSize cfg) g.deletion_buffer
            (std_sort comp g.insertion_buffer) with
        | none => rw [hc] at h; simp at h
        | some d =>
          rw [hc] at h
          simp only [Option.map_some', Option.some.injEq] at h
          rw [← h]
      · simp only [h3, Bool.false_eq_true, if_false] at h
        simp only [Option.bind_eq_some, Option.map_eq_some'] at h
        obtain ⟨p, -, nd, -, d, -, hg1⟩ := h
        rw [← hg1]
        rfl

/-- C30: on a heap that records the blocks handed to `insert`: (1) `flush_insertion_buffer`
passes its entry assertion exactly when the insertion buffer is full; (2) `push` hands a
block to the heap only if the insertion buffer is full, and then exactly the sorted
insertion buffer; with a buffer that is not full it leaves the heap alone; (3)
`refill_deletion_buffer` hands the sorted insertion buffer to the heap if the buffer is
full and no block otherwise; (4) recording does not change what `push` and the refill
do; (5) on a queue that satisfies its invariant both return, so the assertion of the
flush they call never fails. -/
theorem flush_only_when_full (hN : 0 < cfg.NodeSize)
    (g : guarded_heap α (H × List (List α))) :
    ((flush_insertion_buffer (recording_heap hp) cfg comp g).isSome = true ↔
      g.insertion_buffer.length = InsertionBufferSize cfg) ∧
    (∀ v g1, g.push (recording_heap hp) cfg comp v = some g1 →
      (g1.heap.2 = g.heap.2 ∨
        (g.insertion_buffer.length = InsertionBufferSize cfg ∧
          g1.heap.2 = g.heap.2 ++ [std_sort comp g.insertion_buffer])) ∧
      (g.insertion_buffer.length ≠ InsertionBufferSize cfg → g1.heap = g.heap)) ∧
    (∀ g1, refill_deletion_buffer (recording_heap hp) cfg comp g = some g1 →
      (g.insertion_buffer.length = InsertionBufferSize cfg →
        g1.heap.2 = g.heap.2 ++ [std_sort comp g.insertion_buffer]) ∧
      (g.insertion_buffer.length ≠ InsertionBufferSize cfg → g1.heap.2 = g.heap.2)) ∧
    (∀ v, (g.push (recording_heap hp) cfg comp v).map guarded_heap.forget =
      g.forget.push hp cfg comp v) ∧
    ((refill_deletion_buffer (recording_heap hp) cfg comp g).map guarded_heap.forget =
      refill_deletion_buffer hp cfg comp g.forget) ∧
    (∀ law : heap_contract comp cfg.NodeSize hp, strict_weak_order comp →
      g.forget.inv cfg law →
      (∀ v, ∃ g1, g.push (recording_heap hp) cfg comp v = some g1) ∧
      (g.deletion_buffer = [] →
        ∃ g1, refill_deletion_buffer (recording_heap hp) cfg comp g = some g1)) := by
  refine ⟨?_, fun v g1 h => push_log hN g g1 v h, fun g1 h => refill_log hN g g1 h,
    fun v => push_forget g v, refill_deletion_buffer_forget g, ?_⟩
  · by_cases hfull : g.insertion_buffer.length = InsertionBufferSize cfg
    · rw [flush_insertion_buffer_eq hN g hfull]
      simp [hfull]
    · simp [flush_insertion_buffer, hfull]
  · intro law hswo hinv
    refine ⟨fun v => ?_, fun hD => ?_⟩
    · obtain ⟨g2, h2, -⟩ := push_spec law hswo hN g.forget hinv v
      have h3 := @push_forget _ _ hp cfg comp g v
      rw [h2] at h3
      obtain ⟨g1, h1, -⟩ := Option.map_eq_some'.mp h3
      exact ⟨g1, h1⟩
    · obtain ⟨g2, h2, -⟩ := refill_spec law hswo hN g.forget hinv.ins_le hinv.heap_inv hD
      have h3 := @refill_deletion_buffer_forget _ _ hp cfg comp g
      rw [h2] at h3
      obtain ⟨g1, h1, -⟩ := Option.map_eq_some'.mp h3
      exact ⟨g1, h1⟩

theorem flush_only_when_full_witness :
    ∃ g1, full_queue.push (recording_heap (sorted_block_heap std_less 2)) small_cfg
        std_less 9 = some g1 ∧
      g1.insertion_buffer = [9] ∧ g1.heap = ([3, 5], [[3, 5]]) ∧
      (g1.heap.2 = full_queue.heap.2 ∨
        (full_queue.insertion_buffer.length = InsertionBufferSize small_cfg ∧
          g1.heap.2 = full_queue.heap.2 ++ [std_sort std_less full_queue.insertion_buffer])) :=
  ⟨_, rfl, rfl, rfl,
    ((@flush_only_when_full Nat (List Nat) (sorted_block_heap std_less 2) small_cfg std_less
      (by decide) full_queue).2.1 9 _ rfl).1⟩

end recording

/-! ## The lock word as an atomic: memory orders -/

section orders

variable {α H : Type}

/-- The multiqueue-level `try_lock` is the compare-and-set of `guarded_heap::try_lock`: its
flag is the result of the atomic operation and the lock word afterwards is its word. -/
theorem try_lock_atomic (index : Nat) (e e1 : exec α H) (b : Bool)
    (h : try_lock index e = some (b, e1)) :
    ∃ g, e.mq.heap_list_[index]? = some g ∧ b = g.try_lock.result ∧
      e1.mq = e.mq.store index { g with in_use := g.try_lock.word } := by
  unfold try_lock at h
  cases hq : e.mq.heap_list_[index]? with
  | none => rw [hq] at h; simp at h
  | some g =>
    rw [hq] at h
    simp only at h
    refine ⟨g, rfl, ?_⟩
    cases hu : g.in_use with
    | true =>
      rw [hu] at h
      simp only [if_true, Option.some.injEq, Prod.mk.injEq] at h
      obtain ⟨hb, he⟩ := h
      subst hb he
      simp only [guarded_heap.try_lock, compare_exchange_strong, hu, Bool.true_eq_false,
        if_false, true_and]
      rw [← hu, in_use_self g g.in_use rfl, store_self _ _ _ hq]
    | false =>
      rw [hu] at h
      simp only [Bool.false_eq_true, if_false, Option.some.injEq, Prod.mk.injEq] at h
      obtain ⟨hb, he⟩ := h
      subst hb he
      simp only [guarded_heap.try_lock, compare_exchange_strong, hu, if_true, true_and]

/-- The multiqueue-level `unlock` stores the word of `guarded_heap::unlock`. -/
theorem unlock_atomic (index : Nat) (e e1 : exec α H) (h : unlock index e = some e1) :
    ∃ g, e.mq.heap_list_[index]? = some g ∧
      e1.mq = e.mq.store index { g with in_use := g.unlock.word } := by
  unfold unlock at h
  cases hq : e.mq.heap_list_[index]? with
  | none => rw [hq] at h; simp at h
  | some g =>
    rw [hq] at h
    simp only [Option.some.injEq] at h
    subst h
    exact ⟨g, rfl, rfl⟩

/-- C27: the claim holds for `numa_aware_merge_mq` and fails for `deletion_buffer_mq`.  In
`numa_aware_merge_mq.hpp` a `try_lock` on a free word succeeds, sets the word and applies
acquire; on a held word it fails, leaves the word and applies relaxed; `unlock` stores false
with release.  In `deletion_buffer_mq.hpp` the `unlock` is the same, but a `try_lock` on a
free word succeeds with relaxed ordering and a `try_lock` on a held word fails with
acquire ordering: the two orders are passed the other way round. -/
theorem deletion_buffer_mq_try_lock_inverts_orders (g : guarded_heap α H) :
    ({ g with in_use := false } : guarded_heap α H).try_lock =
      { result := true, word := true, order := memory_order.acquire } ∧
    ({ g with in_use := true } : guarded_heap α H).try_lock =
      { result := false, word := true, order := memory_order.relaxed } ∧
    g.unlock = { result := false, word := false, order := memory_order.release } ∧
    deletion_buffer_mq.try_lock false =
      { result := true, word := true, order := memory_order.relaxed } ∧
    deletion_buffer_mq.try_lock true =
      { result := false, word := true, order := memory_order.acquire } ∧
    deletion_buffer_mq.unlock true =
      { result := false, word := false, order := memory_order.release } ∧
    (deletion_buffer_mq.try_lock false).order ≠ memory_order.acquire ∧
    (deletion_buffer_mq.try_lock true).order ≠ memory_order.relaxed :=
  ⟨rfl, rfl, rfl, rfl, rfl, rfl, by decide, by decide⟩

end orders

/-! ## The replay analyzer: the rank error -/

section rank

/-- `operator<` on `heap_entry` is the lexicographic order on
`(key, ins_thread_id, elem_id)`. -/
theorem heap_entry.lt_iff (a b : heap_entry) :
    a.lt b = true ↔
      a.key < b.key ∨ (a.key = b.key ∧ (a.ins_thread_id < b.ins_thread_id ∨
        (a.ins_thread_id = b.ins_thread_id ∧ a.elem_id < b.elem_id))) := by
  unfold heap_entry.lt
  split_ifs <;> simp_all

theorem heap_entry.lt_key_le {a b : heap_entry} (h : a.lt b = true) : a.key ≤ b.key := by
  rw [heap_entry.lt_iff] at h
  omega

theorem heap_entry.key_le_of_not_lt {a b : heap_entry} (h : a.lt b = false) :
    b.key ≤ a.key := by
  by_contra hc
  have : a.lt b = true := (heap_entry.lt_iff a b).mpr (Or.inl (by omega))
  rw [h] at this
  exact absurd this (by simp)

theorem heap_entry.lt_trans {a b c : heap_entry} (h1 : a.lt b = true) (h2 : b.lt c = true) :
    a.lt c = true := by
  rw [heap_entry.lt_iff] at h1 h2 ⊢
  omega

theorem btree_insert_mem (k : heap_entry) (v : Nat × Nat) :
    ∀ (m : replay_map) (x : heap_entry), x ∈ (btree_insert k v m).map Prod.fst →
      x = k ∨ x ∈ m.map Prod.fst := by
  intro m
  induction m with
  | nil =>
    intro x hx
    simp only [btree_insert, List.map_cons, List.map_nil, List.mem_singleton] at hx
    exact Or.inl hx
  | cons e rest ih =>
    intro x hx
    simp only [btree_insert] at hx
    split_ifs at hx
    · simp only [List.map_cons, List.mem_cons] at hx ⊢
      exact hx
    · simp only [List.map_cons, List.mem_cons] at hx ⊢
      rcases hx with hx | hx
      · exact Or.inr (Or.inl hx)
      · rcases ih x hx with h | h
        · exact Or.inl h
        · exact Or.inr (Or.inr h)
    · exact Or.inr hx

theorem btree_insert_sorted (k : heap_entry) (v : Nat × Nat) :
    ∀ m : replay_map, sorted_map m → sorted_map (btree_insert k v m) := by
  intro m
  induction m with
  | nil => intro _; simp [sorted_map, btree_insert]
  | cons e rest ih =>
    intro hs
    unfold sorted_map at hs
    simp only [List.map_cons, List.pairwise_cons] at hs
    simp only [btree_insert]
    split_ifs with h1 h2
    · unfold sorted_map
      simp only [List.map_cons, List.pairwise_cons, List.mem_cons]
      refine ⟨?_, hs⟩
      intro b hb
      rcases hb with hb | hb
      · rw [hb]; exact h1
      · exact heap_entry.lt_trans h1 (hs.1 b hb)
    · unfold sorted_map
      simp only [List.map_cons, List.pairwise_cons]
      refine ⟨?_, ih hs.2⟩
      intro b hb
      rcases btree_insert_mem k v rest b hb with h | h
      · rw [h]; exact h2
      · exact hs.1 b h
    · unfold sorted_map
      simp only [List.map_cons, List.pairwise_cons]
      exact hs

theorem insert_before_sorted (tick t : Nat) :
    ∀ (l : List log_entry) (idx : Nat) (m : replay_map), sorted_map m →
      sorted_map (insert_before tick t l idx m).2 := by
  intro l
  induction l with
  | nil => intro idx m hs; exact hs
  | cons e rest ih =>
    intro idx m hs
    simp only [insert_before]
    split_ifs
    · exact ih _ _ (btree_insert_sorted _ _ m hs)
    · exact hs

theorem insert_phase_sorted (tick : Nat) :
    ∀ (ins : List (List log_entry)) (t : Nat) (idxs : List Nat) (m : replay_map),
      sorted_map m → sorted_map (insert_phase tick t ins idxs m).2 := by
  intro ins
  induction ins with
  | nil => intro t idxs m hs; simpa [insert_phase] using hs
  | cons l rest ih =>
    intro t idxs m hs
    cases idxs with
    | nil => simpa [insert_phase] using hs
    | cons idx idxs =>
      simp only [insert_phase]
      exact ih _ _ _ (insert_before_sorted tick t _ idx m hs)

theorem rank_scan_keys (top_key key it : Nat) :
    ∀ (l : replay_map) (pos : Nat),
      (rank_scan top_key key it l pos).1.map Prod.fst = l.map Prod.fst := by
  intro l
  induction l with
  | nil => intro pos; rfl
  | cons e rest ih =>
    intro pos
    by_cases hc : pos ≠ it ∧ e.1.key < key
    · simp only [rank_scan, if_pos hc, List.map_cons, ih]
    · simp only [rank_scan, if_neg hc]

/-- On a map in key order the scan stops at the first entry whose key is not smaller than
`key`: the position it reports is the number of entries with a smaller key. -/
theorem rank_scan_count (top_key key it : Nat) :
    ∀ (l : replay_map) (pos : Nat), sorted_map l → pos ≤ it →
      (∃ e, l[it - pos]? = some e ∧ e.1.key = key) →
      (rank_scan top_key key it l pos).2 = pos + l.countP (fun e => decide (e.1.key < key)) := by
  intro l
  induction l with
  | nil =>
    intro pos _ _ h
    obtain ⟨e, he, -⟩ := h
    simp at he
  | cons e rest ih =>
    intro pos hs hpos hit
    unfold sorted_map at hs
    simp only [List.map_cons, List.pairwise_cons] at hs
    have hlater : ∀ x ∈ rest, e.1.key ≤ x.1.key := by
      intro x hx
      exact heap_entry.lt_key_le (hs.1 x.1 (List.mem_map_of_mem _ hx))
    by_cases hc : pos ≠ it ∧ e.1.key < key
    · simp only [rank_scan, if_pos hc]
      obtain ⟨hne, hlt⟩ := hc
      have hpos1 : pos + 1 ≤ it := by omega
      have hit1 : ∃ x, rest[it - (pos + 1)]? = some x ∧ x.1.key = key := by
        obtain ⟨x, hx, hk⟩ := hit
        have : it - pos = (it - (pos + 1)) + 1 := by omega
        rw [this, List.getElem?_cons_succ] at hx
        exact ⟨x, hx, hk⟩
      rw [ih (pos + 1) hs.2 hpos1 hit1, List.countP_cons_of_pos _ _ (by simpa using hlt)]
      omega
    · simp only [rank_scan, if_neg hc]
      have hge : key ≤ e.1.key := by
        by_cases hp : pos = it
        · obtain ⟨x, hx, hk⟩ := hit
          rw [hp, Nat.sub_self, List.getElem?_cons_zero] at hx
          cases hx
          omega
        · have : ¬ e.1.key < key := fun h => hc ⟨hp, h⟩
          omega
      have hzero : (e :: rest).countP (fun e => decide (e.1.key < key)) = 0 := by
        rw [List.countP_eq_zero]
        intro x hx
        rcases List.mem_cons.mp hx with h | h
        · rw [h]; simpa using hge
        · have := hlater x h
          simp only [decide_eq_true_eq, not_lt]
          omega
      rw [hzero, Nat.add_zero]

theorem btree_find_spec (k : heap_entry) :
    ∀ (m : replay_map) (it : Nat) (v : Nat × Nat), btree_find k m = some (it, v) →
      ∃ e, m[it]? = some e ∧ e.2 = v ∧ e.1.lt k = false ∧ k.lt e.1 = false := by
  intro m
  induction m with
  | nil => intro it v h; simp [btree_find] at h
  | cons e rest ih =>
    intro it v h
    simp only [btree_find] at h
    split_ifs at h with hc
    · simp only [Option.some.injEq, Prod.mk.injEq] at h
      obtain ⟨hit, hv⟩ := h
      subst hit
      simp only [Bool.and_eq_true, Bool.not_eq_true'] at hc
      exact ⟨e, List.getElem?_cons_zero, hv, hc.1, hc.2⟩
    · cases hf : btree_find k rest with
      | none => rw [hf] at h; simp at h
      | some r =>
        rw [hf] at h
        simp only [Option.map_some', Option.some.injEq, Prod.mk.injEq] at h
        obtain ⟨hit, hv⟩ := h
        subst hit
        obtain ⟨x, hx, hxv, h1, h2⟩ := ih r.1 r.2 hf
        exact ⟨x, by simpa using hx, by rw [hxv, hv], h1, h2⟩

theorem bump_getD (hist : List Nat) (i : Nat) :
    (bump hist i).getD i 0 = hist.getD i 0 + 1 ∧
      ∀ j, j ≠ i → (bump hist i).getD j 0 = hist.getD j 0 := by
  unfold bump
  by_cases h : hist.length ≤ i
  · simp only [h, if_true]
    have hlen : i < (hist ++ List.replicate (i + 1 - hist.length) 0).length := by
      simp only [List.length_append, List.length_replicate]; omega
    refine ⟨?_, ?_⟩
    · rw [List.getD_eq_getElem?_getD, List.getElem?_set_self hlen]
      simp only [Option.getD_some]
      rw [List.getD_eq_getElem?_getD, List.getD_eq_getElem?_getD,
        List.getElem?_append_right h, List.getElem?_eq_none (l := hist) h]
      simp only [List.getElem?_replicate, Option.getD_none]
      split_ifs <;> rfl
    · intro j hj
      rw [List.getD_eq_getElem?_getD, List.getElem?_set_ne (Ne.symm hj),
        List.getD_eq_getElem?_getD]
      by_cases hjl : j < hist.length
      · rw [List.getElem?_append_left hjl]
      · rw [List.getElem?_append_right (by omega), List.getElem?_eq_none (l := hist) (by omega)]
        simp only [List.getElem?_replicate, Option.getD_none]
        split_ifs <;> rfl
  · simp only [h, if_false]
    have hlen : i < hist.length := by omega
    refine ⟨?_, ?_⟩
    · rw [List.getD_eq_getElem?_getD, List.getElem?_set_self hlen]
      simp
    · intro j hj
      rw [List.getD_eq_getElem?_getD, List.getElem?_set_ne (Ne.symm hj),
        List.getD_eq_getElem?_getD]

theorem delay_all_keys (top_key : Nat) (m : replay_map) :
    (delay_all top_key m).map Prod.fst = m.map Prod.fst := by
  simp [delay_all, List.map_map, Function.comp_def]

/-- A round of the replay loop keeps the replay map in the order of `operator<`. -/
theorem replay_step_sorted (insertions : List (List log_entry)) (st st1 : replay_state)
    (d : log_entry) (hs : sorted_map st.replay_heap)
    (h : replay_step insertions st d = Except.ok st1) : sorted_map st1.replay_heap := by
  have hm := insert_phase_sorted d.tick insertions 0 st.insert_index st.replay_heap hs
  unfold replay_step at h
  cases hph : insert_phase d.tick 0 insertions st.insert_index st.replay_heap with
  | mk idxs m =>
    rw [hph] at h hm
    simp only at h hm
    by_cases hd : d.failed = true
    · simp only [hd, if_true] at h
      cases m with
      | nil =>
        simp only [Except.ok.injEq] at h
        rw [← h]; exact hm
      | cons top rest =>
        simp only [Except.ok.injEq] at h
        rw [← h]
        unfold sorted_map
        rw [delay_all_keys]
        exact hm
    · simp only [hd, Bool.false_eq_true, if_false] at h
      cases hf : btree_find (⟨d.key, d.insert_thread_id, d.value⟩ : heap_entry) m with
      | none => rw [hf] at h; simp at h
      | some r =>
        obtain ⟨it, delays⟩ := r
        rw [hf] at h
        cases m with
        | nil => simp at h
        | cons top rest =>
          simp only [Except.ok.injEq] at h
          rw [← h]
          unfold sorted_map
          simp only
          refine List.Pairwise.sublist ((List.eraseIdx_sublist _ it).map Prod.fst) ?_
          rw [rank_scan_keys]
          exact hm

theorem replay_loop_sorted (insertions : List (List log_entry)) :
    ∀ (ds : List log_entry) (st st1 : replay_state), sorted_map st.replay_heap →
      replay_loop insertions st ds = Except.ok st1 → sorted_map st1.replay_heap := by
  intro ds
  induction ds with
  | nil =>
    intro st st1 hs h
    simp only [replay_loop, Except.ok.injEq] at h
    rw [← h]; exact hs
  | cons d ds ih =>
    intro st st1 hs h
    simp only [replay_loop] at h
    cases hstep : replay_step insertions st d with
    | error err => rw [hstep] at h; simp at h
    | ok st2 =>
      rw [hstep] at h
      exact ih st2 st1 (replay_step_sorted insertions st st2 d hs hstep) h

theorem replay_loop_append (insertions : List (List log_entry)) :
    ∀ (a b : List log_entry) (st st1 : replay_state),
      replay_loop insertions st (a ++ b) = Except.ok st1 →
      ∃ st2, replay_loop insertions st a = Except.ok st2 ∧
        replay_loop insertions st2 b = Except.ok st1 := by
  intro a
  induction a with
  | nil => intro b st st1 h; exact ⟨st, rfl, h⟩
  | cons d a ih =>
    intro b st st1 h
    simp only [List.cons_append, replay_loop] at h ⊢
    cases hstep : replay_step insertions st d with
    | error err => rw [hstep] at h; simp at h
    | ok st2 =>
      rw [hstep] at h
      exact ih b st2 st1 h

/-- The rank error of a replayed deletion that is found: the scan position is the number of
entries of the replay map with a strictly smaller key. -/
theorem replay_step_rank (insertions : List (List log_entry)) (st st1 : replay_state)
    (d : log_entry) (hs : sorted_map st.replay_heap) (hd : d.failed = false)
    (h : replay_step insertions st d = Except.ok st1) :
    st1.rank_histogram = bump st.rank_histogram
      ((insert_phase d.tick 0 insertions st.insert_index st.replay_heap).2.countP
        (fun e => decide (e.1.key < d.key))) := by
  have hm := insert_phase_sorted d.tick insertions 0 st.insert_index st.replay_heap hs
  unfold replay_step at h
  cases hph : insert_phase d.tick 0 insertions st.insert_index st.replay_heap with
  | mk idxs m =>
    rw [hph] at h hm
    simp only at h hm ⊢
    simp only [hd, Bool.false_eq_true, if_false] at h
    cases hf : btree_find (⟨d.key, d.insert_thread_id, d.value⟩ : heap_entry) m with
    | none => rw [hf] at h; simp at h
    | some r =>
      obtain ⟨it, delays⟩ := r
      rw [hf] at h
      obtain ⟨e, he, -, h1, h2⟩ := btree_find_spec _ m it delays hf
      have hkey : e.1.key = d.key := by
        have := heap_entry.key_le_of_not_lt h1
        have := heap_entry.key_le_of_not_lt h2
        simp only at *
        omega
      cases m with
      | nil => simp at h
      | cons top rest =>
        simp only [Except.ok.injEq] at h
        rw [← h]
        simp only
        rw [rank_scan_count top.1.key d.key it (top :: rest) 0 hm (Nat.zero_le _)
          ⟨e, by simpa using he, hkey⟩, Nat.zero_add]

/-- C28: in the replay of `utils/evaluate_quality.cpp`, started from the empty replay heap,
for every deletion `d` that is replayed successfully (after the deletions `pre`), the
rank histogram changes in the bucket whose index is the number of entries of the replay
heap at that moment (after the insertions with a smaller tick have been added, before
the deleted element is erased) whose key is strictly smaller than the key of `d`: that
bucket grows by one, every other bucket keeps its count, and entries with an equal key
are not counted. -/
theorem rank_error_counts_smaller_keys (insertions : List (List log_entry)) (n : Nat)
    (pre : List log_entry) (d : log_entry) (st1 : replay_state) (hd : d.failed = false)
    (h : replay_loop insertions (replay_state.init n) (pre ++ [d]) = Except.ok st1) :
    ∃ st, replay_loop insertions (replay_state.init n) pre = Except.ok st ∧
      st1.rank_histogram = bump st.rank_histogram
        ((insert_phase d.tick 0 insertions st.insert_index st.replay_heap).2.countP
          (fun e => decide (e.1.key < d.key))) ∧
      st1.rank_histogram.getD
          ((insert_phase d.tick 0 insertions st.insert_index st.replay_heap).2.countP
            (fun e => decide (e.1.key < d.key))) 0 =
        st.rank_histogram.getD
          ((insert_phase d.tick 0 insertions st.insert_index st.replay_heap).2.countP
            (fun e => decide (e.1.key < d.key))) 0 + 1 ∧
      ∀ j, j ≠ (insert_phase d.tick 0 insertions st.insert_index st.replay_heap).2.countP
            (fun e => decide (e.1.key < d.key)) →
        st1.rank_histogram.getD j 0 = st.rank_histogram.getD j 0 := by
  obtain ⟨st, hpre, hlast⟩ := replay_loop_append insertions pre [d] _ st1 h
  have hs0 : sorted_map (replay_state.init n).replay_heap := by
    simp [sorted_map, replay_state.init]
  have hs := replay_loop_sorted insertions pre _ st hs0 hpre
  simp only [replay_loop] at hlast
  cases hstep : replay_step insertions st d with
  | error err => rw [hstep] at hlast; simp at hlast
  | ok st2 =>
    rw [hstep] at hlast
    simp only [Except.ok.injEq] at hlast
    subst hlast
    have hr := replay_step_rank insertions st st2 d hs hd hstep
    refine ⟨st, hpre, hr, ?_, ?_⟩
    · rw [hr]; exact (bump_getD _ _).1
    · intro j hj
      rw [hr]; exact (bump_getD _ _).2 j hj

theorem rank_error_counts_smaller_keys_witness :
    replay_loop sample_insertions (replay_state.init 2) (sample_deletions.take 2 ++ [sample_last]) =
        Except.ok sample_final ∧
      sample_final.rank_histogram = [0, 1, 1, 1] ∧
      ∃ st, replay_loop sample_insertions (replay_state.init 2) (sample_deletions.take 2) =
          Except.ok st ∧
        sample_final.rank_histogram = bump st.rank_histogram
          ((insert_phase sample_last.tick 0 sample_insertions st.insert_index
            st.replay_heap).2.countP (fun e => decide (e.1.key < sample_last.key))) ∧
        sample_final.rank_histogram.getD
            ((insert_phase sample_last.tick 0 sample_insertions st.insert_index
              st.replay_heap).2.countP (fun e => decide (e.1.key < sample_last.key))) 0 =
          st.rank_histogram.getD
            ((insert_phase sample_last.tick 0 sample_insertions st.insert_index
              st.replay_heap).2.countP (fun e => decide (e.1.key < sample_last.key))) 0 + 1 ∧
        ∀ j, j ≠ (insert_phase sample_last.tick 0 sample_insertions st.insert_index
              st.replay_heap).2.countP (fun e => decide (e.1.key < sample_last.key)) →
          sample_final.rank_histogram.getD j 0 = st.rank_histogram.getD j 0 :=
  ⟨rfl, rfl,
    rank_error_counts_smaller_keys sample_insertions 2 (sample_deletions.take 2) sample_last
      sample_final rfl rfl⟩

end rank
/-! ## The replay analyzer: the fields of a record -/

section fields

theorem isdigit_not_isspace (c : Char) (h : isdigit c = true) : isspace c = false := by
  simp only [isdigit, decide_eq_true_eq] at h
  simp only [isspace, decide_eq_false_iff_not]
  omega

theorem isdigit_not_sign (c : Char) (h : isdigit c = true) : ¬ (c = '+' ∨ c = '-') := by
  rintro (rfl | rfl) <;> exact absurd h (by decide)

theorem skip_ws_blank (ws rest : List Char) (hws : ∀ c ∈ ws, isspace c = true)
    (hrest : ∀ c, rest.head? = some c → isspace c = false) :
    skip_ws (ws ++ rest) = rest := by
  induction ws with
  | nil =>
    cases rest with
    | nil => rfl
    | cons c cs =>
      simp only [List.nil_append, skip_ws, hrest c rfl, Bool.false_eq_true, if_false]
  | cons w ws ih =>
    simp only [List.cons_append, skip_ws, hws w (List.mem_cons_self _ _), if_true]
    exact ih (fun c hc => hws c (List.mem_cons_of_mem _ hc))

theorem read_digits_run (ds rest : List Char) (hds : ∀ c ∈ ds, isdigit c = true)
    (hrest : ends_number rest) :
    ∀ acc, read_digits (ds ++ rest) acc =
      (ds.foldl (fun n c => 10 * n + (c.toNat - 48)) acc, rest) := by
  induction ds with
  | nil =>
    intro acc
    cases rest with
    | nil => rfl
    | cons c cs =>
      simp only [List.nil_append, read_digits, hrest c rfl, Bool.false_eq_true, if_false,
        List.foldl_nil]
  | cons d ds ih =>
    intro acc
    simp only [List.cons_append, read_digits, hds d (List.mem_cons_self _ _), if_true,
      List.foldl_cons]
    exact ih (fun c hc => hds c (List.mem_cons_of_mem _ hc)) _

theorem ends_number_cons (c : Char) (cs : List Char) (h : isdigit c = false) :
    ends_number (c :: cs) := by
  intro x hx
  simp only [List.head?_cons, Option.some.injEq] at hx
  rw [← hx]; exact h

/-- An extraction of an unsigned number consumes the whitespace and the digits of one
field and nothing else, writes the number of the field and leaves the stream good. -/
theorem read_unsigned_field (bits : Nat) (ws ds rest : List Char) (hf : is_field bits ws ds)
    (hrest : ends_number rest) :
    read_unsigned bits (some (ws ++ ds ++ rest)) = (some (decimal ds), some rest) := by
  obtain ⟨d, ds1, hd⟩ := List.exists_cons_of_ne_nil hf.nonempty
  have hdig : isdigit d = true := hf.digits d (by rw [hd]; exact List.mem_cons_self _ _)
  have hskip : skip_ws (ws ++ (ds ++ rest)) = ds ++ rest := by
    apply skip_ws_blank ws _ hf.blank
    intro c hc
    rw [hd] at hc
    simp only [List.cons_append, List.head?_cons, Option.some.injEq] at hc
    rw [← hc]
    exact isdigit_not_isspace d hdig
  have hrun := read_digits_run ds rest hf.digits hrest 0
  have hsplit : ds ++ rest = d :: (ds1 ++ rest) := by rw [hd]; rfl
  have hsign : skip_sign (d :: (ds1 ++ rest)) = d :: (ds1 ++ rest) := by
    simp only [skip_sign, if_neg (isdigit_not_sign d hdig)]
  have hneg : ¬ d = '-' := fun h => isdigit_not_sign d hdig (Or.inr h)
  have hfits : (List.foldl (fun n c => 10 * n + (c.toNat - 48)) 0 ds) < 2 ^ bits := hf.fits
  rw [List.append_assoc]
  unfold read_unsigned
  dsimp only
  rw [hskip]
  rw [hsplit] at hrun ⊢
  simp only [hsign, hdig, if_true, hrun, hfits, if_neg hneg]
  rfl

theorem field_ends_number (bits : Nat) (ws ds rest : List Char) (hf : is_field bits ws ds)
    (hne : ws ≠ []) : ends_number (ws ++ ds ++ rest) := by
  obtain ⟨w, ws1, hw⟩ := List.exists_cons_of_ne_nil hne
  intro c hc
  rw [hw] at hc
  simp only [List.cons_append, List.head?_cons, Option.some.injEq] at hc
  have hsp : isspace w = true := hf.blank w (by rw [hw]; exact List.mem_cons_self _ _)
  rw [← hc]
  cases hdg : isdigit w with
  | false => rfl
  | true =>
    have := isdigit_not_isspace w hdg
    rw [hsp] at this
    exact absurd this (by simp)

/-- `operator>>` on a `log_entry` consumes exactly five numeric fields. -/
theorem read_log_entry_fields (w1 d1 w2 d2 w3 d3 w4 d4 w5 d5 rest : List Char)
    (h1 : is_field 32 w1 d1) (h2 : is_field 64 w2 d2) (h3 : is_field 32 w3 d3)
    (h4 : is_field 32 w4 d4) (h5 : is_field 32 w5 d5)
    (hw2 : w2 ≠ []) (hw3 : w3 ≠ []) (hw4 : w4 ≠ []) (hw5 : w5 ≠ [])
    (hrest : ends_number rest) :
    read_log_entry
        (some (w1 ++ d1 ++ (w2 ++ d2 ++ (w3 ++ d3 ++ (w4 ++ d4 ++ (w5 ++ d5 ++ rest)))))) =
      ({ thread_id := some (decimal d1), tick := some (decimal d2), key := some (decimal d3),
         insert_thread_id := some (decimal d4), value := some (decimal d5) },
        some rest) := by
  unfold read_log_entry
  simp only [read_unsigned_field 32 w1 d1 _ h1 (field_ends_number 64 w2 d2 _ h2 hw2),
    read_unsigned_field 64 w2 d2 _ h2 (field_ends_number 32 w3 d3 _ h3 hw3),
    read_unsigned_field 32 w3 d3 _ h3 (field_ends_number 32 w4 d4 _ h4 hw4),
    read_unsigned_field 32 w4 d4 _ h4 (field_ends_number 32 w5 d5 _ h5 hw5),
    read_unsigned_field 32 w5 d5 _ h5 hrest]

theorem read_char_tag (ws text : List Char) (tag : Char) (hws : ∀ c ∈ ws, isspace c = true)
    (htag : isspace tag = false) : read_char (ws ++ tag :: text) = some (tag, text) := by
  unfold read_char
  rw [skip_ws_blank ws (tag :: text) hws (fun c hc => by
    simp only [List.head?_cons, Option.some.injEq] at hc
    rw [← hc]; exact htag)]

/-- C29 (as amended): the reader of `utils/evaluate_quality.cpp` consumes, per record,
the tag and then: for an insertion (`i`) the five fields `thread_id tick key ins_thread
value`, the same as for a deletion (`d`); for a failed deletion (`f`) the two fields
`thread_id tick`.  Here `w1 d1 ... w5 d5` are five fields as they stand in the log
(whitespace, then digits), followed by `rest`: (1) `operator>>` for a `log_entry` writes
the five fields and leaves exactly `rest`, the stream good; (2) the branch for `i`, when
it accepts, leaves `rest` and appends the entry made of the five fields to the insertions
of its thread; (3) the branch for `d`, when it accepts, leaves `rest` and appends that
entry to the deletions; (4) the branch for `f` consumes the first two fields and leaves
the third field on; (5) a round of the reading loop takes the tag after any whitespace:
one record per operation. -/
theorem reader_consumes_five_fields_per_insertion (num_threads : Nat) (st : reader_state)
    (w1 d1 w2 d2 w3 d3 w4 d4 w5 d5 rest : List Char)
    (h1 : is_field 32 w1 d1) (h2 : is_field 64 w2 d2) (h3 : is_field 32 w3 d3)
    (h4 : is_field 32 w4 d4) (h5 : is_field 32 w5 d5)
    (hw2 : w2 ≠ []) (hw3 : w3 ≠ []) (hw4 : w4 ≠ []) (hw5 : w5 ≠ [])
    (hrest : ends_number rest) :
    read_log_entry
        (some (w1 ++ d1 ++ (w2 ++ d2 ++ (w3 ++ d3 ++ (w4 ++ d4 ++ (w5 ++ d5 ++ rest)))))) =
      ({ thread_id := some (decimal d1), tick := some (decimal d2), key := some (decimal d3),
         insert_thread_id := some (decimal d4), value := some (decimal d5) },
        some rest) ∧
    (st.deleting = false →
      ∃ res, read_record num_threads st 'i'
          (w1 ++ d1 ++ (w2 ++ d2 ++ (w3 ++ d3 ++ (w4 ++ d4 ++ (w5 ++ d5 ++ rest))))) =
          some res ∧
        ∀ st1 rest1, res = Except.ok (st1, rest1) →
          rest1 = some rest ∧ st1.deletions = st.deletions ∧ st1.line = st.line + 1 ∧
          st1.insertions = st.insertions.set (decimal d1)
            (st.insertions.getD (decimal d1) [] ++
              [{ thread_id := decimal d1, tick := decimal d2, failed := false,
                 key := decimal d3, insert_thread_id := decimal d4, value := decimal d5,
                 deleted := false }])) ∧
    (∃ res, read_record num_threads st 'd'
        (w1 ++ d1 ++ (w2 ++ d2 ++ (w3 ++ d3 ++ (w4 ++ d4 ++ (w5 ++ d5 ++ rest))))) =
        some res ∧
      ∀ st1 rest1, res = Except.ok (st1, rest1) →
        rest1 = some rest ∧ st1.line = st.line + 1 ∧
        st1.deletions = st.deletions ++
          [{ thread_id := decimal d1, tick := decimal d2, failed := false,
             key := decimal d3, insert_thread_id := decimal d4, value := decimal d5,
             deleted := false }]) ∧
    read_record num_threads st 'f'
        (w1 ++ d1 ++ (w2 ++ d2 ++ (w3 ++ d3 ++ (w4 ++ d4 ++ (w5 ++ d5 ++ rest))))) =
      some (if decimal d1 ≥ num_threads then Except.error log_error.thread_id_too_high
        else Except.ok ({ st with
          deletions := st.deletions ++
            [{ thread_id := decimal d1, tick := decimal d2, failed := true, key := 0,
               insert_thread_id := 0, value := 0, deleted := false }],
          deleting := true,
          line := st.line + 1 }, some (w3 ++ d3 ++ (w4 ++ d4 ++ (w5 ++ d5 ++ rest))))) ∧
    ∀ (tag : Char) (text : List Char), isspace tag = false →
      read_char (w1 ++ tag :: text) = some (tag, text) := by
  have hentry := read_log_entry_fields w1 d1 w2 d2 w3 d3 w4 d4 w5 d5 rest h1 h2 h3 h4 h5
    hw2 hw3 hw4 hw5 hrest
  refine ⟨hentry, ?_, ?_, ?_, fun tag text htag => read_char_tag w1 text tag h1.blank htag⟩
  · intro hdel
    simp only [read_record, if_true, read_insertion, hdel, Bool.false_eq_true, if_false,
      hentry, Option.some_bind]
    by_cases c1 : decimal d1 ≥ num_threads
    · rw [if_pos c1]; exact ⟨_, rfl, fun st1 rest1 hres => by cases hres⟩
    rw [if_neg c1]
    by_cases c2 : decimal d4 ≥ num_threads
    · rw [if_pos c2]; exact ⟨_, rfl, fun st1 rest1 hres => by cases hres⟩
    rw [if_neg c2]
    cases hb : before_back (st.insertions.getD (decimal d1) []) (some (decimal d2)) with
    | none =>
      exfalso
      unfold before_back at hb
      cases hl : (st.insertions.getD (decimal d1) []).getLast? with
      | none => rw [hl] at hb; simp at hb
      | some b => rw [hl] at hb; simp at hb
    | some before =>
      simp only [Option.some_bind]
      cases before with
      | true => exact ⟨_, rfl, fun st1 rest1 hres => by cases hres⟩
      | false =>
        simp only [Bool.false_eq_true, if_false]
        by_cases c4 : decimal d5 ≠ (st.insertions.getD (decimal d1) []).length ∨
            decimal d1 ≠ decimal d4
        · rw [if_pos c4]; exact ⟨_, rfl, fun st1 rest1 hres => by cases hres⟩
        · rw [if_neg c4]
          refine ⟨_, rfl, ?_⟩
          intro st1 rest1 hres
          cases hres
          exact ⟨rfl, rfl, rfl, rfl⟩
  · have hd : ¬ ('d' : Char) = 'i' := by decide
    simp only [read_record, hd, if_false, if_true, read_deletion, hentry, Option.some_bind]
    by_cases c1 : decimal d1 ≥ num_threads
    · rw [if_pos c1]; exact ⟨_, rfl, fun st1 rest1 hres => by cases hres⟩
    rw [if_neg c1]
    by_cases c2 : decimal d4 ≥ num_threads
    · rw [if_pos c2]; exact ⟨_, rfl, fun st1 rest1 hres => by cases hres⟩
    rw [if_neg c2]
    cases hget : (st.insertions.getD (decimal d4) [])[decimal d5]? with
    | none => exact ⟨_, rfl, fun st1 rest1 hres => by cases hres⟩
    | some ins =>
      simp only
      by_cases c3 : decimal d3 ≠ ins.key
      · rw [if_pos c3]; exact ⟨_, rfl, fun st1 rest1 hres => by cases hres⟩
      rw [if_neg c3]
      by_cases c4 : decimal d2 < ins.tick
      · rw [if_pos c4]; exact ⟨_, rfl, fun st1 rest1 hres => by cases hres⟩
      rw [if_neg c4]
      by_cases c5 : ins.deleted = true
      · rw [if_pos c5]; exact ⟨_, rfl, fun st1 rest1 hres => by cases hres⟩
      rw [if_neg c5]
      refine ⟨_, rfl, ?_⟩
      intro st1 rest1 hres
      cases hres
      exact ⟨rfl, rfl, rfl⟩
  · have hf1 : ¬ ('f' : Char) = 'i' := by decide
    have hf2 : ¬ ('f' : Char) = 'd' := by decide
    simp only [read_record, hf1, hf2, if_false, if_true, read_failed,
      read_unsigned_field 32 w1 d1 _ h1 (field_ends_number 64 w2 d2 _ h2 hw2),
      read_unsigned_field 64 w2 d2 _ h2 (field_ends_number 32 w3 d3 _ h3 hw3),
      Option.some_bind, Option.getD_some, Option.isNone_some, Bool.or_false]
    split_ifs <;> rfl

theorem reader_consumes_five_fields_per_insertion_witness :
    read_record 2 two_threads 'f'
        ([' '] ++ ['1'] ++ ([' '] ++ ['5'] ++ ([' '] ++ ['7'] ++ ([' '] ++ ['1'] ++
          ([' '] ++ ['0'] ++ ("\nd 0 9 7 1 0\n").toList))))) =
      some (if decimal ['1'] ≥ 2 then Except.error log_error.thread_id_too_high
        else Except.ok ({ two_threads with
          deletions := two_threads.deletions ++
            [{ thread_id := decimal ['1'], tick := decimal ['5'], failed := true, key := 0,
               insert_thread_id := 0, value := 0, deleted := false }],
          deleting := true,
          line := two_threads.line + 1 },
          some ([' '] ++ ['7'] ++ ([' '] ++ ['1'] ++
            ([' '] ++ ['0'] ++ ("\nd 0 9 7 1 0\n").toList))))) :=
  (reader_consumes_five_fields_per_insertion 2 two_threads [' '] ['1'] [' '] ['5'] [' '] ['7']
    [' '] ['1'] [' '] ['0'] ("\nd 0 9 7 1 0\n").toList
    ⟨by decide, by decide, by decide, by decide⟩ ⟨by decide, by decide, by decide, by decide⟩
    ⟨by decide, by decide, by decide, by decide⟩ ⟨by decide, by decide, by decide, by decide⟩
    ⟨by decide, by decide, by decide, by decide⟩ (by decide) (by decide) (by decide) (by decide)
    (ends_number_cons (Char.ofNat 10) _ (by decide))).2.2.2.1

/-- C29, the claim as stated fails for insertions: the branch for `i` consumes five
fields, not three.  On a record with five fields it leaves the input after the fifth; on
a record with three fields, followed by the next record, the extraction of the fourth
field meets the tag `d` and fails, the fifth field is never written and the check of
line 137 reads it uninitialised, so that the record and the log have no result. -/
theorem reader_three_fields_counterexample :
    read_record 2 two_threads 'i' (" 1 5 7 1 0\nd 0 9 7 1 0\n").toList =
      some (Except.ok
        ({ insertions := [[], [{ thread_id := 1, tick := 5, failed := false, key := 7,
                                 insert_thread_id := 1, value := 0, deleted := false }]],
           deletions := [], deleting := false, line := 3 },
         some ("\nd 0 9 7 1 0\n").toList)) ∧
    read_record 2 two_threads 'i' (" 1 5 7\nd 0 9 7 1 0\n").toList = none ∧
    read_log ("2\ni 1 5 7\nd 0 9 7 1 0\n").toList = none ∧
    read_log ("2\ni 1 5 7 1 0\nd 0 9 7 1 0\n").toList =
      some (Except.ok
        { insertions := [[], [{ thread_id := 1, tick := 5, failed := false, key := 7,
                                insert_thread_id := 1, value := 0, deleted := true }]],
          deletions := [{ thread_id := 0, tick := 9, failed := false, key := 7,
                          insert_thread_id := 1, value := 0, deleted := false }],
          deleting := true, line := 4 }) :=
  ⟨rfl, rfl, rfl, rfl⟩

end fields

/-! ## The guarded queue: the flush, and the heap under `push` -/

section flush_claims

variable {α H : Type} {hp : merge_heap α H} {cfg : Configuration} {comp : α → α → Bool}

/-- What `push` does to the heap: nothing, or, only when the insertion buffer is full,
one `insert` of the sorted insertion buffer. -/
theorem push_heap (hN : 0 < cfg.NodeSize) (g g1 : guarded_heap α H) (v : α)
    (h : g.push hp cfg comp v = some g1) :
    (g1.heap = g.heap ∨
      (g.insertion_buffer.length = InsertionBufferSize cfg ∧
        g1.heap = hp.insert g.heap (std_sort comp g.insertion_buffer))) ∧
    (g.insertion_buffer.length ≠ InsertionBufferSize cfg → g1.heap = g.heap) := by
  have hfl : ∀ g2, flush_if_full hp cfg comp g = some g2 →
      (g2.heap = g.heap ∨
        (g.insertion_buffer.length = InsertionBufferSize cfg ∧
          g2.heap = hp.insert g.heap (std_sort comp g.insertion_buffer))) ∧
      (g.insertion_buffer.length ≠ InsertionBufferSize cfg → g2.heap = g.heap) := by
    intro g2 h2
    rw [flush_if_full_eq hN g] at h2
    simp only [Option.some.injEq] at h2
    subst h2
    by_cases hfull : g.insertion_buffer.length = InsertionBufferSize cfg
    · rw [if_pos hfull]
      exact ⟨Or.inr ⟨hfull, rfl⟩, fun hc => absurd hfull hc⟩
    · rw [if_neg hfull]
      exact ⟨Or.inl rfl, fun _ => rfl⟩
  unfold guarded_heap.push at h
  simp only at h
  split_ifs at h
  · cases hf : flush_if_full hp cfg comp g with
    | none => rw [hf] at h; simp at h
    | some g2 =>
      rw [hf] at h
      simp only [Option.some_bind] at h
      cases hb : g2.deletion_buffer.getLast? with
      | none => rw [hb] at h; simp at h
      | some b =>
        rw [hb] at h
        simp only at h
        cases hpb : push_back (InsertionBufferSize cfg) g2.insertion_buffer b with
        | none => rw [hpb] at h; simp at h
        | some i1 =>
          rw [hpb] at h
          simp only [Option.some_bind] at h
          cases hia : insert_at (DeletionBufferSize cfg) g2.deletion_buffer.dropLast
              (push_scan comp v g.deletion_buffer g.deletion_buffer.length) v with
          | none => rw [hia] at h; simp at h
          | some d1 =>
            rw [hia] at h
            simp only [Option.map_some', Option.some.injEq] at h
            subst h
            exact hfl g2 hf
  · cases hia : insert_at (DeletionBufferSize cfg) g.deletion_buffer
        (push_scan comp v g.deletion_buffer g.deletion_buffer.length) v with
    | none => rw [hia] at h; simp at h
    | some d1 =>
      rw [hia] at h
      simp only [Option.map_some', Option.some.injEq] at h
      subst h
      exact ⟨Or.inl rfl, fun _ => rfl⟩
  · cases hf : flush_if_full hp cfg comp g with
    | none => rw [hf] at h; simp at h
    | some g2 =>
      rw [hf] at h
      simp only [Option.some_bind] at h
      cases hpb : push_back (InsertionBufferSize cfg) g2.insertion_buffer v with
      | none => rw [hpb] at h; simp at h
      | some i1 =>
        rw [hpb] at h
        simp only [Option.map_some', Option.some.injEq] at h
        subst h
        exact hfl g2 hf

/-- C31: on a heap that records the blocks handed to `insert`, `flush_insertion_buffer` on a
full insertion buffer returns; it has called `heap.insert` exactly once (the log grew by
one block), with the range `[0, NodeSize)` of the sorted buffer, which is the whole sorted
buffer: a block of exactly `NodeSize` values, ascending under the comparator and a
permutation of the insertion buffer; the loop makes this one round, whose slice lies
inside the buffer, and ends; the insertion buffer is left empty and the deletion buffer
as it was; and recording does not change what the flush does. -/
theorem flush_inserts_one_sorted_block (hswo : strict_weak_order comp) (hN : 0 < cfg.NodeSize)
    (g : guarded_heap α (H × List (List α)))
    (hfull : g.insertion_buffer.length = InsertionBufferSize cfg) :
    ∃ g1, flush_insertion_buffer (recording_heap hp) cfg comp g = some g1 ∧
      g1.heap.2 = g.heap.2 ++ [std_sort comp g.insertion_buffer] ∧
      g1.heap.1 = hp.insert g.heap.1 (std_sort comp g.insertion_buffer) ∧
      ((std_sort comp g.insertion_buffer).drop (0 * cfg.NodeSize)).take cfg.NodeSize =
        std_sort comp g.insertion_buffer ∧
      (std_sort comp g.insertion_buffer).length = cfg.NodeSize ∧
      ascending comp (std_sort comp g.insertion_buffer) ∧
      (std_sort comp g.insertion_buffer).Perm g.insertion_buffer ∧
      (0 + 1) * cfg.NodeSize ≤ (std_sort comp g.insertion_buffer).length ∧
      ¬ (0 + cfg.NodeSize < (std_sort comp g.insertion_buffer).length) ∧
      flush_loop (recording_heap hp) cfg (std_sort comp g.insertion_buffer)
          (std_sort comp g.insertion_buffer).length 0 g.heap =
        some ((recording_heap hp).insert g.heap (std_sort comp g.insertion_buffer)) ∧
      g1.insertion_buffer = [] ∧ g1.deletion_buffer = g.deletion_buffer ∧
      g1.in_use = g.in_use ∧
      flush_insertion_buffer hp cfg comp g.forget = some g1.forget := by
  have hl : (std_sort comp g.insertion_buffer).length = cfg.NodeSize := by
    rw [std_sort_length]; exact hfull
  have heq := @flush_insertion_buffer_eq _ _ (recording_heap hp) cfg comp hN g hfull
  refine ⟨_, heq, rfl, rfl, ?_, hl, std_sort_ascending hswo _, std_sort_perm comp _, ?_, ?_,
    flush_loop_one hN _ hl _, rfl, rfl, rfl, ?_⟩
  · rw [Nat.zero_mul, List.drop_zero, ← hl, List.take_length]
  · rw [hl]; omega
  · rw [hl]; omega
  · have := @flush_insertion_buffer_forget _ _ hp cfg comp g
    rw [heq] at this
    simp only [Option.map_some'] at this
    exact this.symm

theorem flush_inserts_one_sorted_block_witness :
    ∃ g1, flush_insertion_buffer (recording_heap (sorted_block_heap std_less 2)) small_cfg
        std_less full_queue = some g1 ∧
      g1.heap.2 = full_queue.heap.2 ++ [std_sort std_less full_queue.insertion_buffer] ∧
      g1.heap.1 = (sorted_block_heap std_less 2).insert full_queue.heap.1
        (std_sort std_less full_queue.insertion_buffer) ∧
      ((std_sort std_less full_queue.insertion_buffer).drop (0 * small_cfg.NodeSize)).take
          small_cfg.NodeSize = std_sort std_less full_queue.insertion_buffer ∧
      (std_sort std_less full_queue.insertion_buffer).length = small_cfg.NodeSize ∧
      ascending std_less (std_sort std_less full_queue.insertion_buffer) ∧
      (std_sort std_less full_queue.insertion_buffer).Perm full_queue.insertion_buffer ∧
      (0 + 1) * small_cfg.NodeSize ≤ (std_sort std_less full_queue.insertion_buffer).length ∧
      ¬ (0 + small_cfg.NodeSize < (std_sort std_less full_queue.insertion_buffer).length) ∧
      flush_loop (recording_heap (sorted_block_heap std_less 2)) small_cfg
          (std_sort std_less full_queue.insertion_buffer)
          (std_sort std_less full_queue.insertion_buffer).length 0 full_queue.heap =
        some ((recording_heap (sorted_block_heap std_less 2)).insert full_queue.heap
          (std_sort std_less full_queue.insertion_buffer)) ∧
      g1.insertion_buffer = [] ∧ g1.deletion_buffer = full_queue.deletion_buffer ∧
      g1.in_use = full_queue.in_use ∧
      flush_insertion_buffer (sorted_block_heap std_less 2) small_cfg std_less
        full_queue.forget = some g1.forget :=
  @flush_inserts_one_sorted_block Nat (List Nat) (sorted_block_heap std_less 2) small_cfg
    std_less std_less_swo (by decide) full_queue rfl

/-- C33: `guarded_heap::push` leaves the heap unchanged unless the insertion buffer was
exactly full: a push that returns with an insertion buffer that is not full returns the
heap it was given (on the recording heap: no block is handed to `heap.insert`), and a
push that changes the heap found the insertion buffer full and inserted its sorted
values. In particular a push of a value smaller than the back of a full deletion buffer,
with an insertion buffer that is not full, returns, moves the back of the deletion buffer
to the insertion buffer, inserts the value at its place and does not touch the heap.
From a state that satisfies the queue invariant every push returns. -/
theorem push_touches_heap_only_when_full (hN : 0 < cfg.NodeSize) (g : guarded_heap α H)
    (v : α) :
    (∀ g1, g.push hp cfg comp v = some g1 →
      g.insertion_buffer.length ≠ InsertionBufferSize cfg → g1.heap = g.heap) ∧
    (∀ g1, g.push hp cfg comp v = some g1 → g1.heap ≠ g.heap →
      g.insertion_buffer.length = InsertionBufferSize cfg ∧
        g1.heap = hp.insert g.heap (std_sort comp g.insertion_buffer)) ∧
    (∀ (log : List (List α)) gr1,
      guarded_heap.push (recording_heap hp) cfg comp
        ⟨g.in_use, g.insertion_buffer, g.deletion_buffer, (g.heap, log)⟩ v = some gr1 →
      g.insertion_buffer.length ≠ InsertionBufferSize cfg → gr1.heap = (g.heap, log)) ∧
    (∀ b d0, g.deletion_buffer = d0 ++ [b] → comp v b = true →
      g.deletion_buffer.length = DeletionBufferSize cfg →
      g.insertion_buffer.length < InsertionBufferSize cfg →
      g.push hp cfg comp v = some
        { g with
          insertion_buffer := g.insertion_buffer ++ [b]
          deletion_buffer :=
            d0.take (push_scan comp v g.deletion_buffer g.deletion_buffer.length) ++
              v :: d0.drop (push_scan comp v g.deletion_buffer g.deletion_buffer.length) }) ∧
    (∀ law : heap_contract comp cfg.NodeSize hp, strict_weak_order comp → g.inv cfg law →
      ∃ g1, g.push hp cfg comp v = some g1) := by
  refine ⟨fun g1 h => (push_heap hN g g1 v h).2, ?_, ?_, ?_, ?_⟩
  · intro g1 h hne
    rcases (push_heap hN g g1 v h).1 with h1 | h1
    · exact absurd h1 hne
    · exact h1
  · intro log gr1 h hne
    exact (push_heap hN _ gr1 v h).2 hne
  · intro b d0 hd hvb hD hI
    have h := (@push_first_branch _ _ hp cfg comp hN g (Nat.le_of_lt hI) (Nat.le_of_eq hD)
      v b d0 hd hvb).2
    rw [if_pos hD, if_neg (Nat.ne_of_lt hI)] at h
    exact h
  · intro law hswo hinv
    obtain ⟨g1, h, -⟩ := push_spec law hswo hN g hinv v
    exact ⟨g1, h⟩

theorem push_touches_heap_only_when_full_witness :
    guarded_heap.push (sorted_block_heap std_less 2) small_cfg std_less
        (sample_queue [7] [1, 2, 4, 6] [8, 9]) 3 =
      some (sample_queue [7, 6] [1, 2, 3, 4] [8, 9]) ∧
    (sample_queue [7, 6] [1, 2, 3, 4] [8, 9]).heap = (sample_queue [7] [1, 2, 4, 6] [8, 9]).heap :=
  ⟨rfl,
    (@push_touches_heap_only_when_full Nat (List Nat) (sorted_block_heap std_less 2) small_cfg
      std_less (by decide) (sample_queue [7] [1, 2, 4, 6] [8, 9]) 3).1 _ rfl (by decide)⟩

end flush_claims

/-! ## The merge loop of the refill -/

section merge_claims

variable {α : Type} {comp : α → α → Bool}

/-- The merge loop does not end in fewer rounds than the range of the insertion buffer has
values. -/
theorem merge_loop_short (cap : Nat) :
    ∀ (fuel : Nat) (small node d : List α), fuel < small.length →
      merge_loop comp cap fuel small node d = none := by
  intro fuel
  induction fuel with
  | zero =>
    intro small node d h
    have hemp : small.isEmpty = false := by
      cases small with
      | nil => simp at h
      | cons _ _ => rfl
    simp [merge_loop, hemp]
  | succ fuel ih =>
    intro small node d h
    have hemp : small.isEmpty = false := by
      cases small with
      | nil => simp at h
      | cons _ _ => rfl
    unfold merge_loop
    simp only [hemp, Bool.false_eq_true, if_false]
    cases hm : small[min_element comp small]? with
    | none => rfl
    | some m =>
      simp only
      cases hs : merge_scan comp cap m node d with
      | none => rfl
      | some nd =>
        simp only [Option.some_bind]
        cases hpb : push_back cap nd.2 m with
        | none => rfl
        | some d2 =>
          simp only [Option.some_bind]
          apply ih
          have := (swap_remove_spec small _ m hm).2
          omega

/-- More rounds than needed change nothing: the loop has ended. -/
theorem merge_loop_more (cap : Nat) :
    ∀ (fuel : Nat) (small node d : List α) (r : List α × List α),
      merge_loop comp cap fuel small node d = some r →
      ∀ j, merge_loop comp cap (fuel + j) small node d = some r := by
  intro fuel
  induction fuel with
  | zero =>
    intro small node d r h j
    unfold merge_loop at h
    split_ifs at h with hemp
    cases j with
    | zero => simp [merge_loop, hemp, h]
    | succ j =>
      rw [Nat.zero_add]
      unfold merge_loop
      rw [if_pos hemp]
      exact h
  | succ fuel ih =>
    intro small node d r h j
    rw [Nat.add_right_comm]
    unfold merge_loop at h ⊢
    split_ifs at h ⊢ with hemp
    · exact h
    · cases hm : small[min_element comp small]? with
      | none => rw [hm] at h; simp at h
      | some m =>
        rw [hm] at h
        simp only at h ⊢
        cases hs : merge_scan comp cap m node d with
        | none => rw [hs] at h; simp at h
        | some nd =>
          rw [hs] at h
          simp only [Option.some_bind] at h ⊢
          cases hpb : push_back cap nd.2 m with
          | none => rw [hpb] at h; simp at h
          | some d2 =>
            rw [hpb] at h
            simp only [Option.some_bind] at h ⊢
            exact ih _ _ _ r h j

/-- One round of the merge loop from a state that satisfies `merge_state_ok`:
`min_element` finds a value, the inner scan stops inside the node, and the next state
satisfies `merge_state_ok` again, with one value less in the range. -/
theorem merge_round (hswo : strict_weak_order comp) (cap : Nat) (M : α)
    (small node d : List α) (hok : merge_state_ok comp cap M small node d)
    (hne : small ≠ []) :
    ∃ m pre rest, small[min_element comp small]? = some m ∧ node = pre ++ rest ∧
      rest ≠ [] ∧
      merge_scan comp cap m node d = some (rest, d ++ pre) ∧
      push_back cap (d ++ pre) m = some (d ++ pre ++ [m]) ∧
      (swap_remove small (min_element comp small)).length + 1 = small.length ∧
      merge_state_ok comp cap M (swap_remove small (min_element comp small)) rest
        (d ++ pre ++ [m]) ∧
      ∀ fuel, merge_loop comp cap (fuel + 1) small node d =
        merge_loop comp cap fuel (swap_remove small (min_element comp small)) rest
          (d ++ pre ++ [m]) := by
  obtain ⟨hlast, hsmall, hasc, hcap⟩ := hok
  obtain ⟨m, hm, -⟩ := min_element_spec hswo small hne
  have hmem : m ∈ small := List.mem_iff_getElem?.mpr ⟨_, hm⟩
  have hlen1 : 1 ≤ small.length := by
    cases small with
    | nil => exact absurd rfl hne
    | cons _ _ => simp
  obtain ⟨pre, rest, hnode, hrl, -, -, hscan⟩ :=
    merge_scan_spec hswo cap m M node d hlast (hsmall m hmem) hasc (by omega)
  obtain ⟨hperm, hlen⟩ := swap_remove_spec small _ m hm
  have hnl : node.length = pre.length + rest.length := by rw [hnode, List.length_append]
  have hpb : push_back cap (d ++ pre) m = some (d ++ pre ++ [m]) :=
    push_back_eq_some m (by rw [List.length_append]; omega)
  have hrne : rest ≠ [] := by
    intro h; rw [h] at hrl; simp at hrl
  refine ⟨m, pre, rest, hm, hnode, hrne, hscan, hpb, hlen, ⟨hrl, ?_, ?_, ?_⟩, ?_⟩
  · intro s hs
    apply hsmall
    have : s ∈ (small : Multiset α) := by
      rw [hperm]; exact Multiset.mem_cons_of_mem (Multiset.mem_coe.mpr hs)
    exact Multiset.mem_coe.mp this
  · rw [hnode] at hasc
    exact (ascending_append.mp hasc).2.1
  · simp only [List.length_append, List.length_singleton]
    omega
  · intro fuel
    have hemp : small.isEmpty = false := by
      cases small with
      | nil => exact absurd rfl hne
      | cons _ _ => rfl
    conv_lhs => unfold merge_loop
    simp only [hemp, Bool.false_eq_true, if_false, hm, hscan, Option.some_bind, hpb]

/-- From a state that satisfies `merge_state_ok` the merge loop ends after as many rounds
as the range of the insertion buffer has values, with the scan still inside the node. -/
theorem merge_loop_rounds (hswo : strict_weak_order comp) (cap : Nat) (M : α) :
    ∀ (fuel : Nat) (small node d : List α), small.length = fuel →
      merge_state_ok comp cap M small node d →
      ∃ node1 d1 pre, merge_loop comp cap fuel small node d = some (node1, d1) ∧
        node = pre ++ node1 ∧ node1.getLast? = some M := by
  intro fuel
  induction fuel with
  | zero =>
    intro small node d hlen hok
    have : small = [] := List.length_eq_zero.mp hlen
    subst this
    exact ⟨node, d, [], by simp [merge_loop], rfl, hok.1⟩
  | succ fuel ih =>
    intro small node d hlen hok
    have hne : small ≠ [] := by intro h; rw [h] at hlen; simp at hlen
    obtain ⟨m, pre, rest, -, hnode, -, -, -, hl, hok1, hstep⟩ :=
      merge_round hswo cap M small node d hok hne
    obtain ⟨node1, d1, pre1, hrun, hrest, hlast1⟩ := ih _ rest _ (by omega) hok1
    refine ⟨node1, d1, pre ++ pre1, ?_, ?_, hlast1⟩
    · rw [hstep]; exact hrun
    · rw [hnode, hrest, List.append_assoc]

/-- C32: the third branch of the refill, on every ascending top node `top` of at most
`NodeSize` values with last value `M` and every insertion buffer with fewer than
`NodeSize` values, run on the values of the buffer that are not larger than `M`. The
start state satisfies `merge_state_ok`; every round from such a state calls
`min_element` on a non-empty range and finds a value, its inner scan stops on a value of
the node (the rest of the node is not empty, so `heap_it` is not past the last value)
and the next state satisfies `merge_state_ok` with one value less; the loop ends after
exactly as many rounds as there are such values (it has a result with that many rounds,
none with fewer, the same with more), and `heap_it` then still points into the node. -/
theorem refill_merge_scan_stays_in_node (hswo : strict_weak_order comp) (cfg : Configuration)
    (M : α) (top ib : List α) (hib : ib.length < InsertionBufferSize cfg)
    (htop : top.length ≤ cfg.NodeSize) (hasc : ascending comp top)
    (hlast : top.getLast? = some M) :
    merge_state_ok comp (DeletionBufferSize cfg) M (ib.filter (fun v => !comp M v)) top [] ∧
    (∀ small node d, merge_state_ok comp (DeletionBufferSize cfg) M small node d →
      small ≠ [] →
      ∃ m pre rest, small[min_element comp small]? = some m ∧ node = pre ++ rest ∧
        rest ≠ [] ∧
        merge_scan comp (DeletionBufferSize cfg) m node d = some (rest, d ++ pre) ∧
        (swap_remove small (min_element comp small)).length + 1 = small.length ∧
        merge_state_ok comp (DeletionBufferSize cfg) M
          (swap_remove small (min_element comp small)) rest (d ++ pre ++ [m]) ∧
        ∀ fuel, merge_loop comp (DeletionBufferSize cfg) (fuel + 1) small node d =
          merge_loop comp (DeletionBufferSize cfg) fuel
            (swap_remove small (min_element comp small)) rest (d ++ pre ++ [m])) ∧
    (∃ node1 d1 pre,
      merge_loop comp (DeletionBufferSize cfg) (ib.filter (fun v => !comp M v)).length
        (ib.filter (fun v => !comp M v)) top [] = some (node1, d1) ∧
      top = pre ++ node1 ∧ node1.getLast? = some M ∧
      (∀ k, k < (ib.filter (fun v => !comp M v)).length →
        merge_loop comp (DeletionBufferSize cfg) k (ib.filter (fun v => !comp M v)) top [] =
          none) ∧
      ∀ j, merge_loop comp (DeletionBufferSize cfg)
          ((ib.filter (fun v => !comp M v)).length + j)
          (ib.filter (fun v => !comp M v)) top [] = some (node1, d1)) := by
  have hfl : (ib.filter (fun v => !comp M v)).length ≤ ib.length := List.length_filter_le _ _
  have hok : merge_state_ok comp (DeletionBufferSize cfg) M
      (ib.filter (fun v => !comp M v)) top [] := by
    refine ⟨hlast, ?_, hasc, ?_⟩
    · intro s hs
      have := (List.mem_filter.mp hs).2
      simpa using this
    · unfold InsertionBufferSize at hib
      unfold DeletionBufferSize
      simp only [List.length_nil]
      omega
  refine ⟨hok, ?_, ?_⟩
  · intro small node d hst hne
    obtain ⟨m, pre, rest, h1, h2, h3, h4, -, h5, h6, h7⟩ :=
      merge_round hswo _ M small node d hst hne
    exact ⟨m, pre, rest, h1, h2, h3, h4, h5, h6, h7⟩
  · obtain ⟨node1, d1, pre, hrun, hpre, hl⟩ := merge_loop_rounds hswo _ M _ _ top [] rfl hok
    exact ⟨node1, d1, pre, hrun, hpre, hl, fun k hk => merge_loop_short _ k _ _ _ hk,
      merge_loop_more _ _ _ _ _ _ hrun⟩

theorem refill_merge_scan_stays_in_node_witness :
    ∃ node1 d1 pre,
      merge_loop std_less (DeletionBufferSize wide_cfg)
        ([5, 1, 12].filter (fun v => !std_less 9 v)).length
        ([5, 1, 12].filter (fun v => !std_less 9 v)) [2, 4, 6, 9] [] = some (node1, d1) ∧
      [2, 4, 6, 9] = pre ++ node1 ∧ node1.getLast? = some 9 ∧
      (∀ k, k < ([5, 1, 12].filter (fun v => !std_less 9 v)).length →
        merge_loop std_less (DeletionBufferSize wide_cfg) k
          ([5, 1, 12].filter (fun v => !std_less 9 v)) [2, 4, 6, 9] [] = none) ∧
      ∀ j, merge_loop std_less (DeletionBufferSize wide_cfg)
          (([5, 1, 12].filter (fun v => !std_less 9 v)).length + j)
          ([5, 1, 12].filter (fun v => !std_less 9 v)) [2, 4, 6, 9] [] = some (node1, d1) :=
  (@refill_merge_scan_stays_in_node Nat std_less std_less_swo wide_cfg 9 [2, 4, 6, 9]
    [5, 1, 12] (by decide) (by decide) (by decide) rfl).2.2

end merge_claims

/-! ## The multiqueue: the state when the second queue is sampled -/

section second_sampling

variable {Key T H : Type} {hp : merge_heap (Key × T) H} {cfg : Configuration}
  {comp : Key → Key → Bool}

/-- The call `extract_top` is its first half followed by its second half. -/
theorem extract_top_halves (mq : numa_aware_merge_mq (Key × T) H) (id : Nat)
    (rng : List Nat) :
    mq.extract_top hp cfg comp id rng =
      (extract_top_first hp cfg comp mq id rng).bind
        (fun p => extract_top_second hp cfg comp p.1 p.2.1 p.2.2) := by
  unfold numa_aware_merge_mq.extract_top extract_top_first
  cases rng with
  | nil => rfl
  | cons r0 rs =>
    simp only
    cases hprobe : probe_first cfg id (random_local_queue_index cfg r0) cfg.C 0 none
        ({ mq := mq, rng := rs, trace := [] } : exec (Key × T) H) with
    | none => rfl
    | some pe =>
      obtain ⟨fi, e1⟩ := pe
      cases fi with
      | none => rfl
      | some i =>
        simp only
        cases ho : on_queue i (refill_if_empty hp cfg (value_comparator comp)) e1 with
        | none => rfl
        | some e2 =>
          simp only [Option.some_bind]
          cases hr : read_deletion_buffer i e2 with
          | none => rfl
          | some de =>
            obtain ⟨d1, e3⟩ := de
            simp only [Option.some_bind]
            cases hu : (if d1.isEmpty = true then unlock i e3 else some e3) with
            | none => rfl
            | some e4 => rfl

/-- What the code keeps at the sampling of the second queue: with `C = 4`, when
`extract_top` reaches it with first index `i`, the value `d1` read for the first queue is
the deletion buffer of queue `i` in the current state, and either `d1` is not empty, the
lock word of queue `i` is set and the caller holds exactly the lock of queue `i`, or `d1`
is empty (`first_empty`), the lock word of queue `i` has been cleared and the caller
holds no lock.  The rest of the call is `extract_top_second` from this state. -/
theorem second_sampling_holds_first_unless_empty (hC : cfg.C = 4)
    (mq : numa_aware_merge_mq (Key × T) H) (id : Nat) (rng : List Nat) (i : Nat)
    (d1 : List (Key × T)) (e4 : exec (Key × T) H)
    (h : extract_top_first hp cfg comp mq id rng = some (i, d1, e4)) :
    (∃ g, e4.mq.heap_list_[i]? = some g ∧ g.deletion_buffer = d1 ∧
      ((d1 ≠ [] ∧ g.in_use = true ∧ lock_ok [i] e4) ∨
        (d1 = [] ∧ g.in_use = false ∧ lock_ok [] e4))) ∧
    mq.extract_top hp cfg comp id rng = extract_top_second hp cfg comp i d1 e4 := by
  refine ⟨?_, by rw [extract_top_halves, h]; rfl⟩
  unfold extract_top_first at h
  cases rng with
  | nil => simp at h
  | cons r0 rs =>
    simp only at h
    cases hprobe : probe_first cfg id (random_local_queue_index cfg r0) cfg.C 0 none
        ({ mq := mq, rng := rs, trace := [] } : exec (Key × T) H) with
    | none => rw [hprobe] at h; simp at h
    | some pe =>
      obtain ⟨fi, e1⟩ := pe
      rw [hprobe] at h
      obtain ⟨i0, g1, hfi, hq1, hu1, he1, hok1, -⟩ :=
        probe_first_state hC mq id _ rs fi e1 hprobe
      subst hfi
      simp only at h
      have hilt := lt_of_get hq1
      have himem : i0 ∈ [i0] := List.mem_singleton.mpr rfl
      cases ho : on_queue i0 (refill_if_empty hp cfg (value_comparator comp)) e1 with
      | none => rw [ho] at h; simp at h
      | some e2 =>
        rw [ho] at h
        simp only [Option.some_bind] at h
        have hok2 := on_queue_ok hok1 i0 himem _
          (fun g g1 hg => refill_if_empty_keeps_in_use g g1 hg) ho
        obtain ⟨gl, glr, hql, hrl, he2⟩ := on_queue_some i0 _ e1 e2 ho
        rw [he1, store_get_same _ _ _ hilt] at hql
        cases hql
        have hglr : glr.in_use = true := by
          rw [refill_if_empty_keeps_in_use _ _ hrl]
        cases hr : read_deletion_buffer i0 e2 with
        | none => rw [hr] at h; simp at h
        | some de =>
          obtain ⟨d, e3⟩ := de
          rw [hr] at h
          simp only [Option.some_bind] at h
          have hok3 := read_deletion_buffer_ok hok2 i0 himem d hr
          obtain ⟨gd, hqd, hd1, he3⟩ := read_deletion_buffer_some i0 e2 e3 d hr
          have hlen2 : i0 < e1.mq.heap_list_.length := by
            rw [he1, store_length]; exact hilt
          rw [he2] at hqd
          simp only at hqd
          rw [store_get_same _ _ _ hlen2] at hqd
          cases hqd
          have hq3 : e3.mq.heap_list_[i0]? = some glr := by
            rw [he3, he2]
            exact store_get_same _ _ _ hlen2
          by_cases hd1e : d.isEmpty = true
          · simp only [hd1e, if_true] at h
            cases hu : unlock i0 e3 with
            | none => rw [hu] at h; simp at h
            | some e4a =>
              rw [hu] at h
              simp only [Option.map_some', Option.some.injEq, Prod.mk.injEq] at h
              obtain ⟨hi, hd, he⟩ := h
              subst hi; subst hd; subst he
              have hok4 := unlock_ok hok3 i0 himem hu
              rw [unlock_eq e3 i0 glr hq3] at hu
              simp only [Option.some.injEq] at hu
              have hlen3 : i0 < e3.mq.heap_list_.length := lt_of_get hq3
              refine ⟨{ glr with in_use := false }, ?_, hd1.symm, Or.inr ⟨?_, rfl, ?_⟩⟩
              · rw [← hu]
                exact store_get_same _ _ _ hlen3
              · exact List.isEmpty_iff.mp hd1e
              · simpa using hok4
          · simp only [hd1e, Bool.false_eq_true, if_false, Option.map_some', Option.some.injEq,
              Prod.mk.injEq] at h
            obtain ⟨hi, hd, he⟩ := h
            subst hi; subst hd; subst he
            refine ⟨glr, hq3, hd1.symm, Or.inl ⟨?_, hglr, hok3⟩⟩
            intro hc
            rw [hc] at hd1e
            exact hd1e rfl

theorem second_sampling_holds_first_unless_empty_witness :
    (∃ g, (⟨sample_mq.store 1 ⟨true, [], [(3, 30)], []⟩, [1, 2],
          [Event.acquire 1, Event.access 1, Event.access 1]⟩ :
          exec (Nat × Nat) (List (Nat × Nat))).mq.heap_list_[1]? = some g ∧
        g.deletion_buffer = [(3, 30)] ∧
        (([(3, 30)] ≠ [] ∧ g.in_use = true ∧
            lock_ok [1] (⟨sample_mq.store 1 ⟨true, [], [(3, 30)], []⟩, [1, 2],
              [Event.acquire 1, Event.access 1, Event.access 1]⟩ :
              exec (Nat × Nat) (List (Nat × Nat)))) ∨
          ([(3, 30)] = [] ∧ g.in_use = false ∧
            lock_ok [] (⟨sample_mq.store 1 ⟨true, [], [(3, 30)], []⟩, [1, 2],
              [Event.acquire 1, Event.access 1, Event.access 1]⟩ :
              exec (Nat × Nat) (List (Nat × Nat)))))) ∧
      sample_mq.extract_top pair_heap small_cfg std_less 0 [1, 1, 2] =
        extract_top_second pair_heap small_cfg std_less 1 [(3, 30)]
          ⟨sample_mq.store 1 ⟨true, [], [(3, 30)], []⟩, [1, 2],
            [Event.acquire 1, Event.access 1, Event.access 1]⟩ :=
  @second_sampling_holds_first_unless_empty Nat Nat (List (Nat × Nat)) pair_heap small_cfg
    std_less (rfl : small_cfg.C = 4) sample_mq 0 [1, 1, 2] 1 [(3, 30)]
    ⟨sample_mq.store 1 ⟨true, [], [(3, 30)], []⟩, [1, 2],
      [Event.acquire 1, Event.access 1, Event.access 1]⟩ rfl

/-- C34: the comment of line 240 ("When we get here, we hold the lock for the first heap,
which has a nonempty buffer") does not hold of the code.  On a new multiqueue (`P = 1`,
`C = 4`) with first draw 0 the first queue is queue 0; it stays empty after its
refill-if-empty step and lines 236-239 release it; when the second queue is sampled the
lock word of queue 0 is free, the caller holds no lock and the deletion buffer of queue 0
is empty. -/
theorem second_sampling_reached_without_lock :
    ∃ e4, extract_top_first pair_heap small_cfg std_less empty_mq 0 [0, 0] =
        some (0, [], e4) ∧
      e4.trace = [Event.acquire 0, Event.access 0, Event.access 0, Event.release 0] ∧
      lock_discipline [] e4.trace = some [] ∧
      lock_word e4.mq 0 = some false ∧
      e4.mq.heap_list_[0]?.map (fun g => g.deletion_buffer) = some [] :=
  ⟨_, rfl, rfl, rfl, rfl, rfl⟩

end second_sampling

/-! ## The analyzer: the order of the replay heap -/

/-- C38: `operator<` on `heap_entry` is the lexicographic order on
`(key, ins_thread_id, elem_id)`; it is irreflexive and transitive, and for any two entries
exactly one of `a < b`, `b < a` and field-wise equality holds. -/
theorem heap_entry_lt_strict_total_order :
    (∀ a b : heap_entry, a.lt b = true ↔
      Prod.Lex (fun x y : Nat => x < y) (Prod.Lex (fun x y : Nat => x < y) (fun x y : Nat => x < y))
        (a.key, a.ins_thread_id, a.elem_id) (b.key, b.ins_thread_id, b.elem_id)) ∧
    (∀ a : heap_entry, a.lt a = false) ∧
    (∀ a b c : heap_entry, a.lt b = true → b.lt c = true → a.lt c = true) ∧
    (∀ a b : heap_entry,
      (a.lt b = true ∧ b.lt a = false ∧ a ≠ b) ∨
      (a.lt b = false ∧ b.lt a = true ∧ a ≠ b) ∨
      (a.lt b = false ∧ b.lt a = false ∧ a = b)) ∧
    (∀ a b : heap_entry, a = b ↔
      a.key = b.key ∧ a.ins_thread_id = b.ins_thread_id ∧ a.elem_id = b.elem_id) := by
  have hext : ∀ a b : heap_entry, a = b ↔
      a.key = b.key ∧ a.ins_thread_id = b.ins_thread_id ∧ a.elem_id = b.elem_id := by
    intro a b
    constructor
    · intro h; subst h; exact ⟨rfl, rfl, rfl⟩
    · intro h
      cases a; cases b
      simp only [heap_entry.mk.injEq]
      exact h
  have hf : ∀ a b : heap_entry, a.lt b = false ↔
      ¬ (a.key < b.key ∨ (a.key = b.key ∧ (a.ins_thread_id < b.ins_thread_id ∨
        (a.ins_thread_id = b.ins_thread_id ∧ a.elem_id < b.elem_id)))) := by
    intro a b
    rw [← heap_entry.lt_iff, Bool.not_eq_true]
  refine ⟨?_, ?_, ?_, ?_, hext⟩
  · intro a b
    rw [heap_entry.lt_iff, Prod.lex_def]
    simp only [Prod.lex_def]
  · intro a
    rw [hf]
    omega
  · intro a b c hab hbc
    rw [heap_entry.lt_iff] at hab hbc ⊢
    omega
  · intro a b
    have h1 := heap_entry.lt_iff a b
    have h2 := heap_entry.lt_iff b a
    have h3 := hf a b
    have h4 := hf b a
    have h5 := hext a b
    by_cases hab : a.lt b = true
    · left
      refine ⟨hab, ?_, ?_⟩
      · rw [h4]; rw [h1] at hab; omega
      · rw [h1] at hab; rw [Ne, h5]; omega
    · rw [Bool.not_eq_true] at hab
      by_cases hba : b.lt a = true
      · right; left
        refine ⟨hab, hba, ?_⟩
        rw [h2] at hba; rw [Ne, h5]; omega
      · rw [Bool.not_eq_true] at hba
        right; right
        refine ⟨hab, hba, ?_⟩
        rw [h3] at hab; rw [h4] at hba; rw [h5]; omega

/-! ## The analyzer: what the verifier accepts -/

theorem skip_ws_length : ∀ input : List Char, (skip_ws input).length ≤ input.length := by
  intro input
  induction input with
  | nil => simp [skip_ws]
  | cons c cs ih =>
    unfold skip_ws
    split_ifs
    · simp only [List.length_cons]; omega
    · exact Nat.le_refl _

theorem read_char_length (input rest : List Char) (op : Char)
    (h : read_char input = some (op, rest)) : rest.length < input.length := by
  unfold read_char at h
  have hl := skip_ws_length input
  cases hs : skip_ws input with
  | nil => rw [hs] at h; simp at h
  | cons c cs =>
    rw [hs] at h hl
    simp only [Option.some.injEq, Prod.mk.injEq] at h
    rw [← h.2]
    simp only [List.length_cons] at hl
    omega

theorem read_digits_length : ∀ (input : List Char) (acc : Nat),
    (read_digits input acc).2.length ≤ input.length := by
  intro input
  induction input with
  | nil => intro acc; simp [read_digits]
  | cons c cs ih =>
    intro acc
    unfold read_digits
    split_ifs
    · have := ih (10 * acc + (c.toNat - 48))
      simp only [List.length_cons]; omega
    · exact Nat.le_refl _

theorem read_unsigned_lt (bits : Nat) (s : Option (List Char)) (v : Nat)
    (h : (read_unsigned bits s).1 = some v) : v < 2 ^ bits := by
  have hpos : 0 < 2 ^ bits := Nat.two_pow_pos bits
  unfold read_unsigned at h
  cases s with
  | none => simp at h
  | some input =>
    dsimp only at h
    cases hs : skip_ws input with
    | nil => rw [hs] at h; simp at h
    | cons c cs =>
      rw [hs] at h
      dsimp only at h
      cases hg : skip_sign (c :: cs) with
      | nil =>
        rw [hg] at h
        simp only [Option.some.injEq] at h
        omega
      | cons d ds =>
        rw [hg] at h
        dsimp only at h
        split_ifs at h with h1 h2 h3
        · simp only [Option.some.injEq] at h
          rw [← h]
          exact Nat.mod_lt _ hpos
        · simp only [Option.some.injEq] at h
          omega
        · simp only [Option.some.injEq] at h
          omega
        · simp only [Option.some.injEq] at h
          omega

/-- The value that `operator>>` writes to the field `value` fits 32 bits. -/
theorem read_log_entry_value_lt (s : Option (List Char)) (v : Nat)
    (h : (read_log_entry s).1.value = some v) : v < 2 ^ 32 :=
  read_unsigned_lt 32 _ v h

/-- What an accepted insertion record has passed: the entry stored is `e`. -/
theorem read_insertion_ok (n : Nat) (st st1 : reader_state) (input : List Char)
    (s1 : Option (List Char))
    (h : read_insertion n st input = some (Except.ok (st1, s1))) :
    ∃ e : log_entry, e.failed = false ∧ e.deleted = false ∧ e.value < 2 ^ 32 ∧
      st.deleting = false ∧ e.thread_id < n ∧ e.insert_thread_id < n ∧
      (∀ b, (st.insertions.getD e.thread_id []).getLast? = some b → b.tick ≤ e.tick) ∧
      e.value = (st.insertions.getD e.thread_id []).length ∧
      e.thread_id = e.insert_thread_id ∧
      st1 = { st with
        insertions := st.insertions.set e.thread_id
          (st.insertions.getD e.thread_id [] ++ [e]),
        line := st.line + 1 } := by
  unfold read_insertion at h
  by_cases hdel : st.deleting = true
  · rw [if_pos hdel] at h
    exact absurd h (by simp)
  rw [if_neg hdel] at h
  have hvlt := read_log_entry_value_lt (some input)
  generalize read_log_entry (some input) = r at h hvlt
  obtain ⟨⟨tid, tick, key, itid, value⟩, s⟩ := r
  dsimp only at h hvlt
  cases tid with
  | none => simp at h
  | some tid =>
    simp only [Option.some_bind] at h
    by_cases c1 : tid ≥ n
    · rw [if_pos c1] at h; exact absurd h (by simp)
    rw [if_neg c1] at h
    cases itid with
    | none => simp at h
    | some itid =>
      simp only [Option.some_bind] at h
      by_cases c2 : itid ≥ n
      · rw [if_pos c2] at h; exact absurd h (by simp)
      rw [if_neg c2] at h
      cases hb : before_back (st.insertions.getD tid []) tick with
      | none => rw [hb] at h; simp at h
      | some before =>
        rw [hb] at h
        simp only [Option.some_bind] at h
        cases before with
        | true => simp at h
        | false =>
          simp only [Bool.false_eq_true, if_false] at h
          cases value with
          | none => simp at h
          | some value =>
            simp only [Option.some_bind] at h
            by_cases c4 : value ≠ (st.insertions.getD tid []).length ∨ tid ≠ itid
            · rw [if_pos c4] at h; exact absurd h (by simp)
            rw [if_neg c4] at h
            cases tick with
            | none => simp at h
            | some tick =>
              simp only [Option.some_bind] at h
              cases key with
              | none => simp at h
              | some key =>
                simp only [Option.some_bind, Option.some.injEq, Except.ok.injEq,
                  Prod.mk.injEq] at h
                refine ⟨⟨tid, tick, false, key, itid, value, false⟩, rfl, rfl,
                  hvlt value rfl, by simpa using hdel, (show tid < n by omega),
                  (show itid < n by omega), ?_, ?_, ?_,
                  h.1.symm⟩
                · intro b hlast
                  unfold before_back at hb
                  simp only at hlast
                  rw [hlast] at hb
                  simp only [Option.map_some', Option.some.injEq, decide_eq_false_iff_not] at hb
                  simp only
                  omega
                · by_contra hc
                  exact c4 (Or.inl hc)
                · by_contra hc
                  exact c4 (Or.inr hc)

/-- What an accepted deletion record has passed: the entry stored is `e`, the insertion
it refers to is `x`. -/
theorem read_deletion_ok (n : Nat) (st st1 : reader_state) (input : List Char)
    (s1 : Option (List Char))
    (h : read_deletion n st input = some (Except.ok (st1, s1))) :
    ∃ e x : log_entry, e.failed = false ∧ e.deleted = false ∧ e.value < 2 ^ 32 ∧
      e.thread_id < n ∧ e.insert_thread_id < n ∧
      (st.insertions.getD e.insert_thread_id [])[e.value]? = some x ∧
      e.key = x.key ∧ x.tick ≤ e.tick ∧ x.deleted = false ∧
      st1 = { insertions := st.insertions.set e.insert_thread_id
                ((st.insertions.getD e.insert_thread_id []).set e.value
                  { x with deleted := true }),
              deletions := st.deletions ++ [e],
              deleting := true,
              line := st.line + 1,
              tick_unset := st.tick_unset } := by
  unfold read_deletion at h
  have hvlt := read_log_entry_value_lt (some input)
  generalize read_log_entry (some input) = r at h hvlt
  obtain ⟨⟨tid, tick, key, itid, value⟩, s⟩ := r
  dsimp only at h hvlt
  cases tid with
  | none => simp at h
  | some tid =>
    simp only [Option.some_bind] at h
    by_cases c1 : tid ≥ n
    · rw [if_pos c1] at h; exact absurd h (by simp)
    rw [if_neg c1] at h
    cases itid with
    | none => simp at h
    | some itid =>
      simp only [Option.some_bind] at h
      by_cases c2 : itid ≥ n
      · rw [if_pos c2] at h; exact absurd h (by simp)
      rw [if_neg c2] at h
      cases value with
      | none => simp at h
      | some value =>
        simp only [Option.some_bind] at h
        cases hx : (st.insertions.getD itid [])[value]? with
        | none => rw [hx] at h; simp at h
        | some x =>
          rw [hx] at h
          dsimp only at h
          cases key with
          | none => simp at h
          | some key =>
            simp only [Option.some_bind] at h
            by_cases c3 : key ≠ x.key
            · rw [if_pos c3] at h; exact absurd h (by simp)
            rw [if_neg c3] at h
            cases tick with
            | none => simp at h
            | some tick =>
              simp only [Option.some_bind] at h
              by_cases c4 : tick < x.tick
              · rw [if_pos c4] at h; exact absurd h (by simp)
              rw [if_neg c4] at h
              by_cases c5 : x.deleted = true
              · rw [if_pos c5] at h; exact absurd h (by simp)
              rw [if_neg c5] at h
              simp only [Option.some.injEq, Except.ok.injEq, Prod.mk.injEq] at h
              refine ⟨⟨tid, tick, false, key, itid, value, false⟩, x, rfl, rfl,
                hvlt value rfl, (show tid < n by omega), (show itid < n by omega), hx, ?_,
                (show x.tick ≤ tick by omega),
                by simpa using c5, h.1.symm⟩
              by_contra hc
              exact c3 hc

/-- What an accepted failed-deletion record has passed: the entry stored has the thread
`t` and the tick `k`. -/
theorem read_failed_ok (n : Nat) (st st1 : reader_state) (input : List Char)
    (s1 : Option (List Char))
    (h : read_failed n st input = some (Except.ok (st1, s1))) :
    ∃ (t k : Nat) (u : Bool), t < n ∧
      st1 = { st with
        deletions := st.deletions ++
          [{ thread_id := t, tick := k, failed := true, key := 0,
             insert_thread_id := 0, value := 0, deleted := false }],
        deleting := true,
        line := st.line + 1,
        tick_unset := u } := by
  unfold read_failed at h
  cases h1 : (read_unsigned 32 (some input)).1 with
  | none => rw [h1] at h; simp at h
  | some t =>
    rw [h1] at h
    simp only [Option.some_bind] at h
    by_cases c1 : t ≥ n
    · rw [if_pos c1] at h; exact absurd h (by simp)
    rw [if_neg c1] at h
    simp only [Option.some.injEq, Except.ok.injEq, Prod.mk.injEq] at h
    exact ⟨t, _, _, by omega, h.1.symm⟩
theorem getD_set_same {β : Type} (l : List (List β)) (t : Nat) (x : List β)
    (h : t < l.length) : (l.set t x).getD t [] = x := by
  simp [List.getD_eq_getElem?_getD, List.getElem?_set, h]

theorem getD_set_ne {β : Type} (l : List (List β)) (t u : Nat) (x : List β) (h : t ≠ u) :
    (l.set t x).getD u [] = l.getD u [] := by
  simp [List.getD_eq_getElem?_getD, List.getElem?_set, h]

theorem map_set_same {β γ : Type} (f : β → γ) (l : List β) (v : Nat) (x y : β)
    (hx : l[v]? = some x) (hf : f y = f x) : (l.set v y).map f = l.map f := by
  apply List.ext_getElem?
  intro k
  by_cases hk : v = k
  · subst hk
    have hlt := lt_of_get hx
    rw [List.getElem?_map, List.getElem?_map, hx, List.getElem?_set]
    simp [hlt, hf]
  · simp [List.getElem?_set, hk]

theorem insertions_of_append (recs : List log_record) (r : log_record) (t : Nat) :
    insertions_of (recs ++ [r]) t =
      insertions_of recs t ++ (if r.1 = 'i' ∧ r.2.thread_id = t then [r.2] else []) := by
  unfold insertions_of
  rw [List.filter_append, List.map_append]
  congr 1
  by_cases h : r.1 = 'i' ∧ r.2.thread_id = t
  · simp [List.filter, h]
  · simp [List.filter, h]

theorem pairwise_ticks_append (l : List log_entry) (e : log_entry)
    (hl : l.Pairwise (fun a b => a.tick ≤ b.tick))
    (hlast : ∀ b, l.getLast? = some b → b.tick ≤ e.tick) :
    (l ++ [e]).Pairwise (fun a b => a.tick ≤ b.tick) := by
  rw [List.pairwise_append]
  refine ⟨hl, List.pairwise_singleton _ _, ?_⟩
  intro a ha b hb
  rw [List.mem_singleton] at hb
  subst hb
  rcases List.eq_nil_or_concat l with h | ⟨init, c, h⟩
  · rw [h] at ha; simp at ha
  · subst h
    rw [List.concat_eq_append] at hl ha hlast
    have hc := hlast c (by simp)
    rw [List.mem_append, List.mem_singleton] at ha
    rcases ha with ha | ha
    · rw [List.pairwise_append] at hl
      have := hl.2.2 a ha c (List.mem_singleton.mpr rfl)
      omega
    · subst ha; exact hc

/-- The reading loop starts in a state that holds no record. -/
theorem reader_inv_init (n : Nat) :
    reader_inv n
      { insertions := List.replicate n [], deletions := [], deleting := false, line := 2 }
      [] := by
  have hget : ∀ t, (List.replicate n ([] : List log_entry)).getD t [] = [] := by
    intro t
    rw [List.getD_eq_getElem?_getD]
    by_cases ht : t < n
    · simp [List.getElem?_replicate, ht]
    · simp [List.getElem?_replicate, ht]
  constructor
  · simp
  · intro t; simp only [hget]; rfl
  · rfl
  · intro _ r hr; simp at hr
  · intro r hr; simp at hr
  · intro r hr; simp at hr
  · intro t k e h; simp only [hget] at h; simp at h
  · intro t; simp only [hget]; exact List.Pairwise.nil
  · intro t k e h; simp only [hget] at h; simp at h
  · intro d hd; simp at hd
  · exact List.Pairwise.nil
  · exact List.Pairwise.nil

/-- An accepted insertion record keeps the invariant of the reading loop. -/
theorem reader_inv_insertion (n : Nat) (st : reader_state) (recs : List log_record)
    (e : log_entry) (hinv : reader_inv n st recs) (hdel : st.deleting = false)
    (ht : e.thread_id < n)
    (hlast : ∀ b, (st.insertions.getD e.thread_id []).getLast? = some b → b.tick ≤ e.tick)
    (hval : e.value = (st.insertions.getD e.thread_id []).length)
    (hsame : e.thread_id = e.insert_thread_id)
    (hf : e.failed = false) (hd : e.deleted = false) (hb : e.value < 2 ^ 32) :
    reader_inv n
      { st with
        insertions := st.insertions.set e.thread_id
          (st.insertions.getD e.thread_id [] ++ [e]),
        line := st.line + 1 }
      (recs ++ [('i', e)]) := by
  have hlen : e.thread_id < st.insertions.length := by rw [hinv.len]; exact ht
  have hall := hinv.deleting hdel
  have hclear : ({ e with deleted := false } : log_entry) = e := by
    cases e; simp only at hd; subst hd; rfl
  constructor
  · simp only [List.length_set]; exact hinv.len
  · intro t
    simp only
    rw [insertions_of_append]
    by_cases htt : e.thread_id = t
    · subst htt
      rw [getD_set_same _ _ _ hlen, List.map_append, hinv.ins]
      simp [hclear]
    · rw [getD_set_ne _ _ _ _ htt, hinv.ins]
      simp [htt]
  · simp only
    rw [List.filter_append, List.map_append, ← hinv.dels]
    simp [List.filter]
  · intro _ r hr
    rw [List.mem_append, List.mem_singleton] at hr
    rcases hr with hr | hr
    · exact hall r hr
    · subst hr; rfl
  · intro r hr
    rw [List.mem_append, List.mem_singleton] at hr
    rcases hr with hr | hr
    · exact hinv.tags r hr
    · subst hr
      refine ⟨Or.inl rfl, ?_⟩
      simp only [hf]
      constructor
      · intro h; exact absurd h (by simp)
      · intro h; exact absurd h (by decide)
  · intro r hr
    rw [List.mem_append, List.mem_singleton] at hr
    rcases hr with hr | hr
    · exact hinv.bound r hr
    · subst hr; exact ⟨ht, hb, hd⟩
  · intro t k x hx
    simp only at hx
    by_cases htt : e.thread_id = t
    · subst htt
      rw [getD_set_same _ _ _ hlen] at hx
      by_cases hk : k < (st.insertions.getD e.thread_id []).length
      · rw [List.getElem?_append_left hk] at hx
        exact hinv.vals _ k x hx
      · have hk2 := lt_of_get hx
        simp only [List.length_append, List.length_singleton] at hk2
        have hkeq : k = (st.insertions.getD e.thread_id []).length := by omega
        subst hkeq
        rw [List.getElem?_append_right (Nat.le_refl _)] at hx
        simp only [Nat.sub_self, List.getElem?_cons_zero, Option.some.injEq] at hx
        subst hx
        exact ⟨hval, rfl, hsame.symm⟩
    · rw [getD_set_ne _ _ _ _ htt] at hx
      exact hinv.vals t k x hx
  · intro t
    simp only
    by_cases htt : e.thread_id = t
    · subst htt
      rw [getD_set_same _ _ _ hlen]
      exact pairwise_ticks_append _ e (hinv.asc _) hlast
    · rw [getD_set_ne _ _ _ _ htt]
      exact hinv.asc t
  · intro t k x hx
    simp only at hx
    have hno : ¬ ∃ d ∈ recs ++ [(('i', e) : log_record)], d.1 = 'd' ∧
        d.2.insert_thread_id = t ∧ d.2.value = k := by
      rintro ⟨d, hdm, hd1, -⟩
      rw [List.mem_append, List.mem_singleton] at hdm
      rcases hdm with hdm | hdm
      · rw [hall d hdm] at hd1; exact absurd hd1 (by decide)
      · subst hdm; simp only at hd1; exact absurd hd1 (by decide)
    have hno2 : ¬ ∃ d ∈ recs, d.1 = 'd' ∧ d.2.insert_thread_id = t ∧ d.2.value = k := by
      rintro ⟨d, hdm, hd1, -⟩
      rw [hall d hdm] at hd1; exact absurd hd1 (by decide)
    by_cases htt : e.thread_id = t
    · subst htt
      rw [getD_set_same _ _ _ hlen] at hx
      by_cases hk : k < (st.insertions.getD e.thread_id []).length
      · rw [List.getElem?_append_left hk] at hx
        have := hinv.flags _ k x hx
        exact ⟨fun h => absurd (this.mp h) hno2, fun h => absurd h hno⟩
      · have hk2 := lt_of_get hx
        simp only [List.length_append, List.length_singleton] at hk2
        have hkeq : k = (st.insertions.getD e.thread_id []).length := by omega
        subst hkeq
        rw [List.getElem?_append_right (Nat.le_refl _)] at hx
        simp only [Nat.sub_self, List.getElem?_cons_zero, Option.some.injEq] at hx
        subst hx
        exact ⟨fun h => by rw [hd] at h; exact absurd h (by simp), fun h => absurd h hno⟩
    · rw [getD_set_ne _ _ _ _ htt] at hx
      have := hinv.flags _ k x hx
      exact ⟨fun h => absurd (this.mp h) hno2, fun h => absurd h hno⟩
  · intro d hdm hd1
    rw [List.mem_append, List.mem_singleton] at hdm
    rcases hdm with hdm | hdm
    · rw [hall d hdm] at hd1; exact absurd hd1 (by decide)
    · subst hdm; simp only at hd1; exact absurd hd1 (by decide)
  · rw [List.pairwise_append]
    refine ⟨hinv.order, List.pairwise_singleton _ _, ?_⟩
    intro a ha b _ _
    exact hall a ha
  · rw [List.filter_append]
    have : List.filter (fun r : log_record => decide (r.1 = 'd')) [(('i', e) : log_record)] =
        [] := by
      simp [List.filter]
    rw [this, List.append_nil]
    exact hinv.once

/-- An accepted deletion record keeps the invariant of the reading loop. -/
theorem reader_inv_deletion (n : Nat) (st : reader_state) (recs : List log_record)
    (e x : log_entry) (hinv : reader_inv n st recs) (ht : e.thread_id < n)
    (hit : e.insert_thread_id < n)
    (hx : (st.insertions.getD e.insert_thread_id [])[e.value]? = some x)
    (hkey : e.key = x.key) (htick : x.tick ≤ e.tick) (hxd : x.deleted = false)
    (hf : e.failed = false) (hd : e.deleted = false) (hb : e.value < 2 ^ 32) :
    reader_inv n
      { insertions := st.insertions.set e.insert_thread_id
          ((st.insertions.getD e.insert_thread_id []).set e.value { x with deleted := true }),
        deletions := st.deletions ++ [e],
        deleting := true,
        line := st.line + 1 }
      (recs ++ [('d', e)]) := by
  have hlen : e.insert_thread_id < st.insertions.length := by rw [hinv.len]; exact hit
  have hvlt := lt_of_get hx
  have hnew : ∀ (t k : Nat),
      (∃ d ∈ recs ++ [(('d', e) : log_record)], d.1 = 'd' ∧ d.2.insert_thread_id = t ∧
        d.2.value = k) ↔
      ((∃ d ∈ recs, d.1 = 'd' ∧ d.2.insert_thread_id = t ∧ d.2.value = k) ∨
        (e.insert_thread_id = t ∧ e.value = k)) := by
    intro t k
    constructor
    · rintro ⟨d, hdm, h1, h2, h3⟩
      rw [List.mem_append, List.mem_singleton] at hdm
      rcases hdm with hdm | hdm
      · exact Or.inl ⟨d, hdm, h1, h2, h3⟩
      · subst hdm; exact Or.inr ⟨h2, h3⟩
    · rintro (⟨d, hdm, h1, h2, h3⟩ | ⟨h2, h3⟩)
      · exact ⟨d, List.mem_append_left _ hdm, h1, h2, h3⟩
      · exact ⟨('d', e), List.mem_append_right _ (List.mem_singleton.mpr rfl), rfl, h2, h3⟩
  have hset : ∀ k y, ((st.insertions.getD e.insert_thread_id []).set e.value
      { x with deleted := true })[k]? = some y →
      (k = e.value ∧ y = { x with deleted := true }) ∨
        (k ≠ e.value ∧ (st.insertions.getD e.insert_thread_id [])[k]? = some y) := by
    intro k y hy
    rw [List.getElem?_set] at hy
    by_cases hk : e.value = k
    · subst hk
      simp only [if_true, hvlt] at hy
      simp only [Option.some.injEq] at hy
      exact Or.inl ⟨rfl, hy.symm⟩
    · simp only [hk, if_false] at hy
      exact Or.inr ⟨fun h => hk h.symm, hy⟩
  constructor
  · simp only [List.length_set]; exact hinv.len
  · intro t
    simp only
    rw [insertions_of_append]
    have hnot : ¬ ((('d', e) : log_record).1 = 'i' ∧ (('d', e) : log_record).2.thread_id = t) := by
      rintro ⟨h, -⟩
      simp only at h
      exact absurd h (by decide)
    rw [if_neg hnot, List.append_nil]
    by_cases htt : e.insert_thread_id = t
    · subst htt
      rw [getD_set_same _ _ _ hlen,
        map_set_same (fun e : log_entry => ({ e with deleted := false } : log_entry)) _ _ x
          { x with deleted := true } hx rfl]
      exact hinv.ins _
    · rw [getD_set_ne _ _ _ _ htt]
      exact hinv.ins t
  · simp only
    rw [List.filter_append, List.map_append, ← hinv.dels]
    simp [List.filter]
  · intro h; simp at h
  · intro r hr
    rw [List.mem_append, List.mem_singleton] at hr
    rcases hr with hr | hr
    · exact hinv.tags r hr
    · subst hr
      refine ⟨Or.inr (Or.inl rfl), ?_⟩
      simp only [hf]
      constructor
      · intro h; exact absurd h (by simp)
      · intro h; exact absurd h (by decide)
  · intro r hr
    rw [List.mem_append, List.mem_singleton] at hr
    rcases hr with hr | hr
    · exact hinv.bound r hr
    · subst hr; exact ⟨ht, hb, hd⟩
  · intro t k y hy
    simp only at hy
    by_cases htt : e.insert_thread_id = t
    · subst htt
      rw [getD_set_same _ _ _ hlen] at hy
      rcases hset k y hy with ⟨hk, hyx⟩ | ⟨-, hy2⟩
      · subst hk; subst hyx
        exact hinv.vals _ _ x hx
      · exact hinv.vals _ k y hy2
    · rw [getD_set_ne _ _ _ _ htt] at hy
      exact hinv.vals t k y hy
  · intro t
    simp only
    by_cases htt : e.insert_thread_id = t
    · subst htt
      rw [getD_set_same _ _ _ hlen]
      have h1 := hinv.asc e.insert_thread_id
      have h2 : ∀ l : List log_entry, l.Pairwise (fun a b => a.tick ≤ b.tick) ↔
          (l.map (fun a => a.tick)).Pairwise (fun a b => a ≤ b) := by
        intro l; rw [List.pairwise_map]
      rw [h2] at h1 ⊢
      rw [map_set_same (fun a : log_entry => a.tick) _ _ x { x with deleted := true } hx rfl]
      exact h1
    · rw [getD_set_ne _ _ _ _ htt]
      exact hinv.asc t
  · intro t k y hy
    simp only at hy
    rw [hnew]
    by_cases htt : e.insert_thread_id = t
    · subst htt
      rw [getD_set_same _ _ _ hlen] at hy
      rcases hset k y hy with ⟨hk, hyx⟩ | ⟨hk, hy2⟩
      · subst hk; subst hyx
        exact ⟨fun _ => Or.inr ⟨rfl, rfl⟩, fun _ => rfl⟩
      · have := hinv.flags _ k y hy2
        rw [this]
        constructor
        · intro h; exact Or.inl h
        · rintro (h | ⟨-, h⟩)
          · exact h
          · exact absurd h.symm hk
    · rw [getD_set_ne _ _ _ _ htt] at hy
      have := hinv.flags _ k y hy
      rw [this]
      constructor
      · intro h; exact Or.inl h
      · rintro (h | ⟨h, -⟩)
        · exact h
        · exact absurd h htt
  · have hkeep : ∀ (t k : Nat) (y : log_entry), (st.insertions.getD t [])[k]? = some y →
        ∃ y1, ((st.insertions.set e.insert_thread_id
          ((st.insertions.getD e.insert_thread_id []).set e.value
            { x with deleted := true })).getD t [])[k]? = some y1 ∧
          y1.key = y.key ∧ y1.tick = y.tick := by
      intro t k y hy
      by_cases htt : e.insert_thread_id = t
      · subst htt
        rw [getD_set_same _ _ _ hlen, List.getElem?_set]
        by_cases hk : e.value = k
        · subst hk
          rw [hx] at hy
          simp only [Option.some.injEq] at hy
          subst hy
          simp only [if_true, hvlt]
          exact ⟨_, rfl, rfl, rfl⟩
        · simp only [hk, if_false]
          exact ⟨y, hy, rfl, rfl⟩
      · rw [getD_set_ne _ _ _ _ htt]
        exact ⟨y, hy, rfl, rfl⟩
    intro d hdm hd1
    simp only
    rw [List.mem_append, List.mem_singleton] at hdm
    rcases hdm with hdm | hdm
    · obtain ⟨y, hy, hyk, hyt⟩ := hinv.refs d hdm hd1
      obtain ⟨y1, hy1, hk1, ht1⟩ := hkeep _ _ y hy
      exact ⟨y1, hy1, by rw [hk1]; exact hyk, by rw [ht1]; exact hyt⟩
    · subst hdm
      obtain ⟨y1, hy1, hk1, ht1⟩ := hkeep _ _ x hx
      exact ⟨y1, hy1, by rw [hk1]; exact hkey.symm, by rw [ht1]; exact htick⟩
  · rw [List.pairwise_append]
    refine ⟨hinv.order, List.pairwise_singleton _ _, ?_⟩
    intro a _ b hbm hbi
    rw [List.mem_singleton] at hbm
    subst hbm
    simp only at hbi
    exact absurd hbi (by decide)
  · rw [List.filter_append]
    have : List.filter (fun r : log_record => decide (r.1 = 'd')) [(('d', e) : log_record)] =
        [(('d', e) : log_record)] := by
      simp [List.filter]
    rw [this, List.pairwise_append]
    refine ⟨hinv.once, List.pairwise_singleton _ _, ?_⟩
    intro a ha b hbm
    rw [List.mem_singleton] at hbm
    subst hbm
    simp only
    rintro ⟨h1, h2⟩
    have ham := List.mem_filter.mp ha
    have hflag := (hinv.flags _ _ x hx).mpr
      ⟨a, ham.1, by simpa using ham.2, h1, h2⟩
    rw [hxd] at hflag
    exact absurd hflag (by simp)

/-- An accepted failed-deletion record keeps the invariant of the reading loop. -/
theorem reader_inv_failed (n : Nat) (st : reader_state) (recs : List log_record)
    (fe : log_entry) (hinv : reader_inv n st recs) (ht : fe.thread_id < n)
    (hf : fe.failed = true) (hv : fe.value < 2 ^ 32) (hd : fe.deleted = false) :
    reader_inv n
      { st with deletions := st.deletions ++ [fe], deleting := true, line := st.line + 1 }
      (recs ++ [('f', fe)]) := by
  have hnew : ∀ (t k : Nat),
      (∃ d ∈ recs ++ [(('f', fe) : log_record)],
        d.1 = 'd' ∧ d.2.insert_thread_id = t ∧ d.2.value = k) ↔
      (∃ d ∈ recs, d.1 = 'd' ∧ d.2.insert_thread_id = t ∧ d.2.value = k) := by
    intro t k
    constructor
    · rintro ⟨d, hdm, h1, h2, h3⟩
      rw [List.mem_append, List.mem_singleton] at hdm
      rcases hdm with hdm | hdm
      · exact ⟨d, hdm, h1, h2, h3⟩
      · subst hdm; simp only at h1; exact absurd h1 (by decide)
    · rintro ⟨d, hdm, h1, h2, h3⟩
      exact ⟨d, List.mem_append_left _ hdm, h1, h2, h3⟩
  constructor
  · exact hinv.len
  · intro t
    simp only
    rw [insertions_of_append]
    have hnot : ¬ ((('f', fe) : log_record).1 = 'i' ∧ (('f', fe) : log_record).2.thread_id =
          t) := by
      rintro ⟨h, -⟩
      simp only at h
      exact absurd h (by decide)
    rw [if_neg hnot, List.append_nil]
    exact hinv.ins t
  · simp only
    rw [List.filter_append, List.map_append, ← hinv.dels]
    simp [List.filter]
  · intro h; simp at h
  · intro r hr
    rw [List.mem_append, List.mem_singleton] at hr
    rcases hr with hr | hr
    · exact hinv.tags r hr
    · subst hr
      exact ⟨Or.inr (Or.inr rfl), fun _ => rfl, fun _ => hf⟩
  · intro r hr
    rw [List.mem_append, List.mem_singleton] at hr
    rcases hr with hr | hr
    · exact hinv.bound r hr
    · subst hr; exact ⟨ht, hv, hd⟩
  · exact hinv.vals
  · exact hinv.asc
  · intro t k y hy
    rw [hnew]
    exact hinv.flags t k y hy
  · intro d hdm hd1
    rw [List.mem_append, List.mem_singleton] at hdm
    rcases hdm with hdm | hdm
    · exact hinv.refs d hdm hd1
    · subst hdm; simp only at hd1; exact absurd hd1 (by decide)
  · rw [List.pairwise_append]
    refine ⟨hinv.order, List.pairwise_singleton _ _, ?_⟩
    intro a _ b hbm hbi
    rw [List.mem_singleton] at hbm
    subst hbm
    simp only at hbi
    exact absurd hbi (by decide)
  · rw [List.filter_append]
    have : List.filter (fun r : log_record => decide (r.1 = 'd'))
        [(('f', fe) : log_record)] = [] := by
      simp [List.filter]
    rw [this, List.append_nil]
    exact hinv.once
/-- The invariant of the reading loop does not depend on the mark `tick_unset`. -/
theorem reader_inv_flag (n : Nat) (st : reader_state) (recs : List log_record) (u : Bool)
    (h : reader_inv n st recs) : reader_inv n { st with tick_unset := u } recs :=
  ⟨h.len, h.ins, h.dels, h.deleting, h.tags, h.bound, h.vals, h.asc, h.flags, h.refs,
    h.order, h.once⟩

/-- One accepted record: the invariant of the reading loop holds with it. -/
theorem read_record_step (n : Nat) (st st1 : reader_state) (recs : List log_record)
    (op : Char) (input : List Char) (s1 : Option (List Char)) (hinv : reader_inv n st recs)
    (h : read_record n st op input = some (Except.ok (st1, s1))) :
    ∃ r, reader_inv n st1 (recs ++ [r]) := by
  unfold read_record at h
  by_cases hi : op = 'i'
  · subst hi
    rw [if_pos rfl] at h
    obtain ⟨e, hf, hd, hb, hdel, ht, -, hlast, hval, hsame, hst⟩ :=
      read_insertion_ok n st st1 _ _ h
    refine ⟨('i', e), ?_⟩
    rw [hst]
    exact reader_inv_insertion n st recs e hinv hdel ht hlast hval hsame hf hd hb
  · rw [if_neg hi] at h
    by_cases hd : op = 'd'
    · subst hd
      rw [if_pos rfl] at h
      obtain ⟨e, x, hf, hdl, hb, ht, hit, hx, hkey, htick, hxd, hst⟩ :=
        read_deletion_ok n st st1 _ _ h
      refine ⟨('d', e), ?_⟩
      rw [hst]
      exact reader_inv_flag n _ _ st.tick_unset
        (reader_inv_deletion n st recs e x hinv ht hit hx hkey htick hxd hf hdl hb)
    · rw [if_neg hd] at h
      by_cases hfl : op = 'f'
      · subst hfl
        rw [if_pos rfl] at h
        obtain ⟨t, k, u, ht, hst⟩ := read_failed_ok n st st1 _ _ h
        refine ⟨('f', ⟨t, k, true, 0, 0, 0, false⟩), ?_⟩
        rw [hst]
        exact reader_inv_flag n _ _ u
          (reader_inv_failed n st recs ⟨t, k, true, 0, 0, 0, false⟩ hinv ht rfl
            (by simp) rfl)
      · rw [if_neg hfl] at h
        exact absurd h (by simp)

/-- The invariant of the reading loop holds at its end with the records it has read. -/
theorem read_loop_inv (n : Nat) :
    ∀ (fuel : Nat) (st st1 : reader_state) (s : Option (List Char))
      (recs : List log_record),
      reader_inv n st recs → read_loop n fuel st s = some (Except.ok st1) →
      ∃ recs1, reader_inv n st1 (recs ++ recs1) := by
  intro fuel
  induction fuel with
  | zero => intro st st1 s recs _ h; simp [read_loop] at h
  | succ fuel ih =>
    intro st st1 s recs hinv h
    cases s with
    | none =>
      simp only [read_loop, Option.some.injEq, Except.ok.injEq] at h
      subst h
      exact ⟨[], by rw [List.append_nil]; exact hinv⟩
    | some input =>
      unfold read_loop at h
      cases hc : read_char input with
      | none =>
        rw [hc] at h
        simp only [Option.some.injEq, Except.ok.injEq] at h
        subst h
        exact ⟨[], by rw [List.append_nil]; exact hinv⟩
      | some p =>
        obtain ⟨op, rest⟩ := p
        rw [hc] at h
        simp only at h
        cases hr : read_record n st op rest with
        | none => rw [hr] at h; simp at h
        | some res =>
          rw [hr] at h
          cases res with
          | error err => simp at h
          | ok q =>
            obtain ⟨st2, s2⟩ := q
            simp only at h
            obtain ⟨r, hinv2⟩ := read_record_step n st st2 recs op rest s2 hinv hr
            obtain ⟨recs1, hinv1⟩ := ih st2 st1 s2 (recs ++ [r]) hinv2 h
            refine ⟨r :: recs1, ?_⟩
            rw [List.append_assoc] at hinv1
            exact hinv1

/-- The invariant of the reading loop gives the consistency of the records read. -/
theorem log_consistent_of_inv (n : Nat) (st : reader_state) (recs : List log_record)
    (hinv : reader_inv n st recs) : log_consistent recs := by
  constructor
  · exact hinv.order
  · intro t k e h
    rw [← hinv.ins t, List.getElem?_map] at h
    cases hy : (st.insertions.getD t [])[k]? with
    | none => rw [hy] at h; simp at h
    | some y =>
      rw [hy] at h
      simp only [Option.map_some', Option.some.injEq] at h
      subst h
      exact hinv.vals t k y hy
  · intro t
    rw [← hinv.ins t, List.pairwise_map]
    exact hinv.asc t
  · intro d hd h1
    obtain ⟨x, hx, hk, ht⟩ := hinv.refs d hd h1
    refine ⟨{ x with deleted := false }, ?_, hk, ht⟩
    rw [← hinv.ins, List.getElem?_map, hx]
    rfl
  · exact hinv.once

/-- An accepted input: the number of threads `n` is not zero and the invariant of the
reading loop holds in the final state with the records read. -/
theorem read_log_accepted (input : List Char) (st : reader_state)
    (h : read_log input = some (Except.ok st)) :
    ∃ n recs, 0 < n ∧ reader_inv n st recs := by
  unfold read_log at h
  cases hn : read_unsigned 32 (some input) with
  | mk v s =>
    rw [hn] at h
    cases v with
    | none => simp at h
    | some n =>
      cases s with
      | none => simp at h
      | some rest =>
        dsimp only at h
        by_cases h0 : n = 0
        · rw [if_pos h0] at h
          exact absurd h (by simp)
        rw [if_neg h0] at h
        obtain ⟨recs, hinv⟩ := read_loop_inv n _ _ st (some rest) [] (reader_inv_init n) h
        rw [List.nil_append] at hinv
        exact ⟨n, recs, by omega, hinv⟩

theorem skip_sign_length (l : List Char) : (skip_sign l).length ≤ l.length := by
  cases l with
  | nil => simp [skip_sign]
  | cons c cs =>
    unfold skip_sign
    dsimp only
    split_ifs
    · simp only [List.length_cons]; omega
    · exact Nat.le_refl _

/-- An extraction that leaves the stream good has started on a good stream and has
consumed what it has read. -/
theorem read_unsigned_rest (bits : Nat) (s : Option (List Char)) (rest : List Char)
    (h : (read_unsigned bits s).2 = some rest) :
    ∃ input, s = some input ∧ rest.length ≤ input.length := by
  unfold read_unsigned at h
  cases s with
  | none => simp at h
  | some input =>
    refine ⟨input, rfl, ?_⟩
    dsimp only at h
    have hl := skip_ws_length input
    cases hs : skip_ws input with
    | nil => rw [hs] at h; simp at h
    | cons c cs =>
      rw [hs] at h hl
      dsimp only at h
      have hg1 := skip_sign_length (c :: cs)
      cases hg : skip_sign (c :: cs) with
      | nil => rw [hg] at h; simp at h
      | cons d ds =>
        rw [hg] at h hg1
        dsimp only at h
        have hd := read_digits_length (d :: ds) 0
        split_ifs at h
        · simp only [Option.some.injEq] at h
          rw [← h]
          omega
        · simp only [Option.some.injEq] at h
          rw [← h]
          omega

theorem read_log_entry_rest (input rest : List Char)
    (h : (read_log_entry (some input)).2 = some rest) : rest.length ≤ input.length := by
  unfold read_log_entry at h
  dsimp only at h
  obtain ⟨i5, h5, l5⟩ := read_unsigned_rest 32 _ rest h
  obtain ⟨i4, h4, l4⟩ := read_unsigned_rest 32 _ i5 h5
  obtain ⟨i3, h3, l3⟩ := read_unsigned_rest 32 _ i4 h4
  obtain ⟨i2, h2, l2⟩ := read_unsigned_rest 64 _ i3 h3
  obtain ⟨i1, h1, l1⟩ := read_unsigned_rest 32 _ i2 h2
  simp only [Option.some.injEq] at h1
  subst h1
  omega

/-- A record that is accepted leaves no more input than it has found. -/
theorem read_record_rest (n : Nat) (st st1 : reader_state) (op : Char)
    (input rest : List Char)
    (h : read_record n st op input = some (Except.ok (st1, some rest))) :
    rest.length ≤ input.length := by
  unfold read_record at h
  by_cases hi : op = 'i'
  · rw [if_pos hi] at h
    apply read_log_entry_rest
    unfold read_insertion at h
    by_cases hdel : st.deleting = true
    · rw [if_pos hdel] at h; exact absurd h (by simp)
    rw [if_neg hdel] at h
    generalize read_log_entry (some input) = r at h ⊢
    obtain ⟨⟨tid, tick, key, itid, value⟩, s⟩ := r
    dsimp only at h ⊢
    cases tid with
    | none => simp at h
    | some tid =>
      simp only [Option.some_bind] at h
      by_cases c1 : tid ≥ n
      · rw [if_pos c1] at h; exact absurd h (by simp)
      rw [if_neg c1] at h
      cases itid with
      | none => simp at h
      | some itid =>
        simp only [Option.some_bind] at h
        by_cases c2 : itid ≥ n
        · rw [if_pos c2] at h; exact absurd h (by simp)
        rw [if_neg c2] at h
        cases hb : before_back (st.insertions.getD tid []) tick with
        | none => rw [hb] at h; simp at h
        | some before =>
          rw [hb] at h
          simp only [Option.some_bind] at h
          cases before with
          | true => simp at h
          | false =>
            simp only [Bool.false_eq_true, if_false] at h
            cases value with
            | none => simp at h
            | some value =>
              simp only [Option.some_bind] at h
              by_cases c4 : value ≠ (st.insertions.getD tid []).length ∨ tid ≠ itid
              · rw [if_pos c4] at h; exact absurd h (by simp)
              rw [if_neg c4] at h
              cases tick with
              | none => simp at h
              | some tick =>
                simp only [Option.some_bind] at h
                cases key with
                | none => simp at h
                | some key =>
                  simp only [Option.some_bind, Option.some.injEq, Except.ok.injEq,
                    Prod.mk.injEq] at h
                  exact h.2
  · rw [if_neg hi] at h
    by_cases hd : op = 'd'
    · rw [if_pos hd] at h
      apply read_log_entry_rest
      unfold read_deletion at h
      generalize read_log_entry (some input) = r at h ⊢
      obtain ⟨⟨tid, tick, key, itid, value⟩, s⟩ := r
      dsimp only at h ⊢
      cases tid with
      | none => simp at h
      | some tid =>
        simp only [Option.some_bind] at h
        by_cases c1 : tid ≥ n
        · rw [if_pos c1] at h; exact absurd h (by simp)
        rw [if_neg c1] at h
        cases itid with
        | none => simp at h
        | some itid =>
          simp only [Option.some_bind] at h
          by_cases c2 : itid ≥ n
          · rw [if_pos c2] at h; exact absurd h (by simp)
          rw [if_neg c2] at h
          cases value with
          | none => simp at h
          | some value =>
            simp only [Option.some_bind] at h
            cases hx : (st.insertions.getD itid [])[value]? with
            | none => rw [hx] at h; simp at h
            | some x =>
              rw [hx] at h
              dsimp only at h
              cases key with
              | none => simp at h
              | some key =>
                simp only [Option.some_bind] at h
                by_cases c3 : key ≠ x.key
                · rw [if_pos c3] at h; exact absurd h (by simp)
                rw [if_neg c3] at h
                cases tick with
                | none => simp at h
                | some tick =>
                  simp only [Option.some_bind] at h
                  by_cases c4 : tick < x.tick
                  · rw [if_pos c4] at h; exact absurd h (by simp)
                  rw [if_neg c4] at h
                  by_cases c5 : x.deleted = true
                  · rw [if_pos c5] at h; exact absurd h (by simp)
                  rw [if_neg c5] at h
                  simp only [Option.some.injEq, Except.ok.injEq, Prod.mk.injEq] at h
                  exact h.2
    · rw [if_neg hd] at h
      by_cases hfl : op = 'f'
      · rw [if_pos hfl] at h
        unfold read_failed at h
        cases h1 : (read_unsigned 32 (some input)).1 with
        | none => rw [h1] at h; simp at h
        | some t =>
          rw [h1] at h
          simp only [Option.some_bind] at h
          by_cases c1 : t ≥ n
          · rw [if_pos c1] at h; exact absurd h (by simp)
          rw [if_neg c1] at h
          simp only [Option.some.injEq, Except.ok.injEq, Prod.mk.injEq] at h
          obtain ⟨i2, h2, l2⟩ := read_unsigned_rest 64 _ rest h.2
          obtain ⟨i1, h3, l1⟩ := read_unsigned_rest 32 _ i2 h2
          simp only [Option.some.injEq] at h3
          subst h3
          omega
      · rw [if_neg hfl] at h
        exact absurd h (by simp)

/-- The reading loop does not run out of rounds: every round on a good stream consumes
the tag of a record, so with more rounds than characters left the result does not depend
on the number of rounds. -/
theorem read_loop_fuel (n : Nat) :
    ∀ (fuel : Nat) (st : reader_state) (input : List Char) (fuel2 : Nat),
      input.length < fuel → input.length < fuel2 →
      read_loop n fuel st (some input) = read_loop n fuel2 st (some input) := by
  intro fuel
  induction fuel with
  | zero => intro st input fuel2 h1 _; omega
  | succ fuel ih =>
    intro st input fuel2 h1 h2
    cases fuel2 with
    | zero => omega
    | succ fuel2 =>
      unfold read_loop
      cases hc : read_char input with
      | none => rfl
      | some p =>
        obtain ⟨op, rest⟩ := p
        have hlen := read_char_length input rest op hc
        dsimp only
        cases hr : read_record n st op rest with
        | none => rfl
        | some res =>
          cases res with
          | error err => rfl
          | ok q =>
            obtain ⟨st1, s1⟩ := q
            dsimp only
            cases s1 with
            | none =>
              cases fuel with
              | zero => omega
              | succ fuel =>
                cases fuel2 with
                | zero => omega
                | succ fuel2 => rfl
            | some rest1 =>
              have hl1 := read_record_rest n st st1 op rest rest1 hr
              exact ih st1 rest1 fuel2 (by omega) (by omega)

/-- With `--verify` the program returns 0 exactly when the reading loop ends without an
error. -/
theorem main_verify_accepts (input : List Char) (st : reader_state) :
    main true input = some (Except.ok (st, none)) ↔ read_log input = some (Except.ok st) := by
  unfold main
  cases hres : read_log input with
  | none => simp
  | some res =>
    cases res with
    | error err => simp
    | ok st0 => simp

/-- What the verifier does ensure: when it accepts its input, the records it has read (up
to the end of the input or to the first extraction that fails) are consistent, and the
final state holds them. -/
theorem records_read_are_consistent (input : List Char) (st : reader_state)
    (h : main true input = some (Except.ok (st, none))) :
    ∃ n recs, 0 < n ∧ reader_inv n st recs ∧ log_consistent recs := by
  obtain ⟨n, recs, hn, hinv⟩ :=
    read_log_accepted input st ((main_verify_accepts input st).mp h)
  exact ⟨n, recs, hn, hinv, log_consistent_of_inv n st recs hinv⟩

/-- How `operator>>` reads an unsigned number: a sign is accepted (`-` negates within the
type); with no digit the value 0 is written and the stream fails; a number that does not
fit writes the largest value and the stream fails; at the end of the input, and on a
stream that has failed, nothing is written. -/
theorem read_unsigned_cases :
    read_unsigned 32 (some "+1 i".toList) = (some 1, some " i".toList) ∧
    read_unsigned 32 (some " -1".toList) = (some 4294967295, some []) ∧
    read_unsigned 32 (some "-0x".toList) = (some 0, some ['x']) ∧
    read_unsigned 32 (some " i 0".toList) = (some 0, none) ∧
    read_unsigned 32 (some "+".toList) = (some 0, none) ∧
    read_unsigned 32 (some "4294967296 7".toList) = (some 4294967295, none) ∧
    read_unsigned 64 (some "4294967296 7".toList) = (some 4294967296, some " 7".toList) ∧
    read_unsigned 32 (some "  ".toList) = (none, none) ∧
    read_unsigned 32 none = (none, none) :=
  ⟨rfl, rfl, rfl, rfl, rfl, rfl, rfl, rfl, rfl⟩

/-- C39: the verifier accepts logs that are not consistent.  The reading loop never tests
the stream inside a record (the extraction of `num_threads` is tested, line 99).  In the
first log the tick of the failed deletion is missing: its extraction meets the tag `i`,
writes 0 and sets failbit, the record is stored, the next `std::cin >> op` fails and the
loop ends, so that the insertion record which follows the failed deletion is never read
and `main --verify` returns 0 ("Log is consistent").  With the tick in place (second log)
the same insertion is read and the log is rejected in line 5.  In the third log the last
field of the deletion is not a number: the value 0 is written, the deletion is taken to
refer to insertion 0 of thread 0, and the records after it (an insertion, and a deletion
of an element that was never inserted) are not read. -/
theorem verifier_accepts_cut_short_log :
    main true "1 i 0 5 7 0 0 d 0 6 7 0 0 f 0 i 0 7 8 0 1".toList =
      some (Except.ok
        ({ insertions := [[⟨0, 5, false, 7, 0, 0, true⟩]],
           deletions := [⟨0, 6, false, 7, 0, 0, false⟩, ⟨0, 0, true, 0, 0, 0, false⟩],
           deleting := true, line := 5, tick_unset := false }, none)) ∧
    main true "1 i 0 5 7 0 0 d 0 6 7 0 0 f 0 6 i 0 7 8 0 1".toList =
      some (Except.error (5, log_error.insertion_following_a_deletion)) ∧
    main true "1 i 0 5 7 0 0 d 0 6 7 0 x i 0 7 8 0 1 d 0 9 3 0 4".toList =
      some (Except.ok
        ({ insertions := [[⟨0, 5, false, 7, 0, 0, true⟩]],
           deletions := [⟨0, 6, false, 7, 0, 0, false⟩],
           deleting := true, line := 4, tick_unset := false }, none)) :=
  ⟨rfl, rfl, rfl⟩

/-! ## The analyzer: the replay of an accepted log -/

theorem heap_entry.eq_of_not_lt {a b : heap_entry} (h1 : a.lt b = false)
    (h2 : b.lt a = false) : a = b := by
  have h3 : ¬ (a.lt b = true) := by rw [h1]; simp
  have h4 : ¬ (b.lt a = true) := by rw [h2]; simp
  rw [heap_entry.lt_iff] at h3 h4
  cases a; cases b
  simp only [heap_entry.mk.injEq]
  simp only at h3 h4
  omega

theorem heap_entry.lt_irrefl (a : heap_entry) : a.lt a = false := by
  have h : ¬ (a.lt a = true) := by
    rw [heap_entry.lt_iff]; omega
  simpa using h

theorem btree_insert_keys (k : heap_entry) (v : Nat × Nat) :
    ∀ (m : replay_map) (x : heap_entry),
      x ∈ replay_keys (btree_insert k v m) ↔ x = k ∨ x ∈ replay_keys m := by
  intro m
  induction m with
  | nil => intro x; simp [btree_insert, replay_keys]
  | cons e rest ih =>
    intro x
    unfold btree_insert
    by_cases h1 : k.lt e.1 = true
    · rw [if_pos h1]; simp [replay_keys]
    · rw [if_neg h1]
      by_cases h2 : e.1.lt k = true
      · rw [if_pos h2]
        have := ih x
        simp only [replay_keys, List.map_cons, List.mem_cons] at this ⊢
        rw [this]
        tauto
      · rw [if_neg h2]
        have heq : k = e.1 :=
          heap_entry.eq_of_not_lt (by simpa using h1) (by simpa using h2)
        simp only [replay_keys, List.map_cons, List.mem_cons]
        constructor
        · intro h; exact Or.inr h
        · rintro (h | h)
          · left; rw [h, heq]
          · exact h

theorem btree_find_complete (k : heap_entry) :
    ∀ (m : replay_map), k ∈ replay_keys m → ∃ it v, btree_find k m = some (it, v) := by
  intro m
  induction m with
  | nil => intro h; simp [replay_keys] at h
  | cons e rest ih =>
    intro h
    unfold btree_find
    by_cases hc : (!e.1.lt k && !k.lt e.1) = true
    · rw [if_pos hc]; exact ⟨0, e.2, rfl⟩
    · rw [if_neg hc]
      simp only [replay_keys, List.map_cons, List.mem_cons] at h
      rcases h with h | h
      · exfalso
        apply hc
        rw [← h, heap_entry.lt_irrefl]
        rfl
      · obtain ⟨it, v, hf⟩ := ih h
        rw [hf]
        exact ⟨it + 1, v, rfl⟩

theorem btree_find_key (k : heap_entry) (m : replay_map) (it : Nat) (v : Nat × Nat)
    (h : btree_find k m = some (it, v)) : (replay_keys m)[it]? = some k := by
  obtain ⟨e, he, -, h1, h2⟩ := btree_find_spec k m it v h
  have := heap_entry.eq_of_not_lt h1 h2
  unfold replay_keys
  rw [List.getElem?_map, he, ← this]
  rfl

theorem mem_eraseIdx_of_ne {β : Type} (l : List β) (it : Nat) (a b : β) (ha : a ∈ l)
    (hb : l[it]? = some b) (hne : a ≠ b) : a ∈ l.eraseIdx it := by
  induction l generalizing it with
  | nil => simp at ha
  | cons c rest ih =>
    cases it with
    | zero =>
      simp only [List.getElem?_cons_zero, Option.some.injEq] at hb
      subst hb
      simp only [List.eraseIdx_cons_zero]
      rcases List.mem_cons.mp ha with h | h
      · exact absurd h hne
      · exact h
    | succ it =>
      simp only [List.getElem?_cons_succ] at hb
      simp only [List.eraseIdx_cons_succ]
      rcases List.mem_cons.mp ha with h | h
      · rw [h]; exact List.mem_cons_self _ _
      · exact List.mem_cons_of_mem _ (ih it h hb)

theorem mem_of_mem_eraseIdx {β : Type} (l : List β) (it : Nat) (a : β)
    (ha : a ∈ l.eraseIdx it) : a ∈ l :=
  (List.eraseIdx_sublist l it).subset ha

/-- The insertions of one thread replayed before a deletion: the index moves over the
insertions with a smaller tick and stops at the first other one; the heap keeps its keys
and gains those of the insertions passed. -/
theorem insert_before_spec (tick t : Nat) :
    ∀ (l : List log_entry) (idx : Nat) (m : replay_map),
      idx ≤ (insert_before tick t l idx m).1 ∧
      (insert_before tick t l idx m).1 ≤ idx + l.length ∧
      (∀ e, l[(insert_before tick t l idx m).1 - idx]? = some e → ¬ e.tick < tick) ∧
      (∀ k, k ∈ replay_keys (insert_before tick t l idx m).2 ↔
        (k ∈ replay_keys m ∨ ∃ j e, j < (insert_before tick t l idx m).1 - idx ∧
          l[j]? = some e ∧ k = ⟨e.key, t, (idx + j) % 2 ^ 32⟩)) ∧
      (∀ j e, j < (insert_before tick t l idx m).1 - idx → l[j]? = some e →
        e.tick < tick) := by
  intro l
  induction l with
  | nil =>
    intro idx m
    simp only [insert_before, List.length_nil, Nat.add_zero, Nat.sub_self]
    refine ⟨Nat.le_refl _, Nat.le_refl _, ?_, ?_, ?_⟩
    · intro e h; simp at h
    · intro k
      constructor
      · intro h; exact Or.inl h
      · rintro (h | ⟨j, e, hj, -⟩)
        · exact h
        · omega
    · intro j e hj; omega
  | cons e rest ih =>
    intro idx m
    unfold insert_before
    by_cases hc : e.tick < tick
    · rw [if_pos hc]
      obtain ⟨h1, h2, h3, h4, h5⟩ := ih (idx + 1)
        (btree_insert { key := e.key, ins_thread_id := t, elem_id := idx % 2 ^ 32 } (0, 0) m)
      generalize insert_before tick t rest (idx + 1)
        (btree_insert { key := e.key, ins_thread_id := t, elem_id := idx % 2 ^ 32 } (0, 0) m)
        = r at h1 h2 h3 h4 h5 ⊢
      have hsub : r.1 - idx = (r.1 - (idx + 1)) + 1 := by omega
      refine ⟨by omega, by simp only [List.length_cons]; omega, ?_, ?_, ?_⟩
      · intro x hx
        rw [hsub, List.getElem?_cons_succ] at hx
        exact h3 x hx
      · intro k
        rw [h4, btree_insert_keys]
        constructor
        · rintro ((h | h) | ⟨j, x, hj, hx, hk⟩)
          · right
            exact ⟨0, e, by omega, List.getElem?_cons_zero, by rw [h]; rfl⟩
          · exact Or.inl h
          · right
            refine ⟨j + 1, x, by omega, by simpa using hx, ?_⟩
            rw [hk]
            have : idx + 1 + j = idx + (j + 1) := by omega
            rw [this]
        · rintro (h | ⟨j, x, hj, hx, hk⟩)
          · exact Or.inl (Or.inr h)
          · cases j with
            | zero =>
              simp only [List.getElem?_cons_zero, Option.some.injEq] at hx
              subst hx
              left; left
              rw [hk]; rfl
            | succ j =>
              right
              refine ⟨j, x, by omega, by simpa using hx, ?_⟩
              rw [hk]
              have : idx + 1 + j = idx + (j + 1) := by omega
              rw [this]
      · intro j x hj hx
        cases j with
        | zero =>
          simp only [List.getElem?_cons_zero, Option.some.injEq] at hx
          subst hx
          exact hc
        | succ j =>
          exact h5 j x (by omega) (by simpa using hx)
    · rw [if_neg hc]
      simp only [Nat.sub_self]
      refine ⟨Nat.le_refl _, by omega, ?_, ?_, ?_⟩
      · intro x hx
        simp only [List.getElem?_cons_zero, Option.some.injEq] at hx
        subst hx
        exact hc
      · intro k
        constructor
        · intro h; exact Or.inl h
        · rintro (h | ⟨j, x, hj, -⟩)
          · exact h
          · omega
      · intro j x hj; omega
/-- The replay of the insertions before a deletion, over all threads from thread `t0` on:
no index moves back or past the end of its thread; each index stops at an insertion whose
tick is not smaller than the tick of the deletion; the heap keeps its keys and gains
exactly those of the insertions passed, all of which have a smaller tick. -/
theorem insert_phase_spec (tick : Nat) :
    ∀ (inss : List (List log_entry)) (t0 : Nat) (idxs : List Nat) (m : replay_map),
      idxs.length = inss.length →
      (insert_phase tick t0 inss idxs m).1.length = idxs.length ∧
      (∀ i, idxs.getD i 0 ≤ (insert_phase tick t0 inss idxs m).1.getD i 0) ∧
      (∀ i, idxs.getD i 0 ≤ (inss.getD i []).length →
        (insert_phase tick t0 inss idxs m).1.getD i 0 ≤ (inss.getD i []).length) ∧
      (∀ i e, (inss.getD i [])[(insert_phase tick t0 inss idxs m).1.getD i 0]? = some e →
        ¬ e.tick < tick) ∧
      (∀ k, k ∈ replay_keys (insert_phase tick t0 inss idxs m).2 ↔
        (k ∈ replay_keys m ∨ ∃ i j e, idxs.getD i 0 ≤ j ∧
          j < (insert_phase tick t0 inss idxs m).1.getD i 0 ∧
          (inss.getD i [])[j]? = some e ∧ k = ⟨e.key, t0 + i, j % 2 ^ 32⟩)) ∧
      (∀ i j e, idxs.getD i 0 ≤ j → j < (insert_phase tick t0 inss idxs m).1.getD i 0 →
        (inss.getD i [])[j]? = some e → e.tick < tick) := by
  intro inss
  induction inss with
  | nil =>
    intro t0 idxs m hlen
    have hnil : idxs = [] := List.length_eq_zero.mp hlen
    subst hnil
    simp only [insert_phase]
    refine ⟨trivial, fun i => Nat.le_refl _, fun i h => h, ?_, ?_, ?_⟩
    · intro i e h; simp at h
    · intro k
      constructor
      · intro h; exact Or.inl h
      · rintro (h | ⟨i, j, e, h1, h2, -⟩)
        · exact h
        · omega
    · intro i j e h1 h2; omega
  | cons l rest ih =>
    intro t0 idxs m hlen
    cases idxs with
    | nil => simp at hlen
    | cons idx idxs =>
      simp only [List.length_cons, Nat.add_right_cancel_iff] at hlen
      simp only [insert_phase]
      obtain ⟨b1, b2, b3, b4, b5⟩ := insert_before_spec tick t0 (l.drop idx) idx m
      generalize insert_before tick t0 (l.drop idx) idx m = b at b1 b2 b3 b4 b5 ⊢
      obtain ⟨p1, p2, p3, p4, p5, p6⟩ := ih (t0 + 1) idxs b.2 hlen
      generalize insert_phase tick (t0 + 1) rest idxs b.2 = p at p1 p2 p3 p4 p5 p6 ⊢
      refine ⟨by simp only [List.length_cons, p1], ?_, ?_, ?_, ?_, ?_⟩
      · intro i
        cases i with
        | zero => simpa using b1
        | succ i => simpa using p2 i
      · intro i hi
        cases i with
        | zero =>
          simp only [List.getD_cons_zero] at hi ⊢
          simp only [List.length_drop] at b2
          omega
        | succ i => simpa using p3 i (by simpa using hi)
      · intro i e he
        cases i with
        | zero =>
          simp only [List.getD_cons_zero] at he
          apply b3 e
          rw [List.getElem?_drop]
          have : idx + (b.1 - idx) = b.1 := by omega
          rw [this]
          exact he
        | succ i =>
          simp only [List.getD_cons_succ] at he
          exact p4 i e he
      · intro k
        rw [p5, b4]
        constructor
        · rintro ((h | ⟨j, e, hj, he, hk⟩) | ⟨i, j, e, h1, h2, h3, hk⟩)
          · exact Or.inl h
          · right
            refine ⟨0, idx + j, e, by simp, by simp only [List.getD_cons_zero]; omega, ?_, ?_⟩
            · rw [List.getElem?_drop] at he
              simpa using he
            · rw [hk]; rfl
          · right
            refine ⟨i + 1, j, e, by simpa using h1, by simpa using h2, by simpa using h3, ?_⟩
            rw [hk]
            have : t0 + 1 + i = t0 + (i + 1) := by omega
            rw [this]
        · rintro (h | ⟨i, j, e, h1, h2, h3, hk⟩)
          · exact Or.inl (Or.inl h)
          · cases i with
            | zero =>
              simp only [List.getD_cons_zero] at h1 h2 h3
              left; right
              refine ⟨j - idx, e, by omega, ?_, ?_⟩
              · rw [List.getElem?_drop]
                have : idx + (j - idx) = j := by omega
                rw [this]
                exact h3
              · rw [hk]
                have : idx + (j - idx) = j := by omega
                rw [this]
                rfl
            | succ i =>
              simp only [List.getD_cons_succ] at h1 h2 h3
              right
              refine ⟨i, j, e, h1, h2, h3, ?_⟩
              rw [hk]
              have : t0 + 1 + i = t0 + (i + 1) := by omega
              rw [this]
      · intro i j e h1 h2 h3
        cases i with
        | zero =>
          simp only [List.getD_cons_zero] at h1 h2 h3
          apply b5 (j - idx) e (by omega)
          rw [List.getElem?_drop]
          have : idx + (j - idx) = j := by omega
          rw [this]
          exact h3
        | succ i =>
          simp only [List.getD_cons_succ] at h1 h2 h3
          exact p6 i j e h1 h2 h3
theorem pairwise_getElem? {β : Type} {R : β → β → Prop} (l : List β) (hl : l.Pairwise R)
    (i j : Nat) (a b : β) (ha : l[i]? = some a) (hb : l[j]? = some b) (hij : i < j) :
    R a b := by
  have hi := lt_of_get ha
  have hj := lt_of_get hb
  rw [List.getElem?_eq_getElem hi, Option.some.injEq] at ha
  rw [List.getElem?_eq_getElem hj, Option.some.injEq] at hb
  rw [← ha, ← hb]
  exact List.pairwise_iff_getElem.mp hl i j hi hj hij

theorem replay_keys_eraseIdx (m : replay_map) (it : Nat) :
    replay_keys (m.eraseIdx it) = (replay_keys m).eraseIdx it := by
  unfold replay_keys
  induction m generalizing it with
  | nil => simp
  | cons e rest ih =>
    cases it with
    | zero => simp
    | succ it => simp [ih]

/-- One round of the replay for a deletion whose insertion has a smaller tick: the round
finds the entry, and the state is ready for the deletions that follow. -/
theorem replay_step_finds (ins : List (List log_entry)) (dels : List log_entry)
    (hv : verified_log ins dels) (rs : replay_state) (d : log_entry) (ds : List log_entry)
    (hready : replay_ready ins rs (d :: ds))
    (hsub : ∀ x ∈ d :: ds, x ∈ dels)
    (hd : d.failed = false → ∀ x, (ins.getD d.insert_thread_id [])[d.value]? = some x →
      x.tick < d.tick)
    (hdist : ∀ x ∈ ds, distinct_refs d x) :
    ∃ rs1, replay_step ins rs d = Except.ok rs1 ∧ replay_ready ins rs1 ds := by
  obtain ⟨hlen, hheap⟩ := hready
  obtain ⟨p1, p2, -, p4, p5, -⟩ :=
    insert_phase_spec d.tick ins 0 rs.insert_index rs.replay_heap hlen
  unfold replay_step
  generalize insert_phase d.tick 0 ins rs.insert_index rs.replay_heap = ph at p1 p2 p4 p5 ⊢
  obtain ⟨idxs, m⟩ := ph
  simp only at p1 p2 p4 p5 ⊢
  have hA : ∀ x ∈ d :: ds, x.failed = false → x.value < idxs.getD x.insert_thread_id 0 →
      (⟨x.key, x.insert_thread_id, x.value⟩ : heap_entry) ∈ replay_keys m := by
    intro x hx hxf hxlt
    rw [p5]
    by_cases hold : x.value < rs.insert_index.getD x.insert_thread_id 0
    · exact Or.inl (hheap x hx hxf hold)
    · right
      obtain ⟨y, hy, hyk, -⟩ := hv.refs x (hsub x hx) hxf
      refine ⟨x.insert_thread_id, x.value, y, by omega, hxlt, hy, ?_⟩
      have hs := hv.small _ _ y hy
      rw [hyk, Nat.zero_add, Nat.mod_eq_of_lt hs]
  have hB : d.failed = false → d.value < idxs.getD d.insert_thread_id 0 := by
    intro hdf
    by_contra hc
    obtain ⟨y, hy, -, -⟩ := hv.refs d (hsub d (List.mem_cons_self _ _)) hdf
    have hlt := lt_of_get hy
    have hj0 : idxs.getD d.insert_thread_id 0 < (ins.getD d.insert_thread_id []).length := by
      omega
    obtain ⟨e0, he0⟩ : ∃ e0, (ins.getD d.insert_thread_id [])[idxs.getD d.insert_thread_id 0]? =
        some e0 := ⟨_, List.getElem?_eq_getElem hj0⟩
    have hstop := p4 _ _ he0
    have hyt := hd hdf y hy
    by_cases heq : idxs.getD d.insert_thread_id 0 = d.value
    · rw [heq, hy] at he0
      simp only [Option.some.injEq] at he0
      rw [← he0] at hstop
      exact hstop hyt
    · have := pairwise_getElem? _ (hv.asc d.insert_thread_id) _ _ e0 y he0 hy (by omega)
      simp only at this
      omega
  have hlen1 : idxs.length = ins.length := by rw [p1, hlen]
  cases hdf : d.failed with
  | true =>
    simp only [if_true]
    cases m with
    | nil =>
      refine ⟨_, rfl, hlen1, ?_⟩
      intro x hx hxf hxlt
      exact hA x (List.mem_cons_of_mem _ hx) hxf hxlt
    | cons top tl =>
      refine ⟨_, rfl, hlen1, ?_⟩
      intro x hx hxf hxlt
      simp only [replay_keys] at hA ⊢
      rw [delay_all_keys]
      exact hA x (List.mem_cons_of_mem _ hx) hxf hxlt
  | false =>
    simp only [Bool.false_eq_true, if_false]
    have hkey := hA d (List.mem_cons_self _ _) hdf (hB hdf)
    obtain ⟨it, delays, hfind⟩ := btree_find_complete _ m hkey
    have hit := btree_find_key _ m it delays hfind
    rw [hfind]
    cases m with
    | nil => simp [replay_keys] at hkey
    | cons top tl =>
      refine ⟨_, rfl, hlen1, ?_⟩
      intro x hx hxf hxlt
      simp only
      rw [replay_keys_eraseIdx]
      have hkeys : replay_keys (rank_scan top.1.key d.key it (top :: tl) 0).1 =
          replay_keys (top :: tl) := rank_scan_keys _ _ _ _ _
      rw [hkeys]
      apply mem_eraseIdx_of_ne _ it _ _ (hA x (List.mem_cons_of_mem _ hx) hxf hxlt) hit
      intro hc
      simp only [heap_entry.mk.injEq] at hc
      exact hdist x hx hdf hxf ⟨hc.2.1.symm, hc.2.2.symm⟩

/-- The replay of deletions whose insertions have smaller ticks and that refer to
different insertions finds every entry. -/
theorem replay_loop_finds (ins : List (List log_entry)) (dels : List log_entry)
    (hv : verified_log ins dels) :
    ∀ (ds : List log_entry) (rs : replay_state), replay_ready ins rs ds →
      (∀ x ∈ ds, x ∈ dels) →
      (∀ d ∈ ds, d.failed = false → ∀ x, (ins.getD d.insert_thread_id [])[d.value]? = some x →
        x.tick < d.tick) →
      ds.Pairwise distinct_refs →
      ∃ rs1, replay_loop ins rs ds = Except.ok rs1 := by
  intro ds
  induction ds with
  | nil => intro rs _ _ _ _; exact ⟨rs, rfl⟩
  | cons d ds ih =>
    intro rs hready hsub hstrict hpair
    rw [List.pairwise_cons] at hpair
    obtain ⟨rs1, hstep, hready1⟩ := replay_step_finds ins dels hv rs d ds hready hsub
      (hstrict d (List.mem_cons_self _ _)) hpair.1
    obtain ⟨rs2, hloop⟩ := ih rs1 hready1 (fun x hx => hsub x (List.mem_cons_of_mem _ hx))
      (fun x hx => hstrict x (List.mem_cons_of_mem _ hx)) hpair.2
    refine ⟨rs2, ?_⟩
    unfold replay_loop
    rw [hstep]
    exact hloop
theorem replay_step_error (ins : List (List log_entry)) (rs : replay_state) (d : log_entry)
    (err : log_error) (h : replay_step ins rs d = Except.error err) :
    err = log_error.not_in_the_heap_at_deletion_time := by
  unfold replay_step at h
  generalize insert_phase d.tick 0 ins rs.insert_index rs.replay_heap = ph at h
  obtain ⟨idxs, m⟩ := ph
  simp only at h
  cases hdf : d.failed with
  | true =>
    rw [hdf] at h
    simp only [if_true] at h
    cases m with
    | nil => cases h
    | cons top tl => cases h
  | false =>
    rw [hdf] at h
    simp only [Bool.false_eq_true, if_false] at h
    cases hfind : btree_find (⟨d.key, d.insert_thread_id, d.value⟩ : heap_entry) m with
    | none =>
      rw [hfind] at h
      simp only [Except.error.injEq] at h
      exact h.symm
    | some r =>
      rw [hfind] at h
      cases m with
      | nil =>
        simp only [Except.error.injEq] at h
        exact h.symm
      | cons top tl => cases h

/-- One round of the replay from a bounded state, before deletions in the order of their
ticks: a deletion that is not failed and whose insertion does not have a smaller tick is
not found; a round that succeeds leaves a bounded state. -/
theorem replay_step_bounded (ins : List (List log_entry)) (dels : List log_entry)
    (hv : verified_log ins dels) (rs : replay_state) (d : log_entry) (ds : List log_entry)
    (hb : replay_bounded ins rs (d :: ds)) (hsorted : ∀ x ∈ ds, d.tick ≤ x.tick) :
    (d.failed = false →
      (∃ x, (ins.getD d.insert_thread_id [])[d.value]? = some x ∧ ¬ x.tick < d.tick) →
      replay_step ins rs d = Except.error log_error.not_in_the_heap_at_deletion_time) ∧
    (∀ rs1, replay_step ins rs d = Except.ok rs1 → replay_bounded ins rs1 ds) := by
  obtain ⟨hlen, hk1, hk2, hk3⟩ := hb
  obtain ⟨p1, p2, p3, -, p5, p6⟩ :=
    insert_phase_spec d.tick ins 0 rs.insert_index rs.replay_heap hlen
  unfold replay_step
  generalize insert_phase d.tick 0 ins rs.insert_index rs.replay_heap = ph at p1 p2 p3 p5 p6 ⊢
  obtain ⟨idxs, m⟩ := ph
  simp only at p1 p2 p3 p5 p6 ⊢
  have hlen1 : idxs.length = ins.length := by rw [p1, hlen]
  have hK1 : ∀ k ∈ replay_keys m,
      ∃ j, k.elem_id = j % 2 ^ 32 ∧ j < idxs.getD k.ins_thread_id 0 := by
    intro k hk
    rw [p5] at hk
    rcases hk with hk | ⟨i, j, e, -, h2, -, hke⟩
    · obtain ⟨j, hj1, hj2⟩ := hk1 k hk
      exact ⟨j, hj1, Nat.lt_of_lt_of_le hj2 (p2 _)⟩
    · refine ⟨j, by rw [hke], ?_⟩
      rw [hke]
      simp only [Nat.zero_add]
      exact h2
  have hK2 : ∀ i, idxs.getD i 0 ≤ (ins.getD i []).length := fun i => p3 i (hk2 i)
  have hK3 : ∀ (i j : Nat) (e : log_entry), (ins.getD i [])[j]? = some e →
      j < idxs.getD i 0 → e.tick < d.tick := by
    intro i j e he hj
    by_cases hold : j < rs.insert_index.getD i 0
    · exact hk3 i j e he hold d (List.mem_cons_self _ _)
    · exact p6 i j e (by omega) hj he
  have hK3s : ∀ (i j : Nat) (e : log_entry), (ins.getD i [])[j]? = some e →
      j < idxs.getD i 0 → ∀ x ∈ ds, e.tick < x.tick := by
    intro i j e he hj x hx
    have := hK3 i j e he hj
    have := hsorted x hx
    omega
  have hsubkeys : ∀ (m1 : replay_map), (∀ k ∈ replay_keys m1, k ∈ replay_keys m) →
      ∀ k ∈ replay_keys m1,
        ∃ j, k.elem_id = j % 2 ^ 32 ∧ j < idxs.getD k.ins_thread_id 0 :=
    fun m1 h k hk => hK1 k (h k hk)
  constructor
  · intro hdf hbad
    obtain ⟨x, hx, hxt⟩ := hbad
    rw [hdf]
    simp only [Bool.false_eq_true, if_false]
    cases hfind : btree_find (⟨d.key, d.insert_thread_id, d.value⟩ : heap_entry) m with
    | none => rfl
    | some r =>
      exfalso
      obtain ⟨it, delays⟩ := r
      have hmem : (⟨d.key, d.insert_thread_id, d.value⟩ : heap_entry) ∈ replay_keys m :=
        List.mem_iff_getElem?.mpr ⟨_, btree_find_key _ m it delays hfind⟩
      obtain ⟨j, hj1, hj2⟩ := hK1 _ hmem
      simp only at hj1 hj2
      have hjl := Nat.lt_of_lt_of_le hj2 (hK2 d.insert_thread_id)
      obtain ⟨e, he⟩ : ∃ e, (ins.getD d.insert_thread_id [])[j]? = some e :=
        ⟨_, List.getElem?_eq_getElem hjl⟩
      have hs := hv.small _ _ e he
      rw [Nat.mod_eq_of_lt hs] at hj1
      subst hj1
      rw [hx] at he
      simp only [Option.some.injEq] at he
      subst he
      exact hxt (hK3 _ _ x hx hj2)
  · intro rs1 h
    cases hdf : d.failed with
    | true =>
      rw [hdf] at h
      simp only [if_true] at h
      cases m with
      | nil =>
        simp only [Except.ok.injEq] at h
        subst h
        exact ⟨hlen1, hK1, hK2, hK3s⟩
      | cons top tl =>
        simp only [Except.ok.injEq] at h
        subst h
        refine ⟨hlen1, ?_, hK2, hK3s⟩
        simp only
        apply hsubkeys
        intro k hk
        simp only [replay_keys] at hk ⊢
        rw [delay_all_keys] at hk
        exact hk
    | false =>
      rw [hdf] at h
      simp only [Bool.false_eq_true, if_false] at h
      cases hfind : btree_find (⟨d.key, d.insert_thread_id, d.value⟩ : heap_entry) m with
      | none => rw [hfind] at h; cases h
      | some r =>
        rw [hfind] at h
        cases m with
        | nil => cases h
        | cons top tl =>
          simp only [Except.ok.injEq] at h
          subst h
          refine ⟨hlen1, ?_, hK2, hK3s⟩
          simp only
          apply hsubkeys
          intro k hk
          rw [replay_keys_eraseIdx] at hk
          have hk2 := mem_of_mem_eraseIdx _ _ _ hk
          have hkeys : replay_keys (rank_scan top.1.key d.key r.1 (top :: tl) 0).1 =
              replay_keys (top :: tl) := rank_scan_keys _ _ _ _ _
          rw [hkeys] at hk2
          exact hk2

/-- The replay of deletions in the order of their ticks, one of which is not failed and
refers to an insertion whose tick is not smaller than its own, ends with the error. -/
theorem replay_loop_misses (ins : List (List log_entry)) (dels : List log_entry)
    (hv : verified_log ins dels) :
    ∀ (ds : List log_entry) (rs : replay_state), replay_bounded ins rs ds →
      ds.Pairwise (fun a b => a.tick ≤ b.tick) →
      (∃ d ∈ ds, d.failed = false ∧
        ∃ x, (ins.getD d.insert_thread_id [])[d.value]? = some x ∧ ¬ x.tick < d.tick) →
      replay_loop ins rs ds = Except.error log_error.not_in_the_heap_at_deletion_time := by
  intro ds
  induction ds with
  | nil => intro rs _ _ h; obtain ⟨d, hd, -⟩ := h; simp at hd
  | cons d ds ih =>
    intro rs hb hsorted hbad
    rw [List.pairwise_cons] at hsorted
    obtain ⟨hmiss, hnext⟩ := replay_step_bounded ins dels hv rs d ds hb hsorted.1
    unfold replay_loop
    cases hstep : replay_step ins rs d with
    | error err =>
      simp only
      rw [replay_step_error ins rs d err hstep]
    | ok rs1 =>
      simp only
      obtain ⟨b, hbm, hbf, hbx⟩ := hbad
      rcases List.mem_cons.mp hbm with hbd | hbd
      · subst hbd
        rw [hmiss hbf hbx] at hstep
        cases hstep
      · exact ih rs1 (hnext rs1 hstep) hsorted.2 ⟨b, hbd, hbf, hbx⟩
/-- The final state of the reader of an accepted log is a verified log. -/
theorem verified_of_inv (n : Nat) (st : reader_state) (recs : List log_record)
    (hinv : reader_inv n st recs) : verified_log st.insertions st.deletions := by
  have hrec : ∀ d ∈ st.deletions, ∃ r ∈ recs, r.1 ≠ 'i' ∧ r.2 = d := by
    intro d hd
    rw [hinv.dels, List.mem_map] at hd
    obtain ⟨r, hr, hrd⟩ := hd
    rw [List.mem_filter] at hr
    exact ⟨r, hr.1, by simpa using hr.2, hrd⟩
  constructor
  · intro t k e he
    have hval := (hinv.vals t k e he).1
    have hmem : ({ e with deleted := false } : log_entry) ∈ insertions_of recs t := by
      rw [← hinv.ins t]
      exact List.mem_map.mpr ⟨e, List.mem_iff_getElem?.mpr ⟨k, he⟩, rfl⟩
    unfold insertions_of at hmem
    rw [List.mem_map] at hmem
    obtain ⟨r, hr, hre⟩ := hmem
    have hb := (hinv.bound r (List.mem_filter.mp hr).1).2.1
    rw [hre] at hb
    simp only at hb
    omega
  · exact hinv.asc
  · intro d hd hdf
    obtain ⟨r, hr, hri, hrd⟩ := hrec d hd
    obtain ⟨htag, hfl⟩ := hinv.tags r hr
    have hrd1 : r.1 = 'd' := by
      rcases htag with h | h | h
      · exact absurd h hri
      · exact h
      · have := hfl.mpr h
        rw [hrd, hdf] at this
        exact absurd this (by simp)
    have := hinv.refs r hr hrd1
    rw [hrd] at this
    exact this
  · rw [hinv.dels, List.pairwise_map, List.pairwise_filter]
    have honce := hinv.once
    rw [List.pairwise_filter] at honce
    refine List.Pairwise.imp_of_mem ?_ honce
    intro a b ha hb hab _ _ haf hbf
    have hda : a.1 = 'd' := by
      obtain ⟨htag, hfl⟩ := hinv.tags a ha
      rcases htag with h | h | h
      · simp_all
      · exact h
      · have := hfl.mpr h
        rw [haf] at this
        exact absurd this (by simp)
    have hdb : b.1 = 'd' := by
      obtain ⟨htag, hfl⟩ := hinv.tags b hb
      rcases htag with h | h | h
      · simp_all
      · exact h
      · have := hfl.mpr h
        rw [hbf] at this
        exact absurd this (by simp)
    exact hab (by simpa using hda) (by simpa using hdb)

theorem tick_order_swo :
    strict_weak_order (fun a b : log_entry => decide (a.tick < b.tick)) where
  irrefl := by intro a; simp
  trans := by intro a b c; simp only [decide_eq_true_eq]; omega
  neg_trans := by intro a b c; simp only [decide_eq_false_iff_not]; omega

theorem getD_replicate_zero (n i : Nat) : (List.replicate n 0).getD i 0 = 0 := by
  rw [List.getD_eq_getElem?_getD]
  by_cases h : i < n
  · simp [List.getElem?_replicate, h]
  · simp [List.getElem?_replicate, h]

theorem distinct_refs_symm (a b : log_entry) (h : distinct_refs a b) : distinct_refs b a := by
  intro hb ha hc
  exact h ha hb ⟨hc.1.symm, hc.2.symm⟩

/-- The replay when the tick of the last failed deletion was never written.  On `1 f x`
the thread of the failed deletion is read as 0 (no digit) and the stream fails, so the
tick is not written; the log passes the verification, and the replay reads no tick (one
deletion, no insertion) and returns.  On `1 i 0 5 7 0 0 f 0`, where the input ends before
the tick, the log passes the verification too, and the replay loop compares the tick of
the insertion with the tick never written: no result. -/
theorem unset_tick_cases :
    main true "1 f x".toList =
      some (Except.ok
        ({ insertions := [[]], deletions := [⟨0, 0, true, 0, 0, 0, false⟩],
           deleting := true, line := 3, tick_unset := true }, none)) ∧
    main false "1 f x".toList =
      some (Except.ok
        ({ insertions := [[]], deletions := [⟨0, 0, true, 0, 0, 0, false⟩],
           deleting := true, line := 3, tick_unset := true },
         some (replay_state.init 1))) ∧
    main true "1 i 0 5 7 0 0 f 0".toList =
      some (Except.ok
        ({ insertions := [[⟨0, 5, false, 7, 0, 0, false⟩]],
           deletions := [⟨0, 0, true, 0, 0, 0, false⟩],
           deleting := true, line := 4, tick_unset := true }, none)) ∧
    main false "1 i 0 5 7 0 0 f 0".toList = none :=
  ⟨rfl, rfl, rfl, rfl⟩

/-- C40: for every log that the verifier accepts (`main --verify` returns 0, with the
insertions and deletions `st` it has read): (1) if the tick of each deletion is strictly
greater than the tick of the insertion it refers to, the replay finds the element of
every replayed deletion: in whatever order the deletions are replayed (so also in the
order `std::sort` gives deletions of equal ticks) the replay loop ends without the error
"is not in the heap at deletion time", and the program returns 0; (2) if a replayed
deletion (one of the first `num_deletions` in an order of non-decreasing ticks) has the
tick of its insertion, the replay loop ends with that error, whatever the order of equal
ticks, and (3) the program returns 1, although the log has passed the verification.  The
program has no result when the replay reads the tick of a failed deletion that was never
written (`reads_unset_tick`). -/
theorem replay_finds_unless_equal_ticks (input : List Char) (st : reader_state)
    (h : main true input = some (Except.ok (st, none))) :
    ((∀ d ∈ st.deletions, d.failed = false →
        ∀ x, (st.insertions.getD d.insert_thread_id [])[d.value]? = some x →
          x.tick < d.tick) →
      (∀ ds : List log_entry, ds.Perm st.deletions →
        ∃ rs, replay_loop st.insertions (replay_state.init st.insertions.length)
          (ds.take num_deletions) = Except.ok rs) ∧
      (reads_unset_tick st = false →
        ∃ rs, replay st.insertions st.deletions = Except.ok rs ∧
          main false input = some (Except.ok (st, some rs)))) ∧
    (∀ ds : List log_entry, ds.Perm st.deletions →
      ds.Pairwise (fun a b => a.tick ≤ b.tick) →
      ∀ d ∈ ds.take num_deletions, d.failed = false →
      ∀ x, (st.insertions.getD d.insert_thread_id [])[d.value]? = some x →
        x.tick = d.tick →
        replay_loop st.insertions (replay_state.init st.insertions.length)
          (ds.take num_deletions) =
            Except.error log_error.not_in_the_heap_at_deletion_time) ∧
    (reads_unset_tick st = false →
      ∀ d ∈ (std_sort (fun a b : log_entry => decide (a.tick < b.tick)) st.deletions).take
        num_deletions, d.failed = false →
      ∀ x, (st.insertions.getD d.insert_thread_id [])[d.value]? = some x →
        x.tick = d.tick →
        main false input =
          some (Except.error (st.line, log_error.not_in_the_heap_at_deletion_time))) := by
  have hr : read_log input = some (Except.ok st) := (main_verify_accepts input st).mp h
  obtain ⟨n, recs, -, hinv⟩ := read_log_accepted input st hr
  have hv := verified_of_inv n st recs hinv
  have hfinds : (∀ d ∈ st.deletions, d.failed = false →
        ∀ x, (st.insertions.getD d.insert_thread_id [])[d.value]? = some x →
          x.tick < d.tick) →
      ∀ ds : List log_entry, ds.Perm st.deletions →
        ∃ rs, replay_loop st.insertions (replay_state.init st.insertions.length)
          (ds.take num_deletions) = Except.ok rs := by
    intro hstrict ds hperm
    have hsubl : (ds.take num_deletions).Sublist ds := List.take_sublist _ _
    have hmem : ∀ x ∈ ds.take num_deletions, x ∈ st.deletions :=
      fun x hx => hperm.subset (hsubl.subset hx)
    have hpair : (ds.take num_deletions).Pairwise distinct_refs :=
      List.Pairwise.sublist hsubl
        ((List.Perm.pairwise_iff (fun {a b} hab => distinct_refs_symm a b hab) hperm).mpr
          hv.once)
    have hready : replay_ready st.insertions (replay_state.init st.insertions.length)
        (ds.take num_deletions) := by
      refine ⟨by simp [replay_state.init], ?_⟩
      intro d _ _ hlt
      simp only [replay_state.init, getD_replicate_zero] at hlt
      omega
    exact replay_loop_finds st.insertions st.deletions hv _ _ hready hmem
      (fun d hd => hstrict d (hmem d hd)) hpair
  have hmisses : ∀ ds : List log_entry, ds.Perm st.deletions →
      ds.Pairwise (fun a b => a.tick ≤ b.tick) →
      ∀ d ∈ ds.take num_deletions, d.failed = false →
      ∀ x, (st.insertions.getD d.insert_thread_id [])[d.value]? = some x →
        x.tick = d.tick →
        replay_loop st.insertions (replay_state.init st.insertions.length)
          (ds.take num_deletions) =
            Except.error log_error.not_in_the_heap_at_deletion_time := by
    intro ds hperm hasc d hd hdf x hx hxt
    have hsubl : (ds.take num_deletions).Sublist ds := List.take_sublist _ _
    have hsorted : (ds.take num_deletions).Pairwise (fun a b => a.tick ≤ b.tick) :=
      List.Pairwise.sublist hsubl hasc
    have hbounded : replay_bounded st.insertions (replay_state.init st.insertions.length)
        (ds.take num_deletions) := by
      refine ⟨by simp [replay_state.init], ?_, ?_, ?_⟩
      · intro k hk
        simp [replay_state.init, replay_keys] at hk
      · intro i
        simp only [replay_state.init, getD_replicate_zero]
        omega
      · intro i j e _ hlt
        simp only [replay_state.init, getD_replicate_zero] at hlt
        omega
    exact replay_loop_misses st.insertions st.deletions hv _ _ hbounded hsorted
      ⟨d, hd, hdf, x, hx, by omega⟩
  have hperm := std_sort_perm (fun a b : log_entry => decide (a.tick < b.tick)) st.deletions
  have hasc : (std_sort (fun a b : log_entry => decide (a.tick < b.tick))
      st.deletions).Pairwise (fun a b => a.tick ≤ b.tick) := by
    have hasc := std_sort_ascending tick_order_swo st.deletions
    unfold ascending at hasc
    refine List.Pairwise.imp ?_ hasc
    intro a b hab
    simp only [decide_eq_false_iff_not] at hab
    omega
  refine ⟨fun hstrict => ⟨hfinds hstrict, ?_⟩, hmisses, ?_⟩
  · intro hflag
    obtain ⟨rs, hrs⟩ := hfinds hstrict _ hperm
    have hrep : replay st.insertions st.deletions = Except.ok rs := hrs
    refine ⟨rs, hrep, ?_⟩
    unfold main
    rw [hr]
    simp only [Bool.false_eq_true, if_false, hflag]
    rw [hrep]
  · intro hflag d hd hdf x hx hxt
    have hrep : replay st.insertions st.deletions =
        Except.error log_error.not_in_the_heap_at_deletion_time :=
      hmisses _ hperm hasc d hd hdf x hx hxt
    unfold main
    rw [hr]
    simp only [Bool.false_eq_true, if_false, hflag]
    rw [hrep]

theorem replay_finds_unless_equal_ticks_witness :
    (∃ rs, replay sample_insertions sample_deletions = Except.ok rs ∧
      main false sample_log =
        some (Except.ok (⟨sample_insertions, sample_deletions, true, 9, false⟩, some rs))) ∧
    replay_loop [[⟨0, 5, false, 7, 0, 0, true⟩], []] (replay_state.init 2)
        (([⟨0, 5, false, 7, 0, 0, false⟩] : List log_entry).take num_deletions) =
      Except.error log_error.not_in_the_heap_at_deletion_time ∧
    main false "2 i 0 5 7 0 0 d 0 5 7 0 0".toList =
      some (Except.error (4, log_error.not_in_the_heap_at_deletion_time)) :=
  ⟨((replay_finds_unless_equal_ticks sample_log
      ⟨sample_insertions, sample_deletions, true, 9, false⟩ rfl).1 (by decide)).2 rfl,
    (replay_finds_unless_equal_ticks "2 i 0 5 7 0 0 d 0 5 7 0 0".toList
      ⟨[[⟨0, 5, false, 7, 0, 0, true⟩], []], [⟨0, 5, false, 7, 0, 0, false⟩], true, 4, false⟩
      rfl).2.1 [⟨0, 5, false, 7, 0, 0, false⟩] (List.Perm.refl _)
      (List.pairwise_singleton _ _) ⟨0, 5, false, 7, 0, 0, false⟩
      (List.mem_singleton.mpr rfl) rfl ⟨0, 5, false, 7, 0, 0, true⟩ rfl rfl,
    (replay_finds_unless_equal_ticks "2 i 0 5 7 0 0 d 0 5 7 0 0".toList
      ⟨[[⟨0, 5, false, 7, 0, 0, true⟩], []], [⟨0, 5, false, 7, 0, 0, false⟩], true, 4, false⟩
      rfl).2.2 rfl ⟨0, 5, false, 7, 0, 0, false⟩ (List.mem_singleton.mpr rfl) rfl
      ⟨0, 5, false, 7, 0, 0, true⟩ rfl rfl⟩

/-! ## The deletion-buffer multiqueue: buffer bounds, refills and contents -/

section deletion_buffer

variable {Key T H : Type} {hp : rsm.seq_heap (Key × T) H} {comp : Key → Key → Bool}

theorem db_store_get_same {α : Type} (mq : rsm.deletion_buffer_mq α H) (i : Nat)
    (g : rsm.guarded_heap α H) (h : i < mq.heap_list_.length) :
    (mq.store i g).heap_list_[i]? = some g := by
  simp [rsm.deletion_buffer_mq.store, List.getElem?_set, h]

theorem db_store_get_ne {α : Type} (mq : rsm.deletion_buffer_mq α H) (i j : Nat)
    (g : rsm.guarded_heap α H) (h : i ≠ j) :
    (mq.store i g).heap_list_[j]? = mq.heap_list_[j]? := by
  simp [rsm.deletion_buffer_mq.store, List.getElem?_set, h]

theorem db_store_length {α : Type} (mq : rsm.deletion_buffer_mq α H) (i : Nat)
    (g : rsm.guarded_heap α H) :
    (mq.store i g).heap_list_.length = mq.heap_list_.length := by
  simp [rsm.deletion_buffer_mq.store]

theorem db_inv_store {α : Type} (mq : rsm.deletion_buffer_mq α H) (hinv : mq.inv) (i : Nat)
    (g : rsm.guarded_heap α H) (hg : g.bounded) : (mq.store i g).inv := by
  refine ⟨?_, ?_⟩
  · simp only [rsm.deletion_buffer_mq.store, List.length_set]; exact hinv.num
  · intro x hx
    rcases List.mem_or_eq_of_mem_set hx with h | h
    · exact hinv.bounded x h
    · rw [h]; exact hg

theorem db_content_store (law : rsm.seq_contract hp)
    (mq : rsm.deletion_buffer_mq (Key × T) H) (i : Nat)
    (g g1 : rsm.guarded_heap (Key × T) H) (h : mq.heap_list_[i]? = some g) :
    (mq.store i g1).content law + g.content law = mq.content law + g1.content law :=
  sum_map_set (fun g => g.content law) mq.heap_list_ i g g1 h

theorem db_get_bounded {α : Type} (mq : rsm.deletion_buffer_mq α H) (hinv : mq.inv) (i : Nat)
    (g : rsm.guarded_heap α H) (h : mq.heap_list_[i]? = some g) : g.bounded :=
  hinv.bounded g (List.mem_iff_getElem?.mpr ⟨i, h⟩)

/-- The loop of `refill_buffer`: `count` grows by at most the number of rounds, the array
keeps its size and its places below the first `count`. -/
theorem db_refill_loop_bounds :
    ∀ (n count : Nat) (h : H) (buf : List (Key × T)) (c : Nat) (h1 : H)
      (buf1 : List (Key × T)),
      rsm.refill_loop hp n count h buf = some (c, h1, buf1) →
      count ≤ c ∧ c ≤ count + n ∧ buf1.length = buf.length ∧
        ∀ j, j < count → buf1[j]? = buf[j]? := by
  intro n
  induction n with
  | zero =>
    intro count h buf c h1 buf1 hr
    simp only [rsm.refill_loop, Option.some.injEq, Prod.mk.injEq] at hr
    obtain ⟨rfl, -, rfl⟩ := hr
    exact ⟨Nat.le_refl _, Nat.le_refl _, rfl, fun _ _ => rfl⟩
  | succ n ih =>
    intro count h buf c h1 buf1 hr
    unfold rsm.refill_loop at hr
    by_cases he : hp.empty h = true
    · rw [if_pos he] at hr
      simp only [Option.some.injEq, Prod.mk.injEq] at hr
      obtain ⟨rfl, -, rfl⟩ := hr
      exact ⟨Nat.le_refl _, by omega, rfl, fun _ _ => rfl⟩
    · rw [if_neg he] at hr
      cases hx : hp.extract_top h with
      | none => rw [hx] at hr; simp at hr
      | some p =>
        obtain ⟨v, h2⟩ := p
        rw [hx] at hr
        simp only at hr
        by_cases hc : count < buf.length
        · rw [if_pos hc] at hr
          obtain ⟨i1, i2, i3, i4⟩ := ih _ _ _ _ _ _ hr
          refine ⟨by omega, by omega, ?_, ?_⟩
          · rw [i3, List.length_set]
          · intro j hj
            rw [i4 j (by omega), List.getElem?_set]
            have : ¬ count = j := by omega
            simp [this]
        · rw [if_neg hc] at hr
          simp at hr

/-- The loop of `refill_buffer` moves values from the heap to the places from `count`
on. -/
theorem db_refill_loop_vals (law : rsm.seq_contract hp) :
    ∀ (n count : Nat) (h : H) (buf : List (Key × T)) (c : Nat) (h1 : H)
      (buf1 : List (Key × T)),
      rsm.refill_loop hp n count h buf = some (c, h1, buf1) →
      law.vals h = law.vals h1 + (((buf1.drop count).take (c - count) : List (Key × T)) :
        Multiset (Key × T)) := by
  intro n
  induction n with
  | zero =>
    intro count h buf c h1 buf1 hr
    simp only [rsm.refill_loop, Option.some.injEq, Prod.mk.injEq] at hr
    obtain ⟨rfl, rfl, rfl⟩ := hr
    simp
  | succ n ih =>
    intro count h buf c h1 buf1 hr
    have hr0 := hr
    unfold rsm.refill_loop at hr
    by_cases he : hp.empty h = true
    · rw [if_pos he] at hr
      simp only [Option.some.injEq, Prod.mk.injEq] at hr
      obtain ⟨rfl, rfl, rfl⟩ := hr
      simp
    · rw [if_neg he] at hr
      obtain ⟨v0, h0, hx0, hvals⟩ := law.extract_top_some h (by simpa using he)
      rw [hx0] at hr
      simp only at hr
      by_cases hc : count < buf.length
      · rw [if_pos hc] at hr
        have hi := ih _ _ _ _ _ _ hr
        obtain ⟨i1, i2, i3, i4⟩ := db_refill_loop_bounds _ _ _ _ _ _ _ hr
        have hget : buf1[count]? = some v0 := by
          rw [i4 count (by omega), List.getElem?_set]
          simp [hc]
        have hlt : count < buf1.length := lt_of_get hget
        have hsplit : (buf1.drop count).take (c - count) =
            v0 :: (buf1.drop (count + 1)).take (c - (count + 1)) := by
          rw [List.drop_eq_getElem_cons hlt]
          have hc1 : c - count = (c - (count + 1)) + 1 := by omega
          rw [hc1, List.take_succ_cons]
          have : buf1[count] = v0 := by
            rw [List.getElem?_eq_getElem hlt] at hget
            exact Option.some.inj hget
          rw [this]
        rw [hsplit, hvals, hi, ← Multiset.cons_coe]
        simp only [Multiset.add_cons]
      · rw [if_neg hc] at hr
        simp at hr

/-- On a heap that meets its contract the loop of `refill_buffer` has a result, as long as
the array has room for its rounds. -/
theorem db_refill_loop_total (law : rsm.seq_contract hp) :
    ∀ (n count : Nat) (h : H) (buf : List (Key × T)), count + n ≤ buf.length →
      ∃ r, rsm.refill_loop hp n count h buf = some r := by
  intro n
  induction n with
  | zero => intro count h buf _; exact ⟨_, rfl⟩
  | succ n ih =>
    intro count h buf hlen
    unfold rsm.refill_loop
    by_cases he : hp.empty h = true
    · rw [if_pos he]; exact ⟨_, rfl⟩
    · rw [if_neg he]
      obtain ⟨v0, h0, hx0, -⟩ := law.extract_top_some h (by simpa using he)
      rw [hx0]
      simp only
      rw [if_pos (by omega)]
      exact ih _ _ _ (by rw [List.length_set]; omega)

/-- What `refill_buffer` leaves: a buffer within its bounds that starts at place 0, the lock
word as it was, and, when it is called on an empty buffer, the same resident values. -/
theorem db_refill_buffer_spec (g g1 : rsm.guarded_heap (Key × T) H)
    (hsize : g.buffer.length = rsm.buffer_size)
    (h : g.refill_buffer hp = some g1) :
    g1.bounded ∧ g1.in_use = g.in_use ∧ g1.buffer_pos = 0 ∧
      (∀ law : rsm.seq_contract hp, g.buffer_pos = g.buffer_end →
        g1.content law = g.content law) := by
  unfold rsm.guarded_heap.refill_buffer at h
  cases hr : rsm.refill_loop hp rsm.buffer_size 0 g.heap g.buffer with
  | none => rw [hr] at h; simp at h
  | some r =>
    obtain ⟨c, h1, buf1⟩ := r
    rw [hr] at h
    simp only [Option.map_some', Option.some.injEq] at h
    subst h
    obtain ⟨-, i2, i3, -⟩ := db_refill_loop_bounds _ _ _ _ _ _ _ hr
    have hc : c ≤ 16 := by
      have : rsm.buffer_size = 16 := rfl
      omega
    have hmod : c % 2 ^ 16 = c := Nat.mod_eq_of_lt (by omega)
    refine ⟨⟨by simp only; rw [i3, hsize], by simp only; omega, ?_⟩, rfl, rfl, ?_⟩
    · simp only; rw [hmod]; exact hc
    · intro law hpe
      have hv := db_refill_loop_vals law _ _ _ _ _ _ _ hr
      unfold rsm.guarded_heap.content rsm.guarded_heap.resident
      simp only [hmod, Nat.sub_zero, List.drop_zero]
      rw [hpe, Nat.sub_self, List.take_zero]
      simp only [Nat.sub_zero, List.drop_zero] at hv
      rw [hv]
      simp

theorem db_refill_buffer_total (law : rsm.seq_contract hp)
    (g : rsm.guarded_heap (Key × T) H) (hsize : g.buffer.length = rsm.buffer_size) :
    ∃ g1, g.refill_buffer hp = some g1 := by
  obtain ⟨r, hr⟩ := db_refill_loop_total law rsm.buffer_size 0 g.heap g.buffer
    (by rw [hsize]; omega)
  unfold rsm.guarded_heap.refill_buffer
  rw [hr]
  exact ⟨_, rfl⟩

theorem db_locks_held_append (a b : List rsm.Event) :
    ∀ held, rsm.locks_held held (a ++ b) = rsm.locks_held (rsm.locks_held held a) b := by
  induction a with
  | nil => intro held; rfl
  | cons ev a ih =>
    intro held
    cases ev <;> simp only [List.cons_append, rsm.locks_held] <;> exact ih _

theorem db_locks_held_neutral (es : List rsm.Event) (h : ∀ ev ∈ es, ev.neutral) :
    ∀ held, rsm.locks_held held es = held := by
  induction es with
  | nil => intro held; rfl
  | cons ev es ih =>
    intro held
    have h1 := h ev (List.mem_cons_self _ _)
    have h2 := ih (fun x hx => h x (List.mem_cons_of_mem _ hx))
    cases ev with
    | acquire i => exact absurd h1 (by simp [rsm.Event.neutral])
    | release i => exact absurd h1 (by simp [rsm.Event.neutral])
    | fail i => simp only [rsm.locks_held]; exact h2 held
    | insert i => simp only [rsm.locks_held]; exact h2 held
    | refill i p n => simp only [rsm.locks_held]; exact h2 held
    | read i p n => simp only [rsm.locks_held]; exact h2 held

theorem db_step_refl (e : rsm.exec (Key × T) H) (hinv : e.mq.inv) :
    rsm.step_ok hp e e 0 0 :=
  ⟨hinv, ⟨[], by simp, by simp⟩, fun _ => rfl⟩

theorem db_step_trans {e e1 e2 : rsm.exec (Key × T) H} {i1 o1 i2 o2 : Multiset (Key × T)}
    (h1 : rsm.step_ok hp e e1 i1 o1) (h2 : rsm.step_ok hp e1 e2 i2 o2) :
    rsm.step_ok hp e e2 (i1 + i2) (o1 + o2) := by
  refine ⟨h2.inv, ?_, ?_⟩
  · obtain ⟨n1, ht1, hk1⟩ := h1.events
    obtain ⟨n2, ht2, hk2⟩ := h2.events
    refine ⟨n1 ++ n2, by rw [ht2, ht1, List.append_assoc], ?_⟩
    intro ev hev
    rcases List.mem_append.mp hev with h | h
    · exact hk1 ev h
    · exact hk2 ev h
  · intro law
    have c1 := h1.content law
    have c2 := h2.content law
    calc i1 + i2 + e.mq.content law = i2 + (i1 + e.mq.content law) := by abel
      _ = i2 + (o1 + e1.mq.content law) := by rw [c1]
      _ = o1 + (i2 + e1.mq.content law) := by abel
      _ = o1 + (o2 + e2.mq.content law) := by rw [c2]
      _ = o1 + o2 + e2.mq.content law := by abel

/-- A part of an operation that replaces one guarded heap by a bounded one and accounts
for the values. -/
theorem db_step_store (e : rsm.exec (Key × T) H) (hinv : e.mq.inv) (i : Nat)
    (g g1 : rsm.guarded_heap (Key × T) H) (hg : e.mq.heap_list_[i]? = some g)
    (hb : g1.bounded) (inp out : Multiset (Key × T))
    (hc : ∀ law : rsm.seq_contract hp, inp + g.content law = out + g1.content law)
    (rng : List Nat) (new : List rsm.Event) (hnew : ∀ ev ∈ new, ev.ok) :
    rsm.step_ok hp e ⟨e.mq.store i g1, rng, e.trace ++ new⟩ inp out := by
  refine ⟨db_inv_store e.mq hinv i g1 hb, ⟨new, rfl, hnew⟩, ?_⟩
  intro law
  have h1 := db_content_store law e.mq i g g1 hg
  have h2 := hc law
  simp only
  have : inp + e.mq.content law + g1.content law =
      out + (e.mq.store i g1).content law + g1.content law := by
    calc inp + e.mq.content law + g1.content law
        = inp + (e.mq.content law + g1.content law) := by abel
      _ = inp + ((e.mq.store i g1).content law + g.content law) := by rw [h1]
      _ = (e.mq.store i g1).content law + (inp + g.content law) := by abel
      _ = (e.mq.store i g1).content law + (out + g1.content law) := by rw [h2]
      _ = out + (e.mq.store i g1).content law + g1.content law := by abel
  exact add_right_cancel this

theorem db_in_use_bounded {α : Type} (g : rsm.guarded_heap α H) (b : Bool) (hg : g.bounded) :
    ({ g with in_use := b } : rsm.guarded_heap α H).bounded :=
  ⟨hg.size, hg.pos_le, hg.end_le⟩

/-- What the sampling loop does: it records failed attempts, then acquires a lock that was
free. -/
theorem db_lock_loop_spec {α : Type} (mq : rsm.deletion_buffer_mq α H) :
    ∀ (rng : List Nat) (tr : List rsm.Event) (i : Nat) (e1 : rsm.exec α H),
      rsm.lock_loop mq rng tr = some (i, e1) →
      ∃ g fails, mq.heap_list_[i]? = some g ∧ g.in_use = false ∧
        e1.mq = mq.store i { g with in_use := true } ∧
        e1.trace = tr ++ fails ++ [rsm.Event.acquire i] ∧
        (∀ ev ∈ fails, ev.ok ∧ ev.neutral) ∧ (∃ used, rng = used ++ e1.rng) := by
  intro rng
  induction rng with
  | nil => intro tr i e1 h; simp [rsm.lock_loop] at h
  | cons r rs ih =>
    intro tr i e1 h
    unfold rsm.lock_loop at h
    unfold rsm.try_lock at h
    simp only at h
    cases hg : mq.heap_list_[rsm.random_queue_index mq r]? with
    | none => rw [hg] at h; simp at h
    | some g =>
      rw [hg] at h
      simp only at h
      by_cases hu : g.in_use = true
      · rw [if_pos hu] at h
        simp only at h
        obtain ⟨g1, fails, h1, h2, h3, h4, h5, used, h6⟩ := ih _ i e1 h
        refine ⟨g1, rsm.Event.fail (rsm.random_queue_index mq r) :: fails, h1, h2, h3, ?_, ?_,
          r :: used, by rw [h6]; rfl⟩
        · rw [h4]; simp
        · intro ev hev
          rcases List.mem_cons.mp hev with h | h
          · rw [h]; exact ⟨trivial, trivial⟩
          · exact h5 ev h
      · rw [if_neg hu] at h
        simp only [Option.some.injEq, Prod.mk.injEq] at h
        obtain ⟨hi, he⟩ := h
        subst hi; subst he
        exact ⟨g, [], hg, by simpa using hu, rfl, by simp, by simp, [r], rfl⟩

theorem db_unlock_spec {α : Type} (i : Nat) (e e1 : rsm.exec α H)
    (h : rsm.unlock i e = some e1) :
    ∃ g, e.mq.heap_list_[i]? = some g ∧
      e1 = ⟨e.mq.store i { g with in_use := false }, e.rng,
        e.trace ++ [rsm.Event.release i]⟩ := by
  unfold rsm.unlock at h
  cases hg : e.mq.heap_list_[i]? with
  | none => rw [hg] at h; simp at h
  | some g =>
    rw [hg] at h
    simp only [Option.some.injEq] at h
    exact ⟨g, rfl, h.symm⟩

/-- Taking and releasing a lock, as a part of an operation: nothing but the lock word
changes. -/
theorem db_step_in_use (e : rsm.exec (Key × T) H) (hinv : e.mq.inv) (i : Nat)
    (g : rsm.guarded_heap (Key × T) H) (hg : e.mq.heap_list_[i]? = some g) (b : Bool)
    (rng : List Nat) (new : List rsm.Event) (hnew : ∀ ev ∈ new, ev.ok) :
    rsm.step_ok hp e ⟨e.mq.store i { g with in_use := b }, rng, e.trace ++ new⟩ 0 0 :=
  db_step_store e hinv i g _ hg (db_in_use_bounded g b (db_get_bounded e.mq hinv i g hg)) 0 0
    (fun _ => rfl) rng new hnew

theorem db_store_self {α : Type} (mq : rsm.deletion_buffer_mq α H) (i : Nat)
    (g : rsm.guarded_heap α H) (h : mq.heap_list_[i]? = some g) : mq.store i g = mq := by
  cases mq with
  | mk l n =>
    simp only [rsm.deletion_buffer_mq.store, rsm.deletion_buffer_mq.mk.injEq, and_true]
    simp only at h
    apply List.ext_getElem?
    intro k
    rw [List.getElem?_set]
    by_cases hk : i = k
    · subst hk
      simp [lt_of_get h, h]
    · simp [hk]

/-- What the refill-if-empty step does to the queue: it leaves a buffer within its bounds
that holds the same values, and if the buffer is then not empty, `buffer_pos` is below
`buffer_end`; `refill_buffer` is called only on an empty buffer. -/
theorem db_refill_if_empty_spec (e e2 : rsm.exec (Key × T) H) (hinv : e.mq.inv) (i : Nat)
    (h : rsm.refill_if_empty hp i e = some e2) :
    ∃ g g2 new, e.mq.heap_list_[i]? = some g ∧
      e2 = ⟨e.mq.store i g2, e.rng, e.trace ++ new⟩ ∧ g2.bounded ∧ g2.in_use = g.in_use ∧
      (∀ ev ∈ new, ev.ok ∧ ev.neutral) ∧
      (∀ law : rsm.seq_contract hp, g2.content law = g.content law) ∧
      (g2.buffer_empty = false → g2.buffer_pos < g2.buffer_end) := by
  unfold rsm.refill_if_empty at h
  cases hg : e.mq.heap_list_[i]? with
  | none => rw [hg] at h; simp at h
  | some g =>
    rw [hg] at h
    simp only at h
    have hb := db_get_bounded e.mq hinv i g hg
    have hlt : ∀ g2 : rsm.guarded_heap (Key × T) H, g2.bounded → g2.buffer_empty = false →
        g2.buffer_pos < g2.buffer_end := by
      intro g2 hb2 hne
      have := hb2.pos_le
      simp only [rsm.guarded_heap.buffer_empty, decide_eq_false_iff_not] at hne
      omega
    by_cases hemp : g.buffer_empty = true
    · rw [if_pos hemp] at h
      cases hr : g.refill_buffer hp with
      | none => rw [hr] at h; simp at h
      | some g2 =>
        rw [hr] at h
        simp only [Option.map_some', Option.some.injEq] at h
        obtain ⟨r1, r2, -, r4⟩ := @db_refill_buffer_spec _ _ _ hp g g2 hb.size hr
        have hpe : g.buffer_pos = g.buffer_end := by
          simpa [rsm.guarded_heap.buffer_empty] using hemp
        refine ⟨g, g2, [rsm.Event.refill i g.buffer_pos g.buffer_end], rfl, h.symm, r1, r2, ?_,
          fun law => r4 law hpe, hlt g2 r1⟩
        intro ev hev
        rw [List.mem_singleton] at hev
        subst hev
        exact ⟨hpe, trivial⟩
    · rw [if_neg hemp] at h
      simp only [Option.some.injEq] at h
      subst h
      refine ⟨g, g, [], rfl, ?_, hb, rfl, by simp, fun _ => rfl, hlt g hb⟩
      rw [db_store_self _ _ _ hg, List.append_nil]

/-- What taking the front of a buffer that is not empty does: the read is inside the
resident part, the buffer stays within its bounds, `refill_buffer` is called only if the
buffer has become empty, and the queue holds what it held, less the value read. -/
theorem db_take_spec (e e1 : rsm.exec (Key × T) H) (hinv : e.mq.inv) (i : Nat)
    (g : rsm.guarded_heap (Key × T) H) (hg : e.mq.heap_list_[i]? = some g)
    (hlt : g.buffer_pos < g.buffer_end) (v : Key × T)
    (h : rsm.take hp i e = some (v, e1)) :
    ∃ g1 new, e1 = ⟨e.mq.store i g1, e.rng, e.trace ++ new⟩ ∧ g1.bounded ∧
      g1.in_use = g.in_use ∧ (∀ ev ∈ new, ev.ok ∧ ev.neutral) ∧
      rsm.Event.read i g.buffer_pos g.buffer_end ∈ new ∧
      g.buffer[g.buffer_pos]? = some v ∧
      (∀ law : rsm.seq_contract hp, g.content law = v ::ₘ g1.content law) := by
  have hb := db_get_bounded e.mq hinv i g hg
  have h16 : rsm.buffer_size = 16 := rfl
  have hend := hb.end_le
  have hmod : (g.buffer_pos + 1) % 2 ^ 16 = g.buffer_pos + 1 :=
    Nat.mod_eq_of_lt (by omega)
  unfold rsm.take at h
  rw [hg] at h
  simp only at h
  cases hv : g.buffer[g.buffer_pos]? with
  | none => rw [hv] at h; simp at h
  | some v0 =>
    rw [hv] at h
    simp only [hmod] at h
    have hposlt : g.buffer_pos < g.buffer.length := lt_of_get hv
    have hb1 : ({ g with buffer_pos := g.buffer_pos + 1 } : rsm.guarded_heap (Key × T) H).bounded :=
      ⟨hb.size, by simp only; omega, hb.end_le⟩
    have hc1 : ∀ law : rsm.seq_contract hp, g.content law =
        v0 ::ₘ ({ g with buffer_pos := g.buffer_pos + 1 } :
          rsm.guarded_heap (Key × T) H).content law := by
      intro law
      unfold rsm.guarded_heap.content rsm.guarded_heap.resident
      simp only
      have hsplit : (g.buffer.drop g.buffer_pos).take (g.buffer_end - g.buffer_pos) =
          v0 :: (g.buffer.drop (g.buffer_pos + 1)).take
            (g.buffer_end - (g.buffer_pos + 1)) := by
        rw [List.drop_eq_getElem_cons hposlt]
        have hc : g.buffer_end - g.buffer_pos = (g.buffer_end - (g.buffer_pos + 1)) + 1 := by
          omega
        rw [hc, List.take_succ_cons]
        have : g.buffer[g.buffer_pos] = v0 := by
          rw [List.getElem?_eq_getElem hposlt] at hv
          exact Option.some.inj hv
        rw [this]
      rw [hsplit, ← Multiset.cons_coe]
      simp only [Multiset.add_cons]
    have hread : (rsm.Event.read i g.buffer_pos g.buffer_end).ok ∧
        (rsm.Event.read i g.buffer_pos g.buffer_end).neutral := ⟨⟨hlt, hend⟩, trivial⟩
    by_cases hc : g.buffer_pos + 1 = rsm.buffer_size ∨ g.buffer_pos + 1 = g.buffer_end
    · rw [if_pos hc] at h
      have hpe : g.buffer_pos + 1 = g.buffer_end := by
        rcases hc with hc | hc
        · omega
        · exact hc
      cases hr : rsm.guarded_heap.refill_buffer hp
          ({ g with buffer_pos := g.buffer_pos + 1 } : rsm.guarded_heap (Key × T) H) with
      | none => rw [hr] at h; simp at h
      | some g2 =>
        rw [hr] at h
        simp only [Option.map_some', Option.some.injEq, Prod.mk.injEq] at h
        obtain ⟨hv0, he1⟩ := h
        subst hv0
        obtain ⟨r1, r2, -, r4⟩ := @db_refill_buffer_spec _ _ _ hp
          ({ g with buffer_pos := g.buffer_pos + 1 } : rsm.guarded_heap (Key × T) H) g2
          hb.size hr
        refine ⟨g2, _, he1.symm, r1, r2, ?_, List.mem_cons_self _ _, rfl, ?_⟩
        · intro ev hev
          simp only [List.mem_cons, List.mem_singleton, List.not_mem_nil, or_false] at hev
          rcases hev with hev | hev
          · rw [hev]; exact hread
          · rw [hev]; exact ⟨hpe, trivial⟩
        · intro law
          rw [hc1 law, r4 law hpe]
    · rw [if_neg hc] at h
      simp only [Option.some.injEq, Prod.mk.injEq] at h
      obtain ⟨hv0, he1⟩ := h
      subst hv0
      refine ⟨_, _, he1.symm, hb1, rfl, ?_, List.mem_singleton.mpr rfl, rfl, hc1⟩
      intro ev hev
      rw [List.mem_singleton] at hev
      rw [hev]; exact hread

theorem db_front_key_spec (e e1 : rsm.exec (Key × T) H) (i : Nat) (k : Key)
    (h : rsm.front_key i e = some (k, e1)) :
    ∃ g v, e.mq.heap_list_[i]? = some g ∧ g.buffer[g.buffer_pos]? = some v ∧ k = v.1 ∧
      e1 = ⟨e.mq, e.rng, e.trace ++ [rsm.Event.read i g.buffer_pos g.buffer_end]⟩ := by
  unfold rsm.front_key at h
  cases hg : e.mq.heap_list_[i]? with
  | none => rw [hg] at h; simp at h
  | some g =>
    rw [hg] at h
    simp only at h
    cases hv : g.buffer[g.buffer_pos]? with
    | none => rw [hv] at h; simp at h
    | some v =>
      rw [hv] at h
      simp only [Option.map_some', Option.some.injEq, Prod.mk.injEq] at h
      exact ⟨g, v, rfl, hv, h.1.symm, h.2.symm⟩

theorem db_step_trace (e : rsm.exec (Key × T) H) (hinv : e.mq.inv) (rng : List Nat)
    (new : List rsm.Event) (hnew : ∀ ev ∈ new, ev.ok) :
    rsm.step_ok hp e ⟨e.mq, rng, e.trace ++ new⟩ 0 0 :=
  ⟨hinv, ⟨new, rfl, hnew⟩, fun _ => rfl⟩

/-- Releasing a lock, as a part of an operation. -/
theorem db_unlock_step (e e1 : rsm.exec (Key × T) H) (hinv : e.mq.inv) (i : Nat)
    (h : rsm.unlock i e = some e1) :
    rsm.step_ok hp e e1 0 0 ∧
      (∀ j, j ≠ i → e1.mq.heap_list_[j]? = e.mq.heap_list_[j]?) ∧
      e1.trace = e.trace ++ [rsm.Event.release i] := by
  obtain ⟨g, hg, he1⟩ := db_unlock_spec i e e1 h
  subst he1
  refine ⟨db_step_in_use e hinv i g hg false e.rng _ ?_, ?_, rfl⟩
  · intro ev hev
    rw [List.mem_singleton] at hev
    rw [hev]; trivial
  · intro j hj
    exact db_store_get_ne _ _ _ _ (fun hc => hj hc.symm)

/-- Sampling a queue and the refill-if-empty step on it, as a part of an operation: the
lock sampled was free and is now held, the buffer is within its bounds, the other queues
are as they were. -/
theorem db_lock_refill_spec (e e1 e2 : rsm.exec (Key × T) H) (hinv : e.mq.inv) (i : Nat)
    (h1 : rsm.lock_loop e.mq e.rng e.trace = some (i, e1))
    (h2 : rsm.refill_if_empty hp i e1 = some e2) :
    rsm.step_ok hp e e2 0 0 ∧
      (∃ g, e.mq.heap_list_[i]? = some g ∧ g.in_use = false) ∧
      (∃ g2, e2.mq.heap_list_[i]? = some g2 ∧ g2.in_use = true ∧
        (g2.buffer_empty = false → g2.buffer_pos < g2.buffer_end)) ∧
      (∀ j, j ≠ i → e2.mq.heap_list_[j]? = e.mq.heap_list_[j]?) ∧
      (∀ held, rsm.locks_held held e2.trace = i :: rsm.locks_held held e.trace) := by
  obtain ⟨g, fails, hg, hu, hmq, htr, hfails, -⟩ := db_lock_loop_spec e.mq e.rng e.trace i e1 h1
  have hlt := lt_of_get hg
  have he1 : e1 = ⟨e.mq.store i { g with in_use := true }, e1.rng,
      e.trace ++ (fails ++ [rsm.Event.acquire i])⟩ := by
    cases e1
    simp only at hmq htr
    rw [hmq, htr, List.append_assoc]
  have hA : rsm.step_ok hp e e1 0 0 := by
    rw [he1]
    apply db_step_in_use e hinv i g hg true
    intro ev hev
    rcases List.mem_append.mp hev with h | h
    · exact (hfails ev h).1
    · rw [List.mem_singleton] at h
      rw [h]; trivial
  obtain ⟨ga, g2, new, hga, he2, hb2, hu2, hnew, hc2, hlt2⟩ :=
    @db_refill_if_empty_spec _ _ _ hp e1 e2 hA.inv i h2
  have hga1 : e1.mq.heap_list_[i]? = some ({ g with in_use := true }) := by
    rw [hmq]; exact db_store_get_same _ _ _ hlt
  rw [hga1] at hga
  simp only [Option.some.injEq] at hga
  subst hga
  have hB : rsm.step_ok hp e1 e2 0 0 := by
    rw [he2]
    exact db_step_store e1 hA.inv i _ g2 hga1 hb2 0 0 (fun law => by rw [hc2 law]) e1.rng new
      (fun ev hev => (hnew ev hev).1)
  have hlt1 : i < e1.mq.heap_list_.length := lt_of_get hga1
  refine ⟨by simpa using db_step_trans hA hB, ⟨g, hg, hu⟩, ⟨g2, ?_, hu2, hlt2⟩, ?_, ?_⟩
  · rw [he2]; exact db_store_get_same _ _ _ hlt1
  · intro j hj
    rw [he2]
    simp only
    rw [db_store_get_ne _ _ _ _ (fun hc => hj hc.symm), hmq,
      db_store_get_ne _ _ _ _ (fun hc => hj hc.symm)]
  · intro held
    rw [he2]
    simp only
    rw [htr, db_locks_held_append, db_locks_held_append, db_locks_held_append,
      db_locks_held_neutral new (fun ev hev => (hnew ev hev).2),
      db_locks_held_neutral fails (fun ev hev => (hfails ev hev).2)]
    rfl

/-- Taking the front of a buffer that is not empty and releasing the lock, as a part of
an operation: the value read leaves the multiqueue. -/
theorem db_take_unlock_spec (e e1 e2 : rsm.exec (Key × T) H) (hinv : e.mq.inv) (i : Nat)
    (g : rsm.guarded_heap (Key × T) H) (hg : e.mq.heap_list_[i]? = some g)
    (hlt : g.buffer_pos < g.buffer_end) (v : Key × T)
    (h1 : rsm.take hp i e = some (v, e1)) (h2 : rsm.unlock i e1 = some e2) :
    rsm.step_ok hp e e2 0 {v} := by
  obtain ⟨g1, new, he1, hb1, -, hnew, -, -, hc1⟩ :=
    @db_take_spec _ _ _ hp e e1 hinv i g hg hlt v h1
  have hA : rsm.step_ok hp e e1 0 {v} := by
    rw [he1]
    refine db_step_store e hinv i g g1 hg hb1 0 {v} ?_ e.rng new (fun ev hev => (hnew ev hev).1)
    intro law
    rw [hc1 law]
    simp
  obtain ⟨hB, -, -⟩ := @db_unlock_step _ _ _ hp e1 e2 hA.inv i h2
  simpa using db_step_trans hA hB

/-- One round of the loop of `extract_top`: it returns only in the second round
(`count == 1`); it leaves the loop by `break` only in another round, with the lock of the
first queue held and its buffer not empty; otherwise it goes on with no lock held. -/
theorem db_round_spec (count : Nat) (e : rsm.exec (Key × T) H) (hinv : e.mq.inv)
    (x : rsm.round_exit (Key × T) H) (h : rsm.extract_top_round hp count e = some x) :
    (∀ r, x = rsm.round_exit.returned r → count = 1 ∧
      rsm.step_ok hp e ⟨r.mq, r.rng, r.trace⟩ 0 (r.retval.toList : Multiset (Key × T))) ∧
    (∀ i e1, x = rsm.round_exit.broke i e1 → count ≠ 1 ∧ rsm.step_ok hp e e1 0 0 ∧
      (∃ g, e1.mq.heap_list_[i]? = some g ∧ g.in_use = true ∧
        g.buffer_pos < g.buffer_end) ∧
      ∀ held, rsm.locks_held held e1.trace = i :: rsm.locks_held held e.trace) ∧
    (∀ i e1, x = rsm.round_exit.next i e1 → count ≠ 1 ∧ rsm.step_ok hp e e1 0 0 ∧
      ∀ held, rsm.locks_held held e1.trace = rsm.locks_held held e.trace) := by
  unfold rsm.extract_top_round at h
  cases hl : rsm.lock_loop e.mq e.rng e.trace with
  | none => rw [hl] at h; simp at h
  | some p =>
    obtain ⟨i, e1⟩ := p
    rw [hl] at h
    simp only [Option.some_bind] at h
    cases hr : rsm.refill_if_empty hp i e1 with
    | none => rw [hr] at h; simp at h
    | some e2 =>
      rw [hr] at h
      simp only [Option.some_bind] at h
      obtain ⟨hstep, -, ⟨g2, hg2, hu2, hlt2⟩, -, hlocks⟩ :=
        @db_lock_refill_spec _ _ _ hp e e1 e2 hinv i hl hr
      rw [hg2] at h
      simp only at h
      by_cases hemp : g2.buffer_empty = true
      · simp only [hemp, Bool.not_true, Bool.false_eq_true, if_false] at h
        cases hu : rsm.unlock i e2 with
        | none => rw [hu] at h; simp at h
        | some e3 =>
          rw [hu] at h
          simp only [Option.map_some', Option.some.injEq] at h
          obtain ⟨hB, -, htr3⟩ := @db_unlock_step _ _ _ hp e2 e3 hstep.inv i hu
          have hAB : rsm.step_ok hp e e3 0 0 := by simpa using db_step_trans hstep hB
          have hl3 : ∀ held, rsm.locks_held held e3.trace = rsm.locks_held held e.trace := by
            intro held
            rw [htr3, db_locks_held_append, hlocks]
            simp [rsm.locks_held]
          by_cases hc : count = 1
          · rw [if_pos hc] at h
            subst h
            refine ⟨?_, ?_, ?_⟩
            · intro r hr
              simp only [rsm.round_exit.returned.injEq] at hr
              subst hr
              exact ⟨hc, by simpa using hAB⟩
            · intro i1 e4 hx; cases hx
            · intro i1 e4 hx; cases hx
          · rw [if_neg hc] at h
            subst h
            refine ⟨?_, ?_, ?_⟩
            · intro r hx; cases hx
            · intro i1 e4 hx; cases hx
            · intro i1 e4 hx
              simp only [rsm.round_exit.next.injEq] at hx
              obtain ⟨h1, h2⟩ := hx
              subst h1; subst h2
              exact ⟨hc, hAB, hl3⟩
      · have hne : g2.buffer_empty = false := by simpa using hemp
        simp only [hne, Bool.not_false, if_true] at h
        by_cases hc : count = 1
        · rw [if_pos hc] at h
          cases ht : rsm.take hp i e2 with
          | none => rw [ht] at h; simp at h
          | some q =>
            obtain ⟨v, e3⟩ := q
            rw [ht] at h
            simp only [Option.some_bind] at h
            cases hu : rsm.unlock i e3 with
            | none => rw [hu] at h; simp at h
            | some e4 =>
              rw [hu] at h
              simp only [Option.map_some', Option.some.injEq] at h
              subst h
              have hC := @db_take_unlock_spec _ _ _ hp e2 e3 e4 hstep.inv i g2 hg2
                (hlt2 hne) v ht hu
              refine ⟨?_, ?_, ?_⟩
              · intro r hr
                simp only [rsm.round_exit.returned.injEq] at hr
                subst hr
                refine ⟨hc, ?_⟩
                have := db_step_trans hstep hC
                simpa using this
              · intro i1 e5 hx; cases hx
              · intro i1 e5 hx; cases hx
        · rw [if_neg hc] at h
          simp only [Option.some.injEq] at h
          subst h
          refine ⟨?_, ?_, ?_⟩
          · intro r hx; cases hx
          · intro i1 e4 hx
            simp only [rsm.round_exit.broke.injEq] at hx
            obtain ⟨h1, h2⟩ := hx
            subst h1; subst h2
            exact ⟨hc, hstep, ⟨g2, hg2, hu2, hlt2 hne⟩, hlocks⟩
          · intro i1 e4 hx; cases hx

/-- The loop of `extract_top`, run from its start: it returns from inside, or control
reaches the sampling of the second queue by the `break` of the first round, with the lock
of the first queue held and its buffer not empty. -/
theorem db_loop_spec (e : rsm.exec (Key × T) H) (hinv : e.mq.inv) (fi0 : Nat)
    (x : rsm.extract_result (Key × T) H ⊕ (Nat × rsm.exec (Key × T) H))
    (h : rsm.extract_top_loop hp 2 0 fi0 e = some x) :
    (∀ r, x = Sum.inl r →
      rsm.step_ok hp e ⟨r.mq, r.rng, r.trace⟩ 0 (r.retval.toList : Multiset (Key × T))) ∧
    (∀ i e1, x = Sum.inr (i, e1) → rsm.step_ok hp e e1 0 0 ∧
      (∃ g, e1.mq.heap_list_[i]? = some g ∧ g.in_use = true ∧
        g.buffer_pos < g.buffer_end) ∧
      ∀ held, rsm.locks_held held e1.trace = i :: rsm.locks_held held e.trace) := by
  unfold rsm.extract_top_loop at h
  cases h0 : rsm.extract_top_round hp 0 e with
  | none => rw [h0] at h; simp at h
  | some x0 =>
    rw [h0] at h
    obtain ⟨s1, s2, s3⟩ := @db_round_spec _ _ _ hp 0 e hinv x0 h0
    cases x0 with
    | returned r =>
      exact absurd (s1 r rfl).1 (by decide)
    | broke i e1 =>
      simp only [Option.some.injEq] at h
      subst h
      obtain ⟨-, hst, hg, hl⟩ := s2 i e1 rfl
      refine ⟨fun r hx => (by cases hx), ?_⟩
      intro i1 e2 hx
      simp only [Sum.inr.injEq, Prod.mk.injEq] at hx
      obtain ⟨h1, h2⟩ := hx
      subst h1; subst h2
      exact ⟨hst, hg, hl⟩
    | next i e1 =>
      simp only at h
      obtain ⟨-, hst, -⟩ := s3 i e1 rfl
      unfold rsm.extract_top_loop at h
      cases h1 : rsm.extract_top_round hp (0 + 1) e1 with
      | none => rw [h1] at h; simp at h
      | some x1 =>
        rw [h1] at h
        obtain ⟨t1, t2, t3⟩ := @db_round_spec _ _ _ hp (0 + 1) e1 hst.inv x1 h1
        cases x1 with
        | returned r =>
          simp only [Option.some.injEq] at h
          subst h
          refine ⟨?_, fun i1 e2 hx => by cases hx⟩
          intro r1 hx
          simp only [Sum.inl.injEq] at hx
          subst hx
          simpa using db_step_trans hst (t1 r rfl).2
        | broke i2 e2 => exact absurd rfl (t2 i2 e2 rfl).1
        | next i2 e2 => exact absurd rfl (t3 i2 e2 rfl).1

/-- The part of `extract_top` after its loop, run with the lock of the first queue held
and its buffer not empty: it returns true with a value that leaves the multiqueue. -/
theorem db_second_spec (e : rsm.exec (Key × T) H) (hinv : e.mq.inv) (i : Nat)
    (g : rsm.guarded_heap (Key × T) H) (hg : e.mq.heap_list_[i]? = some g)
    (hu : g.in_use = true) (hlt : g.buffer_pos < g.buffer_end)
    (r : rsm.extract_result (Key × T) H)
    (h : rsm.extract_top_second hp comp i e = some r) :
    r.ret = true ∧ ∃ v, r.retval = some v ∧
      rsm.step_ok hp e ⟨r.mq, r.rng, r.trace⟩ 0 {v} := by
  have hb := db_get_bounded e.mq hinv i g hg
  unfold rsm.extract_top_second at h
  cases hl : rsm.lock_loop e.mq e.rng e.trace with
  | none => rw [hl] at h; simp at h
  | some p =>
    obtain ⟨j, e1⟩ := p
    rw [hl] at h
    simp only [Option.some_bind] at h
    cases hr : rsm.refill_if_empty hp j e1 with
    | none => rw [hr] at h; simp at h
    | some e2 =>
      rw [hr] at h
      simp only [Option.some_bind] at h
      obtain ⟨hstep, ⟨gj, hgj, huj⟩, ⟨g2, hg2, -, hlt2⟩, hothers, -⟩ :=
        @db_lock_refill_spec _ _ _ hp e e1 e2 hinv j hl hr
      have hij : i ≠ j := by
        intro hc
        subst hc
        rw [hg] at hgj
        simp only [Option.some.injEq] at hgj
        subst hgj
        rw [hu] at huj
        exact absurd huj (by simp)
      have hgi2 : e2.mq.heap_list_[i]? = some g := by rw [hothers i hij]; exact hg
      rw [hg2] at h
      simp only at h
      have hb2 := db_get_bounded e2.mq hstep.inv j g2 hg2
      have hcmp : ∀ (smaller : Bool) (e4 : rsm.exec (Key × T) H),
          (if (!g2.buffer_empty) = true then
            (rsm.front_key j e2).bind (fun (k2, e3) =>
              (rsm.front_key i e3).map (fun (k1, e4) => (comp k2 k1, e4)))
          else some (false, e2)) = some (smaller, e4) →
          e4.mq = e2.mq ∧ rsm.step_ok hp e2 e4 0 0 ∧
            (smaller = true → g2.buffer_empty = false) := by
        intro smaller e4 hc
        by_cases hemp : g2.buffer_empty = true
        · simp only [hemp, Bool.not_true, Bool.false_eq_true, if_false, Option.some.injEq,
            Prod.mk.injEq] at hc
          obtain ⟨h1, h2⟩ := hc
          subst h1; subst h2
          exact ⟨rfl, db_step_refl _ hstep.inv, fun hc => absurd hc (by simp)⟩
        · have hne : g2.buffer_empty = false := by simpa using hemp
          simp only [hne, Bool.not_false, if_true] at hc
          cases hf2 : rsm.front_key j e2 with
          | none => rw [hf2] at hc; simp at hc
          | some q2 =>
            obtain ⟨k2, e3⟩ := q2
            rw [hf2] at hc
            simp only [Option.some_bind] at hc
            cases hf1 : rsm.front_key i e3 with
            | none => rw [hf1] at hc; simp at hc
            | some q1 =>
              obtain ⟨k1, e4a⟩ := q1
              rw [hf1] at hc
              simp only [Option.map_some', Option.some.injEq, Prod.mk.injEq] at hc
              obtain ⟨-, h2⟩ := hc
              subst h2
              obtain ⟨ga, va, hga, -, -, he3⟩ := db_front_key_spec e2 e3 j k2 hf2
              rw [hg2] at hga
              simp only [Option.some.injEq] at hga
              subst hga
              subst he3
              obtain ⟨gb, vb, hgb, -, -, he4⟩ := db_front_key_spec _ e4a i k1 hf1
              simp only at hgb
              rw [hgi2] at hgb
              simp only [Option.some.injEq] at hgb
              subst hgb
              subst he4
              refine ⟨rfl, ?_, fun _ => hne⟩
              have s1 : rsm.step_ok hp e2
                  ⟨e2.mq, e2.rng, e2.trace ++ [rsm.Event.read j g2.buffer_pos g2.buffer_end]⟩
                  0 0 := by
                apply db_step_trace e2 hstep.inv
                intro ev hev
                rw [List.mem_singleton] at hev
                rw [hev]
                exact ⟨hlt2 hne, hb2.end_le⟩
              have s2 := @db_step_trace _ _ _ hp
                (⟨e2.mq, e2.rng, e2.trace ++ [rsm.Event.read j g2.buffer_pos g2.buffer_end]⟩ :
                  rsm.exec (Key × T) H) hstep.inv e2.rng
                [rsm.Event.read i g.buffer_pos g.buffer_end]
                (by
                  intro ev hev
                  rw [List.mem_singleton] at hev
                  rw [hev]
                  exact ⟨hlt, hb.end_le⟩)
              simpa using db_step_trans s1 s2
      cases hcond : (if (!g2.buffer_empty) = true then
            (rsm.front_key j e2).bind (fun (k2, e3) =>
              (rsm.front_key i e3).map (fun (k1, e4) => (comp k2 k1, e4)))
          else some (false, e2)) with
      | none => rw [hcond] at h; simp at h
      | some q =>
        obtain ⟨smaller, e4⟩ := q
        rw [hcond] at h
        simp only [Option.some_bind] at h
        obtain ⟨hmq4, hstep4, hsm⟩ := hcmp smaller e4 hcond
        have hE4 : rsm.step_ok hp e e4 0 0 := by simpa using db_step_trans hstep hstep4
        cases smaller with
        | true =>
          simp only [if_true] at h
          cases hu5 : rsm.unlock i e4 with
          | none => rw [hu5] at h; simp at h
          | some e5 =>
            rw [hu5] at h
            simp only [Option.some_bind] at h
            obtain ⟨hs5, ho5, -⟩ := @db_unlock_step _ _ _ hp e4 e5 hE4.inv i hu5
            have hg5 : e5.mq.heap_list_[j]? = some g2 := by
              rw [ho5 j (fun hc => hij hc.symm), hmq4]; exact hg2
            cases ht : rsm.take hp j e5 with
            | none => rw [ht] at h; simp at h
            | some q6 =>
              obtain ⟨v, e6⟩ := q6
              rw [ht] at h
              simp only [Option.some_bind] at h
              cases hu7 : rsm.unlock j e6 with
              | none => rw [hu7] at h; simp at h
              | some e7 =>
                rw [hu7] at h
                simp only [Option.map_some', Option.some.injEq] at h
                subst h
                have hs7 := @db_take_unlock_spec _ _ _ hp e5 e6 e7 hs5.inv j g2 hg5
                  (hlt2 (hsm rfl)) v ht hu7
                refine ⟨rfl, v, rfl, ?_⟩
                simpa using db_step_trans hE4 (db_step_trans hs5 hs7)
        | false =>
          simp only [Bool.false_eq_true, if_false] at h
          cases hu5 : rsm.unlock j e4 with
          | none => rw [hu5] at h; simp at h
          | some e5 =>
            rw [hu5] at h
            simp only [Option.some_bind] at h
            obtain ⟨hs5, ho5, -⟩ := @db_unlock_step _ _ _ hp e4 e5 hE4.inv j hu5
            have hg5 : e5.mq.heap_list_[i]? = some g := by
              rw [ho5 i hij, hmq4]; exact hgi2
            cases ht : rsm.take hp i e5 with
            | none => rw [ht] at h; simp at h
            | some q6 =>
              obtain ⟨v, e6⟩ := q6
              rw [ht] at h
              simp only [Option.some_bind] at h
              cases hu7 : rsm.unlock i e6 with
              | none => rw [hu7] at h; simp at h
              | some e7 =>
                rw [hu7] at h
                simp only [Option.map_some', Option.some.injEq] at h
                subst h
                have hs7 := @db_take_unlock_spec _ _ _ hp e5 e6 e7 hs5.inv i g hg5
                  hlt v ht hu7
                refine ⟨rfl, v, rfl, ?_⟩
                simpa using db_step_trans hE4 (db_step_trans hs5 hs7)

/-- A returning `extract_top` keeps the invariant, adds only events that are `ok`, and the
value it returns leaves the multiqueue. -/
theorem db_extract_top_spec (mq : rsm.deletion_buffer_mq (Key × T) H) (hinv : mq.inv)
    (rng : List Nat) (r : rsm.extract_result (Key × T) H)
    (h : mq.extract_top hp comp rng = some r) :
    rsm.step_ok hp ⟨mq, rng, []⟩ ⟨r.mq, r.rng, r.trace⟩ 0
      (r.retval.toList : Multiset (Key × T)) := by
  unfold rsm.deletion_buffer_mq.extract_top at h
  cases hl : rsm.extract_top_loop hp 2 0 0
      (⟨mq, rng, []⟩ : rsm.exec (Key × T) H) with
  | none => rw [hl] at h; simp at h
  | some x =>
    rw [hl] at h
    obtain ⟨s1, s2⟩ := @db_loop_spec _ _ _ hp ⟨mq, rng, []⟩ hinv 0 x hl
    cases x with
    | inl r1 =>
      simp only [Option.some.injEq] at h
      subst h
      exact s1 r1 rfl
    | inr p =>
      obtain ⟨i, e1⟩ := p
      simp only at h
      obtain ⟨hst, ⟨g, hg, hu, hlt⟩, -⟩ := s2 i e1 rfl
      obtain ⟨-, v, hv, hs2⟩ := @db_second_spec _ _ _ hp comp e1 hst.inv i g hg hu hlt r h
      rw [hv]
      simpa using db_step_trans hst hs2

/-- A returning `push` has put its value into the heap of one queue and changed nothing
else: the buffer of that queue and its bounds are as before. -/
theorem db_push_spec (mq : rsm.deletion_buffer_mq (Key × T) H) (hinv : mq.inv)
    (v : Key × T) (rng : List Nat) (e : rsm.exec (Key × T) H)
    (h : mq.push hp v rng = some e) :
    (∃ i g, mq.heap_list_[i]? = some g ∧ g.in_use = false ∧
      e.mq = mq.store i { g with heap := hp.insert g.heap v }) ∧
    rsm.step_ok hp ⟨mq, rng, []⟩ e {v} 0 := by
  unfold rsm.deletion_buffer_mq.push at h
  cases hl : rsm.lock_loop mq rng [] with
  | none => rw [hl] at h; simp at h
  | some p =>
    obtain ⟨i, e1⟩ := p
    rw [hl] at h
    simp only at h
    obtain ⟨g, fails, hg, hu, hmq, htr, hfails, -⟩ := db_lock_loop_spec mq rng [] i e1 hl
    have hlt := lt_of_get hg
    obtain ⟨mq1, rng1, tr1⟩ := e1
    simp only at hmq htr h
    subst hmq
    subst htr
    have hg1 : (mq.store i { g with in_use := true }).heap_list_[i]? =
        some ({ g with in_use := true }) := db_store_get_same _ _ _ hlt
    rw [hg1] at h
    simp only at h
    unfold rsm.unlock at h
    simp only at h
    rw [db_store_get_same _ _ _ (by rw [db_store_length]; exact hlt)] at h
    simp only [Option.some.injEq] at h
    have hstore : ∀ a b : rsm.guarded_heap (Key × T) H, (mq.store i a).store i b = mq.store i b := by
      intro a b
      simp [rsm.deletion_buffer_mq.store, List.set_set]
    rw [hstore, hstore] at h
    have hgeq : (⟨false, hp.insert g.heap v, g.buffer, g.buffer_pos, g.buffer_end⟩ :
        rsm.guarded_heap (Key × T) H) = { g with heap := hp.insert g.heap v } := by
      cases g
      simp only at hu
      subst hu
      rfl
    rw [hgeq] at h
    have hb := db_get_bounded mq hinv i g hg
    refine ⟨⟨i, g, hg, hu, by rw [← h]⟩, ?_⟩
    have hshape : e = ⟨mq.store i { g with heap := hp.insert g.heap v }, rng1,
        ([] : List rsm.Event) ++
          (fails ++ [rsm.Event.acquire i, rsm.Event.insert i, rsm.Event.release i])⟩ := by
      rw [← h]
      simp
    rw [hshape]
    refine db_step_store (⟨mq, rng, []⟩ : rsm.exec (Key × T) H) hinv i g
      ({ g with heap := hp.insert g.heap v } : rsm.guarded_heap (Key × T) H) hg
      ⟨hb.size, hb.pos_le, hb.end_le⟩ {v} 0 ?_ rng1 _ ?_
    · intro law
      unfold rsm.guarded_heap.content rsm.guarded_heap.resident
      simp only [law.insert_vals]
      simp
    · intro ev hev
      rcases List.mem_append.mp hev with h1 | h1
      · exact (hfails ev h1).1
      · simp only [List.mem_cons, List.mem_singleton, List.not_mem_nil, or_false] at h1
        rcases h1 with h1 | h1 | h1 <;> (rw [h1]; trivial)

theorem db_new_inv {α : Type} (hq : rsm.seq_heap α H) (dflt : α) (P : Nat) :
    (rsm.deletion_buffer_mq.new hq dflt P).inv := by
  refine ⟨rfl, ?_⟩
  · intro g hg
    simp only [rsm.deletion_buffer_mq.new] at hg
    rw [List.eq_of_mem_replicate hg]
    exact ⟨by simp [rsm.guarded_heap.init], Nat.le_refl _, Nat.zero_le _⟩

theorem db_new_content (law : rsm.seq_contract hp) (dflt : Key × T) (P : Nat) :
    (rsm.deletion_buffer_mq.new hp dflt P).content law = 0 := by
  unfold rsm.deletion_buffer_mq.content rsm.deletion_buffer_mq.new
  simp only [List.map_replicate, List.sum_replicate]
  have : rsm.guarded_heap.content law (rsm.guarded_heap.init hp dflt) = 0 := by
    simp [rsm.guarded_heap.content, rsm.guarded_heap.resident, rsm.guarded_heap.init,
      law.vals_init]
  rw [this]
  simp

/-- A run of calls keeps the invariant of the multiqueue, and the values pushed together
with those resident before are the values returned together with those resident
after. -/
theorem db_run_spec :
    ∀ (ops : List (rsm.Op (Key × T))) (mq mq1 : rsm.deletion_buffer_mq (Key × T) H)
      (out : List (Key × T)), mq.inv → rsm.run hp comp mq ops = some (mq1, out) →
      mq1.inv ∧ ∀ law : rsm.seq_contract hp,
        rsm.pushed ops + mq.content law = (out : Multiset (Key × T)) + mq1.content law := by
  intro ops
  induction ops with
  | nil =>
    intro mq mq1 out hinv h
    simp only [rsm.run, Option.some.injEq, Prod.mk.injEq] at h
    obtain ⟨rfl, rfl⟩ := h
    exact ⟨hinv, fun law => by simp [rsm.pushed]⟩
  | cons op ops ih =>
    intro mq mq1 out hinv h
    cases op with
    | push v rng =>
      simp only [rsm.run] at h
      cases hp1 : mq.push hp v rng with
      | none => rw [hp1] at h; simp at h
      | some e =>
        rw [hp1] at h
        simp only [Option.some_bind] at h
        obtain ⟨-, hst⟩ := @db_push_spec _ _ _ hp mq hinv v rng e hp1
        obtain ⟨hinv1, hc⟩ := ih e.mq mq1 out hst.inv h
        refine ⟨hinv1, fun law => ?_⟩
        have h1 := hst.content law
        have h2 := hc law
        simp only at h1
        simp only [rsm.pushed]
        calc v ::ₘ rsm.pushed ops + mq.content law
            = rsm.pushed ops + ({v} + mq.content law) := by
              rw [← Multiset.singleton_add]; abel
          _ = rsm.pushed ops + e.mq.content law := by rw [h1]; simp
          _ = (out : Multiset (Key × T)) + mq1.content law := h2
    | extract_top rng =>
      simp only [rsm.run] at h
      cases hx : mq.extract_top hp comp rng with
      | none => rw [hx] at h; simp at h
      | some r =>
        rw [hx] at h
        simp only [Option.some_bind] at h
        cases hr : rsm.run hp comp r.mq ops with
        | none => rw [hr] at h; simp at h
        | some p =>
          rw [hr] at h
          simp only [Option.map_some', Option.some.injEq, Prod.mk.injEq] at h
          obtain ⟨h1, h2⟩ := h
          subst h1; subst h2
          have hst := @db_extract_top_spec _ _ _ hp comp mq hinv rng r hx
          obtain ⟨hinv1, hc⟩ := ih r.mq p.1 p.2 hst.inv hr
          refine ⟨hinv1, fun law => ?_⟩
          have c1 := hst.content law
          have c2 := hc law
          simp only at c1
          simp only [rsm.pushed]
          rw [← Multiset.coe_add]
          calc rsm.pushed ops + mq.content law
              = rsm.pushed ops + (0 + mq.content law) := by simp
            _ = rsm.pushed ops + ((r.retval.toList : Multiset (Key × T)) + r.mq.content law) := by
                rw [c1]
            _ = (r.retval.toList : Multiset (Key × T)) + (rsm.pushed ops + r.mq.content law) := by
                abel
            _ = (r.retval.toList : Multiset (Key × T)) + ((p.2 : Multiset (Key × T)) +
                  p.1.content law) := by rw [c2]
            _ = (r.retval.toList : Multiset (Key × T)) + (p.2 : Multiset (Key × T)) +
                  p.1.content law := by abel

/-- C35: in `deletion_buffer_mq::extract_top`, from a multiqueue whose buffers are within
their bounds: whenever control reaches the sampling of the second queue, with first index
`i`, the lock word of queue `i` is set, the caller holds exactly the lock of queue `i`,
and the buffer of queue `i` is not empty (`buffer_pos < buffer_end ≤ buffer_size`); every
read of `buffer[buffer_pos]` by a returning `extract_top` has
`buffer_pos < buffer_end ≤ buffer_size`; `extract_top` and `push` leave every buffer
within its bounds, a new multiqueue has them so, and so has every multiqueue reached from
a new one by a run of calls. -/
theorem deletion_buffer_second_sampling_holds_first
    (mq : rsm.deletion_buffer_mq (Key × T) H) (hinv : mq.inv) (rng : List Nat) :
    (∀ i e, rsm.extract_top_loop hp 2 0 0 ⟨mq, rng, []⟩ = some (Sum.inr (i, e)) →
      ∃ g, e.mq.heap_list_[i]? = some g ∧ g.in_use = true ∧
        rsm.locks_held [] e.trace = [i] ∧ g.buffer_empty = false ∧
        g.buffer_pos < g.buffer_end ∧ g.buffer_end ≤ rsm.buffer_size ∧
        mq.extract_top hp comp rng = rsm.extract_top_second hp comp i e) ∧
    (∀ r, mq.extract_top hp comp rng = some r →
      (∀ i pos last, rsm.Event.read i pos last ∈ r.trace →
        pos < last ∧ last ≤ rsm.buffer_size) ∧
      ∀ g ∈ r.mq.heap_list_, g.buffer_pos ≤ g.buffer_end ∧ g.buffer_end ≤ rsm.buffer_size) ∧
    (∀ v e, mq.push hp v rng = some e →
      ∀ g ∈ e.mq.heap_list_, g.buffer_pos ≤ g.buffer_end ∧ g.buffer_end ≤ rsm.buffer_size) ∧
    (∀ (dflt : Key × T) (P : Nat) (ops : List (rsm.Op (Key × T)))
      (mq1 : rsm.deletion_buffer_mq (Key × T) H) (out : List (Key × T)), 1 ≤ P →
      rsm.run hp comp (rsm.deletion_buffer_mq.new hp dflt P) ops = some (mq1, out) →
      ∀ g ∈ mq1.heap_list_, g.buffer_pos ≤ g.buffer_end ∧ g.buffer_end ≤ rsm.buffer_size) := by
  refine ⟨?_, ?_, ?_, ?_⟩
  · intro i e h
    obtain ⟨-, s2⟩ := @db_loop_spec _ _ _ hp ⟨mq, rng, []⟩ hinv 0 _ h
    obtain ⟨hst, ⟨g, hg, hu, hlt⟩, hl⟩ := s2 i e rfl
    have hb := db_get_bounded e.mq hst.inv i g hg
    refine ⟨g, hg, hu, by rw [hl]; rfl, ?_, hlt, hb.end_le, ?_⟩
    · simp only [rsm.guarded_heap.buffer_empty, decide_eq_false_iff_not]
      omega
    · unfold rsm.deletion_buffer_mq.extract_top
      rw [h]
  · intro r h
    have hst := @db_extract_top_spec _ _ _ hp comp mq hinv rng r h
    refine ⟨?_, fun g hg => ⟨(hst.inv.bounded g hg).pos_le, (hst.inv.bounded g hg).end_le⟩⟩
    intro i pos last hmem
    obtain ⟨new, hnew, hok⟩ := hst.events
    simp only [List.nil_append] at hnew
    rw [hnew] at hmem
    exact hok _ hmem
  · intro v e h
    obtain ⟨-, hst⟩ := @db_push_spec _ _ _ hp mq hinv v rng e h
    exact fun g hg => ⟨(hst.inv.bounded g hg).pos_le, (hst.inv.bounded g hg).end_le⟩
  · intro dflt P ops mq1 out hP h
    obtain ⟨hinv1, -⟩ := @db_run_spec _ _ _ hp comp ops _ mq1 out (db_new_inv hp dflt P) h
    exact fun g hg => ⟨(hinv1.bounded g hg).pos_le, (hinv1.bounded g hg).end_le⟩

/-- C36: in `deletion_buffer_mq`, from a multiqueue whose buffers are within their bounds,
every call of `refill_buffer` made by a returning `extract_top` finds
`buffer_pos == buffer_end`; a refill of an empty buffer overwrites no value that is still
to be returned (none is resident in the buffer) and keeps the values of the queue; the
value `extract_top` returns leaves the multiqueue, the value pushed enters it, and after
every run of calls on a new multiqueue the values pushed are exactly those returned
together with those resident. -/
theorem deletion_buffer_refills_only_when_empty
    (mq : rsm.deletion_buffer_mq (Key × T) H) (hinv : mq.inv) (rng : List Nat) :
    (∀ r, mq.extract_top hp comp rng = some r →
      ∀ i pos last, rsm.Event.refill i pos last ∈ r.trace → pos = last) ∧
    (∀ g g1 : rsm.guarded_heap (Key × T) H, g.bounded → g.buffer_pos = g.buffer_end →
      g.refill_buffer hp = some g1 →
      g.resident = [] ∧ g1.buffer_pos = 0 ∧ g1.bounded ∧
        ∀ law : rsm.seq_contract hp, g1.content law = g.content law) ∧
    (∀ (law : rsm.seq_contract hp) r, mq.extract_top hp comp rng = some r →
      mq.content law = (r.retval.toList : Multiset (Key × T)) + r.mq.content law) ∧
    (∀ (law : rsm.seq_contract hp) v e, mq.push hp v rng = some e →
      v ::ₘ mq.content law = e.mq.content law) ∧
    (∀ (law : rsm.seq_contract hp) (dflt : Key × T) (P : Nat)
      (ops : List (rsm.Op (Key × T))) (mq1 : rsm.deletion_buffer_mq (Key × T) H)
      (out : List (Key × T)), 1 ≤ P →
      rsm.run hp comp (rsm.deletion_buffer_mq.new hp dflt P) ops = some (mq1, out) →
      rsm.pushed ops = (out : Multiset (Key × T)) + mq1.content law) := by
  refine ⟨?_, ?_, ?_, ?_, ?_⟩
  · intro r h i pos last hmem
    have hst := @db_extract_top_spec _ _ _ hp comp mq hinv rng r h
    obtain ⟨new, hnew, hok⟩ := hst.events
    simp only [List.nil_append] at hnew
    rw [hnew] at hmem
    exact hok _ hmem
  · intro g g1 hb hpe h
    obtain ⟨r1, -, r3, r4⟩ := @db_refill_buffer_spec _ _ _ hp g g1 hb.size h
    refine ⟨?_, r3, r1, fun law => r4 law hpe⟩
    unfold rsm.guarded_heap.resident
    rw [hpe, Nat.sub_self, List.take_zero]
  · intro law r h
    have hst := @db_extract_top_spec _ _ _ hp comp mq hinv rng r h
    simpa using hst.content law
  · intro law v e h
    obtain ⟨-, hst⟩ := @db_push_spec _ _ _ hp mq hinv v rng e h
    simpa using hst.content law
  · intro law dflt P ops mq1 out hP h
    obtain ⟨-, hc⟩ := @db_run_spec _ _ _ hp comp ops _ mq1 out (db_new_inv hp dflt P) h
    have := hc law
    rw [db_new_content law dflt P, add_zero] at this
    exact this

theorem two_pushes_mq_inv : two_pushes_mq.inv :=
  db_inv_store _ (db_new_inv nat_heap (0, 0) 1) 0 _
    ⟨rfl, Nat.le_refl _, Nat.zero_le _⟩

theorem deletion_buffer_second_sampling_holds_first_witness :
    ∃ g, sampling_state.mq.heap_list_[0]? = some g ∧ g.in_use = true ∧
      rsm.locks_held [] sampling_state.trace = [0] ∧ g.buffer_empty = false ∧
      g.buffer_pos < g.buffer_end ∧ g.buffer_end ≤ rsm.buffer_size ∧
      two_pushes_mq.extract_top nat_heap std_less [0, 1] =
        rsm.extract_top_second nat_heap std_less 0 sampling_state :=
  (@deletion_buffer_second_sampling_holds_first Nat Nat (List (Nat × Nat)) nat_heap std_less
    two_pushes_mq two_pushes_mq_inv [0, 1]).1 0 sampling_state rfl

theorem deletion_buffer_refills_only_when_empty_witness :
    two_pushes_mq.content (list_heap_contract std_less) =
      (first_extraction.retval.toList : Multiset (Nat × Nat)) +
        first_extraction.mq.content (list_heap_contract std_less) :=
  (@deletion_buffer_refills_only_when_empty Nat Nat (List (Nat × Nat)) nat_heap std_less
    two_pushes_mq two_pushes_mq_inv [0, 1]).2.2.1 (list_heap_contract std_less)
    first_extraction rfl

/-- C37: `deletion_buffer_mq::push` puts its value into the heap of the queue it locks and
leaves the buffer of that queue as it is; and there is a single-threaded run after which a
successful `extract_top` returns a value with a larger key than a value resident in the
same guarded heap: on a new multiqueue for one thread, after pushes of the keys 5 and 7
to queue 0, an extraction (which returns 5 and leaves 7 in the buffer of queue 0) and a
push of the key 1 to queue 0, the next extraction reads place 1 of the buffer of queue 0
and returns the key 7, while the key 1 is in the heap of queue 0. -/
theorem deletion_buffer_returns_larger_key_than_resident :
    (∀ (Key T H : Type) (hq : rsm.seq_heap (Key × T) H)
      (mq : rsm.deletion_buffer_mq (Key × T) H) (v : Key × T) (rng : List Nat)
      (e : rsm.exec (Key × T) H), mq.inv → mq.push hq v rng = some e →
      ∃ i g, mq.heap_list_[i]? = some g ∧ g.in_use = false ∧
        e.mq = mq.store i { g with heap := hq.insert g.heap v }) ∧
    (rsm.run nat_heap std_less (rsm.deletion_buffer_mq.new nat_heap (0, 0) 1)
        (stale_buffer_run.take 4) = some (third_push_mq, [(5, 50)]) ∧
      (third_push_mq.heap_list_[0]?.map (fun g => (g.heap, g.resident))) =
        some ([(1, 10)], [(7, 70)]) ∧
      third_push_mq.extract_top nat_heap std_less [0, 1] = some second_extraction ∧
      second_extraction.ret = true ∧ second_extraction.retval = some (7, 70) ∧
      rsm.Event.read 0 1 2 ∈ second_extraction.trace ∧
      rsm.Event.read 1 0 0 ∉ second_extraction.trace ∧
      std_less 1 7 = true ∧
      rsm.run nat_heap std_less (rsm.deletion_buffer_mq.new nat_heap (0, 0) 1)
        stale_buffer_run = some (second_extraction.mq, [(5, 50), (7, 70)])) := by
  constructor
  · intro Key T H hq mq v rng e hinv h
    exact (@db_push_spec _ _ _ hq mq hinv v rng e h).1
  · exact ⟨rfl, rfl, rfl, rfl, rfl, by decide, by decide, rfl, rfl⟩

end deletion_buffer

end multiqueue
